import Mathlib

/-! potgo: the route tree, the handler chain and the dispatcher

A shallow embedding of the path-matching trie of the potgo router
(`tree.go`), followed by the request context with its handler chain
(`context.go`), the dispatcher and the reverse lookup (`potgo.go`,
`route.go`, `error.go`).

* Go strings are modelled as lists of characters (`Str`); a slice `s[a:b]`
  is `(s.take b).drop a`.
* A nil slice is the empty list; a nil pointer is `none`.
* A run-time panic (index out of range, nil dereference,
  `regexp.MustCompile` on a bad expression) is the outer `none` of the
  result of a function.
* The tree is built by pointer mutation in Go; no node is ever shared by two
  parents, so the tree is an ordinary inductive value here and a mutation
  below a child is a functional update of that child.
-/

namespace Potgo

/-- A Go string, as its list of characters. -/
abbrev Str := List Char

/-- The part of Go's `regexp` package the router uses: whether
`regexp.MustCompile src` returns (instead of panicking) and what
`regexp.MustCompile(src).MatchString(s)` answers. -/
structure Regexp where
  compiles : Str → Bool
  matchString : Str → Str → Bool

/-- The constant `staticNode`. -/
def staticNode : Nat := 0

/-- The constant `paramNode`. -/
def paramNode : Nat := 1

/-- The constant `catchAllNode`. -/
def catchAllNode : Nat := 2

/-- The struct `Route` of `route.go`; `H` is the type of handler functions and
`handlers = none` is the nil slice. -/
structure Route (H : Type) where
  method : Str
  name : Str
  path : Str
  maxParams : Nat
  handlers : Option (List H)

/-- The struct `node`. The field `regex` holds the source text handed to
`regexp.MustCompile`. -/
inductive node (H : Type) where
  | mk (nType : Nat) (key : Str) (path : Str) (pKeys : List Str)
      (children : List (node H)) (pChildren : List (node H))
      (wChildren : Option (node H)) (regex : Option Str)
      (route : Option (Route H)) : node H

namespace node

variable {H : Type}

/-- The zero value `&node{}`. -/
def empty : node H := mk staticNode [] [] [] [] [] none none none

def nType : node H → Nat
  | mk t _ _ _ _ _ _ _ _ => t

def key : node H → Str
  | mk _ k _ _ _ _ _ _ _ => k

def path : node H → Str
  | mk _ _ p _ _ _ _ _ _ => p

def pKeys : node H → List Str
  | mk _ _ _ ks _ _ _ _ _ => ks

def children : node H → List (node H)
  | mk _ _ _ _ cs _ _ _ _ => cs

def pChildren : node H → List (node H)
  | mk _ _ _ _ _ ps _ _ _ => ps

def wChildren : node H → Option (node H)
  | mk _ _ _ _ _ _ w _ _ => w

def regex : node H → Option Str
  | mk _ _ _ _ _ _ _ r _ => r

def route : node H → Option (Route H)
  | mk _ _ _ _ _ _ _ _ r => r

end node

/-- Writes `pValues[i] = v`; `none` is the index-out-of-range panic. -/
def setAt (pValues : List Str) (i : Nat) (v : Str) : Option (List Str) :=
  if i < pValues.length then some (pValues.set i v) else none

/-- The segment `path[1:end]` found by the scanning loop of `node.get`. -/
def segValue (path : Str) : Str := (path.drop 1).takeWhile (fun c => c != '/')

/-- The remainder `path[end:]` after the scanning loop of `node.get`. -/
def segRest (path : Str) : Str := (path.drop 1).dropWhile (fun c => c != '/')

mutual

/-- The method `node.get`. The result is `none` on a panic, otherwise the
returned pointer together with the value buffer as the call leaves it. -/
def node.get {H : Type} (re : Regexp) :
    node H → Str → List Str → Nat → Option (Option (node H) × List Str)
  | node.mk t k p ks cs ps w rx rt, path, pValues, pIndex =>
    let n := node.mk t k p ks cs ps w rx rt
    let catchAll := fun (pv : List Str) =>
      match w with
      | some wc =>
        match path with
        | [] => none
        | _ :: tl => (setAt pv pIndex tl).map (fun pv1 => (some wc, pv1))
      | none => some (none, pv)
    if path = ['/'] then
      if rt.isSome then some (some n, pValues) else catchAll pValues
    else
      match path with
      | [] => none
      | _ :: _ =>
        match getStatic re cs (segValue path) (segRest path) pValues pIndex with
        | none => none
        | some (some found, pv1) => some (some found, pv1)
        | some (none, pv1) =>
          match getParam re ps (segValue path) (segRest path) pv1 pIndex with
          | none => none
          | some (some found, pv2) => some (some found, pv2)
          | some (none, pv2) => catchAll pv2

/-- The loop over `n.children` in `node.get`; `(none, pv)` means the loop ran
to its end without returning. -/
def getStatic {H : Type} (re : Regexp) :
    List (node H) → Str → Str → List Str → Nat → Option (Option (node H) × List Str)
  | [], _, _, pValues, _ => some (none, pValues)
  | child :: cs, value, rest, pValues, pIndex =>
    if child.key = value then
      if rest ≠ [] then
        match node.get re child rest pValues pIndex with
        | none => none
        | some (some found, pv1) => some (some found, pv1)
        | some (none, pv1) => getStatic re cs value rest pv1 pIndex
      else some (some child, pValues)
    else getStatic re cs value rest pValues pIndex

/-- The loop over `n.pChildren` in `node.get`. -/
def getParam {H : Type} (re : Regexp) :
    List (node H) → Str → Str → List Str → Nat → Option (Option (node H) × List Str)
  | [], _, _, pValues, _ => some (none, pValues)
  | child :: cs, value, rest, pValues, pIndex =>
    if (match child.regex with
        | some src => !(re.matchString src value)
        | none => false) then
      getParam re cs value rest pValues pIndex
    else if rest ≠ [] then
      match node.get re child rest pValues ((pIndex + 1) % 256) with
      | none => none
      | some (some found, pv1) => (setAt pv1 pIndex value).map (fun pv2 => (some found, pv2))
      | some (none, pv1) => getParam re cs value rest pv1 pIndex
    else if child.route.isSome then
      (setAt pValues pIndex value).map (fun pv1 => (some child, pv1))
    else getParam re cs value rest pValues pIndex

end

/-- The slice `s[a:b]` (for `a ≤ b ≤ len(s)`). -/
def slice (s : Str) (a b : Nat) : Str := (s.take b).drop a

/-- Go's `strings.Trim(s, "/")`: all leading and trailing slashes removed. -/
def trimSlash (s : Str) : Str :=
  ((s.dropWhile (fun c => c == '/')).reverse.dropWhile (fun c => c == '/')).reverse

/-- Go's `strings.Split(s, "/")`; the result is never empty. -/
def splitSlash : Str → List Str
  | [] => [[]]
  | c :: cs =>
    if c = '/' then [] :: splitSlash cs
    else
      match splitSlash cs with
      | [] => [[c]]
      | hd :: tl => (c :: hd) :: tl

namespace node

variable {H : Type}

/-- The method `node.hasChild`. Go reads `key[0]`; `addRoute` only calls it
with a non-empty key. -/
def hasChild (n : node H) (key : Str) : Bool :=
  if key.head? = some ':' then n.pChildren.any (fun child => child.key = key)
  else if key.head? = some '*' then n.wChildren.isSome
  else n.children.any (fun child => child.key = key)

/-- The method `node.getChild`; `none` is the nil pointer. -/
def getChild (n : node H) (key : Str) : Option (node H) :=
  if key.head? = some ':' then n.pChildren.find? (fun child => child.key = key)
  else if key.head? = some '*' then n.wChildren
  else n.children.find? (fun child => child.key = key)

end node

/-- Replaces the first node of the list whose key is `key`. -/
def replaceFirst {H : Type} (key : Str) (c : node H) : List (node H) → List (node H)
  | [] => []
  | child :: cs => if child.key = key then c :: cs else child :: replaceFirst key c cs

namespace node

variable {H : Type}

/-- The effect, seen from the parent, of mutating the node that
`getChild key` points to: that child is replaced by its new value. -/
def setChild (n : node H) (key : Str) (c : node H) : node H :=
  if key.head? = some ':' then
    mk n.nType n.key n.path n.pKeys n.children (replaceFirst key c n.pChildren) n.wChildren
      n.regex n.route
  else if key.head? = some '*' then
    mk n.nType n.key n.path n.pKeys n.children n.pChildren (some c) n.regex n.route
  else
    mk n.nType n.key n.path n.pKeys (replaceFirst key c n.children) n.pChildren n.wChildren
      n.regex n.route

/-- The `switch child.nType` of `addRoute`: the new child is appended to the
list of its kind, or becomes the catch-all child. -/
def attach (pn child : node H) : node H :=
  if child.nType = staticNode then
    mk pn.nType pn.key pn.path pn.pKeys (pn.children ++ [child]) pn.pChildren pn.wChildren
      pn.regex pn.route
  else if child.nType = paramNode then
    mk pn.nType pn.key pn.path pn.pKeys pn.children (pn.pChildren ++ [child]) pn.wChildren
      pn.regex pn.route
  else if child.nType = catchAllNode then
    mk pn.nType pn.key pn.path pn.pKeys pn.children pn.pChildren (some child) pn.regex pn.route
  else pn

end node

/-- What the loop of `addRoute` derives from one pattern segment: the node
type, the key, the constraint text (`pattern`) and the parameter names it
appends to `pKeys`. -/
structure segInfo where
  nType : Nat
  key : Str
  pattern : Str
  pKeys : List Str
  deriving DecidableEq

/-- The classification of one pattern segment in the loop of `addRoute`;
`none` is the panic of `s[0]` on an empty segment. -/
def parseSeg (s : Str) : Option segInfo :=
  match s with
  | [] => none
  | c :: _ =>
    if c = '{' ∧ s.getLast? = some '}' then
      if ':' ∈ s then
        let m := s.indexOf ':'
        if slice s (m + 1) (s.length - 1) = ['*'] then
          some ⟨catchAllNode, '*' :: slice s 1 m, [], [slice s 1 m]⟩
        else
          some ⟨paramNode, ':' :: slice s 1 m, slice s (m + 1) (s.length - 1), [slice s 1 m]⟩
      else
        some ⟨paramNode, ':' :: slice s 1 (s.length - 1), [], [slice s 1 (s.length - 1)]⟩
    else some ⟨staticNode, s, [], []⟩

/-- The text compiled for a constraint: `"^" + pattern + "$"`. -/
def anchored (pattern : Str) : Str := '^' :: (pattern ++ ['$'])

/-- The node `child` created in the loop of `addRoute`: its type, its key and,
for a constraint, the compiled expression. -/
def newChild {H : Type} (sg : segInfo) : node H :=
  node.mk sg.nType sg.key [] [] [] [] none
    (if sg.pattern ≠ [] then some (anchored sg.pattern) else none) none

/-- The body of `addRoute` from the loop on: `pn` walks down the segments
`parts`, creating missing children, and the last node receives the parameter
names, the path and the route. The result is the node the walk started from,
as mutated; `none` is a panic. -/
def addParts {H : Type} (re : Regexp) :
    List Str → node H → List Str → Str → Route H → Option (node H)
  | [], pn, pKeys, path, route =>
    some (node.mk pn.nType pn.key path pKeys pn.children pn.pChildren pn.wChildren pn.regex
      (some route))
  | s :: parts, pn, pKeys, path, route =>
    match parseSeg s with
    | none => none
    | some sg =>
      let grown : Option (node H) :=
        if pn.hasChild sg.key then some pn
        else if sg.pattern ≠ [] ∧ re.compiles (anchored sg.pattern) = false then none
        else some (pn.attach (newChild sg))
      match grown with
      | none => none
      | some pn1 =>
        match pn1.getChild sg.key with
        | none => none
        | some child =>
          (addParts re parts child (pKeys ++ sg.pKeys) path route).map
            (fun c => pn1.setChild sg.key c)

/-- The segments `addRoute` walks: none for `""` and `"/"`. -/
def routeParts (path : Str) : List Str :=
  if path = [] ∨ path = ['/'] then [] else splitSlash (trimSlash path)

/-- The method `node.addRoute`. -/
def node.addRoute {H : Type} (re : Regexp) (n : node H) (path : Str) (route : Route H) :
    Option (node H) :=
  addParts re (routeParts path) n [] path route

/-- The struct `nodeValue`. -/
structure nodeValue (H : Type) where
  handlers : Option (List H)
  pKeys : List Str
  deriving DecidableEq

/-- The method `node.getRoute`, with the value buffer as the call leaves it. -/
def node.getRoute {H : Type} (re : Regexp) (n : node H) (path : Str) (pValues : List Str) :
    Option (nodeValue H × List Str) :=
  match node.get re n path pValues 0 with
  | none => none
  | some (some r, pv) =>
    match r.route with
    | some rt => some (⟨rt.handlers, r.pKeys⟩, pv)
    | none => some (⟨none, []⟩, pv)
  | some (none, pv) => some (⟨none, []⟩, pv)

/-- Registers the routes of a list in order, starting from the node `n`. -/
def addRoutes {H : Type} (re : Regexp) : node H → List (Str × Route H) → Option (node H)
  | n, [] => some n
  | n, (p, r) :: rest =>
    match n.addRoute re p r with
    | none => none
    | some n1 => addRoutes re n1 rest

/-- Registers the patterns on an empty tree and resolves the path. -/
def resolve {H : Type} (re : Regexp) (routes : List (Str × Route H)) (path : Str)
    (pValues : List Str) : Option (nodeValue H × List Str) :=
  (addRoutes re node.empty routes).bind (fun t => t.getRoute re path pValues)

/-- The buffer `makeParamValues()` of `tree_test.go`. -/
def makeParamValues : List Str := List.replicate 20 []

/-- The route `makeRoute(val)` of `tree_test.go`; its one handler is
represented by the value it records. -/
def makeRoute (val : String) : Route String := ⟨[], [], [], 0, some [val]⟩

/-! ## A regular-expression engine for a subset of Go's syntax

The theorems about the tree hold for every `Regexp`. Closed examples need
one concrete engine: `goRegexp` below implements the documented semantics of
Go's `regexp` for expressions built from literal characters, `.`, character
classes `[a-z0-9]` and `[^...]`, the anchors `^` and `$`, concatenation,
alternation `|` and the repetitions `*`, `+`, `?`. It is only used on
expressions of that subset. -/

/-- Abstract syntax of the subset. -/
inductive Rx where
  | eps : Rx
  | chr (c : Char) : Rx
  | any : Rx
  | cls (neg : Bool) (ranges : List (Char × Char)) : Rx
  | bol : Rx
  | eol : Rx
  | seq (a b : Rx) : Rx
  | alt (a b : Rx) : Rx
  | star (a : Rx) : Rx

/-- Iterates `step` while it consumes input; `fuel` bounds the number of rounds
by the length of the remaining input. -/
def starRun (step : Str → List Str) : Nat → Str → List Str
  | 0, rest => [rest]
  | fuel + 1, rest =>
    rest :: ((step rest).filter (fun r => r.length < rest.length)).flatMap (starRun step fuel)

/-- All the ways `r` can match a prefix of `rest`, as the inputs left over;
`n` is the length of the whole text, so that `rest.length = n` is its
beginning. -/
def Rx.run : Rx → Nat → Str → List Str
  | Rx.eps, _, rest => [rest]
  | Rx.chr c, _, rest =>
    match rest with
    | d :: tl => if d = c then [tl] else []
    | [] => []
  | Rx.any, _, rest =>
    match rest with
    | d :: tl => if d = '\n' then [] else [tl]
    | [] => []
  | Rx.cls neg ranges, _, rest =>
    match rest with
    | d :: tl =>
      if (ranges.any (fun r => decide (r.1.toNat ≤ d.toNat ∧ d.toNat ≤ r.2.toNat))) != neg
      then [tl] else []
    | [] => []
  | Rx.bol, n, rest => if rest.length = n then [rest] else []
  | Rx.eol, _, rest => if rest = [] then [rest] else []
  | Rx.seq a b, n, rest => (a.run n rest).flatMap (b.run n)
  | Rx.alt a b, n, rest => a.run n rest ++ b.run n rest
  | Rx.star a, n, rest => starRun (a.run n) rest.length rest

/-- Tokens of the concrete syntax. -/
inductive RxTok where
  | atom (r : Rx) : RxTok
  | star : RxTok
  | plus : RxTok
  | quest : RxTok
  | bar : RxTok

/-- The items of a character class up to the closing bracket, and the text
after it. -/
def rxClass : Str → List (Char × Char) → Option (List (Char × Char) × Str)
  | [], _ => none
  | [c], acc => if c = ']' ∧ acc ≠ [] then some (acc.reverse, []) else none
  | [c, d], acc =>
    if c = ']' ∧ acc ≠ [] then some (acc.reverse, [d])
    else if d = ']' then some (((c, c) :: acc).reverse, [])
    else none
  | c :: d :: e :: tl, acc =>
    if c = ']' ∧ acc ≠ [] then some (acc.reverse, d :: e :: tl)
    else if d = '-' ∧ e ≠ ']' then rxClass tl ((c, e) :: acc)
    else rxClass (d :: e :: tl) ((c, c) :: acc)

/-- The characters that are not literals of the subset. -/
def rxMeta : List Char := ['\\', '(', ')', '{', '}', ']']

/-- Splits the text of an expression into tokens; `none` outside the subset. -/
def rxTokens : Nat → Str → Option (List RxTok)
  | 0, _ => none
  | _ + 1, [] => some []
  | fuel + 1, c :: tl =>
    if c = '*' then (rxTokens fuel tl).map (fun ts => RxTok.star :: ts)
    else if c = '+' then (rxTokens fuel tl).map (fun ts => RxTok.plus :: ts)
    else if c = '?' then (rxTokens fuel tl).map (fun ts => RxTok.quest :: ts)
    else if c = '|' then (rxTokens fuel tl).map (fun ts => RxTok.bar :: ts)
    else if c = '^' then (rxTokens fuel tl).map (fun ts => RxTok.atom Rx.bol :: ts)
    else if c = '$' then (rxTokens fuel tl).map (fun ts => RxTok.atom Rx.eol :: ts)
    else if c = '.' then (rxTokens fuel tl).map (fun ts => RxTok.atom Rx.any :: ts)
    else if c = '[' then
      match tl with
      | '^' :: tl1 =>
        match rxClass tl1 [] with
        | none => none
        | some (rs, tl2) => (rxTokens fuel tl2).map (fun ts => RxTok.atom (Rx.cls true rs) :: ts)
      | _ =>
        match rxClass tl [] with
        | none => none
        | some (rs, tl2) => (rxTokens fuel tl2).map (fun ts => RxTok.atom (Rx.cls false rs) :: ts)
    else if c ∈ rxMeta then none
    else (rxTokens fuel tl).map (fun ts => RxTok.atom (Rx.chr c) :: ts)

/-- Attaches each repetition operator to the atom before it; `none` stands for
the alternation bar in the result, and the outer `none` is a repetition
operator with nothing to repeat. -/
def rxItems : List RxTok → Option (List (Option Rx))
  | [] => some []
  | RxTok.atom r :: RxTok.star :: tl => (rxItems tl).map (fun is => some (Rx.star r) :: is)
  | RxTok.atom r :: RxTok.plus :: tl =>
    (rxItems tl).map (fun is => some (Rx.seq r (Rx.star r)) :: is)
  | RxTok.atom r :: RxTok.quest :: tl => (rxItems tl).map (fun is => some (Rx.alt r Rx.eps) :: is)
  | RxTok.atom r :: tl => (rxItems tl).map (fun is => some r :: is)
  | RxTok.bar :: tl => (rxItems tl).map (fun is => none :: is)
  | RxTok.star :: _ => none
  | RxTok.plus :: _ => none
  | RxTok.quest :: _ => none

/-- Concatenation binds tighter than alternation: `cur` is the branch read so
far. -/
def rxBuild : List (Option Rx) → Rx → Rx
  | [], cur => cur
  | none :: tl, cur => Rx.alt cur (rxBuild tl Rx.eps)
  | some r :: tl, cur => rxBuild tl (Rx.seq cur r)

/-- Parses the text of an expression of the subset. -/
def parseRx (src : Str) : Option Rx :=
  match rxTokens (src.length + 1) src with
  | none => none
  | some ts => (rxItems ts).map (fun is => rxBuild is Rx.eps)

/-- Go's `MatchString`: some substring of `s` matches. -/
def Rx.search (r : Rx) (s : Str) : Bool :=
  (List.range (s.length + 1)).any (fun i => !(r.run s.length (s.drop i)).isEmpty)

/-- The whole of `s` matches `r`. -/
def Rx.fullMatch (r : Rx) (s : Str) : Bool :=
  (r.run s.length s).any (fun rest => rest.isEmpty)

/-- Go's `regexp` on the subset. -/
def goRegexp : Regexp where
  compiles := fun src => (parseRx src).isSome
  matchString := fun src s =>
    match parseRx src with
    | some r => r.search s
    | none => false

/-- The text `s` as a whole matches the expression `R` (an expression of the
subset). -/
def fullyMatches (R s : Str) : Bool :=
  match parseRx R with
  | some r => r.fullMatch s
  | none => false

/-! ## The search of `node.get` without the buffer

`node.find` is `node.get` with the value buffer taken out: it returns the node
`get` returns together with the values `get` writes, in the order of their
positions. `get_eq_find` below relates the two. -/

mutual

/-- The search of `node.get`: the returned node and the values bound on the
way to it. -/
def node.find {H : Type} (re : Regexp) : node H → Str → Option (node H × List Str)
  | node.mk t k p ks cs ps w rx rt, path =>
    let catchAll : Option (node H × List Str) :=
      match w with
      | some wc => some (wc, [path.drop 1])
      | none => none
    if path = ['/'] then
      if rt.isSome then some (node.mk t k p ks cs ps w rx rt, []) else catchAll
    else
      match findStatic re cs (segValue path) (segRest path) with
      | some r => some r
      | none =>
        match findParam re ps (segValue path) (segRest path) with
        | some r => some r
        | none => catchAll

/-- The loop over the static children. -/
def findStatic {H : Type} (re : Regexp) :
    List (node H) → Str → Str → Option (node H × List Str)
  | [], _, _ => none
  | child :: cs, value, rest =>
    if child.key = value then
      if rest ≠ [] then
        match node.find re child rest with
        | some r => some r
        | none => findStatic re cs value rest
      else some (child, [])
    else findStatic re cs value rest

/-- The loop over the parameter children. -/
def findParam {H : Type} (re : Regexp) :
    List (node H) → Str → Str → Option (node H × List Str)
  | [], _, _ => none
  | child :: cs, value, rest =>
    if (match child.regex with
        | some src => !(re.matchString src value)
        | none => false) then
      findParam re cs value rest
    else if rest ≠ [] then
      match node.find re child rest with
      | some (found, vals) => some (found, value :: vals)
      | none => findParam re cs value rest
    else if child.route.isSome then some (child, [value])
    else findParam re cs value rest

end

/-- The writes of a successful `node.get` that binds `vals` from index
`pIndex` on: the deepest value is written first, indices are `uint8`. -/
def writeVals (pValues : List Str) : Nat → List Str → Option (List Str)
  | _, [] => some pValues
  | pIndex, v :: vals =>
    (writeVals pValues ((pIndex + 1) % 256) vals).bind (fun pv => setAt pv pIndex v)

/-- The result of `node.get` in terms of the result of `node.find`. -/
def getOfFind {H : Type} (pValues : List Str) (pIndex : Nat) :
    Option (node H × List Str) → Option (Option (node H) × List Str)
  | none => some (none, pValues)
  | some (m, vals) => (writeVals pValues pIndex vals).map (fun pv => (some m, pv))

/-! ## Patterns and what the tree represents

A registration is seen from a node of the tree as an `Entry`: the segments
still to be walked below that node and what the registration stores at its
last node. `Rep C n P` says that the node `n` is the tree of the entries `P`,
registered in that order; `G key regex` is what is known of the `regex` field
of a parameter node with that key. -/

/-- The classified segments of a pattern. -/
def segsOf (pattern : Str) : List segInfo := (routeParts pattern).filterMap parseSeg

/-- The parameter names of a pattern, as `addRoute` collects them. -/
def namesOf (segs : List segInfo) : List Str := segs.flatMap (fun sg => sg.pKeys)

/-- Go's `strings.Join(vs, "/")`. -/
def joinSlash (vs : List Str) : Str := List.intercalate ['/'] vs

/-- The segments of a request path: what follows its first character, split
at the slashes. -/
def pathSegs (path : Str) : List Str := splitSlash (path.drop 1)

/-- All the ways a pattern matches a list of path segments, each as the list
of values bound to its parameters in order: a literal segment equals the path
segment, a parameter takes one segment (accepted by its constraint, if it has
one), a catch-all takes one or more segments, joined by slashes. -/
def matchValues (re : Regexp) : List segInfo → List Str → List (List Str)
  | [], vs => if vs = [] then [[]] else []
  | sg :: pat, vs =>
    if sg.nType = staticNode then
      match vs with
      | v :: rest => if sg.key = v then matchValues re pat rest else []
      | [] => []
    else if sg.nType = paramNode then
      match vs with
      | v :: rest =>
        if sg.pattern = [] ∨ re.matchString (anchored sg.pattern) v = true then
          (matchValues re pat rest).map (fun vals => v :: vals)
        else []
      | [] => []
    else if sg.nType = catchAllNode then
      (List.range vs.length).flatMap (fun i =>
        (matchValues re pat (vs.drop (i + 1))).map (fun vals => joinSlash (vs.take (i + 1)) :: vals))
    else []

/-- The step a segment takes in the tree: its node type and, except for a
catch-all, its key. -/
def stepOf (sg : segInfo) : Nat × Str :=
  (sg.nType, if sg.nType = catchAllNode then [] else sg.key)

/-- One registration, seen from a node. -/
structure Entry (H : Type) where
  segs : List segInfo
  pKeys : List Str
  route : Route H

/-- The entry as seen from the child of the given kind and key, if its next
segment leads there. -/
def Entry.below {H : Type} (kind : Nat) (key : Str) (e : Entry H) : Option (Entry H) :=
  match e.segs with
  | [] => none
  | sg :: rest =>
    if sg.nType = kind ∧ (kind = catchAllNode ∨ sg.key = key) then some ⟨rest, e.pKeys, e.route⟩
    else none

/-- The entries that continue through the child of the given kind and key. -/
def sub {H : Type} (kind : Nat) (key : Str) (P : List (Entry H)) : List (Entry H) :=
  P.filterMap (Entry.below kind key)

/-- The entries that continue along a list of segments. -/
def subs {H : Type} : List segInfo → List (Entry H) → List (Entry H)
  | [], P => P
  | sg :: pre, P => subs pre (sub sg.nType sg.key P)

/-- The last entry that ends at the node. -/
def terminal {H : Type} (P : List (Entry H)) : Option (Entry H) :=
  (P.filter (fun e => e.segs.isEmpty)).getLast?

/-- The `regex` field of a parameter node whose constraint text is `C key`. -/
def regexOf (C : Str → Str) (key : Str) : Option Str :=
  if C key = [] then none else some (anchored (C key))

mutual

/-- The node is the tree of the entries `P`. -/
def Rep {H : Type} (G : Str → Option Str → Prop) : node H → List (Entry H) → Prop
  | node.mk _ _ _ ks cs ps w _ rt, P =>
    rt = (terminal P).map (fun e => e.route) ∧
    ks = ((terminal P).map (fun e => e.pKeys)).getD [] ∧
    (cs.map node.key).Nodup ∧ (ps.map node.key).Nodup ∧
    (∀ e ∈ P, ∀ sg rest, e.segs = sg :: rest → sg.nType = staticNode →
      sg.key ∈ cs.map node.key) ∧
    (∀ e ∈ P, ∀ sg rest, e.segs = sg :: rest → sg.nType = paramNode →
      sg.key ∈ ps.map node.key) ∧
    RepList G staticNode cs P ∧ RepList G paramNode ps P ∧ RepOpt G w P

/-- Each child of the list is the tree of the entries that continue through
it. -/
def RepList {H : Type} (G : Str → Option Str → Prop) (kind : Nat) :
    List (node H) → List (Entry H) → Prop
  | [], _ => True
  | c :: cs, P =>
    (sub kind c.key P ≠ [] ∧ (kind = paramNode → G c.key c.regex) ∧
      Rep G c (sub kind c.key P)) ∧ RepList G kind cs P

/-- The catch-all child exists when an entry continues with a catch-all, and
is the tree of those entries. -/
def RepOpt {H : Type} (G : Str → Option Str → Prop) :
    Option (node H) → List (Entry H) → Prop
  | none, P => sub catchAllNode [] P = []
  | some wc, P => sub catchAllNode [] P ≠ [] ∧ Rep G wc (sub catchAllNode [] P)

end

/-- Every parameter segment of the entries has the property `A`. -/
def AllParams {H : Type} (A : segInfo → Prop) (P : List (Entry H)) : Prop :=
  ∀ e ∈ P, ∀ sg ∈ e.segs, sg.nType = paramNode → A sg

/-- The first character of the key tells the kind of the segment, as
`hasChild` and `getChild` assume: a literal segment does not begin with ':'
or '*'. -/
def SegOK (sg : segInfo) : Prop :=
  (sg.nType = staticNode ∧ sg.key.head? ≠ some ':' ∧ sg.key.head? ≠ some '*') ∨
  (sg.nType = paramNode ∧ sg.key.head? = some ':') ∨
  (sg.nType = catchAllNode ∧ sg.key.head? = some '*')

/-- The request paths the general theorems are about: not empty and not ending
in a slash. -/
def PathOK (path : Str) : Prop := path ≠ [] ∧ path.getLast? ≠ some '/'

/-- All the classified segments of a list of registrations. -/
def allSegs {H : Type} (routes : List (Str × Route H)) : List segInfo :=
  routes.flatMap (fun pr => segsOf pr.1)

/-- The entries of a list of registrations, seen from the root. -/
def entriesOf {H : Type} (routes : List (Str × Route H)) : List (Entry H) :=
  routes.map (fun pr => ⟨segsOf pr.1, namesOf (segsOf pr.1), pr.2⟩)

/-- No literal segment begins with ':' or '*'. -/
def LiteralsOK (segs : List segInfo) : Prop :=
  ∀ sg ∈ segs, sg.nType = staticNode → sg.key.head? ≠ some ':' ∧ sg.key.head? ≠ some '*'

/-- Two parameter segments with the same name carry the same constraint. -/
def ConstraintsOK (segs : List segInfo) : Prop :=
  ∀ sg1 ∈ segs, ∀ sg2 ∈ segs, sg1.nType = paramNode → sg2.nType = paramNode →
    sg1.key = sg2.key → sg1.pattern = sg2.pattern

/-- The constraint text the registrations give to a parameter key. -/
def constraintOf (segs : List segInfo) (key : Str) : Str :=
  ((segs.find? (fun sg => sg.nType = paramNode ∧ sg.key = key)).map (fun sg => sg.pattern)).getD []

/-- The path `"/" + s1 + "/" + s2 + ...` of a list of segments. -/
def joinPath (segs : List Str) : Str := segs.flatMap (fun s => '/' :: s)

/-- The pattern segment `{name}`. -/
def braces (inner : Str) : Str := '{' :: (inner ++ ['}'])

/-- The patterns registered by `TestTreeAddAndGet`, each with the route
`makeRoute(path)`. -/
def testRoutes : List (Str × Route String) :=
  ["/user/{id}/add", "/user/{id}/edit", "/user/{name}/add", "/user/{name}/del",
   "/user/10/", "/user/10", "/users/10/", "/users/{id}/", "/users/{id}/edit1",
   "/users/{id}/edit2", "/users/{name}/del", "/posts/list", "/page/{page:[0-9]+}",
   "/user/{id}/{name}/add", "/users/{id}", "/user/{id}/{name}/{title}/edit1",
   "/user/{id}/{name}/{title}/edit2", "/user/{id}/{name}/{title}/{files:*}/php",
   "/user/{id}/{name}/{title}/{file:*}", "/{id}"].map (fun p => (p.toList, makeRoute p))

/-- The two registrations of `TestTreeParamAndWildcard`, with the routes `r1`
and `r2`. -/
def wildcardRoutes {H : Type} (r1 r2 : Route H) : List (Str × Route H) :=
  [("/user/{uid:[0-9]+}/edit/{pid}".toList, r1), ("/src/{file:*}".toList, r2)]

/-- The pattern with literal segments after its catch-all. -/
def filesPhpPattern : Str := "/user/{id}/{name}/{title}/{files:*}/php".toList

/-- The pattern that ends in its catch-all. -/
def filePattern : Str := "/user/{id}/{name}/{title}/{file:*}".toList

/-- The route `&Route{}` of `TestTreeParamAndWildcard`. -/
def emptyRoute : Route String := ⟨[], [], [], 0, none⟩

/-- The catch-all node of the tree of `/src/{file:*}`. -/
def fileNode : node String :=
  node.mk 2 "*file".toList "/src/{file:*}".toList ["file".toList] [] [] none none
    (some emptyRoute)

/-- The node `src` of the tree of `/src/{file:*}`. -/
def srcNode : node String := node.mk 0 "src".toList [] [] [] [] (some fileNode) none none

/-- An engine whose every expression compiles and accepts every text; matching
with it is matching by position only. -/
def permissive : Regexp := ⟨fun _ => true, fun _ _ => true⟩

/-- Whether a parameter segment accepts a value. -/
def accepts (re : Regexp) (sg : segInfo) (v : Str) : Prop :=
  sg.pattern = [] ∨ re.matchString (anchored sg.pattern) v = true

/-- Whether a pattern matches a request path. -/
def matchesPath (re : Regexp) (pattern path : Str) : Bool :=
  !(matchValues re (segsOf pattern) (pathSegs path)).isEmpty

instance (segs : List segInfo) : Decidable (LiteralsOK segs) := by
  unfold LiteralsOK
  infer_instance

instance (segs : List segInfo) : Decidable (ConstraintsOK segs) := by
  unfold ConstraintsOK
  infer_instance

instance (path : Str) : Decidable (PathOK path) := by
  unfold PathOK
  infer_instance

/-- The number of parameter and catch-all segments of a pattern. -/
def paramCount (segs : List segInfo) : Nat :=
  (segs.filter (fun sg => sg.nType != staticNode)).length

/-- A pattern with 257 parameters. -/
def longPattern : Str := joinPath (List.replicate 257 "{a}".toList)

/-- A path of 257 segments: 256 times `x`, then `y`. -/
def longPath : Str := joinPath (List.replicate 256 "x".toList ++ ["y".toList])

/-- The node of `{pid}` in the tree of `TestTreeParamAndWildcard` built with
the routes `makeRoute "user"` and `makeRoute "src"`. -/
def pidNode : node String :=
  node.mk 1 ":pid".toList "/user/{uid:[0-9]+}/edit/{pid}".toList ["uid".toList, "pid".toList]
    [] [] none none (some (makeRoute "user"))

/-- A pattern `addRoute` accepts on every tree: no segment is empty, no literal
segment begins with ':' or '*', and every constraint compiles. -/
def wellFormed (re : Regexp) (pattern : Str) : Bool :=
  (routeParts pattern).all (fun s =>
    match parseSeg s with
    | none => false
    | some sg =>
      decide (sg.nType = staticNode → sg.key.head? ≠ some ':' ∧ sg.key.head? ≠ some '*') &&
        (sg.pattern.isEmpty || re.compiles (anchored sg.pattern)))

/-- A literal segment that `addRoute` files among the static children: not
empty, without a slash, not wrapped in braces and not beginning with ':' or
'*'. -/
def Literal (s : Str) : Prop :=
  s ≠ [] ∧ '/' ∉ s ∧ ¬ (s.head? = some '{' ∧ s.getLast? = some '}') ∧
    s.head? ≠ some ':' ∧ s.head? ≠ some '*'

instance (s : Str) : Decidable (Literal s) := by
  unfold Literal
  infer_instance

/-- The pattern `/page/{page:R}`. -/
def pagePattern (R : Str) : Str :=
  joinPath ["page".toList, braces ("page".toList ++ ':' :: R)]

/-- The classification of a literal segment. -/
def literalSeg (s : Str) : segInfo := ⟨staticNode, s, [], []⟩

/-- The non-empty beginnings of the registered patterns that match the whole
path by themselves. -/
def matchingPrefixes {H : Type} (re : Regexp) (routes : List (Str × Route H)) (path : Str) :
    List (List segInfo) :=
  routes.flatMap (fun pr => (segsOf pr.1).inits.filter
    (fun pre => decide (pre ≠ [] ∧ matchValues re pre (pathSegs path) ≠ [])))

/-- Every beginning of a registered pattern that matches the whole path walks
the same nodes as a registered pattern, so that the search cannot stop at a
node without a route. -/
def NoDeadEnd {H : Type} (re : Regexp) (routes : List (Str × Route H)) (path : Str) : Prop :=
  ∀ pre ∈ matchingPrefixes re routes path,
    ∃ pr ∈ routes, (segsOf pr.1).map stepOf = pre.map stepOf

instance {H : Type} (re : Regexp) (routes : List (Str × Route H)) (path : Str) :
    Decidable (NoDeadEnd re routes path) := by
  unfold NoDeadEnd
  infer_instance

/-! ## The request context and the handler chain (`context.go`, `response.go`)

A `HandlerFunc` is Go code supplied by the user of the package; it receives
the context and acts on it through its methods. Such a function is modelled
by the tree of the calls it makes: what it does next may depend on what a
call returned. The context is a value that every call maps to a new value.

* `Context.Next` calls the handlers, which call `Context.Next`; the model
  takes the allowed depth of nested calls as its first argument and answers
  `none` when that depth is exceeded (or when Go would panic).
* `int` is 64 bits wide; the cursor `index` only ever grows by one per call
  of `Next`, so it is an unbounded integer here.
* The field `trace` is not a field of the Go struct: it lists the positions
  `i` of the calls `c.handlers[i](c)` made so far, oldest first, so that
  "this handler was (not) invoked" can be stated.
* The fields `app` and `mu` of the Go struct are left out: a method that
  reads `c.app` takes the application as an argument.
* `Response.Writer` is nil only before the first `reset` of a context; here a
  context always has a writer.
-/

/-- The body of a `HandlerFunc` with error values of type `E` (`none` is the
`nil` error): `ret err` returns, `write s` prints `s` to `c.Response.Writer`,
`writeHeader code` calls `c.Response.Writer.WriteHeader`, `next` calls
`c.Next()` and goes on with what it returned, `abort` calls `c.Abort()`,
`isAborted` calls `c.IsAborted()` and goes on with the answer. -/
inductive HandlerFunc (E : Type) where
  | ret (err : Option E) : HandlerFunc E
  | write (s : Str) (k : HandlerFunc E) : HandlerFunc E
  | writeHeader (code : Int) (k : HandlerFunc E) : HandlerFunc E
  | next (k : Option E → HandlerFunc E) : HandlerFunc E
  | abort (k : HandlerFunc E) : HandlerFunc E
  | isAborted (k : Bool → HandlerFunc E) : HandlerFunc E

/-- An `http.ResponseWriter` as the handlers see it: the status code sent, if
one was sent, and the body written so far. -/
structure ResponseWriter where
  code : Option Int
  body : Str
  deriving DecidableEq

/-- The method `WriteHeader` of an `http.ResponseWriter`: only the first
status code counts. -/
def ResponseWriter.WriteHeader (w : ResponseWriter) (code : Int) : ResponseWriter :=
  match w.code with
  | some _ => w
  | none => { w with code := some code }

/-- The method `Write` of an `http.ResponseWriter`: sends status 200 first if
no status was sent. -/
def ResponseWriter.Write (w : ResponseWriter) (b : Str) : ResponseWriter :=
  { code := some (w.code.getD 200), body := w.body ++ b }

/-- The struct `Response`. -/
structure Response where
  Writer : ResponseWriter
  status : Int
  size : Int
  deriving DecidableEq

/-- The method `Response.reset`. -/
def Response.reset (_res : Response) (writer : ResponseWriter) : Response :=
  { Writer := writer, size := -1, status := 200 }

/-- What the router reads of an `http.Request`: `req.Method` and
`req.URL.Path`. -/
structure Request where
  Method : Str
  Path : Str
  deriving DecidableEq

/-- A value of type `interface{}`, as `URL` receives them and the maps of the
context hold them: a string, an `int`, or any other value, given by the text
that the verb `%v` prints for it. -/
inductive Value where
  | str (s : Str) : Value
  | int (n : Int) : Value
  | other (shown : Str) : Value
  deriving DecidableEq

/-- The type `url.Values`, a `map[string][]string`, as the list of its entries
in the order in which a `range` loop visits them. -/
abbrev Values := List (Str × List Str)

/-- The struct `Context`; `Request = none` is the nil pointer,
`handlers = none` the nil slice, and a map that is `none` is the nil map. -/
structure Context (E : Type) where
  pKeys : List Str
  pValues : List Str
  handlers : Option (List (HandlerFunc E))
  Request : Option Request
  Response : Response
  index : Int
  trace : List Int
  data : Option (List (Str × Value)) := none
  queryCache : Option Values := none
  postFormCache : Option Values := none
  formCache : Option Values := none
  viewData : Option (List (Str × Value)) := none
  viewLayout : Str := []

/-- Go's `len` of a slice that may be nil. -/
def lenOf {α : Type} (s : Option (List α)) : Nat := (s.getD []).length

/-- The element `s[i]` of a slice; `none` when Go panics. -/
def elemAt {α : Type} (s : Option (List α)) (i : Int) : Option α :=
  if i < 0 then none else (s.getD [])[i.toNat]?

/-- The method `Context.reset`. -/
def Context.reset {E : Type} (c : Context E) (w : ResponseWriter) (r : Potgo.Request) : Context E :=
  { c with
    Response := c.Response.reset w
    Request := some r
    handlers := none
    pKeys := []
    index := -1
    queryCache := none
    postFormCache := none
    formCache := none
    viewData := none
    viewLayout := [] }

/-- The method `Context.Abort`. -/
def Context.Abort {E : Type} (c : Context E) : Context E :=
  { c with index := (lenOf c.handlers : Int) }

/-- The method `Context.IsAborted`. -/
def Context.IsAborted {E : Type} (c : Context E) : Bool :=
  c.index == (lenOf c.handlers : Int)

/-- The context after `s` was printed to `c.Response.Writer`. -/
def Context.print {E : Type} (c : Context E) (s : Str) : Context E :=
  { c with Response := { c.Response with Writer := c.Response.Writer.Write s } }

/-- The context after `c.Response.Writer.WriteHeader(code)`. -/
def Context.sendStatus {E : Type} (c : Context E) (code : Int) : Context E :=
  { c with Response := { c.Response with Writer := c.Response.Writer.WriteHeader code } }

/-- The call `h(c)` of a handler, given what `c.Next()` does: the error
returned and the context as the call leaves it. -/
def HandlerFunc.call {E : Type} (next : Context E → Option (Option E × Context E)) :
    HandlerFunc E → Context E → Option (Option E × Context E)
  | .ret err, c => some (err, c)
  | .write s k, c => HandlerFunc.call next k (c.print s)
  | .writeHeader code k, c => HandlerFunc.call next k (c.sendStatus code)
  | .next k, c =>
    match next c with
    | none => none
    | some (err, c1) => HandlerFunc.call next (k err) c1
  | .abort k, c => HandlerFunc.call next k c.Abort
  | .isAborted k, c => HandlerFunc.call next (k c.IsAborted) c

/-- The method `Context.Next`, with the allowed depth of nested calls. -/
def Context.Next {E : Type} : Nat → Context E → Option (Option E × Context E)
  | 0, _ => none
  | depth + 1, c =>
    let c1 := { c with index := c.index + 1 }
    if c1.index < (lenOf c1.handlers : Int) then
      match elemAt c1.handlers c1.index with
      | none => none
      | some h =>
        match h.call (Context.Next depth) { c1 with trace := c1.trace ++ [c1.index] } with
        | none => none
        | some (some err, c2) => some (some err, c2)
        | some (none, c2) => some (none, c2)
    else some (none, c1)

/-- The handler `getNextHandler(tag)` of `context_test.go`. -/
def getNextHandler {E : Type} (tag : Str) : HandlerFunc E :=
  .write ("<".toList ++ tag ++ ">".toList)
    (.next (fun err => .write ("</".toList ++ tag ++ ">".toList) (.ret err)))

/-- The handler `getAbortHandler(tag)` of `context_test.go`. -/
def getAbortHandler {E : Type} (tag : Str) : HandlerFunc E :=
  .write ("<".toList ++ tag ++ "/>".toList) (.abort (.ret none))

/-- A handler that prints `opening`, calls `Next`, prints `closing` and
returns what `Next` returned. -/
def wrapNext {E : Type} (opening closing : Str) : HandlerFunc E :=
  .write opening (.next (fun err => .write closing (.ret err)))

/-- The chain of the handlers `wrapNext` of a list of pairs of marks. -/
def wrapChain {E : Type} (marks : List (Str × Str)) : List (HandlerFunc E) :=
  marks.map (fun m => wrapNext m.1 m.2)

/-- A handler that prints `mark`, calls `Abort` and returns no error. -/
def markAbort {E : Type} (mark : Str) : HandlerFunc E :=
  .write mark (.abort (.ret none))

/-- The context after the assignment `c.handlers = hs`. -/
def Context.setHandlers {E : Type} (c : Context E) (hs : List (HandlerFunc E)) : Context E :=
  { c with handlers := some hs }

/-- The context with the cursor at `i` and the trace `t`. -/
def Context.moveTo {E : Type} (c : Context E) (i : Int) (t : List Int) : Context E :=
  { c with index := i, trace := t }

/-- The context after the texts of a list were printed to
`c.Response.Writer`, one after the other. -/
def Context.printAll {E : Type} (c : Context E) (ss : List Str) : Context E :=
  ss.foldl Context.print c

/-- The handler makes no call of `Next` and returns `err`. -/
inductive Silent {E : Type} (err : Option E) : HandlerFunc E → Prop where
  | ret : Silent err (.ret err)
  | write (s : Str) (k : HandlerFunc E) : Silent err k → Silent err (.write s k)
  | writeHeader (code : Int) (k : HandlerFunc E) : Silent err k → Silent err (.writeHeader code k)
  | abort (k : HandlerFunc E) : Silent err k → Silent err (.abort k)
  | isAborted (k : Bool → HandlerFunc E) : (∀ b, Silent err (k b)) → Silent err (.isAborted k)

/-- The handler calls `Next` once, without a call of `Abort` before it, makes
no further call of `Next` and returns what its call of `Next` returned. -/
inductive Forwards {E : Type} : HandlerFunc E → Prop where
  | next (k : Option E → HandlerFunc E) : (∀ err, Silent err (k err)) → Forwards (.next k)
  | write (s : Str) (k : HandlerFunc E) : Forwards k → Forwards (.write s k)
  | writeHeader (code : Int) (k : HandlerFunc E) : Forwards k → Forwards (.writeHeader code k)
  | isAborted (k : Bool → HandlerFunc E) : (∀ b, Forwards (k b)) → Forwards (.isAborted k)

/-- The value `&Context{}`, with a writer in place of the nil writer that the
first `reset` replaces. -/
def zeroContext {E : Type} : Context E :=
  { pKeys := [], pValues := [], handlers := none, Request := none,
    Response := ⟨⟨none, []⟩, 0, 0⟩, index := 0, trace := [] }

/-- The context of `TestContext_Next` and `TestContext_Abort`: `&Context{}`,
reset with a new recorder and the request `GET /test`, then given the chain
`hs`. -/
def testContext {E : Type} (hs : List (HandlerFunc E)) : Context E :=
  ((zeroContext : Context E).reset ⟨none, []⟩ ⟨"GET".toList, "/test".toList⟩).setHandlers hs

/-- The positions `i, i+1, ..., i+n-1` as they appear in the trace. -/
def positions (i n : Nat) : List Int := (List.range' i n).map Int.ofNat

/-! ## The application (`potgo.go`, `error.go`, `route.go`)

* An `error` is modelled by what the dispatcher reads of it: the text of its
  method `Error` and, if its type implements `HTTPError`, the result of its
  method `Status`.
* The map `trees` is an association list with at most one entry for a method.
* A `*Route` is shared by `app.routes` and by the tree. Here both hold a copy;
  `Route.Name`, which Go applies to the pointer that the registration
  returns, is applied to the copy in `app.routes` (`Application.nameRoute`).
  Nothing reads the name of a route through the tree.
* `sync.Pool` hands `ServeHTTP` some context that was put back earlier or a
  new one: the context is an argument of the model, and the result is the
  context that is put back.
* `Router.add` hands `Application.addRoute` the result of `path.Join`; the
  model starts at `Application.addRoute`.
-/

/-- An error value. -/
structure GoError where
  text : Str
  status : Option Int
  deriving DecidableEq

/-- The struct `httpError`. -/
structure httpError where
  Code : Int
  Message : Str
  deriving DecidableEq

/-- The method `httpError.Error`. -/
def httpError.Error (e : httpError) : Str := e.Message

/-- The method `httpError.Status`. -/
def httpError.Status (e : httpError) : Int := e.Code

/-- A `*httpError` as an error value; its type implements `HTTPError`. -/
def httpError.toError (e : httpError) : GoError := ⟨e.Error, some e.Status⟩

/-- An error value of a type without a method `Status`, such as
`errors.New(text)`. -/
def plainError (text : Str) : GoError := ⟨text, none⟩

/-- The function `NewHTTPError`; `statusText` is `http.StatusText` and
`message` the variadic argument. -/
def NewHTTPError (statusText : Int → Str) (status : Int) (message : List Str) : httpError :=
  let e : httpError := ⟨status, statusText status⟩
  match message with
  | m :: _ => { e with Message := m }
  | [] => e

/-- What the loop of `buildPathTemplate` puts in the place of the part `s`,
if it replaces it. -/
def templatePart (s : Str) : Option Str :=
  match s with
  | [] => none
  | c :: _ =>
    if c ≠ '{' ∨ s.getLast? ≠ some '}' then none
    else if ':' ∈ s then some (':' :: slice s 1 (s.indexOf ':'))
    else some (':' :: slice s 1 (s.length - 1))

/-- The method `Route.buildPathTemplate`; `maxParams` is a `uint8`. -/
def Route.buildPathTemplate {H : Type} (r : Route H) (path : Str) : Route H :=
  let parts := splitSlash path
  { r with
    maxParams := (parts.filter (fun s => (templatePart s).isSome)).length % 256
    path := joinSlash (parts.map (fun s => (templatePart s).getD s)) }

/-- The function `NewRoute`. -/
def NewRoute {H : Type} (method path : Str) (handlers : Option (List H)) : Route H :=
  Route.buildPathTemplate ⟨method, [], [], 0, handlers⟩ path

/-- The method `Route.Name`. -/
def Route.Name {H : Type} (r : Route H) (name : Str) : Route H :=
  { r with name := name }

/-- The type of the handlers of an application. -/
abbrev Handler := HandlerFunc GoError

/-- The type `ErrorHandlerFunc`: the context as the call leaves it. -/
abbrev ErrorHandlerFunc := Context GoError → Str → Int → Context GoError

/-- The struct `Application`, without the embedded `Router`, the pool, the
field `context` and the view. -/
structure Application where
  routes : List (Route Handler)
  trees : List (Str × node Handler)
  maxParams : Nat
  notFoundHandler : Handler
  errorHandler : ErrorHandlerFunc

/-- The assignment `trees[method] = root`. -/
def setTree (trees : List (Str × node Handler)) (method : Str) (root : node Handler) :
    List (Str × node Handler) :=
  if (trees.lookup method).isSome then
    trees.map (fun p => if p.1 = method then (p.1, root) else p)
  else trees ++ [(method, root)]

/-- Go's `http.Error(w, error, code)` on the writer of the context. -/
def httpReply (c : Context GoError) (error : Str) (code : Int) : Context GoError :=
  (c.sendStatus code).print (error ++ ['\n'])

/-- The function `NotFoundHandler`. -/
def NotFoundHandler : Handler :=
  .writeHeader 404 (.write "404 page not found\n".toList (.ret none))

/-- The function `ErrorHandler`. -/
def ErrorHandler : ErrorHandlerFunc :=
  fun c error code => httpReply c error code

/-- The function `New`. -/
def Application.New : Application :=
  { routes := [], trees := [], maxParams := 0, notFoundHandler := NotFoundHandler,
    errorHandler := ErrorHandler }

/-- The method `Application.NotFound`. -/
def Application.NotFound (app : Application) (handler : Handler) : Application :=
  { app with notFoundHandler := handler }

/-- The method `Application.Error`. -/
def Application.Error (app : Application) (handler : ErrorHandlerFunc) : Application :=
  { app with errorHandler := handler }

/-- The method `Application.addRoute`; the `*Route` it returns is the last
element of `routes`. The result is `none` when `node.addRoute` panics. -/
def Application.addRoute (re : Regexp) (app : Application) (method path : Str)
    (handlers : Option (List Handler)) : Option Application :=
  let root := (app.trees.lookup method).getD node.empty
  let r : Route Handler := NewRoute method path handlers
  match root.addRoute re path r with
  | none => none
  | some root1 =>
    some { app with
      trees := setTree app.trees method root1
      routes := app.routes ++ [r]
      maxParams := if r.maxParams > app.maxParams then r.maxParams else app.maxParams }

/-- The call `r.Name(name)` on the route at position `i` of `app.routes`. -/
def Application.nameRoute (app : Application) (i : Nat) (name : Str) : Application :=
  { app with routes := app.routes.modify (fun r => r.Name name) i }

/-- Registers the routes `(method, path, handlers)` of a list in order. -/
def Application.register (re : Regexp) :
    Application → List (Str × Str × Option (List Handler)) → Option Application
  | app, [] => some app
  | app, (method, path, handlers) :: rest =>
    match app.addRoute re method path handlers with
    | none => none
    | some app1 => Application.register re app1 rest

/-- The method `Application.handleError`. -/
def Application.handleError (app : Application) (c : Context GoError) (err : GoError) :
    Context GoError :=
  match err.status with
  | some status => app.errorHandler c err.text status
  | none => app.errorHandler c err.text 500

/-- The first part of `ServeHTTP`, up to the call of `c.Next`: the context is
reset and receives its chain. The result is `none` when `getRoute` panics. -/
def Application.install (re : Regexp) (app : Application) (c : Context GoError)
    (w : ResponseWriter) (req : Request) : Option (Context GoError) :=
  let c := c.reset w req
  let found : Option (Context GoError) :=
    match app.trees.lookup req.Method with
    | some root =>
      match root.getRoute re req.Path c.pValues with
      | none => none
      | some (value, pValues) =>
        let c := { c with pValues := pValues }
        if value.handlers.isSome then
          some { c with pKeys := value.pKeys, handlers := value.handlers }
        else some c
    | none => some c
  match found with
  | none => none
  | some c =>
    if c.handlers.isNone then some { c with handlers := some [app.notFoundHandler] }
    else some c

/-- The method `Application.ServeHTTP`, with the allowed depth of nested calls
of `Next`: the context that is put back into the pool. -/
def Application.ServeHTTP (re : Regexp) (depth : Nat) (app : Application)
    (c : Context GoError) (w : ResponseWriter) (req : Request) : Option (Context GoError) :=
  match app.install re c w req with
  | none => none
  | some c =>
    match c.Next depth with
    | none => none
    | some (some err, c1) => some (app.handleError c1 err)
    | some (none, c1) => some c1

/-- A handler that prints `s` and returns no error, as the handlers of
`TestNew`. -/
def printHandler (s : Str) : Handler := .write s (.ret none)

/-- The application of `TestNew`. -/
def testNewApp : Option Application :=
  Application.register goRegexp Application.New
    [("GET".toList, "/users".toList, some [printHandler "GET:ok".toList]),
     ("POST".toList, "/users".toList, some [printHandler "POST:ok".toList])]

/-- The context a new pool hands out for an application: `maxParams` empty
values. -/
def poolContext (app : Application) : Context GoError :=
  { (zeroContext : Context GoError) with pValues := List.replicate app.maxParams [] }

/-- An application with the one route `GET /e`, whose handler prints `x` and
returns the error `err`. -/
def failingApp (err : GoError) : Application :=
  (Application.New.addRoute goRegexp "GET".toList "/e".toList
    (some [.write "x".toList (.ret (some err))])).getD Application.New

/-! ## Reverse lookup (`Application.URL`)

The arguments `pairs ...interface{}` are values that `URL` only formats with
the verb `%v`. `fmt.Sprint`, `url.QueryEscape` and `strings.Replace` are
modelled after their documentation. -/

/-- Go's `fmt.Sprint(v)`, the same text as `fmt.Sprintf("%v", v)`. -/
def Sprint : Value → Str
  | .str s => s
  | .int n => if n < 0 then '-' :: Nat.toDigits 10 n.natAbs else Nat.toDigits 10 n.toNat
  | .other shown => shown

/-- The digit of the value `n < 16` in upper-case hexadecimal. -/
def hexDigit (n : Nat) : Char := "0123456789ABCDEF".toList.getD n '0'

/-- The bytes of the UTF-8 encoding of a character. -/
def utf8Bytes (c : Char) : List Nat :=
  let n := c.toNat
  if n < 128 then [n]
  else if n < 2048 then [192 + n / 64, 128 + n % 64]
  else if n < 65536 then [224 + n / 4096, 128 + n / 64 % 64, 128 + n % 64]
  else [240 + n / 262144, 128 + n / 4096 % 64, 128 + n / 64 % 64, 128 + n % 64]

/-- The characters that `url.QueryEscape` leaves as they are. -/
def unreserved (c : Char) : Bool :=
  c.isAlphanum || c == '-' || c == '_' || c == '.' || c == '~'

/-- Go's `url.QueryEscape`. -/
def QueryEscape (s : Str) : Str :=
  s.flatMap (fun c =>
    if unreserved c then [c]
    else if c = ' ' then ['+']
    else (utf8Bytes c).flatMap (fun b => ['%', hexDigit (b / 16), hexDigit (b % 16)]))

/-- The scan of `strings.Replace(s, old, new, -1)` for a non-empty `old`:
`skip` is the number of characters of the current match still to be passed. -/
def replaceFrom (old new : Str) : Nat → Str → Str
  | _, [] => []
  | skip + 1, _ :: cs => replaceFrom old new skip cs
  | 0, c :: cs =>
    if old.isPrefixOf (c :: cs) then new ++ replaceFrom old new (old.length - 1) cs
    else c :: replaceFrom old new 0 cs

/-- Go's `strings.Replace(s, old, new, -1)`: the non-overlapping instances of
`old`, from the left, are replaced by `new`; an empty `old` matches before
every character and at the end. -/
def stringsReplaceAll (s old new : Str) : Str :=
  if old = [] then new ++ s.flatMap (fun c => c :: new)
  else replaceFrom old new 0 s

/-- The loop of `URL` over the arguments `pairs`, two at a time; a key without
a value is replaced by the empty string. -/
def urlPairs (s : Str) : List Value → Str
  | [] => s
  | [k] => stringsReplaceAll s (':' :: Sprint k) []
  | k :: v :: rest =>
    urlPairs (stringsReplaceAll s (':' :: Sprint k) (QueryEscape (Sprint v))) rest

/-- The loop of `URL` over the routes. -/
def urlScan {H : Type} : List (Route H) → Str → List Value → Str
  | [], _, _ => []
  | r :: rs, name, pairs =>
    if r.name = name then urlPairs r.path pairs else urlScan rs name pairs

/-- The method `Application.URL`. -/
def Application.URL (app : Application) (name : Str) (pairs : List Value) : Str :=
  urlScan app.routes name pairs

/-- The keys among the arguments `pairs`: those at the even positions. -/
def keysOf : List Value → List Value
  | [] => []
  | [k] => [k]
  | k :: _ :: rest => k :: keysOf rest

/-- The application of `TestApplication_URL`; the group `/group` registers
its route under the joined path. -/
def urlTestApp : Option Application :=
  (Application.New.addRoute goRegexp "GET".toList "/user/{id}".toList
      (some [.ret none])).bind (fun app1 =>
    ((app1.nameRoute 0 "user.info".toList).addRoute goRegexp "GET".toList
      "/group/user/{id}/posts/{pid}".toList (some [.ret none])).map (fun app2 =>
        app2.nameRoute 1 "group.user.post".toList))

/-! ## Parameters, form maps and redirects (`context.go`)

* The parsed query and forms of a request come from `net/http`
  (`c.Request.URL.Query()`, `c.Request.PostForm`, `c.Request.Form`); a method
  that reads one of them takes it as an argument.
* A `range` loop visits the entries of a map in an order Go does not fix: the
  entries are given as a list, in the order of the visit.
* A `map[string]string` is the list of its entries, each key once.
* `http.Redirect` is an argument of the methods that call it.
-/

/-- The loop of `Context.Param` from position `i` on; `none` is the panic of
`c.pValues[i]` out of range. -/
def paramAt (pValues : List Str) (key : Str) : Nat → List Str → Option Str
  | _, [] => some []
  | i, n :: ns => if n = key then pValues[i]? else paramAt pValues key (i + 1) ns

/-- The method `Context.Param`. -/
def Context.Param {E : Type} (c : Context E) (key : Str) : Option Str :=
  paramAt c.pValues key 0 c.pKeys

/-- The assignment `m[k] = v` on a `map[string]string`. -/
def mapSet (m : List (Str × Str)) (k v : Str) : List (Str × Str) :=
  if (m.lookup k).isSome then m.map (fun p => if p.1 = k then (k, v) else p)
  else m ++ [(k, v)]

/-- The key under which the loop of `QueryMap(key)` files the entry named `k`,
if it files it: `k[i+1:i+j]`, where `i` is the position of the first `[` and
`j` the position of the first `]` in `k[i+1:]`. -/
def subKey (key k : Str) : Option Str :=
  if '[' ∈ k then
    let i := k.indexOf '['
    if 1 ≤ i ∧ slice k 0 i = key then
      if ']' ∈ k.drop (i + 1) then
        let j := (k.drop (i + 1)).indexOf ']'
        if 1 ≤ j then some (slice k (i + 1) (i + j)) else none
      else none
    else none
  else none

/-- The loop shared by `QueryMap`, `PostValueMap` and `FormValueMap`, from the
map `m` built so far; `none` is the panic of `v[0]` on an empty slice. -/
def valuesMap (key : Str) : Values → List (Str × Str) → Option (List (Str × Str))
  | [], m => some m
  | (k, v) :: rest, m =>
    match subKey key k with
    | none => valuesMap key rest m
    | some sub =>
      match v with
      | [] => none
      | v0 :: _ => valuesMap key rest (mapSet m sub v0)

/-- The method `Context.getQuery`; `urlQuery` is `c.Request.URL.Query()`. -/
def Context.getQuery {E : Type} (urlQuery : Values) (c : Context E) : Values × Context E :=
  match c.queryCache with
  | none => (urlQuery, { c with queryCache := some urlQuery })
  | some q => (q, c)

/-- The method `Context.getPostForm`; `postForm` is `c.Request.PostForm` after
`ParseMultipartForm`. -/
def Context.getPostForm {E : Type} (postForm : Values) (c : Context E) : Values × Context E :=
  match c.postFormCache with
  | none => (postForm, { c with postFormCache := some postForm })
  | some q => (q, c)

/-- The method `Context.getForm`; `form` is `c.Request.Form` after
`ParseMultipartForm`. -/
def Context.getForm {E : Type} (form : Values) (c : Context E) : Values × Context E :=
  match c.formCache with
  | none => (form, { c with formCache := some form })
  | some q => (q, c)

/-- The method `Context.QueryMap`: the map returned and the context. -/
def Context.QueryMap {E : Type} (urlQuery : Values) (c : Context E) (key : Str) :
    Option (List (Str × Str) × Context E) :=
  (valuesMap key (c.getQuery urlQuery).1 []).map (fun m => (m, (c.getQuery urlQuery).2))

/-- The method `Context.PostValueMap`. -/
def Context.PostValueMap {E : Type} (postForm : Values) (c : Context E) (key : Str) :
    Option (List (Str × Str) × Context E) :=
  (valuesMap key (c.getPostForm postForm).1 []).map (fun m => (m, (c.getPostForm postForm).2))

/-- The method `Context.FormValueMap`. -/
def Context.FormValueMap {E : Type} (form : Values) (c : Context E) (key : Str) :
    Option (List (Str × Str) × Context E) :=
  (valuesMap key (c.getForm form).1 []).map (fun m => (m, (c.getForm form).2))

/-- The parsed query of the request of `TestContext_Query`,
`/?foo=bar&page=2&id[]=10&id[]=20&name=foo&name=bar&a[s]=1&a[f]=2`. -/
def testQuery : Values :=
  [("foo".toList, ["bar".toList]), ("page".toList, ["2".toList]),
   ("id[]".toList, ["10".toList, "20".toList]), ("name".toList, ["foo".toList, "bar".toList]),
   ("a[s]".toList, ["1".toList]), ("a[f]".toList, ["2".toList])]

/-- The type of `http.Redirect`, as its effect on the writer. -/
abbrev RedirectFunc := ResponseWriter → Option Request → Str → Int → ResponseWriter

/-- The method `Context.Redirect`; `code` is the variadic argument. The error
`errors.New(text)` is `plainError text`. -/
def Context.Redirect (redirect : RedirectFunc) (c : Context GoError) (path : Str)
    (code : List Int) : Option GoError × Context GoError :=
  let checked : Option Int :=
    match code with
    | statusCode :: _ => if statusCode < 300 ∨ statusCode > 308 then none else some statusCode
    | [] => some 302
  match checked with
  | none => (some (plainError "invalid redirect status code".toList), c)
  | some statusCode =>
    let c1 := c.Abort
    (none, { c1 with Response :=
      { c1.Response with Writer := redirect c1.Response.Writer c1.Request path statusCode } })

/-- The method `Context.RouteRedirect`; `app` is `c.app`. The result is `none`
when the slice expression `pairs[0 : l-2]` panics. -/
def Context.RouteRedirect (app : Application) (redirect : RedirectFunc) (c : Context GoError)
    (name : Str) (pairs : List Value) : Option (Option GoError × Context GoError) :=
  let l := pairs.length
  let parsed : Option (Option (Int × List Value)) :=
    if 0 < l ∧ l % 2 = 1 then
      match pairs[l - 1]? with
      | some (.int n) => if l < 2 then none else some (some (n, pairs.take (l - 2)))
      | _ => some none
    else some (some (0, pairs))
  match parsed with
  | none => none
  | some none => some (some (plainError "invalid redirect status code".toList), c)
  | some (some (statusCode, pairs1)) =>
    some (c.Redirect redirect (app.URL name pairs1) [if statusCode = 0 then 302 else statusCode])

/-- A writer that keeps the target and the status of a redirect: the model of
`http.Redirect` in the examples. -/
def recordRedirect : RedirectFunc :=
  fun w _ url code => { code := some code, body := w.body ++ url }

/-- The application of `TestContext_RouteRedirect`. -/
def redirectTestApp : Option Application :=
  (Application.New.addRoute goRegexp "GET".toList "/user/{id}".toList
      (some [.ret none])).bind (fun app1 =>
    ((app1.nameRoute 0 "user".toList).addRoute goRegexp "GET".toList "/users".toList
      (some [.ret none])).map (fun app2 => app2.nameRoute 1 "users".toList))

/-! ## The template of a path in the words of the specification -/

/-- A segment of the form `{...}`: it begins with `{` and ends with `}`. -/
def isBraced (s : Str) : Bool := s.head? = some '{' && s.getLast? = some '}'

/-- The name of a segment `{name}` or `{name:anything}`: what stands between
the opening brace and the first colon, or the closing brace if there is no
colon. -/
def specName (s : Str) : Str := ((s.drop 1).dropLast).takeWhile (fun c => c ≠ ':')

/-- The template of one segment: `:name` for a segment `{name}` or
`{name:anything}`, the segment itself otherwise. -/
def specSegment (s : Str) : Str := if isBraced s then ':' :: specName s else s

/-- The template of a path: each segment replaced by its template. -/
def specTemplate (path : Str) : Str := joinSlash ((splitSlash path).map specSegment)

/-! ## Positions and invariants of the tree -/

/-- The node reached from `n` by following `getChild` along the keys; `none`
when a child is missing on the way. -/
def descend {H : Type} : List Str → node H → Option (node H)
  | [], n => some n
  | k :: ks, n =>
    match n.getChild k with
    | none => none
    | some c => descend ks c

/-- The segments of a pattern that bind a value: its parameters and
catch-alls, in order. -/
def paramSegs (segs : List segInfo) : List segInfo :=
  segs.filter (fun sg => sg.nType ≠ staticNode)

mutual

/-- At the node and at every node below it, the static children have pairwise
distinct keys and the parameter children have pairwise distinct keys. (A node
has room for one catch-all child only: the field `wChildren` is one
pointer.) -/
def DistinctKeys {H : Type} : node H → Prop
  | node.mk _ _ _ _ cs ps w _ _ =>
    (cs.map node.key).Nodup ∧ (ps.map node.key).Nodup ∧
    DistinctKeysList cs ∧ DistinctKeysList ps ∧ DistinctKeysOpt w

/-- Every node of the list satisfies `DistinctKeys`. -/
def DistinctKeysList {H : Type} : List (node H) → Prop
  | [] => True
  | c :: cs => DistinctKeys c ∧ DistinctKeysList cs

/-- The catch-all child, if there is one, satisfies `DistinctKeys`. -/
def DistinctKeysOpt {H : Type} : Option (node H) → Prop
  | none => True
  | some c => DistinctKeys c

end

mutual

/-- The second tree keeps the nodes of the first: the node has the same type
and key, each list of children begins with the children of the first tree, in
the same order and each of them kept in turn, and a catch-all child of the
first tree is kept. -/
def Keeps {H : Type} : node H → node H → Prop
  | node.mk t k _ _ cs ps w _ _, n1 =>
    n1.nType = t ∧ n1.key = k ∧ KeepsList cs n1.children ∧ KeepsList ps n1.pChildren ∧
    KeepsOpt w n1.wChildren

/-- The second list begins with the nodes of the first, each of them kept. -/
def KeepsList {H : Type} : List (node H) → List (node H) → Prop
  | [], _ => True
  | _ :: _, [] => False
  | c :: cs, d :: ds => Keeps c d ∧ KeepsList cs ds

/-- A catch-all child stays in place. -/
def KeepsOpt {H : Type} : Option (node H) → Option (node H) → Prop
  | none, _ => True
  | some _, none => False
  | some c, some d => Keeps c d

end

/-! ## Routers and groups (`router.go`)

* Go slices share backing arrays. The heap is the list of the arrays allocated
  so far, an array being the list of its cells; a cell holds `none` until it is
  written (the zero value of `HandlerFunc`, a nil func).
* A slice is the index of its array, its length and its capacity; every slice
  of `router.go` begins at the first cell of its array. The nil slice has the
  capacity 0, and its array index is never used.
* When `append` has to grow, the Go runtime chooses the capacity of the new
  array: `grow cap needed` stands for that choice, and `append` takes no less
  than the length needed.
* A `*Router` is the position of the router in the list `routers` of the
  world; a nil or dangling pointer is a position outside the list.
* The field `app` of a router is left out (a world has one application), the
  field `prefix` is called `base`, and `app.routes` holds, for each route, its
  method, its path and its slice of handlers.
* `path.Join` and `path.Clean` belong to the Go library; `pathClean` works on
  the elements between slashes.
-/

/-- The backing arrays allocated so far. -/
abbrev Heap (H : Type) := List (List (Option H))

/-- A slice header. -/
structure Slice where
  arr : Nat
  len : Nat
  cap : Nat
  deriving DecidableEq

/-- The nil slice. -/
def nilSlice : Slice := ⟨0, 0, 0⟩

/-- The elements of a slice. -/
def readSlice {H : Type} (heap : Heap H) (s : Slice) : List (Option H) :=
  (heap.getD s.arr []).take s.len

/-- The cells of an array after `copy(a[off:], xs)`: the cells from `off` on
are overwritten, as far as the array and `xs` reach. -/
def writeCells {H : Type} : List (Option H) → Nat → List (Option H) → List (Option H)
  | [], _, _ => []
  | c :: cs, 0, [] => c :: cs
  | _ :: cs, 0, x :: xs => x :: writeCells cs 0 xs
  | c :: cs, off + 1, xs => c :: writeCells cs off xs

/-- Go's `append(s, xs...)`: in place when the capacity suffices, otherwise on
a new array that receives the elements of `s` and then `xs`. -/
def goAppend {H : Type} (grow : Nat → Nat → Nat) (heap : Heap H) (s : Slice) (xs : List H) :
    Heap H × Slice :=
  if s.len + xs.length ≤ s.cap then
    (heap.set s.arr (writeCells (heap.getD s.arr []) s.len (xs.map some)),
      ⟨s.arr, s.len + xs.length, s.cap⟩)
  else
    let newcap := max (grow s.cap (s.len + xs.length)) (s.len + xs.length)
    (heap ++ [readSlice heap s ++ xs.map some
        ++ List.replicate (newcap - (s.len + xs.length)) none],
      ⟨heap.length, s.len + xs.length, newcap⟩)

/-- The struct `Router`. -/
structure Router where
  base : Str
  handlers : Slice
  deriving DecidableEq

/-- The routers and routes of an application and the arrays behind their
slices. -/
structure World (H : Type) where
  heap : Heap H
  routers : List Router
  routes : List (Str × Str × Slice)

/-- The buffer that the loop of `path.Join` builds from the elements. -/
def joinBuf : List Str → Str → Str
  | [], buf => buf
  | e :: es, buf =>
    if buf ≠ [] ∨ e ≠ [] then joinBuf es ((if buf ≠ [] then buf ++ ['/'] else buf) ++ e)
    else joinBuf es buf

/-- The loop of `path.Clean` over the elements of the path, `out` being the
elements kept so far: empty elements and `.` are dropped, `..` removes the
element before it if there is one to remove, is dropped at the root and is
kept otherwise. -/
def cleanElems (rooted : Bool) : List Str → List Str → List Str
  | [], out => out
  | e :: es, out =>
    if e = [] ∨ e = ['.'] then cleanElems rooted es out
    else if e = ['.', '.'] then
      if out ≠ [] ∧ out.getLast? ≠ some ['.', '.'] then cleanElems rooted es out.dropLast
      else if rooted then cleanElems rooted es out
      else cleanElems rooted es (out ++ [e])
    else cleanElems rooted es (out ++ [e])

/-- Go's `path.Clean`. -/
def pathClean (path : Str) : Str :=
  if path = [] then ['.']
  else
    let rooted : Bool := path.head? = some '/'
    let out := (if rooted then ['/'] else []) ++ joinSlash (cleanElems rooted (splitSlash path) [])
    if out = [] then ['.'] else out

/-- Go's `path.Join`. -/
def pathJoin (elem : List Str) : Str :=
  if (elem.map List.length).sum = 0 then [] else pathClean (joinBuf elem [])

namespace World

variable {H : Type}

/-- The world of `New()`: the router embedded in the application, with the
base `/` and no handlers. -/
def New : World H := ⟨[], [⟨['/'], nilSlice⟩], []⟩

/-- The method `Router.Use` on the router `r`. -/
def Use (grow : Nat → Nat → Nat) (w : World H) (r : Nat) (middleware : List H) :
    Option (World H) :=
  match w.routers[r]? with
  | none => none
  | some rt =>
    let res := goAppend grow w.heap rt.handlers middleware
    some { w with heap := res.1, routers := w.routers.set r { rt with handlers := res.2 } }

/-- The method `Router.Group` on the router `r`: the world and the new
router. The slice `r.handlers[:len(r.handlers):len(r.handlers)]` has the array
and the length of `r.handlers`, and that length as its capacity. -/
def Group (w : World H) (r : Nat) (p : Str) : Option (World H × Nat) :=
  match w.routers[r]? with
  | none => none
  | some rt =>
    some ({ w with routers := w.routers ++
        [⟨pathJoin [rt.base, p], ⟨rt.handlers.arr, rt.handlers.len, rt.handlers.len⟩⟩] },
      w.routers.length)

/-- The method `Router.add` on the router `r`, as far as slices go: `m` is a
new array, filled by the two calls of `copy`, and the route is appended to
`app.routes`. -/
def add (w : World H) (r : Nat) (method relativePath : Str) (handlers : List H) :
    Option (World H) :=
  match w.routers[r]? with
  | none => none
  | some rt =>
    let n := rt.handlers.len + handlers.length
    let cells := writeCells (writeCells (List.replicate n none) 0 (readSlice w.heap rt.handlers))
      rt.handlers.len (handlers.map some)
    some { w with
      heap := w.heap ++ [cells]
      routes := w.routes ++ [(method, pathJoin [rt.base, relativePath], ⟨w.heap.length, n, n⟩)] }

/-- The handlers of the router `r` as a reader of `r.handlers` sees them. -/
def middleware (w : World H) (r : Nat) : List (Option H) :=
  match w.routers[r]? with
  | none => []
  | some rt => readSlice w.heap rt.handlers

/-- The handlers of the route at position `i` of `app.routes` as a reader of
the route sees them. -/
def chain (w : World H) (i : Nat) : List (Option H) :=
  match w.routes[i]? with
  | none => []
  | some e => readSlice w.heap e.2.2

end World

/-- A call on a router. -/
inductive Op (H : Type) where
  | use (r : Nat) (middleware : List H) : Op H
  | group (r : Nat) (p : Str) : Op H
  | add (r : Nat) (method relativePath : Str) (handlers : List H) : Op H

/-- One call, on the world. -/
def World.step {H : Type} (grow : Nat → Nat → Nat) (w : World H) : Op H → Option (World H)
  | .use r middleware => w.Use grow r middleware
  | .group r p => (w.Group r p).map (fun res => res.1)
  | .add r method relativePath handlers => w.add r method relativePath handlers

/-- A sequence of calls, the first of the list first. -/
def World.run {H : Type} (grow : Nat → Nat → Nat) : World H → List (Op H) → Option (World H)
  | w, [] => some w
  | w, op :: ops =>
    match w.step grow op with
    | none => none
    | some w1 => World.run grow w1 ops

/-- The handlers that the calls of `Use` on the router `r` add, in order. -/
def usesOf {H : Type} (r : Nat) : List (Op H) → List H
  | [] => []
  | .use q middleware :: ops => if q = r then middleware ++ usesOf r ops else usesOf r ops
  | _ :: ops => usesOf r ops

/-- The routes of the world as registrations: the method and the path of each
route, with the handlers that its slice holds. -/
def World.registrations (w : World Handler) : List (Str × Str × Option (List Handler)) :=
  (List.range w.routes.length).map (fun i =>
    match w.routes[i]? with
    | none => ([], [], none)
    | some e => (e.1, e.2.1, some (w.chain i).reduceOption))

/-- The application that the dispatcher sees: the routes of the world
registered in order, each with the handlers that its slice holds. -/
def World.application (re : Regexp) (w : World Handler) : Option Application :=
  Application.register re Application.New w.registrations

/-- The growth of `append` for small slices: the capacity doubles, or is the
length needed if that is more. -/
def goGrow (cap needed : Nat) : Nat := if needed > 2 * cap then needed else 2 * cap

/-- The middleware of `TestRouter_Group`: it calls `Next`. -/
def nextHandler : Handler := .next (fun err => .ret err)

/-- The calls of `TestRouter_Group` after `New()`; the group `api` is the
router 1. -/
def groupTestOps : List (Op Handler) :=
  [.use 0 [nextHandler], .group 0 "/api".toList, .use 1 [nextHandler],
   .add 1 "GET".toList "/login".toList [printHandler "login".toList],
   .add 1 "GET".toList "/logout".toList [printHandler "logout".toList]]

/-- A slice lies within its array. -/
def SliceOK {H : Type} (heap : Heap H) (s : Slice) : Prop :=
  s.len ≤ s.cap ∧ s.cap ≤ (heap.getD s.arr []).length

/-- The invariant of the worlds that the calls on routers build: the slices
lie within their arrays; of the routers that share an array, only the one that
holds the most elements has capacity left; and no router with capacity left
shares the array of a route. -/
structure WorldOK {H : Type} (w : World H) : Prop where
  routers : ∀ rt ∈ w.routers, SliceOK w.heap rt.handlers
  routes : ∀ e ∈ w.routes, e.2.2.arr < w.heap.length ∧ SliceOK w.heap e.2.2
  owner : ∀ (i j : Nat) (ri rj : Router), w.routers[i]? = some ri → w.routers[j]? = some rj → i ≠ j →
    ri.handlers.arr = rj.handlers.arr → ri.handlers.len < ri.handlers.cap →
    rj.handlers.len = rj.handlers.cap ∧ rj.handlers.len ≤ ri.handlers.len
  apart : ∀ e ∈ w.routes, ∀ rt ∈ w.routers, rt.handlers.len < rt.handlers.cap →
    rt.handlers.arr ≠ e.2.2.arr

/-! ## The response and the data of a context (`response.go`, `context.go`)

* The fields `status` and `size` are Go `int`s; `size` counts the bytes written
  to one response and stays far below `2^63`, so it is an unbounded integer
  here.
* `Response.Write` hands its bytes to `res.Writer.Write`, which reports how
  many of them it wrote: that number `n` is an argument of the model, and the
  writer receives the first `n` bytes. A byte is shown as a character.
* The map `data` is the list of its entries, each key once; the mutex `mu`
  is left out.
-/

/-- The method `Response.Size`. -/
def Response.Size (res : Response) : Int := res.size

/-- The method `Response.Status`. -/
def Response.Status (res : Response) : Int := res.status

/-- The method `Response.WriteHeader`. -/
def Response.WriteHeader (res : Response) (code : Int) : Response :=
  if code > 0 ∧ res.status ≠ code then { res with status := code } else res

/-- The method `Response.Written`; `noWritten` is -1. -/
def Response.Written (res : Response) : Bool := res.size > -1

/-- The method `Response.tryWriteHeader`. -/
def Response.tryWriteHeader (res : Response) : Response :=
  if !res.Written then
    let res1 := { res with size := 0 }
    let res2 := if res1.status = 0 then { res1 with status := 200 } else res1
    { res2 with Writer := res2.Writer.WriteHeader res2.status }
  else res

/-- The method `Response.Write`; `n` is the number of bytes that
`res.Writer.Write(b)` reports. -/
def Response.Write (res : Response) (b : Str) (n : Nat) : Response :=
  let res1 := res.tryWriteHeader
  { res1 with Writer := res1.Writer.Write (b.take n), size := res1.size + (n : Int) }

/-- A sequence of calls of `Response.Write`, each of them with bytes that the
writer accepts in full. -/
def Response.writeAll (res : Response) (bs : List Str) : Response :=
  bs.foldl (fun r b => r.Write b b.length) res

/-- The assignment `m[key] = value` on a `map[string]interface{}`. -/
def dataSet (m : List (Str × Value)) (key : Str) (value : Value) : List (Str × Value) :=
  if (m.lookup key).isSome then m.map (fun p => if p.1 = key then (key, value) else p)
  else m ++ [(key, value)]

/-- The method `Context.Set`. -/
def Context.Set {E : Type} (c : Context E) (key : Str) (value : Value) : Context E :=
  { c with data := some (dataSet (c.data.getD []) key value) }

/-- The method `Context.Get`: the value, `none` for the nil interface, and
whether the key exists. -/
def Context.Get {E : Type} (c : Context E) (key : Str) : Option Value × Bool :=
  match (c.data.getD []).lookup key with
  | some v => (some v, true)
  | none => (none, false)

/-- The node with its static children taken away. -/
def node.withoutStatic {H : Type} : node H → node H
  | node.mk t k p ks _ ps w rx rt => node.mk t k p ks [] ps w rx rt

/-! ## The segments of a request path -/

/-- The segments of a request path after one trailing slash, if there is one,
was dropped: none for `/`, and otherwise what stands between the slashes after
the first character. -/
def trimmedSegs (path : Str) : List Str :=
  let p := if path.getLast? = some '/' then path.dropLast else path
  if p = [] then [] else pathSegs p

/-- No segment of the patterns is a catch-all. -/
def NoCatchAll (segs : List segInfo) : Prop := ∀ sg ∈ segs, sg.nType ≠ catchAllNode

instance (segs : List segInfo) : Decidable (NoCatchAll segs) := by
  unfold NoCatchAll
  infer_instance

/-! ## The trees of an application -/

/-- The registrations of one method, as the calls of `node.addRoute` on the
tree of that method. -/
def routesFor (method : Str) (regs : List (Str × Str × Option (List Handler))) :
    List (Str × Route Handler) :=
  (regs.filter (fun g => g.1 = method)).map (fun g => (g.2.1, NewRoute g.1 g.2.1 g.2.2))

/-- The number of segments of a pattern that are wrapped in braces: what
`buildPathTemplate` counts for `maxParams`. -/
def bracedCount (path : Str) : Nat := ((splitSlash path).filter isBraced).length

/-- An application with the routes `GET /{x}` and `GET /:x/{y}`. -/
def colonApp : Option Application :=
  Application.register goRegexp Application.New
    [("GET".toList, "/{x}".toList, some [printHandler "x".toList]),
     ("GET".toList, "/:x/{y}".toList, some [printHandler "y".toList])]

/-! ## Patterns of literals and parameters -/

/-- A segment of a pattern without constraints: a literal, or a parameter
`{name}`. -/
inductive PatSeg where
  | lit (s : Str)
  | par (name : Str)
  deriving DecidableEq

/-- The text of a segment in a pattern. -/
def PatSeg.text : PatSeg → Str
  | .lit s => s
  | .par name => braces name

/-- The pattern `/s1/.../sn` of a list of segments. -/
def patternOf (segs : List PatSeg) : Str := joinPath (segs.map PatSeg.text)

/-- The parameter names of a list of segments, in order. -/
def parNames : List PatSeg → List Str
  | [] => []
  | .lit _ :: rest => parNames rest
  | .par name :: rest => name :: parNames rest

/-- The literal segments of a list of segments, in order. -/
def litTexts : List PatSeg → List Str
  | [] => []
  | .lit s :: rest => s :: litTexts rest
  | .par _ :: rest => litTexts rest

/-- What the pairs `kvs` put in the place of the placeholder `:name`: the
escaped value of the first pair whose key prints as `name`. -/
def valueFor (kvs : List (Value × Value)) (name : Str) : Str :=
  match kvs.find? (fun p => decide (Sprint p.1 = name)) with
  | some p => QueryEscape (Sprint p.2)
  | none => ':' :: name

/-- A segment with its parameter replaced by its value. -/
def PatSeg.fill (kvs : List (Value × Value)) : PatSeg → Str
  | .lit s => s
  | .par name => valueFor kvs name

/-- The classification `addRoute` gives to a segment. -/
def PatSeg.info : PatSeg → segInfo
  | .lit s => literalSeg s
  | .par name => ⟨paramNode, ':' :: name, [], [name]⟩

/-- The arguments of `URL` for a list of pairs. -/
def pairArgs (kvs : List (Value × Value)) : List Value := kvs.flatMap (fun p => [p.1, p.2])

/-- The names `aa`, `ab`, ..., 257 of them. -/
def wideNames : List Str :=
  ("abcdefghij".toList.flatMap (fun a =>
    "abcdefghijklmnopqrstuvwxyz".toList.map (fun b => [a, b]))).take 257

/-- The segments `{aa}`, `{ab}`, ... of a pattern with 257 parameters. -/
def wideSegs : List PatSeg := wideNames.map PatSeg.par

/-- The pairs that give the value `x` to each of the 257 names. -/
def widePairs : List (Value × Value) := wideNames.map (fun n => (.str n, .str "x".toList))

/-- An application with one route, named `w`, whose pattern has the 257
parameters of `wideSegs`. -/
def wideApp : Option Application :=
  (Application.New.addRoute goRegexp "GET".toList (patternOf wideSegs)
    (some [printHandler "w".toList])).map (fun a => a.nameRoute 0 "w".toList)

/-! ## Theorems -/

theorem segRest_length_lt (path : Str) (h : path ≠ []) :
    (segRest path).length < path.length := by
  cases path with
  | nil => exact absurd rfl h
  | cons c tl =>
    have := (List.dropWhile_sublist (l := tl) (fun c => c != '/')).length_le
    simp only [segRest, List.drop_succ_cons, List.drop_zero, List.length_cons]
    omega

theorem getStatic_eq_findStatic {H : Type} (re : Regexp) (value rest : Str) (pIndex : Nat)
    (ih : rest ≠ [] → ∀ (n : node H) (pv : List Str) (i : Nat),
      node.get re n rest pv i = getOfFind pv i (node.find re n rest))
    (cs : List (node H)) (pv : List Str) :
    getStatic re cs value rest pv pIndex = getOfFind pv pIndex (findStatic re cs value rest) := by
  induction cs with
  | nil => simp [getStatic, findStatic, getOfFind]
  | cons c cs ihc =>
    rw [getStatic, findStatic]
    by_cases hk : c.key = value
    · by_cases hr : rest = []
      · simp [hk, hr, getOfFind, writeVals]
      · simp only [hk, hr, if_true, ne_eq, not_false_eq_true]
        rw [ih hr]
        cases hf : node.find re c rest with
        | none => simp [getOfFind, ihc]
        | some r =>
          obtain ⟨m, vals⟩ := r
          simp only [getOfFind]
          cases hw : writeVals pv pIndex vals with
          | none => simp
          | some b => simp
    · simp [hk, ihc]

theorem getParam_eq_findParam {H : Type} (re : Regexp) (value rest : Str) (pIndex : Nat)
    (ih : rest ≠ [] → ∀ (n : node H) (pv : List Str) (i : Nat),
      node.get re n rest pv i = getOfFind pv i (node.find re n rest))
    (cs : List (node H)) (pv : List Str) :
    getParam re cs value rest pv pIndex = getOfFind pv pIndex (findParam re cs value rest) := by
  induction cs with
  | nil => simp [getParam, findParam, getOfFind]
  | cons c cs ihc =>
    rw [getParam, findParam]
    by_cases hx : (match c.regex with
        | some src => !(re.matchString src value)
        | none => false) = true
    · simp only [hx, if_true, ihc]
    · rw [if_neg hx, if_neg hx]
      by_cases hr : rest = []
      · subst hr
        simp only [ne_eq, not_true_eq_false, if_false]
        by_cases hrt : c.route.isSome = true
        · simp [hrt, getOfFind, writeVals]
        · simp [hrt, ihc]
      · simp only [hr, if_true, ne_eq, not_false_eq_true]
        rw [ih hr]
        cases hf : node.find re c rest with
        | none => simp [getOfFind, ihc]
        | some r =>
          obtain ⟨m, vals⟩ := r
          simp only [getOfFind, writeVals]
          cases hw : writeVals pv ((pIndex + 1) % 256) vals with
          | none => simp
          | some b => simp

theorem get_eq_find_aux {H : Type} (re : Regexp) (k : Nat) :
    ∀ (n : node H) (path : Str) (pv : List Str) (i : Nat), path.length ≤ k → path ≠ [] →
      node.get re n path pv i = getOfFind pv i (node.find re n path) := by
  induction k with
  | zero =>
    intro n path pv i hl hne
    cases path with
    | nil => exact absurd rfl hne
    | cons c tl => simp at hl
  | succ k ih =>
    intro n path pv i hl hne
    have hlt := segRest_length_lt path hne
    have ih1 : segRest path ≠ [] → ∀ (n : node H) (pv : List Str) (i : Nat),
        node.get re n (segRest path) pv i = getOfFind pv i (node.find re n (segRest path)) :=
      fun hr n pv i => ih n (segRest path) pv i (by omega) hr
    obtain ⟨t, key, p, ks, cs, ps, w, rx, rt⟩ := n
    obtain ⟨c, tl, rfl⟩ := List.exists_cons_of_ne_nil hne
    simp only [node.get, node.find]
    by_cases hp : c :: tl = ['/']
    · obtain ⟨rfl, rfl⟩ := List.cons.inj hp
      simp only [if_true]
      cases rt with
      | some r => simp [getOfFind, writeVals]
      | none =>
        cases w with
        | none => simp [getOfFind]
        | some wc => simp [getOfFind, writeVals]
    · simp only [hp, if_false]
      rw [getStatic_eq_findStatic re _ _ i ih1]
      cases hs : findStatic re cs (segValue (c :: tl)) (segRest (c :: tl)) with
      | some r =>
        obtain ⟨m, vals⟩ := r
        simp only [getOfFind]
        cases hw : writeVals pv i vals with
        | none => simp
        | some b => simp
      | none =>
        simp only [getOfFind]
        rw [getParam_eq_findParam re _ _ i ih1]
        cases hq : findParam re ps (segValue (c :: tl)) (segRest (c :: tl)) with
        | some r =>
          obtain ⟨m, vals⟩ := r
          simp only [getOfFind]
          cases hw : writeVals pv i vals with
          | none => simp
          | some b => simp
        | none =>
          cases w with
          | none => simp [getOfFind]
          | some wc => simp [getOfFind, writeVals]

/-- `node.get` is `node.find` followed by the writes of the bound values. -/
theorem get_eq_find {H : Type} (re : Regexp) (n : node H) (path : Str) (pv : List Str)
    (i : Nat) (hne : path ≠ []) :
    node.get re n path pv i = getOfFind pv i (node.find re n path) :=
  get_eq_find_aux re path.length n path pv i (Nat.le_refl _) hne

theorem repList_iff {H : Type} (G : Str → Option Str → Prop) (kind : Nat)
    (cs : List (node H)) (P : List (Entry H)) :
    RepList G kind cs P ↔ ∀ c ∈ cs, sub kind c.key P ≠ [] ∧
      (kind = paramNode → G c.key c.regex) ∧ Rep G c (sub kind c.key P) := by
  induction cs with
  | nil => simp [RepList]
  | cons c cs ih => simp [RepList, ih]

theorem splitSlash_ne_nil (s : Str) : splitSlash s ≠ [] := by
  cases s with
  | nil => simp [splitSlash]
  | cons c cs =>
    rw [splitSlash]
    split
    · simp
    · split <;> simp

theorem splitSlash_eq (s : Str) :
    splitSlash s = s.takeWhile (fun c => c != '/') ::
      (match s.dropWhile (fun c => c != '/') with
       | [] => []
       | _ :: tl => splitSlash tl) := by
  induction s with
  | nil => simp [splitSlash]
  | cons c cs ih =>
    rw [splitSlash]
    by_cases hc : c = '/'
    · subst hc
      simp [List.takeWhile, List.dropWhile]
    · have hb : (c != '/') = true := by simpa using hc
      rw [if_neg hc, ih]
      simp [List.takeWhile, List.dropWhile, hb]

theorem joinSlash_splitSlash (s : Str) : joinSlash (splitSlash s) = s := by
  induction s with
  | nil => simp [splitSlash, joinSlash, List.intercalate]
  | cons c cs ih =>
    rw [splitSlash]
    by_cases hc : c = '/'
    · subst hc
      rw [if_pos rfl]
      obtain ⟨hd, tl, h⟩ := List.exists_cons_of_ne_nil (splitSlash_ne_nil cs)
      rw [h] at ih ⊢
      simp only [joinSlash, List.intercalate] at ih ⊢
      simp only [List.intersperse, List.flatten, List.nil_append, List.singleton_append]
      rw [← ih]
      
    · rw [if_neg hc]
      obtain ⟨hd, tl, h⟩ := List.exists_cons_of_ne_nil (splitSlash_ne_nil cs)
      rw [h] at ih ⊢
      simp only [joinSlash, List.intercalate] at ih ⊢
      cases tl with
      | nil => simpa using ih
      | cons t ts =>
        simp only [List.intersperse, List.flatten, List.cons_append] at ih ⊢
        rw [ih]

theorem pathSegs_end (R : Str) (hr : segRest R = []) : pathSegs R = [segValue R] := by
  unfold pathSegs
  rw [splitSlash_eq]
  unfold segRest at hr
  unfold segValue
  rw [hr]

theorem pathSegs_step (R : Str) (hr : segRest R ≠ []) :
    pathSegs R = segValue R :: pathSegs (segRest R) := by
  unfold pathSegs
  rw [splitSlash_eq]
  unfold segRest at hr
  unfold segValue segRest
  obtain ⟨d, tl, h⟩ := List.exists_cons_of_ne_nil hr
  rw [h]
  simp

theorem getLast?_of_suffix {α : Type} (l1 l2 : List α) (h : l1 <:+ l2) (hne : l1 ≠ []) :
    l1.getLast? = l2.getLast? := by
  obtain ⟨t, rfl⟩ := h
  rw [List.getLast?_append_of_ne_nil _ hne]

theorem segRest_suffix (R : Str) : segRest R <:+ R :=
  (List.dropWhile_suffix _).trans (List.drop_suffix 1 R)

theorem pathOK_rest (R : Str) (h : PathOK R) (hr : segRest R ≠ []) : PathOK (segRest R) := by
  refine ⟨hr, ?_⟩
  rw [getLast?_of_suffix _ _ (segRest_suffix R) hr]
  exact h.2

theorem pathOK_ne_slash (R : Str) (h : PathOK R) : R ≠ ['/'] := by
  intro hR
  apply h.2
  rw [hR]
  rfl

theorem drop_one_eq_join (R : Str) : R.drop 1 = joinSlash (pathSegs R) := by
  unfold pathSegs
  rw [joinSlash_splitSlash]

theorem pathSegs_ne_nil (R : Str) : pathSegs R ≠ [] := splitSlash_ne_nil _

theorem findStatic_some {H : Type} (re : Regexp) (value rest : Str) (m : node H)
    (vals : List Str) (cs : List (node H))
    (h : findStatic re cs value rest = some (m, vals)) :
    ∃ c ∈ cs, c.key = value ∧
      ((rest = [] ∧ m = c ∧ vals = []) ∨ (rest ≠ [] ∧ node.find re c rest = some (m, vals))) := by
  induction cs with
  | nil => simp [findStatic] at h
  | cons c cs ih =>
    rw [findStatic] at h
    by_cases hk : c.key = value
    · rw [if_pos hk] at h
      by_cases hr : rest = []
      · subst hr
        simp only [ne_eq, not_true_eq_false, if_false, Option.some.injEq, Prod.mk.injEq] at h
        exact ⟨c, List.mem_cons_self _ _, hk, Or.inl ⟨rfl, h.1.symm, h.2.symm⟩⟩
      · rw [if_pos hr] at h
        cases hf : node.find re c rest with
        | some r =>
          rw [hf] at h
          simp only [Option.some.injEq] at h
          subst h
          exact ⟨c, List.mem_cons_self _ _, hk, Or.inr ⟨hr, hf⟩⟩
        | none =>
          rw [hf] at h
          obtain ⟨c2, hc2, h2⟩ := ih h
          exact ⟨c2, List.mem_cons_of_mem _ hc2, h2⟩
    · rw [if_neg hk] at h
      obtain ⟨c2, hc2, h2⟩ := ih h
      exact ⟨c2, List.mem_cons_of_mem _ hc2, h2⟩

theorem findParam_some {H : Type} (re : Regexp) (value rest : Str) (m : node H)
    (vals : List Str) (cs : List (node H))
    (h : findParam re cs value rest = some (m, vals)) :
    ∃ c ∈ cs, (∀ src, c.regex = some src → re.matchString src value = true) ∧
      ((rest = [] ∧ c.route.isSome = true ∧ m = c ∧ vals = [value]) ∨
       (rest ≠ [] ∧ ∃ vs, node.find re c rest = some (m, vs) ∧ vals = value :: vs)) := by
  induction cs with
  | nil => simp [findParam] at h
  | cons c cs ih =>
    rw [findParam] at h
    by_cases hx : (match c.regex with
        | some src => !(re.matchString src value)
        | none => false) = true
    · rw [if_pos hx] at h
      obtain ⟨c2, hc2, h2⟩ := ih h
      exact ⟨c2, List.mem_cons_of_mem _ hc2, h2⟩
    · rw [if_neg hx] at h
      have hacc : ∀ src, c.regex = some src → re.matchString src value = true := by
        intro src hs
        rw [hs] at hx
        simpa using hx
      by_cases hr : rest = []
      · subst hr
        simp only [ne_eq, not_true_eq_false, if_false] at h
        by_cases hrt : c.route.isSome = true
        · rw [if_pos hrt] at h
          simp only [Option.some.injEq, Prod.mk.injEq] at h
          exact ⟨c, List.mem_cons_self _ _, hacc, Or.inl ⟨rfl, hrt, h.1.symm, h.2.symm⟩⟩
        · rw [if_neg hrt] at h
          obtain ⟨c2, hc2, h2⟩ := ih h
          exact ⟨c2, List.mem_cons_of_mem _ hc2, h2⟩
      · rw [if_pos hr] at h
        cases hf : node.find re c rest with
        | some r =>
          obtain ⟨m1, vs⟩ := r
          rw [hf] at h
          simp only [Option.some.injEq, Prod.mk.injEq] at h
          obtain ⟨rfl, rfl⟩ := h
          exact ⟨c, List.mem_cons_self _ _, hacc, Or.inr ⟨hr, vs, hf, rfl⟩⟩
        | none =>
          rw [hf] at h
          obtain ⟨c2, hc2, h2⟩ := ih h
          exact ⟨c2, List.mem_cons_of_mem _ hc2, h2⟩

theorem mem_sub {H : Type} (kind : Nat) (key : Str) (P : List (Entry H)) (e1 : Entry H) :
    e1 ∈ sub kind key P ↔ ∃ e ∈ P, ∃ sg, e.segs = sg :: e1.segs ∧ sg.nType = kind ∧
      (kind = catchAllNode ∨ sg.key = key) ∧ e1.pKeys = e.pKeys ∧ e1.route = e.route := by
  unfold sub
  rw [List.mem_filterMap]
  constructor
  · rintro ⟨e, he, hb⟩
    refine ⟨e, he, ?_⟩
    unfold Entry.below at hb
    cases hs : e.segs with
    | nil => rw [hs] at hb; simp at hb
    | cons sg rest =>
      rw [hs] at hb
      simp only at hb
      split at hb
      · rename_i hc
        simp only [Option.some.injEq] at hb
        subst hb
        exact ⟨sg, rfl, hc.1, hc.2, rfl, rfl⟩
      · simp at hb
  · rintro ⟨e, he, sg, hs, hk, hc, hp, hr⟩
    refine ⟨e, he, ?_⟩
    unfold Entry.below
    rw [hs]
    simp only
    rw [if_pos ⟨hk, hc⟩]
    obtain ⟨s1, p1, r1⟩ := e1
    simp only at hp hr
    subst hp hr
    rfl

theorem sub_catchAll_key {H : Type} (k1 k2 : Str) (P : List (Entry H)) :
    sub catchAllNode k1 P = sub catchAllNode k2 P := by
  unfold sub
  congr 1
  funext e
  unfold Entry.below
  cases e.segs with
  | nil => rfl
  | cons sg rest => simp

theorem allParams_sub {H : Type} (A : segInfo → Prop) (kind : Nat) (key : Str)
    (P : List (Entry H)) (h : AllParams A P) : AllParams A (sub kind key P) := by
  intro e1 he1 sg hsg hp
  obtain ⟨e, he, sg0, hs, -, -, -, -⟩ := (mem_sub kind key P e1).1 he1
  exact h e he sg (by rw [hs]; exact List.mem_cons_of_mem _ hsg) hp

theorem subs_append {H : Type} (pre1 pre2 : List segInfo) (P : List (Entry H)) :
    subs (pre1 ++ pre2) P = subs pre2 (subs pre1 P) := by
  induction pre1 generalizing P with
  | nil => rfl
  | cons sg pre1 ih => simp [subs, ih]

theorem mem_matchValues_static (re : Regexp) (sg : segInfo) (pat : List segInfo) (v : Str)
    (vs : List Str) (vals : List Str) (ht : sg.nType = staticNode) (hk : sg.key = v)
    (h : vals ∈ matchValues re pat vs) : vals ∈ matchValues re (sg :: pat) (v :: vs) := by
  rw [matchValues, if_pos ht, if_pos hk]
  exact h

theorem mem_matchValues_param (re : Regexp) (sg : segInfo) (pat : List segInfo) (v : Str)
    (vs : List Str) (vals : List Str) (ht : sg.nType = paramNode)
    (hk : sg.pattern = [] ∨ re.matchString (anchored sg.pattern) v = true)
    (h : vals ∈ matchValues re pat vs) : (v :: vals) ∈ matchValues re (sg :: pat) (v :: vs) := by
  have h0 : sg.nType ≠ staticNode := by rw [ht]; decide
  rw [matchValues, if_neg h0, if_pos ht, if_pos hk]
  exact List.mem_map_of_mem _ h

theorem mem_matchValues_catchAll (re : Regexp) (sg : segInfo) (vs : List Str)
    (ht : sg.nType = catchAllNode) (hvs : vs ≠ []) :
    [joinSlash vs] ∈ matchValues re [sg] vs := by
  have h0 : sg.nType ≠ staticNode := by rw [ht]; decide
  have h1 : sg.nType ≠ paramNode := by rw [ht]; decide
  simp only [matchValues, if_neg h0, if_neg h1, if_pos ht]
  rw [List.mem_flatMap]
  refine ⟨vs.length - 1, ?_, ?_⟩
  · rw [List.mem_range]
    have := List.length_pos.2 hvs
    omega
  · have hl : vs.length - 1 + 1 = vs.length := by
      have := List.length_pos.2 hvs
      omega
    rw [hl]
    simp [matchValues]

theorem rep_iff {H : Type} (G : Str → Option Str → Prop) (n : node H)
    (P : List (Entry H)) :
    Rep G n P ↔
      n.route = (terminal P).map (fun e => e.route) ∧
      n.pKeys = ((terminal P).map (fun e => e.pKeys)).getD [] ∧
      (n.children.map node.key).Nodup ∧ (n.pChildren.map node.key).Nodup ∧
      (∀ e ∈ P, ∀ sg rest, e.segs = sg :: rest → sg.nType = staticNode →
        sg.key ∈ n.children.map node.key) ∧
      (∀ e ∈ P, ∀ sg rest, e.segs = sg :: rest → sg.nType = paramNode →
        sg.key ∈ n.pChildren.map node.key) ∧
      (∀ c ∈ n.children, sub staticNode c.key P ≠ [] ∧ Rep G c (sub staticNode c.key P)) ∧
      (∀ c ∈ n.pChildren, sub paramNode c.key P ≠ [] ∧ G c.key c.regex ∧
        Rep G c (sub paramNode c.key P)) ∧
      RepOpt G n.wChildren P := by
  obtain ⟨t, key, p, ks, cs, ps, w, rx, rt⟩ := n
  simp only [Rep, repList_iff, node.route, node.pKeys, node.children, node.pChildren,
    node.wChildren]
  have h01 : ¬ (staticNode = paramNode) := by decide
  simp [h01]

theorem find_eq {H : Type} (re : Regexp) (n : node H) (path : Str) :
    node.find re n path =
      if path = ['/'] then
        if n.route.isSome then some (n, []) else n.wChildren.map (fun wc => (wc, [path.drop 1]))
      else
        match findStatic re n.children (segValue path) (segRest path) with
        | some r => some r
        | none =>
          match findParam re n.pChildren (segValue path) (segRest path) with
          | some r => some r
          | none => n.wChildren.map (fun wc => (wc, [path.drop 1])) := by
  obtain ⟨t, key, p, ks, cs, ps, w, rx, rt⟩ := n
  simp only [node.find, node.route, node.children, node.pChildren, node.wChildren]
  cases w <;> rfl

theorem sub_head {H : Type} (kind : Nat) (key : Str) (P : List (Entry H))
    (h : sub kind key P ≠ []) :
    ∃ e ∈ P, ∃ sg rest, e.segs = sg :: rest ∧ sg.nType = kind ∧
      (kind = catchAllNode ∨ sg.key = key) := by
  obtain ⟨e1, tl, h1⟩ := List.exists_cons_of_ne_nil h
  have he1 : e1 ∈ sub kind key P := by rw [h1]; exact List.mem_cons_self _ _
  obtain ⟨e, he, sg, hs, hk, hc, -, -⟩ := (mem_sub kind key P e1).1 he1
  exact ⟨e, he, sg, e1.segs, hs, hk, hc⟩

theorem find_sound_aux {H : Type} (G : Str → Option Str → Prop) (A : segInfo → Prop)
    (re re2 : Regexp)
    (hlink : ∀ (key : Str) (rx : Option Str) (sg : segInfo) (value : Str), G key rx → A sg →
      sg.key = key → (∀ src, rx = some src → re.matchString src value = true) →
      (sg.pattern = [] ∨ re2.matchString (anchored sg.pattern) value = true))
    (k : Nat) :
    ∀ (n : node H) (P : List (Entry H)) (R : Str) (m : node H) (vals : List Str),
      R.length ≤ k → PathOK R → Rep G n P → AllParams A P →
      node.find re n R = some (m, vals) →
      ∃ e ∈ P, ∃ pre post, e.segs = pre ++ post ∧ pre ≠ [] ∧ Rep G m (subs pre P) ∧
        vals ∈ matchValues re2 pre (pathSegs R) := by
  induction k with
  | zero =>
    intro n P R m vals hl hok
    exact absurd (List.length_eq_zero.1 (Nat.le_zero.1 hl)) hok.1
  | succ k ih =>
    intro n P R m vals hl hok hrep hcons hfind
    have hlt := segRest_length_lt R hok.1
    rw [find_eq, if_neg (pathOK_ne_slash R hok)] at hfind
    rw [rep_iff] at hrep
    obtain ⟨-, -, -, -, -, -, hcs, hps, hw⟩ := hrep
    cases hs : findStatic re n.children (segValue R) (segRest R) with
    | some r =>
      rw [hs] at hfind
      simp only [Option.some.injEq] at hfind
      subst hfind
      obtain ⟨c, hc, hkey, hcase⟩ := findStatic_some re _ _ m vals _ hs
      obtain ⟨hne, hrc⟩ := hcs c hc
      rcases hcase with ⟨hr, rfl, rfl⟩ | ⟨hr, hf⟩
      · obtain ⟨e, he, sg, rest, hsegs, ht, hk⟩ := sub_head _ _ _ hne
        have hk' : sg.key = m.key := by
          rcases hk with hk | hk
          · exact absurd hk (by decide)
          · exact hk
        refine ⟨e, he, [sg], rest, by simpa using hsegs, by simp, ?_, ?_⟩
        · simp only [subs]
          rw [ht, hk']
          exact hrc
        · rw [pathSegs_end R hr]
          exact mem_matchValues_static re2 sg [] _ [] [] ht (hk'.trans hkey)
            (by simp [matchValues])
      · obtain ⟨e1, he1, pre1, post, hsegs1, -, hrm, hvals⟩ :=
          ih c _ (segRest R) m vals (by omega) (pathOK_rest R hok hr) hrc
            (allParams_sub A _ _ P hcons) hf
        obtain ⟨e, he, sg, hsegs, ht, hk, -, -⟩ := (mem_sub _ _ P e1).1 he1
        have hk' : sg.key = c.key := by
          rcases hk with hk | hk
          · exact absurd hk (by decide)
          · exact hk
        refine ⟨e, he, sg :: pre1, post, by rw [hsegs, hsegs1]; rfl, by simp, ?_, ?_⟩
        · simp only [subs]
          rw [ht, hk']
          exact hrm
        · rw [pathSegs_step R hr]
          exact mem_matchValues_static re2 sg pre1 _ _ vals ht (hk'.trans hkey) hvals
    | none =>
      rw [hs] at hfind
      simp only at hfind
      cases hq : findParam re n.pChildren (segValue R) (segRest R) with
      | some r =>
        rw [hq] at hfind
        simp only [Option.some.injEq] at hfind
        subst hfind
        obtain ⟨c, hc, hacc, hcase⟩ := findParam_some re _ _ m vals _ hq
        obtain ⟨hne, hrx, hrc⟩ := hps c hc
        have hmatch : ∀ sg : segInfo, sg.key = c.key → A sg →
            (sg.pattern = [] ∨ re2.matchString (anchored sg.pattern) (segValue R) = true) :=
          fun sg hk hp => hlink c.key c.regex sg (segValue R) hrx hp hk hacc
        rcases hcase with ⟨hr, -, rfl, rfl⟩ | ⟨hr, vs, hf, rfl⟩
        · obtain ⟨e, he, sg, rest, hsegs, ht, hk⟩ := sub_head _ _ _ hne
          have hk' : sg.key = m.key := by
            rcases hk with hk | hk
            · exact absurd hk (by decide)
            · exact hk
          have hp : A sg :=
            hcons e he sg (by rw [hsegs]; exact List.mem_cons_self _ _) ht
          refine ⟨e, he, [sg], rest, by simpa using hsegs, by simp, ?_, ?_⟩
          · simp only [subs]
            rw [ht, hk']
            exact hrc
          · rw [pathSegs_end R hr]
            exact mem_matchValues_param re2 sg [] _ [] [] ht (hmatch sg hk' hp)
              (by simp [matchValues])
        · obtain ⟨e1, he1, pre1, post, hsegs1, -, hrm, hvals⟩ :=
            ih c _ (segRest R) m vs (by omega) (pathOK_rest R hok hr) hrc
              (allParams_sub A _ _ P hcons) hf
          obtain ⟨e, he, sg, hsegs, ht, hk, -, -⟩ := (mem_sub _ _ P e1).1 he1
          have hk' : sg.key = c.key := by
            rcases hk with hk | hk
            · exact absurd hk (by decide)
            · exact hk
          have hp : A sg :=
            hcons e he sg (by rw [hsegs]; exact List.mem_cons_self _ _) ht
          refine ⟨e, he, sg :: pre1, post, by rw [hsegs, hsegs1]; rfl, by simp, ?_, ?_⟩
          · simp only [subs]
            rw [ht, hk']
            exact hrm
          · rw [pathSegs_step R hr]
            exact mem_matchValues_param re2 sg pre1 _ _ vs ht (hmatch sg hk' hp) hvals
      | none =>
        rw [hq] at hfind
        simp only at hfind
        cases hwc : n.wChildren with
        | none => rw [hwc] at hfind; simp at hfind
        | some wc =>
          rw [hwc] at hfind hw
          simp only [Option.map_some', Option.some.injEq, Prod.mk.injEq] at hfind
          obtain ⟨rfl, rfl⟩ := hfind
          simp only [RepOpt] at hw
          obtain ⟨hne, hrw⟩ := hw
          obtain ⟨e, he, sg, rest, hsegs, ht, -⟩ := sub_head _ _ _ hne
          refine ⟨e, he, [sg], rest, by simpa using hsegs, by simp, ?_, ?_⟩
          · simp only [subs]
            rw [ht, sub_catchAll_key sg.key []]
            exact hrw
          · rw [drop_one_eq_join]
            exact mem_matchValues_catchAll re2 sg _ ht (pathSegs_ne_nil R)

theorem terminal_append_end {H : Type} (P : List (Entry H)) (e : Entry H) (h : e.segs = []) :
    terminal (P ++ [e]) = some e := by
  unfold terminal
  rw [List.filter_append]
  simp [h]

theorem terminal_append_pass {H : Type} (P : List (Entry H)) (e : Entry H) (h : e.segs ≠ []) :
    terminal (P ++ [e]) = terminal P := by
  unfold terminal
  rw [List.filter_append]
  have : List.filter (fun e => e.segs.isEmpty) [e] = [] := by
    cases hs : e.segs with
    | nil => exact absurd hs h
    | cons a b => simp [List.filter, hs]
  rw [this, List.append_nil]

theorem sub_append {H : Type} (kind : Nat) (key : Str) (P : List (Entry H)) (e : Entry H) :
    sub kind key (P ++ [e]) = sub kind key P ++ (Entry.below kind key e).toList := by
  unfold sub
  rw [List.filterMap_append]
  cases h : Entry.below kind key e <;> simp [List.filterMap, h]

theorem below_nil {H : Type} (kind : Nat) (key : Str) (e : Entry H) (h : e.segs = []) :
    Entry.below kind key e = none := by
  unfold Entry.below
  rw [h]

theorem below_cons {H : Type} (kind : Nat) (key : Str) (sg : segInfo) (rest : List segInfo)
    (pk : List Str) (r : Route H) :
    Entry.below kind key ⟨sg :: rest, pk, r⟩ =
      if sg.nType = kind ∧ (kind = catchAllNode ∨ sg.key = key) then some ⟨rest, pk, r⟩
      else none := rfl

theorem find?_key_some {H : Type} (k : Str) (l : List (node H)) (c : node H)
    (h : l.find? (fun child => child.key = k) = some c) : c ∈ l ∧ c.key = k := by
  refine ⟨List.mem_of_find?_eq_some h, ?_⟩
  have := List.find?_some h
  simpa using this

theorem map_key_replaceFirst {H : Type} (k : Str) (c1 : node H) (l : List (node H))
    (h : c1.key = k) : (replaceFirst k c1 l).map node.key = l.map node.key := by
  induction l with
  | nil => rfl
  | cons c cs ih =>
    rw [replaceFirst]
    by_cases hk : c.key = k
    · rw [if_pos hk]
      simp [h, hk]
    · rw [if_neg hk]
      simp [ih]

theorem mem_replaceFirst {H : Type} (k : Str) (c1 : node H) (l : List (node H))
    (hnd : (l.map node.key).Nodup) (x : node H) (hx : x ∈ replaceFirst k c1 l) :
    x = c1 ∨ (x ∈ l ∧ x.key ≠ k) := by
  induction l with
  | nil => simp [replaceFirst] at hx
  | cons c cs ih =>
    rw [replaceFirst] at hx
    rw [List.map_cons, List.nodup_cons] at hnd
    by_cases hk : c.key = k
    · rw [if_pos hk] at hx
      rcases List.mem_cons.1 hx with h | h
      · exact Or.inl h
      · right
        refine ⟨List.mem_cons_of_mem _ h, ?_⟩
        intro hxk
        apply hnd.1
        rw [hk, ← hxk]
        exact List.mem_map_of_mem _ h
    · rw [if_neg hk] at hx
      rcases List.mem_cons.1 hx with h | h
      · right
        subst h
        exact ⟨List.mem_cons_self _ _, hk⟩
      · rcases ih hnd.2 h with h1 | ⟨h1, h2⟩
        · exact Or.inl h1
        · exact Or.inr ⟨List.mem_cons_of_mem _ h1, h2⟩

theorem any_key_iff {H : Type} (k : Str) (l : List (node H)) :
    l.any (fun child => decide (child.key = k)) = true ↔ k ∈ l.map node.key := by
  simp only [List.any_eq_true, decide_eq_true_eq, List.mem_map]

theorem find?_append_fresh {H : Type} (k : Str) (l : List (node H)) (c : node H)
    (hk : c.key = k) (hn : k ∉ l.map node.key) :
    (l ++ [c]).find? (fun child => child.key = k) = some c := by
  induction l with
  | nil => simp [List.find?, hk]
  | cons d ds ih =>
    rw [List.map_cons, List.mem_cons, not_or] at hn
    have hd : ¬ d.key = k := fun h => hn.1 h.symm
    simp only [List.cons_append, List.find?, hd, decide_False]
    exact ih hn.2

theorem mem_find?_key {H : Type} (k : Str) (l : List (node H)) (h : k ∈ l.map node.key) :
    ∃ c, l.find? (fun child => child.key = k) = some c := by
  cases hf : l.find? (fun child => decide (child.key = k)) with
  | some c => exact ⟨c, rfl⟩
  | none =>
    rw [List.find?_eq_none] at hf
    obtain ⟨c, hc, hk⟩ := List.mem_map.1 h
    exact absurd (by simpa using hk) (hf c hc)

theorem addParts_cons_some {H : Type} (re : Regexp) (s : Str) (parts : List Str)
    (n n1 : node H) (acc : List Str) (path : Str) (route : Route H)
    (h : addParts re (s :: parts) n acc path route = some n1) :
    ∃ sg pn1 child c1, parseSeg s = some sg ∧
      ((n.hasChild sg.key = true ∧ pn1 = n) ∨
       (n.hasChild sg.key = false ∧
        ¬ (sg.pattern ≠ [] ∧ re.compiles (anchored sg.pattern) = false) ∧
        pn1 = n.attach (newChild sg))) ∧
      pn1.getChild sg.key = some child ∧
      addParts re parts child (acc ++ sg.pKeys) path route = some c1 ∧
      n1 = pn1.setChild sg.key c1 := by
  rw [addParts] at h
  cases hp : parseSeg s with
  | none => rw [hp] at h; simp at h
  | some sg =>
    rw [hp] at h
    simp only at h
    by_cases hh : n.hasChild sg.key = true
    · rw [if_pos hh] at h
      simp only at h
      cases hg : n.getChild sg.key with
      | none => rw [hg] at h; simp at h
      | some child =>
        rw [hg] at h
        simp only [Option.map_eq_some'] at h
        obtain ⟨c1, hc1, rfl⟩ := h
        exact ⟨sg, n, child, c1, rfl, Or.inl ⟨hh, rfl⟩, hg, hc1, rfl⟩
    · rw [if_neg hh] at h
      by_cases hc : sg.pattern ≠ [] ∧ re.compiles (anchored sg.pattern) = false
      · rw [if_pos hc] at h
        simp at h
      · rw [if_neg hc] at h
        simp only at h
        cases hg : (n.attach (newChild sg)).getChild sg.key with
        | none => rw [hg] at h; simp at h
        | some child =>
          rw [hg] at h
          simp only [Option.map_eq_some'] at h
          obtain ⟨c1, hc1, rfl⟩ := h
          exact ⟨sg, _, child, c1, rfl, Or.inr ⟨by simpa using hh, hc, rfl⟩, hg, hc1, rfl⟩

theorem addParts_root {H : Type} (re : Regexp) (parts : List Str)
    (n n1 : node H) (acc : List Str) (path : Str) (route : Route H)
    (h : addParts re parts n acc path route = some n1) :
    n1.key = n.key ∧ n1.regex = n.regex ∧ n1.nType = n.nType := by
  cases parts with
  | nil =>
    rw [addParts] at h
    simp only [Option.some.injEq] at h
    subst h
    exact ⟨rfl, rfl, rfl⟩
  | cons s parts =>
    obtain ⟨sg, pn1, child, c1, -, hg, -, -, rfl⟩ := addParts_cons_some re s parts n n1 acc path route h
    have h1 : pn1.key = n.key ∧ pn1.regex = n.regex ∧ pn1.nType = n.nType := by
      rcases hg with ⟨-, rfl⟩ | ⟨-, -, rfl⟩
      · exact ⟨rfl, rfl, rfl⟩
      · unfold node.attach
        split
        · exact ⟨rfl, rfl, rfl⟩
        · split
          · exact ⟨rfl, rfl, rfl⟩
          · split
            · exact ⟨rfl, rfl, rfl⟩
            · exact ⟨rfl, rfl, rfl⟩
    unfold node.setChild
    split
    · exact h1
    · split
      · exact h1
      · exact h1

theorem sub_append_other {H : Type} (kind : Nat) (key : Str) (P : List (Entry H))
    (sg : segInfo) (rest : List segInfo) (pk : List Str) (r : Route H)
    (h : sg.nType ≠ kind ∨ (kind ≠ catchAllNode ∧ sg.key ≠ key)) :
    sub kind key (P ++ [⟨sg :: rest, pk, r⟩]) = sub kind key P := by
  rw [sub_append, below_cons, if_neg]
  · simp
  · rintro ⟨h1, h2⟩
    rcases h with h | ⟨h3, h4⟩
    · exact h h1
    · rcases h2 with h2 | h2
      · exact h3 h2
      · exact h4 h2

theorem sub_append_same {H : Type} (kind : Nat) (key : Str) (P : List (Entry H))
    (sg : segInfo) (rest : List segInfo) (pk : List Str) (r : Route H)
    (h : sg.nType = kind) (hk : kind = catchAllNode ∨ sg.key = key) :
    sub kind key (P ++ [⟨sg :: rest, pk, r⟩]) = sub kind key P ++ [⟨rest, pk, r⟩] := by
  rw [sub_append, below_cons, if_pos ⟨h, hk⟩]
  rfl

theorem rep_newChild {H : Type} (G : Str → Option Str → Prop) (sg : segInfo) :
    Rep G (newChild sg : node H) [] := by
  rw [rep_iff]
  simp [newChild, node.route, node.pKeys, node.children, node.pChildren, node.wChildren,
    terminal, RepOpt, sub]

theorem regex_newChild {H : Type} (C : Str → Str) (sg : segInfo) (h : sg.pattern = C sg.key) :
    (newChild sg : node H).regex = regexOf C sg.key := by
  unfold newChild regexOf node.regex
  rw [h]
  by_cases hC : C sg.key = []
  · simp [hC]
  · simp [hC]

/-- The update of the list of children of one kind by a registration whose
next segment is of that kind. -/
theorem repList_update {H : Type} (G : Str → Option Str → Prop) (kind : Nat)
    (hkind : kind ≠ catchAllNode)
    (l l1 : List (node H)) (P : List (Entry H)) (sg : segInfo) (segs : List segInfo)
    (pk : List Str) (route : Route H) (fresh child c1 : node H)
    (hsg : sg.nType = kind)
    (hl : ∀ c ∈ l, sub kind c.key P ≠ [] ∧ (kind = paramNode → G c.key c.regex) ∧
      Rep G c (sub kind c.key P))
    (hnd : (l.map node.key).Nodup)
    (hcov : ∀ e ∈ P, ∀ sg rest, e.segs = sg :: rest → sg.nType = kind →
      sg.key ∈ l.map node.key)
    (hfk : fresh.key = sg.key) (hfr : kind = paramNode → G sg.key fresh.regex)
    (hfrep : Rep G fresh [])
    (hl1 : (sg.key ∈ l.map node.key ∧ l1 = l) ∨ (sg.key ∉ l.map node.key ∧ l1 = l ++ [fresh]))
    (hchild : l1.find? (fun c => c.key = sg.key) = some child)
    (hc1 : ∀ Pc, Rep G child Pc → Rep G c1 (Pc ++ [⟨segs, pk, route⟩]))
    (hkey : c1.key = child.key) (hregex : c1.regex = child.regex) :
    ((replaceFirst sg.key c1 l1).map node.key).Nodup ∧
    (∀ e ∈ P ++ [⟨sg :: segs, pk, route⟩], ∀ sg1 rest, e.segs = sg1 :: rest →
      sg1.nType = kind → sg1.key ∈ (replaceFirst sg.key c1 l1).map node.key) ∧
    (∀ c ∈ replaceFirst sg.key c1 l1,
      sub kind c.key (P ++ [⟨sg :: segs, pk, route⟩]) ≠ [] ∧
      (kind = paramNode → G c.key c.regex) ∧
      Rep G c (sub kind c.key (P ++ [⟨sg :: segs, pk, route⟩]))) := by
  obtain ⟨hchild_mem, hchild_key⟩ := find?_key_some _ _ _ hchild
  have hc1k : c1.key = sg.key := hkey.trans hchild_key
  have hkeys1 : l1.map node.key = l.map node.key ∨
      (sg.key ∉ l.map node.key ∧ l1.map node.key = l.map node.key ++ [sg.key]) := by
    rcases hl1 with ⟨-, rfl⟩ | ⟨hn, rfl⟩
    · exact Or.inl rfl
    · right
      exact ⟨hn, by simp [hfk]⟩
  have hnd1 : (l1.map node.key).Nodup := by
    rcases hkeys1 with h | ⟨hn, h⟩
    · rw [h]; exact hnd
    · rw [h]
      exact List.Nodup.append hnd (List.nodup_singleton _) (by simpa using hn)
  have hsub1 : ∀ x ∈ l.map node.key, x ∈ l1.map node.key := by
    intro x hx
    rcases hkeys1 with h | ⟨-, h⟩
    · rw [h]; exact hx
    · rw [h]; exact List.mem_append_left _ hx
  have hsgmem : sg.key ∈ l1.map node.key := by
    rw [← hchild_key]
    exact List.mem_map_of_mem _ hchild_mem
  -- what the node `child` stood for before
  have hchild_rep : Rep G child (sub kind sg.key P) ∧
      (kind = paramNode → G sg.key child.regex) := by
    rcases hl1 with ⟨-, rfl⟩ | ⟨hn, rfl⟩
    · obtain ⟨-, h2, h3⟩ := hl child hchild_mem
      rw [hchild_key] at h2 h3
      exact ⟨h3, h2⟩
    · rw [find?_append_fresh sg.key l fresh hfk hn] at hchild
      simp only [Option.some.injEq] at hchild
      subst hchild
      have hempty : sub kind sg.key P = [] := by
        by_contra hne
        obtain ⟨e, he, sg0, rest, hs, ht, hk⟩ := sub_head _ _ _ hne
        rcases hk with hk | hk
        · exact hkind hk
        · exact hn (hk ▸ hcov e he sg0 rest hs ht)
      rw [hempty]
      exact ⟨hfrep, hfr⟩
  refine ⟨?_, ?_, ?_⟩
  · rw [map_key_replaceFirst _ _ _ hc1k]
    exact hnd1
  · intro e he sg1 rest hs ht
    rw [map_key_replaceFirst _ _ _ hc1k]
    rcases List.mem_append.1 he with he | he
    · exact hsub1 _ (hcov e he sg1 rest hs ht)
    · simp only [List.mem_singleton] at he
      subst he
      simp only [List.cons.injEq] at hs
      rw [← hs.1]
      exact hsgmem
  · intro c hc
    rcases mem_replaceFirst _ _ _ hnd1 c hc with rfl | ⟨hcm, hck⟩
    · rw [hc1k, sub_append_same kind sg.key P sg segs pk route hsg (Or.inr rfl)]
      refine ⟨by simp, ?_, hc1 _ hchild_rep.1⟩
      intro hp
      rw [hregex]
      exact hchild_rep.2 hp
    · have hcl : c ∈ l := by
        rcases hl1 with ⟨-, rfl⟩ | ⟨-, rfl⟩
        · exact hcm
        · rcases List.mem_append.1 hcm with h | h
          · exact h
          · simp only [List.mem_singleton] at h
            subst h
            exact absurd hfk hck
      rw [sub_append_other kind c.key P sg segs pk route (Or.inr ⟨hkind, fun h => hck h.symm⟩)]
      exact hl c hcl

/-- The lists of children of the other kinds are not affected. -/
theorem repList_other {H : Type} (G : Str → Option Str → Prop) (kind : Nat)
    (l : List (node H)) (P : List (Entry H)) (sg : segInfo) (segs : List segInfo)
    (pk : List Str) (route : Route H) (hsg : sg.nType ≠ kind)
    (hl : ∀ c ∈ l, sub kind c.key P ≠ [] ∧ (kind = paramNode → G c.key c.regex) ∧
      Rep G c (sub kind c.key P))
    (hcov : ∀ e ∈ P, ∀ sg rest, e.segs = sg :: rest → sg.nType = kind →
      sg.key ∈ l.map node.key) :
    (∀ e ∈ P ++ [⟨sg :: segs, pk, route⟩], ∀ sg1 rest, e.segs = sg1 :: rest →
      sg1.nType = kind → sg1.key ∈ l.map node.key) ∧
    (∀ c ∈ l, sub kind c.key (P ++ [⟨sg :: segs, pk, route⟩]) ≠ [] ∧
      (kind = paramNode → G c.key c.regex) ∧
      Rep G c (sub kind c.key (P ++ [⟨sg :: segs, pk, route⟩]))) := by
  constructor
  · intro e he sg1 rest hs ht
    rcases List.mem_append.1 he with he | he
    · exact hcov e he sg1 rest hs ht
    · simp only [List.mem_singleton] at he
      subst he
      simp only [List.cons.injEq] at hs
      rw [← hs.1] at ht
      exact absurd ht hsg
  · intro c hc
    rw [sub_append_other kind c.key P sg segs pk route (Or.inl hsg)]
    exact hl c hc

theorem repOpt_congr {H : Type} (G : Str → Option Str → Prop) (w : Option (node H))
    (P P1 : List (Entry H))
    (h : sub catchAllNode [] P1 = sub catchAllNode [] P) (hw : RepOpt G w P) :
    RepOpt G w P1 := by
  cases w with
  | none => simp only [RepOpt] at hw ⊢; rw [h]; exact hw
  | some wc => simp only [RepOpt] at hw ⊢; rw [h]; exact hw

theorem namesOf_cons (sg : segInfo) (segs : List segInfo) :
    namesOf (sg :: segs) = sg.pKeys ++ namesOf segs := by
  simp [namesOf]

theorem setChild_static {H : Type} (n c : node H) (k : Str) (h1 : k.head? ≠ some ':')
    (h2 : k.head? ≠ some '*') :
    (n.setChild k c).children = replaceFirst k c n.children ∧
    (n.setChild k c).pChildren = n.pChildren ∧ (n.setChild k c).wChildren = n.wChildren ∧
    (n.setChild k c).route = n.route ∧ (n.setChild k c).pKeys = n.pKeys := by
  simp only [node.setChild, h1, h2, if_false]
  exact ⟨rfl, rfl, rfl, rfl, rfl⟩

theorem setChild_param {H : Type} (n c : node H) (k : Str) (h1 : k.head? = some ':') :
    (n.setChild k c).children = n.children ∧
    (n.setChild k c).pChildren = replaceFirst k c n.pChildren ∧
    (n.setChild k c).wChildren = n.wChildren ∧
    (n.setChild k c).route = n.route ∧ (n.setChild k c).pKeys = n.pKeys := by
  simp only [node.setChild, h1, if_true]
  exact ⟨rfl, rfl, rfl, rfl, rfl⟩

theorem setChild_catchAll {H : Type} (n c : node H) (k : Str) (h1 : k.head? = some '*') :
    (n.setChild k c).children = n.children ∧
    (n.setChild k c).pChildren = n.pChildren ∧
    (n.setChild k c).wChildren = some c ∧
    (n.setChild k c).route = n.route ∧ (n.setChild k c).pKeys = n.pKeys := by
  have h0 : k.head? ≠ some ':' := by rw [h1]; decide
  simp only [node.setChild, h0, h1, if_true, if_false]
  exact ⟨rfl, rfl, rfl, rfl, rfl⟩

theorem attach_static {H : Type} (n c : node H) (h : c.nType = staticNode) :
    (n.attach c).children = n.children ++ [c] ∧ (n.attach c).pChildren = n.pChildren ∧
    (n.attach c).wChildren = n.wChildren ∧ (n.attach c).route = n.route ∧
    (n.attach c).pKeys = n.pKeys := by
  unfold node.attach
  rw [if_pos h]
  exact ⟨rfl, rfl, rfl, rfl, rfl⟩

theorem attach_param {H : Type} (n c : node H) (h : c.nType = paramNode) :
    (n.attach c).children = n.children ∧ (n.attach c).pChildren = n.pChildren ++ [c] ∧
    (n.attach c).wChildren = n.wChildren ∧ (n.attach c).route = n.route ∧
    (n.attach c).pKeys = n.pKeys := by
  have h0 : c.nType ≠ staticNode := by rw [h]; decide
  unfold node.attach
  rw [if_neg h0, if_pos h]
  exact ⟨rfl, rfl, rfl, rfl, rfl⟩

theorem attach_catchAll {H : Type} (n c : node H) (h : c.nType = catchAllNode) :
    (n.attach c).children = n.children ∧ (n.attach c).pChildren = n.pChildren ∧
    (n.attach c).wChildren = some c ∧ (n.attach c).route = n.route ∧
    (n.attach c).pKeys = n.pKeys := by
  have h0 : c.nType ≠ staticNode := by rw [h]; decide
  have h1 : c.nType ≠ paramNode := by rw [h]; decide
  unfold node.attach
  rw [if_neg h0, if_neg h1, if_pos h]
  exact ⟨rfl, rfl, rfl, rfl, rfl⟩

/-- Registering a pattern whose segments are well classified turns the tree of
`P` into the tree of `P` followed by the new entry. -/
theorem addParts_rep {H : Type} (G : Str → Option Str → Prop) (re : Regexp)
    (parts : List Str) :
    ∀ (n : node H) (P : List (Entry H)) (acc : List Str) (path : Str) (route : Route H)
      (n1 : node H),
      (∀ s ∈ parts, ∀ sg, parseSeg s = some sg →
        SegOK sg ∧ (sg.nType = paramNode → G sg.key (newChild sg : node H).regex)) →
      Rep G n P → addParts re parts n acc path route = some n1 →
      Rep G n1 (P ++ [⟨parts.filterMap parseSeg,
        acc ++ namesOf (parts.filterMap parseSeg), route⟩]) := by
  induction parts with
  | nil =>
    intro n P acc path route n1 _ hrep h
    rw [addParts] at h
    simp only [Option.some.injEq] at h
    subst h
    rw [rep_iff] at hrep ⊢
    obtain ⟨-, -, h3, h4, h5, h6, h7, h8, h9⟩ := hrep
    have hsub : ∀ kind key, sub kind key (P ++ [(⟨[], acc ++ namesOf [], route⟩ : Entry H)])
        = sub kind key P := by
      intro kind key
      rw [sub_append, below_nil _ _ _ rfl]
      simp
    have hcovmem : ∀ e ∈ P ++ [(⟨[], acc ++ namesOf [], route⟩ : Entry H)],
        ∀ sg rest, e.segs = sg :: rest → e ∈ P := by
      intro e he sg rest hs
      rcases List.mem_append.1 he with he | he
      · exact he
      · simp only [List.mem_singleton] at he
        subst he
        simp at hs
    simp only [List.filterMap_nil, node.route, node.pKeys, node.children, node.pChildren,
      node.wChildren]
    rw [terminal_append_end _ _ rfl]
    refine ⟨rfl, by simp [namesOf], h3, h4, ?_, ?_, ?_, ?_, ?_⟩
    · intro e he sg rest hs ht
      exact h5 e (hcovmem e he sg rest hs) sg rest hs ht
    · intro e he sg rest hs ht
      exact h6 e (hcovmem e he sg rest hs) sg rest hs ht
    · intro c hc
      rw [hsub]
      exact h7 c hc
    · intro c hc
      rw [hsub]
      exact h8 c hc
    · exact repOpt_congr G _ P _ (hsub _ _) h9
  | cons s parts ih =>
    intro n P acc path route n1 hparts hrep h
    obtain ⟨sg, pn1, child, c1, hp, hg, hchild, hc1, rfl⟩ :=
      addParts_cons_some re s parts n n1 acc path route h
    obtain ⟨hok, hpat⟩ := hparts s (List.mem_cons_self _ _) sg hp
    have hparts1 : ∀ s ∈ parts, ∀ sg, parseSeg s = some sg →
        SegOK sg ∧ (sg.nType = paramNode → G sg.key (newChild sg : node H).regex) :=
      fun s hs => hparts s (List.mem_cons_of_mem _ hs)
    have hroot := addParts_root re parts child c1 _ path route hc1
    have hfm : (s :: parts).filterMap parseSeg = sg :: parts.filterMap parseSeg := by
      simp [List.filterMap, hp]
    rw [hfm, namesOf_cons, ← List.append_assoc]
    have hstep : ∀ Pc, Rep G child Pc → Rep G c1 (Pc ++ [⟨parts.filterMap parseSeg,
        acc ++ sg.pKeys ++ namesOf (parts.filterMap parseSeg), route⟩]) :=
      fun Pc hPc => ih child Pc _ path route c1 hparts1 hPc hc1
    have hterm : terminal (P ++ [(⟨sg :: parts.filterMap parseSeg,
        acc ++ sg.pKeys ++ namesOf (parts.filterMap parseSeg), route⟩ : Entry H)])
        = terminal P := terminal_append_pass _ _ (by simp)
    rw [rep_iff] at hrep
    obtain ⟨h1, h2, h3, h4, h5, h6, h7, h8, h9⟩ := hrep
    have h7' : ∀ c ∈ n.children, sub staticNode c.key P ≠ [] ∧
        (staticNode = paramNode → G c.key c.regex) ∧
        Rep G c (sub staticNode c.key P) :=
      fun c hc => ⟨(h7 c hc).1, fun h => absurd h (by decide), (h7 c hc).2⟩
    have h8' : ∀ c ∈ n.pChildren, sub paramNode c.key P ≠ [] ∧
        (paramNode = paramNode → G c.key c.regex) ∧
        Rep G c (sub paramNode c.key P) :=
      fun c hc => ⟨(h8 c hc).1, fun _ => (h8 c hc).2.1, (h8 c hc).2.2⟩
    rcases hok with ⟨ht, hh1, hh2⟩ | ⟨ht, hh⟩ | ⟨ht, hh⟩
    · -- a literal segment
      have hnc : (newChild sg : node H).nType = staticNode := ht
      have hl1 : (sg.key ∈ n.children.map node.key ∧ pn1.children = n.children) ∨
          (sg.key ∉ n.children.map node.key ∧
            pn1.children = n.children ++ [newChild sg]) := by
        rcases hg with ⟨hhas, rfl⟩ | ⟨hhas, -, rfl⟩
        · left
          simp only [node.hasChild, hh1, hh2, if_false] at hhas
          exact ⟨(any_key_iff _ _).1 hhas, rfl⟩
        · right
          simp only [node.hasChild, hh1, hh2, if_false] at hhas
          refine ⟨fun hm => ?_, ?_⟩
          · rw [(any_key_iff _ _).2 hm] at hhas
            exact absurd hhas (by simp)
          · exact (attach_static n _ hnc).1
      have hrest : pn1.pChildren = n.pChildren ∧ pn1.wChildren = n.wChildren ∧
          pn1.route = n.route ∧ pn1.pKeys = n.pKeys := by
        rcases hg with ⟨-, rfl⟩ | ⟨-, -, rfl⟩
        · exact ⟨rfl, rfl, rfl, rfl⟩
        · exact (attach_static n _ hnc).2
      have hfind : pn1.children.find? (fun c => c.key = sg.key) = some child := by
        simpa only [node.getChild, hh1, hh2, if_false] using hchild
      obtain ⟨u1, u2, u3⟩ := repList_update G staticNode (by decide) n.children pn1.children P
        sg (parts.filterMap parseSeg) (acc ++ sg.pKeys ++ namesOf (parts.filterMap parseSeg))
        route (newChild sg) child c1 ht h7' h3 h5 rfl (fun h => absurd h (by decide))
        (rep_newChild G sg) hl1 hfind hstep hroot.1 hroot.2.1
      obtain ⟨v1, v2⟩ := repList_other G paramNode n.pChildren P sg (parts.filterMap parseSeg)
        (acc ++ sg.pKeys ++ namesOf (parts.filterMap parseSeg)) route
        (by rw [ht]; decide) h8' h6
      obtain ⟨s1, s2, s3, s4, s5⟩ := setChild_static pn1 c1 sg.key hh1 hh2
      rw [rep_iff, s1, s2, s3, s4, s5]
      rw [hterm, hrest.1, hrest.2.1, hrest.2.2.1, hrest.2.2.2]
      refine ⟨h1, h2, u1, h4, u2, v1, fun c hc => ⟨(u3 c hc).1, (u3 c hc).2.2⟩,
        fun c hc => ⟨(v2 c hc).1, (v2 c hc).2.1 rfl, (v2 c hc).2.2⟩, ?_⟩
      exact repOpt_congr G _ P _ (sub_append_other _ _ _ _ _ _ _
        (Or.inl (by rw [ht]; decide))) h9
    · -- a parameter segment
      have hh2 : sg.key.head? ≠ some '*' := by rw [hh]; decide
      have hnc : (newChild sg : node H).nType = paramNode := ht
      have hl1 : (sg.key ∈ n.pChildren.map node.key ∧ pn1.pChildren = n.pChildren) ∨
          (sg.key ∉ n.pChildren.map node.key ∧
            pn1.pChildren = n.pChildren ++ [newChild sg]) := by
        rcases hg with ⟨hhas, rfl⟩ | ⟨hhas, -, rfl⟩
        · left
          simp only [node.hasChild, hh, if_true] at hhas
          exact ⟨(any_key_iff _ _).1 hhas, rfl⟩
        · right
          simp only [node.hasChild, hh, if_true] at hhas
          refine ⟨fun hm => ?_, ?_⟩
          · rw [(any_key_iff _ _).2 hm] at hhas
            exact absurd hhas (by simp)
          · exact (attach_param n _ hnc).2.1
      have hrest : pn1.children = n.children ∧ pn1.wChildren = n.wChildren ∧
          pn1.route = n.route ∧ pn1.pKeys = n.pKeys := by
        rcases hg with ⟨-, rfl⟩ | ⟨-, -, rfl⟩
        · exact ⟨rfl, rfl, rfl, rfl⟩
        · exact ⟨(attach_param n _ hnc).1, (attach_param n _ hnc).2.2⟩
      have hfind : pn1.pChildren.find? (fun c => c.key = sg.key) = some child := by
        simpa only [node.getChild, hh, if_true] using hchild
      obtain ⟨u1, u2, u3⟩ := repList_update G paramNode (by decide) n.pChildren pn1.pChildren P
        sg (parts.filterMap parseSeg) (acc ++ sg.pKeys ++ namesOf (parts.filterMap parseSeg))
        route (newChild sg) child c1 ht h8' h4 h6 rfl
        (fun _ => hpat ht)
        (rep_newChild G sg) hl1 hfind hstep hroot.1 hroot.2.1
      obtain ⟨v1, v2⟩ := repList_other G staticNode n.children P sg (parts.filterMap parseSeg)
        (acc ++ sg.pKeys ++ namesOf (parts.filterMap parseSeg)) route
        (by rw [ht]; decide) h7' h5
      obtain ⟨s1, s2, s3, s4, s5⟩ := setChild_param pn1 c1 sg.key hh
      rw [rep_iff, s1, s2, s3, s4, s5]
      rw [hterm, hrest.1, hrest.2.1, hrest.2.2.1, hrest.2.2.2]
      refine ⟨h1, h2, h3, u1, v1, u2, fun c hc => ⟨(v2 c hc).1, (v2 c hc).2.2⟩,
        fun c hc => ⟨(u3 c hc).1, (u3 c hc).2.1 rfl, (u3 c hc).2.2⟩, ?_⟩
      exact repOpt_congr G _ P _ (sub_append_other _ _ _ _ _ _ _
        (Or.inl (by rw [ht]; decide))) h9
    · -- a catch-all segment
      have hh1 : sg.key.head? ≠ some ':' := by rw [hh]; decide
      have hnc : (newChild sg : node H).nType = catchAllNode := ht
      have hrest : pn1.children = n.children ∧ pn1.pChildren = n.pChildren ∧
          pn1.route = n.route ∧ pn1.pKeys = n.pKeys := by
        rcases hg with ⟨-, rfl⟩ | ⟨-, -, rfl⟩
        · exact ⟨rfl, rfl, rfl, rfl⟩
        · exact ⟨(attach_catchAll n _ hnc).1, (attach_catchAll n _ hnc).2.1,
            (attach_catchAll n _ hnc).2.2.2⟩
      have hw : pn1.wChildren = some child := by
        simpa only [node.getChild, hh1, hh, if_true, if_false] using hchild
      have hchild_rep : Rep G child (sub catchAllNode [] P) := by
        rcases hg with ⟨hhas, rfl⟩ | ⟨hhas, -, rfl⟩
        · rw [hw] at h9
          exact h9.2
        · simp only [node.hasChild, hh1, hh, if_true, if_false] at hhas
          have hnone : n.wChildren = none := by
            cases hwn : n.wChildren with
            | none => rfl
            | some x => rw [hwn] at hhas; simp at hhas
          rw [hnone] at h9
          simp only [RepOpt] at h9
          rw [h9]
          have : child = newChild sg := by
            rw [(attach_catchAll n _ hnc).2.2.1] at hw
            exact (Option.some.inj hw).symm
          rw [this]
          exact rep_newChild G sg
      obtain ⟨v1, v2⟩ := repList_other G staticNode n.children P sg (parts.filterMap parseSeg)
        (acc ++ sg.pKeys ++ namesOf (parts.filterMap parseSeg)) route
        (by rw [ht]; decide) h7' h5
      obtain ⟨w1, w2⟩ := repList_other G paramNode n.pChildren P sg (parts.filterMap parseSeg)
        (acc ++ sg.pKeys ++ namesOf (parts.filterMap parseSeg)) route
        (by rw [ht]; decide) h8' h6
      obtain ⟨s1, s2, s3, s4, s5⟩ := setChild_catchAll pn1 c1 sg.key hh
      rw [rep_iff, s1, s2, s3, s4, s5]
      rw [hterm, hrest.1, hrest.2.1, hrest.2.2.1, hrest.2.2.2]
      refine ⟨h1, h2, h3, h4, v1, w1, fun c hc => ⟨(v2 c hc).1, (v2 c hc).2.2⟩,
        fun c hc => ⟨(w2 c hc).1, (w2 c hc).2.1 rfl, (w2 c hc).2.2⟩, ?_⟩
      simp only [RepOpt]
      rw [sub_append_same catchAllNode [] P sg _ _ _ ht (Or.inl rfl)]
      exact ⟨by simp, hstep _ hchild_rep⟩

theorem parseSeg_kind (s : Str) (sg : segInfo) (h : parseSeg s = some sg) :
    sg.nType = staticNode ∨ (sg.nType = paramNode ∧ sg.key.head? = some ':') ∨
      (sg.nType = catchAllNode ∧ sg.key.head? = some '*') := by
  unfold parseSeg at h
  cases s with
  | nil => simp at h
  | cons c tl =>
    simp only at h
    split at h
    · split at h
      · split at h
        · simp only [Option.some.injEq] at h
          subst h
          exact Or.inr (Or.inr ⟨rfl, rfl⟩)
        · simp only [Option.some.injEq] at h
          subst h
          exact Or.inr (Or.inl ⟨rfl, rfl⟩)
      · simp only [Option.some.injEq] at h
        subst h
        exact Or.inr (Or.inl ⟨rfl, rfl⟩)
    · simp only [Option.some.injEq] at h
      subst h
      exact Or.inl rfl

theorem parseSeg_segOK (s : Str) (sg : segInfo) (h : parseSeg s = some sg)
    (hl : sg.nType = staticNode → sg.key.head? ≠ some ':' ∧ sg.key.head? ≠ some '*') :
    SegOK sg := by
  rcases parseSeg_kind s sg h with h0 | h1 | h2
  · exact Or.inl ⟨h0, hl h0⟩
  · exact Or.inr (Or.inl h1)
  · exact Or.inr (Or.inr h2)

theorem constraintOf_spec (segs : List segInfo) (hc : ConstraintsOK segs) (sg : segInfo)
    (hsg : sg ∈ segs) (hp : sg.nType = paramNode) : sg.pattern = constraintOf segs sg.key := by
  unfold constraintOf
  cases hf : segs.find? (fun x => decide (x.nType = paramNode ∧ x.key = sg.key)) with
  | none =>
    rw [List.find?_eq_none] at hf
    exact absurd (by simp [hp]) (hf sg hsg)
  | some sg0 =>
    have h1 := List.find?_some hf
    have h2 := List.mem_of_find?_eq_some hf
    simp only [decide_eq_true_eq] at h1
    simp only [Option.map_some', Option.getD_some]
    exact hc sg hsg sg0 h2 hp h1.1 h1.2.symm

theorem rep_empty {H : Type} (G : Str → Option Str → Prop) :
    Rep G (node.empty : node H) [] := by
  rw [rep_iff]
  simp [node.empty, node.route, node.pKeys, node.children, node.pChildren, node.wChildren,
    terminal, RepOpt, sub]

theorem mem_segsOf_parse (p : Str) (s : Str) (sg : segInfo) (hs : s ∈ routeParts p)
    (h : parseSeg s = some sg) : sg ∈ segsOf p := by
  unfold segsOf
  rw [List.mem_filterMap]
  exact ⟨s, hs, h⟩

theorem addRoutes_rep_aux {H : Type} (G : Str → Option Str → Prop) (re : Regexp)
    (routes : List (Str × Route H)) :
    ∀ (n t : node H) (P : List (Entry H)),
      (∀ sg ∈ allSegs routes, (sg.nType = staticNode →
          sg.key.head? ≠ some ':' ∧ sg.key.head? ≠ some '*') ∧
        (sg.nType = paramNode → G sg.key (newChild sg : node H).regex)) →
      Rep G n P → addRoutes re n routes = some t → Rep G t (P ++ entriesOf routes) := by
  induction routes with
  | nil =>
    intro n t P _ hrep h
    rw [addRoutes] at h
    simp only [Option.some.injEq] at h
    subst h
    simpa [entriesOf] using hrep
  | cons pr routes ih =>
    intro n t P hall hrep h
    obtain ⟨p, r⟩ := pr
    rw [addRoutes] at h
    cases ha : n.addRoute re p r with
    | none => rw [ha] at h; simp at h
    | some n1 =>
      rw [ha] at h
      simp only at h
      have hall1 : ∀ sg ∈ allSegs routes, (sg.nType = staticNode →
          sg.key.head? ≠ some ':' ∧ sg.key.head? ≠ some '*') ∧
          (sg.nType = paramNode → G sg.key (newChild sg : node H).regex) := by
        intro sg hsg
        apply hall
        simp only [allSegs, List.flatMap_cons, List.mem_append]
        exact Or.inr hsg
      have hparts : ∀ s ∈ routeParts p, ∀ sg, parseSeg s = some sg →
          SegOK sg ∧ (sg.nType = paramNode → G sg.key (newChild sg : node H).regex) := by
        intro s hs sg hsg
        have hmem : sg ∈ allSegs ((p, r) :: routes) := by
          simp only [allSegs, List.flatMap_cons, List.mem_append]
          exact Or.inl (mem_segsOf_parse p s sg hs hsg)
        exact ⟨parseSeg_segOK s sg hsg (hall sg hmem).1, (hall sg hmem).2⟩
      have h1 := addParts_rep G re (routeParts p) n P [] p r n1 hparts hrep ha
      have h2 := ih n1 t _ hall1 h1 h
      simpa [entriesOf, segsOf, List.append_assoc] using h2

/-- The tree built from registrations whose literals are well formed is the
tree of their entries; nothing is recorded about the constraints. -/
theorem addRoutes_rep_plain {H : Type} (re : Regexp) (routes : List (Str × Route H))
    (t : node H) (hl : LiteralsOK (allSegs routes))
    (h : addRoutes re node.empty routes = some t) :
    Rep (fun _ _ => True) t (entriesOf routes) := by
  have := addRoutes_rep_aux (fun _ _ => True) re routes node.empty t []
    (fun sg hsg => ⟨hl sg hsg, fun _ => trivial⟩) (rep_empty _) h
  simpa using this

/-- The tree built from a list of well-formed registrations is the tree of
their entries, and each parameter node carries the constraint of its key. -/
theorem addRoutes_rep {H : Type} (re : Regexp) (routes : List (Str × Route H)) (t : node H)
    (hl : LiteralsOK (allSegs routes)) (hc : ConstraintsOK (allSegs routes))
    (h : addRoutes re node.empty routes = some t) :
    Rep (fun key rx => rx = regexOf (constraintOf (allSegs routes)) key) t (entriesOf routes) ∧
      AllParams (fun sg => sg.pattern = constraintOf (allSegs routes) sg.key)
        (entriesOf routes) := by
  constructor
  · have := addRoutes_rep_aux (fun key rx => rx = regexOf (constraintOf (allSegs routes)) key)
      re routes node.empty t []
      (fun sg hsg => ⟨hl sg hsg, fun hp =>
        regex_newChild _ sg (constraintOf_spec _ hc sg hsg hp)⟩) (rep_empty _) h
    simpa using this
  · intro e he sg hsg hp
    simp only [entriesOf, List.mem_map] at he
    obtain ⟨pr, hpr, rfl⟩ := he
    apply constraintOf_spec _ hc sg _ hp
    simp only [allSegs, List.mem_flatMap]
    exact ⟨pr, hpr, hsg⟩

theorem takeWhile_noSlash (v rest : Str) (hv : '/' ∉ v)  (hrest : rest = [] ∨ rest.head? = some '/') :
    (v ++ rest).takeWhile (fun c => c != '/') = v ∧
      (v ++ rest).dropWhile (fun c => c != '/') = rest := by
  induction v with
  | nil =>
    rcases hrest with rfl | h
    · simp
    · cases rest with
      | nil => simp
      | cons c tl =>
        simp only [List.head?_cons, Option.some.injEq] at h
        subst h
        simp [List.takeWhile, List.dropWhile]
  | cons c tl ih =>
    have hc : c ≠ '/' := fun h => hv (by rw [h]; exact List.mem_cons_self _ _)
    have htl : '/' ∉ tl := fun h => hv (List.mem_cons_of_mem _ h)
    have hb : (c != '/') = true := by simpa using hc
    obtain ⟨h1, h2⟩ := ih htl
    simp only [List.cons_append, List.takeWhile, List.dropWhile, hb]
    exact ⟨congrArg (List.cons c) h1, h2⟩

theorem joinPath_nil : joinPath [] = [] := rfl

theorem joinPath_cons (v : Str) (vs : List Str) : joinPath (v :: vs) = '/' :: (v ++ joinPath vs) := by
  simp [joinPath]

theorem joinPath_head (vs : List Str) : joinPath vs = [] ∨ (joinPath vs).head? = some '/' := by
  cases vs with
  | nil => exact Or.inl rfl
  | cons v vs => right; rw [joinPath_cons]; rfl

theorem joinPath_eq_nil (vs : List Str) : joinPath vs = [] ↔ vs = [] := by
  cases vs with
  | nil => simp [joinPath]
  | cons v vs => rw [joinPath_cons]; simp

theorem segValue_joinPath (v : Str) (vs : List Str) (hv : '/' ∉ v) :
    segValue (joinPath (v :: vs)) = v := by
  rw [joinPath_cons]
  simp only [segValue, List.drop_succ_cons, List.drop_zero]
  exact (takeWhile_noSlash v _ hv (joinPath_head vs)).1

theorem segRest_joinPath (v : Str) (vs : List Str) (hv : '/' ∉ v) :
    segRest (joinPath (v :: vs)) = joinPath vs := by
  rw [joinPath_cons]
  simp only [segRest, List.drop_succ_cons, List.drop_zero]
  exact (takeWhile_noSlash v _ hv (joinPath_head vs)).2

theorem splitSlash_join (v : Str) (vs : List Str) (hv : '/' ∉ v) (hvs : ∀ s ∈ vs, '/' ∉ s) :
    splitSlash (v ++ joinPath vs) = v :: vs := by
  induction vs generalizing v with
  | nil =>
    rw [splitSlash_eq]
    obtain ⟨h1, h2⟩ := takeWhile_noSlash v (joinPath []) hv (Or.inl rfl)
    rw [h1, h2]
    rfl
  | cons w ws ih =>
    rw [splitSlash_eq]
    obtain ⟨h1, h2⟩ := takeWhile_noSlash v (joinPath (w :: ws)) hv
      (joinPath_head _)
    rw [h1, h2, joinPath_cons]
    simp only
    rw [ih w (hvs w (List.mem_cons_self _ _)) (fun s hs => hvs s (List.mem_cons_of_mem _ hs))]

theorem pathSegs_joinPath (v : Str) (vs : List Str) (hv : '/' ∉ v) (hvs : ∀ s ∈ vs, '/' ∉ s) :
    pathSegs (joinPath (v :: vs)) = v :: vs := by
  rw [joinPath_cons]
  simp only [pathSegs, List.drop_succ_cons, List.drop_zero]
  exact splitSlash_join v vs hv hvs

theorem dropWhile_slash_of_head (s : Str) (h : s.head? ≠ some '/') :
    s.dropWhile (fun c => c == '/') = s := by
  cases s with
  | nil => rfl
  | cons c tl =>
    have hc : c ≠ '/' := fun hc => h (by rw [hc]; rfl)
    have hb : (c == '/') = false := by simpa using hc
    simp [List.dropWhile, hb]

theorem trimSlash_of_ends (s : Str) (h1 : s.head? ≠ some '/') (h2 : s.getLast? ≠ some '/') :
    trimSlash s = s := by
  unfold trimSlash
  rw [dropWhile_slash_of_head s h1, dropWhile_slash_of_head s.reverse, List.reverse_reverse]
  rw [List.head?_reverse]
  exact h2

theorem getLast?_joinPath (vs : List Str) (hne : vs ≠ [])
    (h : ∀ s ∈ vs, s ≠ [] ∧ '/' ∉ s) (pre : Str) :
    (pre ++ joinPath vs).getLast? ≠ some '/' := by
  induction vs generalizing pre with
  | nil => exact absurd rfl hne
  | cons v vs ih =>
    rw [joinPath_cons]
    obtain ⟨hv1, hv2⟩ := h v (List.mem_cons_self _ _)
    by_cases hvs : vs = []
    · subst hvs
      rw [joinPath_nil, List.append_nil]
      have : pre ++ '/' :: v = (pre ++ ['/']) ++ v := by simp
      rw [this, List.getLast?_append_of_ne_nil _ hv1]
      intro hl
      exact hv2 (List.mem_of_getLast?_eq_some hl)
    · have : pre ++ '/' :: (v ++ joinPath vs) = (pre ++ '/' :: v) ++ joinPath vs := by simp
      rw [this]
      exact ih hvs (fun s hs => h s (List.mem_cons_of_mem _ hs)) _

/-- The segments `addRoute` walks for the pattern written from a non-empty
list of non-empty segments. -/
theorem routeParts_joinPath (v : Str) (vs : List Str)
    (h : ∀ s ∈ v :: vs, s ≠ [] ∧ '/' ∉ s) : routeParts (joinPath (v :: vs)) = v :: vs := by
  obtain ⟨hv1, hv2⟩ := h v (List.mem_cons_self _ _)
  have hne : joinPath (v :: vs) ≠ [] := by rw [joinPath_cons]; simp
  have hns : joinPath (v :: vs) ≠ ['/'] := by
    rw [joinPath_cons]
    intro hh
    simp only [List.cons.injEq, true_and, List.append_eq_nil] at hh
    exact hv1 hh.1
  unfold routeParts
  rw [if_neg (by simp [hne, hns])]
  have hlast : (v ++ joinPath vs).getLast? ≠ some '/' := by
    by_cases hvs : vs = []
    · subst hvs
      rw [joinPath_nil, List.append_nil]
      intro hl
      exact hv2 (List.mem_of_getLast?_eq_some hl)
    · exact getLast?_joinPath vs hvs (fun s hs => h s (List.mem_cons_of_mem _ hs)) v
  have htrim : trimSlash (joinPath (v :: vs)) = v ++ joinPath vs := by
    unfold trimSlash
    rw [joinPath_cons]
    have hhead : (v ++ joinPath vs).head? ≠ some '/' := by
      obtain ⟨c, tl, rfl⟩ := List.exists_cons_of_ne_nil hv1
      simp only [List.cons_append, List.head?_cons, ne_eq, Option.some.injEq]
      intro hc
      exact hv2 (by rw [hc]; exact List.mem_cons_self _ _)
    have hd : List.dropWhile (fun c => c == '/') ('/' :: (v ++ joinPath vs)) = v ++ joinPath vs := by
      simp only [List.dropWhile, beq_self_eq_true]
      exact dropWhile_slash_of_head _ hhead
    rw [hd, dropWhile_slash_of_head _, List.reverse_reverse]
    rw [List.head?_reverse]
    exact hlast
  rw [htrim]
  exact splitSlash_join v vs hv2 (fun s hs => (h s (List.mem_cons_of_mem _ hs)).2)

theorem slice_middle (A R T : Str) (a b : Nat) (ha : a = A.length) (hb : b = A.length + R.length) :
    slice (A ++ (R ++ T)) a b = R := by
  subst ha hb
  unfold slice
  rw [List.take_append, List.take_left' rfl, List.drop_left' rfl]

theorem slice_braces (inner : Str) :
    slice (braces inner) 1 ((braces inner).length - 1) = inner := by
  simp [slice, braces]

theorem getLast?_braces (inner : Str) : (braces inner).getLast? = some '}' := by
  unfold braces
  rw [← List.singleton_append, ← List.append_assoc, List.getLast?_append_of_ne_nil _ (by simp)]
  rfl

/-- The segment `{name}` is an unconstrained parameter. -/
theorem parseSeg_param (name : Str) (h : ':' ∉ name) :
    parseSeg (braces name) = some ⟨paramNode, ':' :: name, [], [name]⟩ := by
  have hmem : ':' ∉ braces name := by
    simp [braces, h]
  have hs := slice_braces name
  have hl := getLast?_braces name
  unfold parseSeg
  simp only [braces] at hmem hs hl ⊢
  simp only [hl, hmem, hs, and_self, if_true, if_false]

theorem indexOf_colon (name rest : Str) (h : ':' ∉ name) :
    (name ++ ':' :: rest).indexOf ':' = name.length := by
  induction name with
  | nil => simp [List.indexOf_cons]
  | cons c tl ih =>
    have hc : c ≠ ':' := fun hc => h (by rw [hc]; exact List.mem_cons_self _ _)
    have htl : ':' ∉ tl := fun hm => h (List.mem_cons_of_mem _ hm)
    simp only [List.cons_append, List.indexOf_cons, List.length_cons]
    have hb : (c == ':') = false := by simpa using hc
    rw [hb]
    simp only [cond_false, Nat.add_right_cancel_iff]
    exact ih htl

/-- The segment `{name:R}` with `R` other than `*` is a parameter with the
constraint text `R`. -/
theorem parseSeg_constrained (name R : Str) (h : ':' ∉ name) (hR : R ≠ ['*']) :
    parseSeg (braces (name ++ ':' :: R)) = some ⟨paramNode, ':' :: name, R, [name]⟩ := by
  have hl := getLast?_braces (name ++ ':' :: R)
  have hmem : ':' ∈ braces (name ++ ':' :: R) := by simp [braces]
  have hidx : (braces (name ++ ':' :: R)).indexOf ':' = name.length + 1 := by
    have := indexOf_colon ('{' :: name) (R ++ ['}']) (by simp [h])
    simpa [braces] using this
  have hs1 : slice (braces (name ++ ':' :: R)) 1 (name.length + 1) = name := by
    simp [slice, braces, List.take_append_eq_append_take]
  have hs2 : slice (braces (name ++ ':' :: R)) (name.length + 1 + 1)
      ((braces (name ++ ':' :: R)).length - 1) = R := by
    have := slice_middle ('{' :: (name ++ [':'])) R ['}'] (name.length + 1 + 1)
      ((braces (name ++ ':' :: R)).length - 1) (by simp) (by simp [braces]; omega)
    simpa [braces] using this
  unfold parseSeg
  simp only [braces] at hmem hs1 hs2 hl hidx ⊢
  simp only [hl, hmem, hs1, hs2, hidx, hR, and_self, if_true, if_false]

/-- The segment `{name:*}` is a catch-all. -/
theorem parseSeg_catchAll (name : Str) (h : ':' ∉ name) :
    parseSeg (braces (name ++ [':', '*'])) = some ⟨catchAllNode, '*' :: name, [], [name]⟩ := by
  have hl := getLast?_braces (name ++ [':', '*'])
  have hmem : ':' ∈ braces (name ++ [':', '*']) := by simp [braces]
  have hidx : (braces (name ++ [':', '*'])).indexOf ':' = name.length + 1 := by
    have := indexOf_colon ('{' :: name) (['*'] ++ ['}']) (by simp [h])
    simpa [braces] using this
  have hs1 : slice (braces (name ++ [':', '*'])) 1 (name.length + 1) = name := by
    simp [slice, braces, List.take_append_eq_append_take]
  have hs2 : slice (braces (name ++ [':', '*'])) (name.length + 1 + 1)
      ((braces (name ++ [':', '*'])).length - 1) = ['*'] := by
    have := slice_middle ('{' :: (name ++ [':'])) ['*'] ['}'] (name.length + 1 + 1)
      ((braces (name ++ [':', '*'])).length - 1) (by simp) (by simp [braces])
    simpa [braces] using this
  unfold parseSeg
  simp only [braces] at hmem hs1 hs2 hl hidx ⊢
  simp only [hl, hmem, hs1, hs2, hidx, and_self, if_true, if_false]

/-- A segment not wrapped in braces is a literal. -/
theorem parseSeg_literal (s : Str) (hne : s ≠ [])
    (h : ¬ (s.head? = some '{' ∧ s.getLast? = some '}')) :
    parseSeg s = some ⟨staticNode, s, [], []⟩ := by
  obtain ⟨c, tl, rfl⟩ := List.exists_cons_of_ne_nil hne
  unfold parseSeg
  simp only [List.head?_cons, Option.some.injEq] at h
  simp only [h, if_false]

/-! ## C2: a catch-all followed by literal segments -/

/-- C2, counterexample. With `/user/{id}/{name}/{title}/{files:*}/php` and
`/user/{id}/{name}/{title}/{file:*}` registered, the path
`/user/12/foo/hello/css/style.css/php` does not resolve to the route of the
`/php` pattern with `files = "css/style.css"`: it resolves to the route of the
pattern that ends in the catch-all, with `file = "css/style.css/php"`. -/
theorem C2_counterexample_php_suffix :
    resolve goRegexp [(filesPhpPattern, makeRoute "php"), (filePattern, makeRoute "plain")]
        "/user/12/foo/hello/css/style.css/php".toList makeParamValues
      = some (⟨some ["plain"], ["id".toList, "name".toList, "title".toList, "file".toList]⟩,
          ["12".toList, "foo".toList, "hello".toList, "css/style.css/php".toList]
            ++ List.replicate 16 []) ∧
    resolve goRegexp [(filesPhpPattern, makeRoute "php"), (filePattern, makeRoute "plain")]
        "/user/12/foo/hello/css/style.css/php".toList makeParamValues
      ≠ some (⟨some ["php"], ["id".toList, "name".toList, "title".toList, "files".toList]⟩,
          ["12".toList, "foo".toList, "hello".toList, "css/style.css".toList]
            ++ List.replicate 16 []) := by
  decide

/-- C2, amended. The catch-all child is returned without a search below it, so
the catch-all takes the whole remainder of the path: with both patterns
registered, in either order, `/user/12/foo/hello/css/style.css` and
`/user/12/foo/hello/css/style.css/php` both resolve to the route of the pattern
that ends in the catch-all, with `file = "css/style.css"` and
`file = "css/style.css/php"`. -/
theorem C2_catchAll_takes_whole_remainder {H : Type} (re : Regexp) (r1 r2 : Route H) :
    resolve re [(filesPhpPattern, r1), (filePattern, r2)]
        "/user/12/foo/hello/css/style.css".toList makeParamValues
      = some (⟨r2.handlers, ["id".toList, "name".toList, "title".toList, "file".toList]⟩,
          ["12".toList, "foo".toList, "hello".toList, "css/style.css".toList]
            ++ List.replicate 16 []) ∧
    resolve re [(filesPhpPattern, r1), (filePattern, r2)]
        "/user/12/foo/hello/css/style.css/php".toList makeParamValues
      = some (⟨r2.handlers, ["id".toList, "name".toList, "title".toList, "file".toList]⟩,
          ["12".toList, "foo".toList, "hello".toList, "css/style.css/php".toList]
            ++ List.replicate 16 []) ∧
    resolve re [(filePattern, r2), (filesPhpPattern, r1)]
        "/user/12/foo/hello/css/style.css".toList makeParamValues
      = some (⟨r2.handlers, ["id".toList, "name".toList, "title".toList, "file".toList]⟩,
          ["12".toList, "foo".toList, "hello".toList, "css/style.css".toList]
            ++ List.replicate 16 []) ∧
    resolve re [(filePattern, r2), (filesPhpPattern, r1)]
        "/user/12/foo/hello/css/style.css/php".toList makeParamValues
      = some (⟨r2.handlers, ["id".toList, "name".toList, "title".toList, "file".toList]⟩,
          ["12".toList, "foo".toList, "hello".toList, "css/style.css/php".toList]
            ++ List.replicate 16 []) :=
  ⟨rfl, rfl, rfl, rfl⟩

/-! ## C9: the catch-all branch of `node.get` -/

theorem getOfFind_none {H : Type} (pv pv1 : List Str) (i : Nat)
    (r : Option (node H × List Str)) (h : getOfFind pv i r = some (none, pv1)) :
    r = none ∧ pv1 = pv := by
  cases r with
  | none =>
    simp only [getOfFind, Option.some.injEq, Prod.mk.injEq, true_and] at h
    exact ⟨rfl, h.symm⟩
  | some x =>
    obtain ⟨m, vals⟩ := x
    simp only [getOfFind] at h
    cases hw : writeVals pv i vals with
    | none => rw [hw] at h; simp at h
    | some b => rw [hw] at h; simp at h

theorem get_eq_find_rest {H : Type} (re : Regexp) (rest : Str) :
    rest ≠ [] → ∀ (n : node H) (pv : List Str) (i : Nat),
      node.get re n rest pv i = getOfFind pv i (node.find re n rest) :=
  fun h n pv i => get_eq_find re n rest pv i h

/-- C9. When the loops over the static and the parameter children of a node
return no node and the node has a catch-all child `w`, `node.get` writes the
whole remaining path after its first character (the leading slash) at
`pValues[pIndex]` and returns `w`, whatever `w` contains. So `/src/{file:*}`
on `/src/public/css/style.css` gives `file = "public/css/style.css"`, and in
the tree of `TestTreeAddAndGet` the path `/user/12/foo/hello/css/style.css/php`
resolves to `/user/{id}/{name}/{title}/{file:*}` with the names
`[id, name, title, file]`. -/
theorem C9_catchAll_binds_remaining_path {H : Type} (re : Regexp) (n w : node H)
    (path : Str) (pv pv1 pv2 : List Str) (pIndex : Nat)
    (hw : n.wChildren = some w) (hne : path ≠ []) (hslash : path ≠ ['/'])
    (hstatic : getStatic re n.children (segValue path) (segRest path) pv pIndex
      = some (none, pv1))
    (hparam : getParam re n.pChildren (segValue path) (segRest path) pv1 pIndex
      = some (none, pv2)) :
    node.get re n path pv pIndex
        = (setAt pv pIndex (path.drop 1)).map (fun b => (some w, b)) ∧
    resolve goRegexp (wildcardRoutes emptyRoute emptyRoute)
        "/src/public/css/style.css".toList makeParamValues
      = some (⟨none, ["file".toList]⟩,
          "public/css/style.css".toList :: List.replicate 19 []) ∧
    resolve goRegexp testRoutes "/user/12/foo/hello/css/style.css/php".toList makeParamValues
      = some (⟨some ["/user/{id}/{name}/{title}/{file:*}"],
            ["id".toList, "name".toList, "title".toList, "file".toList]⟩,
          ["12".toList, "foo".toList, "hello".toList, "css/style.css/php".toList]
            ++ List.replicate 16 []) := by
  refine ⟨?_, by decide, by decide⟩
  rw [getStatic_eq_findStatic re _ _ pIndex (get_eq_find_rest re _)] at hstatic
  obtain ⟨hs, h1⟩ := getOfFind_none _ _ _ _ hstatic
  rw [h1, getParam_eq_findParam re _ _ pIndex (get_eq_find_rest re _)] at hparam
  obtain ⟨hp, -⟩ := getOfFind_none _ _ _ _ hparam
  rw [get_eq_find re n path pv pIndex hne, find_eq, if_neg hslash, hs, hp, hw]
  simp [getOfFind, writeVals]

/-- C9, witness: the node `src` of the tree of `/src/{file:*}` on the
remaining path `/public/css`. -/
theorem C9_catchAll_binds_remaining_path_witness :
    node.get goRegexp srcNode "/public/css".toList makeParamValues 0
      = (setAt makeParamValues 0 ("/public/css".toList.drop 1)).map
          (fun b => (some fileNode, b)) :=
  (C9_catchAll_binds_remaining_path goRegexp srcNode fileNode "/public/css".toList
    makeParamValues makeParamValues makeParamValues 0 rfl (by decide) (by decide) rfl rfl).1

/-! ## C10: a catch-all and the empty remainder -/

/-- C10, counterexample. In the tree that holds only `/src/{file:*}`,
`getRoute("/src/")` returns the route, with `file` bound to the empty
string. -/
theorem C10_counterexample_trailing_slash :
    resolve goRegexp [("/src/{file:*}".toList, makeRoute "src")] "/src/".toList makeParamValues
      = some (⟨some ["src"], ["file".toList]⟩, makeParamValues) ∧
    (resolve goRegexp [("/src/{file:*}".toList, makeRoute "src")] "/src/".toList
      makeParamValues).map (fun r => r.1.handlers) ≠ some none := by
  decide

/-- C10, amended. In the tree that holds only `/src/{file:*}`, `getRoute("/src")`
returns no route, and for every text `rest`, the empty one included,
`getRoute("/src/" + rest)` returns the route with `file = rest`: the catch-all
takes whatever follows the slash after `src`, also nothing. -/
theorem C10_catchAll_takes_what_follows_the_slash {H : Type} (re : Regexp) (r : Route H)
    (pv : List Str) (hpv : 0 < pv.length) :
    resolve re [("/src/{file:*}".toList, r)] "/src".toList pv = some (⟨none, []⟩, pv) ∧
    ∀ rest : Str,
      resolve re [("/src/{file:*}".toList, r)] ('/' :: 's' :: 'r' :: 'c' :: '/' :: rest) pv
        = some (⟨r.handlers, ["file".toList]⟩, pv.set 0 rest) := by
  have ht : addRoutes re node.empty [("/src/{file:*}".toList, r)]
      = some (node.mk 0 [] [] [] [node.mk 0 "src".toList [] [] [] []
          (some (node.mk 2 "*file".toList "/src/{file:*}".toList ["file".toList] [] [] none
            none (some r))) none none] [] none none none) := rfl
  constructor
  · simp only [resolve, ht, Option.bind, node.getRoute]
    rfl
  · intro rest
    simp only [resolve, ht, Option.bind, node.getRoute]
    cases rest with
    | nil =>
      simp [node.get, getStatic, getParam, segValue, segRest, node.key, setAt, hpv, node.route,
        node.pKeys]
    | cons c tl =>
      simp [node.get, getStatic, getParam, segValue, segRest, node.key, setAt, hpv, node.route,
        node.pKeys]

/-- C10, witness: the buffer of the tests. -/
theorem C10_catchAll_takes_what_follows_the_slash_witness :
    0 < makeParamValues.length ∧
    resolve goRegexp [("/src/{file:*}".toList, makeRoute "src")] "/src".toList makeParamValues
      = some (⟨none, []⟩, makeParamValues) :=
  ⟨by decide, (C10_catchAll_takes_what_follows_the_slash goRegexp (makeRoute "src")
    makeParamValues (by decide)).1⟩

theorem stepOf_eq (a b : segInfo) (h1 : a.nType = b.nType)
    (h2 : b.nType = catchAllNode ∨ a.key = b.key) : stepOf a = stepOf b := by
  unfold stepOf
  rw [h1]
  by_cases hb : b.nType = catchAllNode
  · simp [hb]
  · rcases h2 with h2 | h2
    · exact absurd h2 hb
    · simp [hb, h2]

theorem mem_subs {H : Type} (pre : List segInfo) :
    ∀ (P : List (Entry H)) (e1 : Entry H), e1 ∈ subs pre P →
      ∃ e ∈ P, ∃ pre2, e.segs = pre2 ++ e1.segs ∧ pre2.map stepOf = pre.map stepOf ∧
        e1.pKeys = e.pKeys ∧ e1.route = e.route := by
  induction pre with
  | nil =>
    intro P e1 h
    exact ⟨e1, h, [], rfl, rfl, rfl, rfl⟩
  | cons sg pre ih =>
    intro P e1 h
    rw [subs] at h
    obtain ⟨e2, he2, pre2, hsegs, hsteps, hpk, hr⟩ := ih _ e1 h
    obtain ⟨e, he, sg0, hs0, ht, hk, hpk0, hr0⟩ := (mem_sub _ _ P e2).1 he2
    refine ⟨e, he, sg0 :: pre2, by rw [hs0, hsegs]; rfl, ?_, hpk.trans hpk0, hr.trans hr0⟩
    rw [List.map_cons, List.map_cons, hsteps, stepOf_eq sg0 sg ht hk]

theorem matchValues_cons (re : Regexp) (sg : segInfo) (pat : List segInfo) (vs : List Str) :
    matchValues re (sg :: pat) vs =
      if sg.nType = staticNode then
        match vs with
        | v :: rest => if sg.key = v then matchValues re pat rest else []
        | [] => []
      else if sg.nType = paramNode then
        match vs with
        | v :: rest =>
          if sg.pattern = [] ∨ re.matchString (anchored sg.pattern) v = true then
            (matchValues re pat rest).map (fun vals => v :: vals)
          else []
        | [] => []
      else if sg.nType = catchAllNode then
        (List.range vs.length).flatMap (fun i =>
          (matchValues re pat (vs.drop (i + 1))).map
            (fun vals => joinSlash (vs.take (i + 1)) :: vals))
      else [] := by
  cases vs <;> simp only [matchValues]

theorem matchValues_congr (re : Regexp) (pre1 : List segInfo) :
    ∀ (pre2 : List segInfo) (vs : List Str), pre1.map stepOf = pre2.map stepOf →
      (∀ a ∈ pre1, ∀ b ∈ pre2, a.nType = paramNode → b.nType = paramNode → a.key = b.key →
        ∀ v, accepts re a v ↔ accepts re b v) →
      matchValues re pre1 vs = matchValues re pre2 vs := by
  induction pre1 with
  | nil =>
    intro pre2 vs h _
    cases pre2 with
    | nil => rfl
    | cons b t => simp at h
  | cons a pre1 ih =>
    intro pre2 vs h hacc
    cases pre2 with
    | nil => simp at h
    | cons b pre2 =>
      simp only [List.map_cons, List.cons.injEq] at h
      obtain ⟨hab, htl⟩ := h
      have hih : ∀ ws, matchValues re pre1 ws = matchValues re pre2 ws := fun ws =>
        ih pre2 ws htl (fun x hx y hy => hacc x (List.mem_cons_of_mem _ hx) y
          (List.mem_cons_of_mem _ hy))
      have hty : a.nType = b.nType := congrArg Prod.fst hab
      have hkey : a.nType ≠ catchAllNode → a.key = b.key := by
        intro hne
        have := congrArg Prod.snd hab
        simp only [stepOf] at this
        rw [if_neg hne, if_neg (hty ▸ hne)] at this
        exact this
      rw [matchValues_cons, matchValues_cons, ← hty]
      by_cases h0 : a.nType = staticNode
      · have hk := hkey (by rw [h0]; decide)
        rw [if_pos h0, if_pos h0, hk]
        cases vs with
        | nil => rfl
        | cons v ws => simp only [hih]
      · rw [if_neg h0, if_neg h0]
        by_cases h1 : a.nType = paramNode
        · have hk := hkey (by rw [h1]; decide)
          rw [if_pos h1, if_pos h1]
          cases vs with
          | nil => rfl
          | cons v ws =>
            have := hacc a (List.mem_cons_self _ _) b (List.mem_cons_self _ _) h1
              (hty ▸ h1) hk v
            unfold accepts at this
            simp only [hih]
            by_cases hA : a.pattern = [] ∨ re.matchString (anchored a.pattern) v = true
            · rw [if_pos hA, if_pos (this.1 hA)]
            · rw [if_neg hA, if_neg (fun hb => hA (this.2 hb))]
        · rw [if_neg h1, if_neg h1]
          simp only [hih]

theorem terminal_some {H : Type} (P : List (Entry H)) (e : Entry H) (h : terminal P = some e) :
    e ∈ P ∧ e.segs = [] := by
  unfold terminal at h
  have hm := List.mem_of_getLast?_eq_some h
  rw [List.mem_filter] at hm
  exact ⟨hm.1, by simpa using hm.2⟩

theorem rep_route {H : Type} (G : Str → Option Str → Prop) (m : node H) (P : List (Entry H))
    (r : Route H) (hrep : Rep G m P) (hr : m.route = some r) :
    ∃ e ∈ P, e.segs = [] ∧ e.route = r ∧ m.pKeys = e.pKeys := by
  rw [rep_iff] at hrep
  obtain ⟨h1, h2, -⟩ := hrep
  cases ht : terminal P with
  | none => rw [ht] at h1; rw [h1] at hr; simp at hr
  | some e =>
    rw [ht] at h1 h2
    obtain ⟨he, hs⟩ := terminal_some P e ht
    rw [h1] at hr
    simp only [Option.map_some', Option.some.injEq] at hr
    exact ⟨e, he, hs, hr, by simpa using h2⟩

/-- A returned node that carries a route is the last node of a registered
pattern that matches the path, with the values found by the search. -/
theorem find_routed {H : Type} (G : Str → Option Str → Prop) (A : segInfo → Prop)
    (re re2 : Regexp)
    (hlink : ∀ (key : Str) (rx : Option Str) (sg : segInfo) (value : Str), G key rx → A sg →
      sg.key = key → (∀ src, rx = some src → re.matchString src value = true) →
      (sg.pattern = [] ∨ re2.matchString (anchored sg.pattern) value = true))
    (hcongr : ∀ a b : segInfo, A a → A b → a.key = b.key → ∀ v, accepts re2 a v ↔ accepts re2 b v)
    (n : node H) (P : List (Entry H)) (path : Str) (m : node H) (vals : List Str)
    (r : Route H) (hpath : PathOK path) (hrep : Rep G n P) (hA : AllParams A P)
    (hfind : node.find re n path = some (m, vals)) (hr : m.route = some r) :
    ∃ e ∈ P, e.route = r ∧ m.pKeys = e.pKeys ∧
      vals ∈ matchValues re2 e.segs (pathSegs path) := by
  obtain ⟨e0, he0, pre, post, hsegs0, -, hm, hvals⟩ :=
    find_sound_aux G A re re2 hlink path.length n P path m vals (Nat.le_refl _) hpath hrep hA
      hfind
  obtain ⟨e1, he1, hs1, hr1, hp1⟩ := rep_route G m _ r hm hr
  obtain ⟨e, he, pre2, hsegs, hsteps, hpk, hrt⟩ := mem_subs pre P e1 he1
  rw [hs1, List.append_nil] at hsegs
  refine ⟨e, he, hrt.symm.trans hr1, hp1.trans hpk, ?_⟩
  rw [hsegs, matchValues_congr re2 pre2 pre (pathSegs path) hsteps]
  · exact hvals
  · intro a ha b hb hpa hpb hk v
    have hAa : A a := hA e he a (by rw [hsegs]; exact ha) hpa
    have hAb : A b := hA e0 he0 b (by rw [hsegs0]; exact List.mem_append_left _ hb) hpb
    exact hcongr a b hAa hAb hk v

/-- The names a segment appends: none for a literal, one otherwise. -/
theorem parseSeg_names (s : Str) (sg : segInfo) (h : parseSeg s = some sg) :
    (sg.nType = staticNode → sg.pKeys = []) ∧ (sg.nType ≠ staticNode → sg.pKeys.length = 1) := by
  unfold parseSeg at h
  cases s with
  | nil => simp at h
  | cons c tl =>
    simp only at h
    split at h
    · split at h
      · split at h
        · simp only [Option.some.injEq] at h
          subst h
          exact ⟨fun h => absurd h (by simp [catchAllNode, paramNode, staticNode]), fun _ => rfl⟩
        · simp only [Option.some.injEq] at h
          subst h
          exact ⟨fun h => absurd h (by simp [catchAllNode, paramNode, staticNode]), fun _ => rfl⟩
      · simp only [Option.some.injEq] at h
        subst h
        exact ⟨fun h => absurd h (by simp [catchAllNode, paramNode, staticNode]), fun _ => rfl⟩
    · simp only [Option.some.injEq] at h
      subst h
      exact ⟨fun _ => rfl, fun h => absurd rfl h⟩

theorem segsOf_names (p : Str) (sg : segInfo) (h : sg ∈ segsOf p) :
    (sg.nType = staticNode → sg.pKeys = []) ∧ (sg.nType ≠ staticNode → sg.pKeys.length = 1) := by
  unfold segsOf at h
  rw [List.mem_filterMap] at h
  obtain ⟨s, -, hs⟩ := h
  exact parseSeg_names s sg hs

theorem matchValues_length (re : Regexp) (segs : List segInfo) :
    ∀ (vs vals : List Str),
      (∀ sg ∈ segs, (sg.nType = staticNode → sg.pKeys = []) ∧
        (sg.nType ≠ staticNode → sg.pKeys.length = 1)) →
      vals ∈ matchValues re segs vs → vals.length = (namesOf segs).length := by
  induction segs with
  | nil =>
    intro vs vals _ h
    rw [matchValues] at h
    split at h
    · simp only [List.mem_singleton] at h
      subst h
      rfl
    · simp at h
  | cons sg segs ih =>
    intro vs vals hn h
    have hsg := hn sg (List.mem_cons_self _ _)
    have hn1 : ∀ x ∈ segs, (x.nType = staticNode → x.pKeys = []) ∧
        (x.nType ≠ staticNode → x.pKeys.length = 1) :=
      fun x hx => hn x (List.mem_cons_of_mem _ hx)
    rw [matchValues_cons] at h
    rw [namesOf_cons, List.length_append]
    by_cases h0 : sg.nType = staticNode
    · rw [if_pos h0] at h
      rw [hsg.1 h0]
      cases vs with
      | nil => simp at h
      | cons v ws =>
        simp only at h
        split at h
        · simpa using ih ws vals hn1 h
        · simp at h
    · rw [if_neg h0] at h
      rw [hsg.2 h0]
      by_cases h1 : sg.nType = paramNode
      · rw [if_pos h1] at h
        cases vs with
        | nil => simp at h
        | cons v ws =>
          simp only at h
          split at h
          · rw [List.mem_map] at h
            obtain ⟨vals1, hv1, rfl⟩ := h
            rw [List.length_cons, ih ws vals1 hn1 hv1]
            omega
          · simp at h
      · rw [if_neg h1] at h
        split at h
        · rw [List.mem_flatMap] at h
          obtain ⟨i, -, hi⟩ := h
          rw [List.mem_map] at hi
          obtain ⟨vals1, hv1, rfl⟩ := hi
          rw [List.length_cons, ih _ vals1 hn1 hv1]
          omega
        · simp at h

theorem namesOf_append (a b : List segInfo) : namesOf (a ++ b) = namesOf a ++ namesOf b := by
  simp [namesOf]

theorem setAt_length (pv pv1 : List Str) (i : Nat) (v : Str) (h : setAt pv i v = some pv1) :
    pv1.length = pv.length := by
  unfold setAt at h
  split at h
  · simp only [Option.some.injEq] at h
    subst h
    simp
  · simp at h

theorem writeVals_length (pv : List Str) (vals : List Str) :
    ∀ (i : Nat) (pv1 : List Str), writeVals pv i vals = some pv1 → pv1.length = pv.length := by
  induction vals with
  | nil =>
    intro i pv1 h
    rw [writeVals] at h
    simp only [Option.some.injEq] at h
    rw [← h]
  | cons v vals ih =>
    intro i pv1 h
    rw [writeVals] at h
    cases hw : writeVals pv ((i + 1) % 256) vals with
    | none => rw [hw] at h; simp at h
    | some pv2 =>
      rw [hw] at h
      simp only [Option.some_bind] at h
      rw [setAt_length pv2 pv1 i v h, ih _ pv2 hw]

/-- The writes do not panic when the buffer has room for the values. -/
theorem writeVals_isSome (pv : List Str) (vals : List Str) :
    ∀ (i : Nat), i < 256 → (i + vals.length ≤ pv.length ∨ 256 ≤ pv.length) →
      ∃ pv1, writeVals pv i vals = some pv1 := by
  induction vals with
  | nil =>
    intro i _ _
    exact ⟨pv, rfl⟩
  | cons v vals ih =>
    intro i hi hroom
    have hj : (i + 1) % 256 < 256 := Nat.mod_lt _ (by decide)
    have hroom1 : (i + 1) % 256 + vals.length ≤ pv.length ∨ 256 ≤ pv.length := by
      rcases hroom with h | h
      · by_cases hbig : 256 ≤ pv.length
        · exact Or.inr hbig
        · left
          simp only [List.length_cons] at h
          have : i + 1 < 256 := by omega
          rw [Nat.mod_eq_of_lt this]
          omega
      · exact Or.inr h
    obtain ⟨pv2, hw⟩ := ih _ hj hroom1
    have hlen := writeVals_length pv vals _ pv2 hw
    have hlt : i < pv2.length := by
      rw [hlen]
      rcases hroom with h | h
      · simp only [List.length_cons] at h
        omega
      · omega
    refine ⟨pv2.set i v, ?_⟩
    rw [writeVals, hw]
    simp [setAt, hlt]

/-- Without wrap-around of the index, the values land in the buffer in their
order, from the start index on. -/
theorem writeVals_eq (pv : List Str) (vals : List Str) :
    ∀ (i : Nat), i + vals.length ≤ 256 → i + vals.length ≤ pv.length →
      writeVals pv i vals = some (pv.take i ++ vals ++ pv.drop (i + vals.length)) := by
  induction vals with
  | nil =>
    intro i _ _
    simp [writeVals]
  | cons v vals ih =>
    intro i h1 h2
    simp only [List.length_cons] at h1 h2
    rw [writeVals]
    cases vals with
    | nil =>
      simp only [writeVals, Option.some_bind, List.length_nil] at *
      have hlt : i < pv.length := by omega
      simp only [setAt, hlt, if_true, Option.some.injEq]
      rw [List.set_eq_take_append_cons_drop, if_pos hlt]
      simp
    | cons v2 t =>
      simp only [List.length_cons] at h1 h2
      have hm : (i + 1) % 256 = i + 1 := Nat.mod_eq_of_lt (by omega)
      rw [hm, ih (i + 1) (by simp only [List.length_cons]; omega)
        (by simp only [List.length_cons]; omega)]
      simp only [Option.some_bind, List.length_cons]
      have hlen : (List.take (i + 1) pv).length = i + 1 := by
        rw [List.length_take]; omega
      have hlt : i < (List.take (i + 1) pv ++ v2 :: t ++ List.drop (i + 1 + (t.length + 1)) pv).length := by
        simp only [List.length_append, hlen]; omega
      simp only [setAt, hlt, if_true, Option.some.injEq]
      rw [List.set_eq_take_append_cons_drop, if_pos hlt]
      rw [List.append_assoc, List.take_append_of_le_length (by omega),
        List.drop_left' hlen, List.take_take]
      have : min i (i + 1) = i := by omega
      rw [this]
      have e2 : i + (t.length + 1 + 1) = i + 1 + (t.length + 1) := by omega
      rw [e2]
      simp

theorem getRoute_eq {H : Type} (re : Regexp) (n : node H) (path : Str) (pv : List Str)
    (hne : path ≠ []) :
    n.getRoute re path pv =
      match node.find re n path with
      | none => some (⟨none, []⟩, pv)
      | some (m, vals) =>
        (writeVals pv 0 vals).map (fun b =>
          ((match m.route with
            | some rt => (⟨rt.handlers, m.pKeys⟩ : nodeValue H)
            | none => ⟨none, []⟩), b)) := by
  unfold node.getRoute
  rw [get_eq_find re n path pv 0 hne]
  cases hf : node.find re n path with
  | none => simp [getOfFind]
  | some x =>
    obtain ⟨m, vals⟩ := x
    simp only [getOfFind]
    cases hw : writeVals pv 0 vals with
    | none => simp
    | some b =>
      simp only [Option.map_some']
      cases hr : m.route <;> simp

/-- What `getRoute` returns on the tree of the entries `P`: nothing, or the
route and names of an entry that matches the path, with its values written to
the buffer. -/
theorem getRoute_sound_aux {H : Type} (G : Str → Option Str → Prop) (A : segInfo → Prop)
    (re re2 : Regexp)
    (hlink : ∀ (key : Str) (rx : Option Str) (sg : segInfo) (value : Str), G key rx → A sg →
      sg.key = key → (∀ src, rx = some src → re.matchString src value = true) →
      (sg.pattern = [] ∨ re2.matchString (anchored sg.pattern) value = true))
    (hcongr : ∀ a b : segInfo, A a → A b → a.key = b.key → ∀ v, accepts re2 a v ↔ accepts re2 b v)
    (n : node H) (P : List (Entry H)) (path : Str) (pv : List Str)
    (hpath : PathOK path) (hrep : Rep G n P) (hA : AllParams A P)
    (hnames : ∀ e ∈ P, ∀ sg ∈ e.segs, (sg.nType = staticNode → sg.pKeys = []) ∧
      (sg.nType ≠ staticNode → sg.pKeys.length = 1))
    (hbuf : ∀ e ∈ P, (namesOf e.segs).length ≤ pv.length) :
    (∃ pv1, n.getRoute re path pv = some (⟨none, []⟩, pv1)) ∨
    (∃ e ∈ P, ∃ vals ∈ matchValues re2 e.segs (pathSegs path), ∃ pv1,
      writeVals pv 0 vals = some pv1 ∧
      n.getRoute re path pv = some (⟨e.route.handlers, e.pKeys⟩, pv1)) := by
  rw [getRoute_eq re n path pv hpath.1]
  cases hf : node.find re n path with
  | none => exact Or.inl ⟨pv, rfl⟩
  | some x =>
    obtain ⟨m, vals⟩ := x
    obtain ⟨e0, he0, pre, post, hsegs0, -, -, hvals⟩ :=
      find_sound_aux G A re re2 hlink path.length n P path m vals (Nat.le_refl _) hpath hrep hA
        hf
    have hlen : vals.length ≤ pv.length := by
      have h1 := matchValues_length re2 pre (pathSegs path) vals
        (fun sg hsg => hnames e0 he0 sg (by rw [hsegs0]; exact List.mem_append_left _ hsg)) hvals
      have h2 := hbuf e0 he0
      rw [hsegs0, namesOf_append, List.length_append] at h2
      omega
    obtain ⟨pv1, hw⟩ := writeVals_isSome pv vals 0 (by decide) (Or.inl (by omega))
    simp only [hw, Option.map_some']
    cases hr : m.route with
    | none => exact Or.inl ⟨pv1, rfl⟩
    | some r =>
      obtain ⟨e, he, hre, hpk, hv⟩ := find_routed G A re re2 hlink hcongr n P path m vals r
        hpath hrep hA hf hr
      right
      refine ⟨e, he, vals, hv, pv1, hw, ?_⟩
      simp only [hre, hpk]

theorem mem_entriesOf {H : Type} (routes : List (Str × Route H)) (e : Entry H)
    (h : e ∈ entriesOf routes) :
    ∃ pr ∈ routes, e = ⟨segsOf pr.1, namesOf (segsOf pr.1), pr.2⟩ := by
  simp only [entriesOf, List.mem_map] at h
  obtain ⟨pr, hpr, rfl⟩ := h
  exact ⟨pr, hpr, rfl⟩

/-- The result of `getRoute` on a tree built from well-formed registrations
with consistent constraints. -/
theorem getRoute_sound {H : Type} (re : Regexp) (routes : List (Str × Route H)) (t : node H)
    (path : Str) (pv : List Str)
    (hbuild : addRoutes re node.empty routes = some t)
    (hlit : LiteralsOK (allSegs routes)) (hcon : ConstraintsOK (allSegs routes))
    (hpath : PathOK path)
    (hbuf : ∀ pr ∈ routes, (namesOf (segsOf pr.1)).length ≤ pv.length) :
    (∃ pv1, t.getRoute re path pv = some (⟨none, []⟩, pv1)) ∨
    (∃ pr ∈ routes, ∃ vals ∈ matchValues re (segsOf pr.1) (pathSegs path), ∃ pv1,
      writeVals pv 0 vals = some pv1 ∧
      t.getRoute re path pv = some (⟨pr.2.handlers, namesOf (segsOf pr.1)⟩, pv1)) := by
  obtain ⟨hrep, hA⟩ := addRoutes_rep re routes t hlit hcon hbuild
  have := getRoute_sound_aux (fun key rx => rx = regexOf (constraintOf (allSegs routes)) key)
    (fun sg => sg.pattern = constraintOf (allSegs routes) sg.key) re re
    (by
      intro key rx sg value hG hAsg hk hacc
      by_cases hC : constraintOf (allSegs routes) key = []
      · left; rw [hAsg, hk, hC]
      · right
        rw [hAsg, hk]
        apply hacc
        rw [hG, regexOf, if_neg hC])
    (by
      intro a b ha hb hk v
      unfold accepts
      rw [ha, hb, hk])
    t (entriesOf routes) path pv hpath hrep hA
    (by
      intro e he sg hsg
      obtain ⟨pr, -, rfl⟩ := mem_entriesOf routes e he
      exact segsOf_names pr.1 sg hsg)
    (by
      intro e he
      obtain ⟨pr, hpr, rfl⟩ := mem_entriesOf routes e he
      exact hbuf pr hpr)
  rcases this with h | ⟨e, he, vals, hv, pv1, hw, hg⟩
  · exact Or.inl h
  · obtain ⟨pr, hpr, rfl⟩ := mem_entriesOf routes e he
    exact Or.inr ⟨pr, hpr, vals, hv, pv1, hw, hg⟩

/-- The same without any assumption on the constraints, for matching by
position. -/
theorem getRoute_sound_plain {H : Type} (re : Regexp) (routes : List (Str × Route H))
    (t : node H) (path : Str) (pv : List Str)
    (hbuild : addRoutes re node.empty routes = some t)
    (hlit : LiteralsOK (allSegs routes)) (hpath : PathOK path)
    (hbuf : ∀ pr ∈ routes, (namesOf (segsOf pr.1)).length ≤ pv.length) :
    (∃ pv1, t.getRoute re path pv = some (⟨none, []⟩, pv1)) ∨
    (∃ pr ∈ routes, ∃ vals ∈ matchValues permissive (segsOf pr.1) (pathSegs path), ∃ pv1,
      writeVals pv 0 vals = some pv1 ∧
      t.getRoute re path pv = some (⟨pr.2.handlers, namesOf (segsOf pr.1)⟩, pv1)) := by
  have hrep := addRoutes_rep_plain re routes t hlit hbuild
  have := getRoute_sound_aux (fun _ _ => True) (fun _ => True) re permissive
    (fun _ _ _ _ _ _ _ _ => Or.inr rfl)
    (fun a b _ _ _ v => ⟨fun _ => Or.inr rfl, fun _ => Or.inr rfl⟩)
    t (entriesOf routes) path pv hpath hrep (fun _ _ _ _ _ => trivial)
    (by
      intro e he sg hsg
      obtain ⟨pr, -, rfl⟩ := mem_entriesOf routes e he
      exact segsOf_names pr.1 sg hsg)
    (by
      intro e he
      obtain ⟨pr, hpr, rfl⟩ := mem_entriesOf routes e he
      exact hbuf pr hpr)
  rcases this with h | ⟨e, he, vals, hv, pv1, hw, hg⟩
  · exact Or.inl h
  · obtain ⟨pr, hpr, rfl⟩ := mem_entriesOf routes e he
    exact Or.inr ⟨pr, hpr, vals, hv, pv1, hw, hg⟩

/-! ## C4: no matching pattern, no handlers -/

/-- C4, counterexample. With `/{a}/x` and then `/{a:[0-9]+}/y` registered,
no pattern matches the path `/abc/y` (the segment `abc` does not match
`[0-9]+`), yet `getRoute` returns the handlers of the second route: the node
of the parameter `a` was created by the first registration, without a
constraint. -/
theorem C4_counterexample_shared_parameter_node :
    (∀ pr ∈ [("/{a}/x".toList, makeRoute "x"), ("/{a:[0-9]+}/y".toList, makeRoute "y")],
        matchesPath goRegexp pr.1 "/abc/y".toList = false) ∧
    resolve goRegexp [("/{a}/x".toList, makeRoute "x"), ("/{a:[0-9]+}/y".toList, makeRoute "y")]
        "/abc/y".toList makeParamValues
      = some (⟨some ["y"], ["a".toList]⟩, "abc".toList :: List.replicate 19 []) := by
  decide

/-- C4, amended. For every list of registered patterns in which no literal
segment begins with ':' or '*' and parameter segments with the same name carry
the same constraint, every non-empty request path that does not end in a
slash and every value buffer with room for the parameters of each pattern: if
no registered pattern matches the path, `getRoute` returns no handlers and no
names. -/
theorem C4_no_match_no_handlers {H : Type} (re : Regexp) (routes : List (Str × Route H))
    (t : node H) (path : Str) (pv : List Str)
    (hbuild : addRoutes re node.empty routes = some t)
    (hlit : LiteralsOK (allSegs routes)) (hcon : ConstraintsOK (allSegs routes))
    (hpath : PathOK path)
    (hbuf : ∀ pr ∈ routes, (namesOf (segsOf pr.1)).length ≤ pv.length)
    (hno : ∀ pr ∈ routes, matchesPath re pr.1 path = false) :
    ∃ pv1, t.getRoute re path pv = some (⟨none, []⟩, pv1) := by
  rcases getRoute_sound re routes t path pv hbuild hlit hcon hpath hbuf with
    h | ⟨pr, hpr, vals, hv, -, -, -⟩
  · exact h
  · have := hno pr hpr
    unfold matchesPath at this
    cases hm : matchValues re (segsOf pr.1) (pathSegs path) with
    | nil => rw [hm] at hv; simp at hv
    | cons a b => rw [hm] at this; simp at this

/-- C4, witness: the tree of `TestTreeAddAndGet` and the path `/foo/bar`. -/
theorem C4_no_match_no_handlers_witness :
    ∃ pv1, resolve goRegexp testRoutes "/foo/bar".toList makeParamValues
      = some (⟨none, []⟩, pv1) := by
  have hsome : (addRoutes goRegexp node.empty testRoutes).isSome = true := by decide
  obtain ⟨t, ht⟩ := Option.isSome_iff_exists.1 hsome
  obtain ⟨pv1, h⟩ := C4_no_match_no_handlers goRegexp testRoutes t "/foo/bar".toList
    makeParamValues ht (by decide) (by decide) (by decide) (by decide) (by decide)
  exact ⟨pv1, by simp only [resolve, ht, Option.bind]; exact h⟩

/-! ## C6: names and values of a successful search -/

theorem namesOf_length (segs : List segInfo)
    (h : ∀ sg ∈ segs, (sg.nType = staticNode → sg.pKeys = []) ∧
      (sg.nType ≠ staticNode → sg.pKeys.length = 1)) :
    (namesOf segs).length = paramCount segs := by
  induction segs with
  | nil => rfl
  | cons sg segs ih =>
    have hsg := h sg (List.mem_cons_self _ _)
    rw [namesOf_cons, List.length_append, ih (fun x hx => h x (List.mem_cons_of_mem _ hx))]
    unfold paramCount
    by_cases h0 : sg.nType = staticNode
    · have hb : (sg.nType != staticNode) = false := by simpa using h0
      rw [hsg.1 h0, List.filter_cons, hb]
      simp
    · have hb : (sg.nType != staticNode) = true := by simpa using h0
      rw [hsg.2 h0, List.filter_cons, hb]
      simp only [if_true, List.length_cons]
      omega

theorem writeVals_room (pv : List Str) (vals : List Str) :
    ∀ (i : Nat) (b : List Str), i + vals.length ≤ 256 → vals ≠ [] →
      writeVals pv i vals = some b → i + vals.length ≤ pv.length := by
  induction vals with
  | nil => intro i b _ h; exact absurd rfl h
  | cons v vals ih =>
    intro i b hmax _ hw
    simp only [List.length_cons] at hmax ⊢
    rw [writeVals] at hw
    cases hw2 : writeVals pv ((i + 1) % 256) vals with
    | none => rw [hw2] at hw; simp at hw
    | some pv2 =>
      rw [hw2] at hw
      simp only [Option.some_bind] at hw
      have hlen := writeVals_length pv vals _ pv2 hw2
      have hi : i < pv.length := by
        unfold setAt at hw
        split at hw
        · omega
        · simp at hw
      by_cases hv : vals = []
      · subst hv
        simp only [List.length_nil]
        omega
      · have hpos := List.length_pos.2 hv
        have hm : (i + 1) % 256 = i + 1 := Nat.mod_eq_of_lt (by omega)
        rw [hm] at hw2
        have := ih (i + 1) pv2 (by omega) hv hw2
        omega

set_option maxRecDepth 200000 in
/-- C6, counterexample. The index of the buffer is a `uint8`: with a pattern
of 257 parameters and the path `/x/.../x/y` of 257 segments, `getRoute`
succeeds with 257 names, while entry 256 of the buffer is still empty and not
the segment `y` bound to the last parameter. -/
theorem C6_counterexample_index_wraps :
    (resolve goRegexp [(longPattern, makeRoute "long")] longPath (List.replicate 300 [])).map
        (fun r => (r.1.handlers, r.1.pKeys.length, r.2.get? 256))
      = some (some ["long"], 257, some []) ∧
    matchValues goRegexp (segsOf longPattern) (pathSegs longPath)
      = [List.replicate 256 "x".toList ++ ["y".toList]] := by
  decide

/-- C6, amended. In a tree built from patterns of at most 256 parameters each
(the index of the buffer is a `uint8`) whose literal segments do not begin
with ':' or '*', for every non-empty path that does not end in a slash: when
`node.get` returns a node that carries a route, that route was registered with
a pattern that matches the path segment by segment (constraints aside), the
returned names are the `k` parameter names of that pattern, `k` being the
number of its parameter and catch-all segments, and the buffer holds the
values bound to them at the entries `0 .. k-1`, in pattern order, the rest of
the buffer being unchanged; so `/user/{uid:[0-9]+}/edit/{pid}` on
`/user/12/edit/3` gives the names `[uid, pid]` and the values `[12, 3]`. -/
theorem C6_values_follow_names {H : Type} (re : Regexp) (routes : List (Str × Route H))
    (t m : node H) (r : Route H) (path : Str) (pv pv1 : List Str)
    (hbuild : addRoutes re node.empty routes = some t)
    (hlit : LiteralsOK (allSegs routes)) (hpath : PathOK path)
    (hmax : ∀ pr ∈ routes, paramCount (segsOf pr.1) ≤ 256)
    (hget : node.get re t path pv 0 = some (some m, pv1)) (hroute : m.route = some r) :
    (∃ pr ∈ routes, pr.2 = r ∧
      t.getRoute re path pv = some (⟨r.handlers, namesOf (segsOf pr.1)⟩, pv1) ∧
      (namesOf (segsOf pr.1)).length = paramCount (segsOf pr.1) ∧
      ∃ vals ∈ matchValues permissive (segsOf pr.1) (pathSegs path),
        vals.length = paramCount (segsOf pr.1) ∧ pv1 = vals ++ pv.drop vals.length) ∧
    resolve goRegexp (wildcardRoutes (makeRoute "user") (makeRoute "src"))
        "/user/12/edit/3".toList makeParamValues
      = some (⟨some ["user"], ["uid".toList, "pid".toList]⟩,
          ["12".toList, "3".toList] ++ List.replicate 18 []) := by
  refine ⟨?_, by decide⟩
  have hrep := addRoutes_rep_plain re routes t hlit hbuild
  rw [get_eq_find re t path pv 0 hpath.1] at hget
  cases hf : node.find re t path with
  | none => rw [hf] at hget; simp [getOfFind] at hget
  | some x =>
    obtain ⟨m1, vals⟩ := x
    rw [hf] at hget
    simp only [getOfFind, Option.map_eq_some', Option.some.injEq, Prod.mk.injEq] at hget
    obtain ⟨b, hw, rfl, rfl⟩ := hget
    obtain ⟨e, he, hre, hpk, hv⟩ := find_routed (fun _ _ => True) (fun _ => True) re permissive
      (fun _ _ _ _ _ _ _ _ => Or.inr rfl)
      (fun a b _ _ _ v => ⟨fun _ => Or.inr rfl, fun _ => Or.inr rfl⟩)
      t (entriesOf routes) path m1 vals r hpath hrep (fun _ _ _ _ _ => trivial) hf hroute
    obtain ⟨pr, hpr, rfl⟩ := mem_entriesOf routes e he
    simp only at hre hpk hv
    have hnames := namesOf_length (segsOf pr.1) (fun sg hsg => segsOf_names pr.1 sg hsg)
    have hlen := matchValues_length permissive (segsOf pr.1) (pathSegs path) vals
      (fun sg hsg => segsOf_names pr.1 sg hsg) hv
    have hk := hmax pr hpr
    refine ⟨pr, hpr, hre, ?_, hnames, vals, hv, by rw [hlen, hnames], ?_⟩
    · rw [getRoute_eq re t path pv hpath.1, hf]
      simp only [hw, Option.map_some', hroute, hpk]
    · by_cases hvn : vals = []
      · subst hvn
        simp only [writeVals, Option.some.injEq] at hw
        simp [hw]
      · have hroom := writeVals_room pv vals 0 b (by omega) hvn hw
        rw [writeVals_eq pv vals 0 (by omega) hroom] at hw
        simp only [Option.some.injEq] at hw
        rw [← hw]
        simp

/-- C6, witness: the tree of `TestTreeParamAndWildcard` on `/user/12/edit/3`;
the search returns the node of `{pid}`. -/
theorem C6_values_follow_names_witness :
    ∃ pr ∈ wildcardRoutes (makeRoute "user") (makeRoute "src"), pr.2 = makeRoute "user" ∧
      ∃ vals ∈ matchValues permissive (segsOf pr.1) (pathSegs "/user/12/edit/3".toList),
        vals.length = paramCount (segsOf pr.1) ∧
        ["12".toList, "3".toList] ++ List.replicate 18 [] = vals ++ makeParamValues.drop vals.length := by
  have hsome : (addRoutes goRegexp node.empty
      (wildcardRoutes (makeRoute "user") (makeRoute "src"))).isSome = true := by decide
  obtain ⟨t, ht⟩ := Option.isSome_iff_exists.1 hsome
  have hget : node.get goRegexp t "/user/12/edit/3".toList makeParamValues 0
      = some (some pidNode, ["12".toList, "3".toList] ++ List.replicate 18 []) := by
    have h : (addRoutes goRegexp node.empty
        (wildcardRoutes (makeRoute "user") (makeRoute "src"))).bind
        (fun t => node.get goRegexp t "/user/12/edit/3".toList makeParamValues 0)
        = some (some pidNode, ["12".toList, "3".toList] ++ List.replicate 18 []) := rfl
    rw [ht] at h
    exact h
  obtain ⟨pr, hpr, hr, -, -, vals, hv, hl, hb⟩ :=
    (C6_values_follow_names goRegexp (wildcardRoutes (makeRoute "user") (makeRoute "src"))
      t pidNode (makeRoute "user") "/user/12/edit/3".toList makeParamValues _ ht (by decide)
      (by decide) (by decide) hget rfl).1
  exact ⟨pr, hpr, hr, vals, hv, hl, hb⟩

/-! ## C5: registering a pattern again -/

theorem find?_replaceFirst {H : Type} (k : Str) (c c1 : node H) (l : List (node H))
    (h : l.find? (fun x => x.key = k) = some c) (hk : c1.key = k) :
    (replaceFirst k c1 l).find? (fun x => x.key = k) = some c1 := by
  induction l with
  | nil => simp at h
  | cons d ds ih =>
    rw [replaceFirst]
    by_cases hd : d.key = k
    · rw [if_pos hd]
      simp [List.find?, hk]
    · rw [if_neg hd]
      simp only [List.find?, hd, decide_False] at h ⊢
      exact ih h

theorem replaceFirst_replaceFirst {H : Type} (k : Str) (c1 c2 : node H) (l : List (node H))
    (hk : c1.key = k) :
    replaceFirst k c2 (replaceFirst k c1 l) = replaceFirst k c2 l := by
  induction l with
  | nil => rfl
  | cons d ds ih =>
    rw [replaceFirst]
    by_cases hd : d.key = k
    · rw [if_pos hd, replaceFirst, if_pos hk, replaceFirst, if_pos hd]
    · rw [if_neg hd, replaceFirst, if_neg hd, ih, replaceFirst, if_neg hd]

theorem any_replaceFirst {H : Type} (k : Str) (c c1 : node H) (l : List (node H))
    (h : l.find? (fun x => x.key = k) = some c) (hk : c1.key = k) :
    (replaceFirst k c1 l).any (fun x => decide (x.key = k)) = true := by
  rw [any_key_iff, map_key_replaceFirst k c1 l hk]
  obtain ⟨hm, hck⟩ := find?_key_some k l c h
  rw [← hck]
  exact List.mem_map_of_mem _ hm

/-- After the child found by `getChild key` has been replaced by a node with
the same key, `hasChild` and `getChild` find the new node, and a second
replacement overrides the first. -/
theorem setChild_facts {H : Type} (n c c1 c2 : node H) (k : Str)
    (hg : n.getChild k = some c) (hk : c1.key = c.key) :
    (n.setChild k c1).hasChild k = true ∧ (n.setChild k c1).getChild k = some c1 ∧
      (n.setChild k c1).setChild k c2 = n.setChild k c2 := by
  by_cases h1 : k.head? = some ':'
  · simp only [node.getChild, h1, if_true] at hg
    have hck := (find?_key_some k _ c hg).2
    have hc1 : c1.key = k := hk.trans hck
    obtain ⟨s1, s2, s3, s4, s5⟩ := setChild_param n c1 k h1
    refine ⟨?_, ?_, ?_⟩
    · simp only [node.hasChild, h1, if_true, s2]
      exact any_replaceFirst k c c1 _ hg hc1
    · simp only [node.getChild, h1, if_true, s2]
      exact find?_replaceFirst k c c1 _ hg hc1
    · simp only [node.setChild, h1, if_true, node.pChildren, node.children, node.wChildren,
        node.nType, node.key, node.path, node.pKeys, node.regex, node.route]
      rw [replaceFirst_replaceFirst k c1 c2 _ hc1]
  · by_cases h2 : k.head? = some '*'
    · refine ⟨?_, ?_, ?_⟩
      · simp [node.hasChild, node.setChild, h1, h2, node.wChildren]
      · simp [node.getChild, node.setChild, h1, h2, node.wChildren]
      · simp [node.setChild, h1, h2, node.pChildren, node.children, node.wChildren,
          node.nType, node.key, node.path, node.pKeys, node.regex, node.route]
    · simp only [node.getChild, h1, h2, if_false] at hg
      have hck := (find?_key_some k _ c hg).2
      have hc1 : c1.key = k := hk.trans hck
      obtain ⟨s1, s2, s3, s4, s5⟩ := setChild_static n c1 k h1 h2
      refine ⟨?_, ?_, ?_⟩
      · simp only [node.hasChild, h1, h2, if_false, s1]
        exact any_replaceFirst k c c1 _ hg hc1
      · simp only [node.getChild, h1, h2, if_false, s1]
        exact find?_replaceFirst k c c1 _ hg hc1
      · simp only [node.setChild, h1, h2, if_false, node.pChildren, node.children,
          node.wChildren, node.nType, node.key, node.path, node.pKeys, node.regex, node.route]
        rw [replaceFirst_replaceFirst k c1 c2 _ hc1]

theorem addParts_cons_eq {H : Type} (re : Regexp) (s : Str) (parts : List Str)
    (n pn1 child : node H) (sg : segInfo) (acc : List Str) (path : Str) (route : Route H)
    (hp : parseSeg s = some sg)
    (hg : (n.hasChild sg.key = true ∧ pn1 = n) ∨
       (n.hasChild sg.key = false ∧
        ¬ (sg.pattern ≠ [] ∧ re.compiles (anchored sg.pattern) = false) ∧
        pn1 = n.attach (newChild sg)))
    (hchild : pn1.getChild sg.key = some child) :
    addParts re (s :: parts) n acc path route =
      (addParts re parts child (acc ++ sg.pKeys) path route).map
        (fun c => pn1.setChild sg.key c) := by
  rw [addParts, hp]
  simp only
  rcases hg with ⟨hh, rfl⟩ | ⟨hh, hc, rfl⟩
  · rw [if_pos hh]
    simp only [hchild]
  · rw [if_neg (by rw [hh]; simp), if_neg hc]
    simp only [hchild]

/-- Registering twice along the same segments gives the tree of the second
registration alone. -/
theorem addParts_twice {H : Type} (re : Regexp) (parts : List Str) :
    ∀ (n n1 : node H) (acc : List Str) (path1 path2 : Str) (r1 r2 : Route H),
      addParts re parts n acc path1 r1 = some n1 →
      ∃ n2, addParts re parts n acc path2 r2 = some n2 ∧
        addParts re parts n1 acc path2 r2 = some n2 := by
  induction parts with
  | nil =>
    intro n n1 acc path1 path2 r1 r2 h
    rw [addParts] at h
    simp only [Option.some.injEq] at h
    subst h
    exact ⟨_, rfl, rfl⟩
  | cons s parts ih =>
    intro n n1 acc path1 path2 r1 r2 h
    obtain ⟨sg, pn1, child, c1, hp, hg, hchild, hc1, rfl⟩ :=
      addParts_cons_some re s parts n n1 acc path1 r1 h
    obtain ⟨c2, h2a, h2b⟩ := ih child c1 (acc ++ sg.pKeys) path1 path2 r1 r2 hc1
    have hroot := addParts_root re parts child c1 _ path1 r1 hc1
    obtain ⟨f1, f2, f3⟩ := setChild_facts pn1 child c1 c2 sg.key hchild hroot.1
    refine ⟨pn1.setChild sg.key c2, ?_, ?_⟩
    · rw [addParts_cons_eq re s parts n pn1 child sg acc path2 r2 hp hg hchild, h2a]
      rfl
    · rw [addParts_cons_eq re s parts (pn1.setChild sg.key c1) (pn1.setChild sg.key c1) c1 sg
        acc path2 r2 hp (Or.inl ⟨f1, rfl⟩) f2, h2b]
      simp only [Option.map_some', f3]

/-- Registration succeeds on every tree when the segments are not empty, no
literal begins with ':' or '*', and the constraints compile. -/
theorem addParts_succeeds {H : Type} (re : Regexp) (parts : List Str) :
    ∀ (n : node H) (acc : List Str) (path : Str) (r : Route H),
      (∀ s ∈ parts, ∃ sg, parseSeg s = some sg ∧
        (sg.nType = staticNode → sg.key.head? ≠ some ':' ∧ sg.key.head? ≠ some '*') ∧
        (sg.pattern ≠ [] → re.compiles (anchored sg.pattern) = true)) →
      ∃ n1, addParts re parts n acc path r = some n1 := by
  induction parts with
  | nil =>
    intro n acc path r _
    exact ⟨_, rfl⟩
  | cons s parts ih =>
    intro n acc path r h
    obtain ⟨sg, hp, hlit, hcomp⟩ := h s (List.mem_cons_self _ _)
    have hrest := fun s hs => h s (List.mem_cons_of_mem _ hs)
    have hok := parseSeg_segOK s sg hp hlit
    have hnc : ¬ (sg.pattern ≠ [] ∧ re.compiles (anchored sg.pattern) = false) := by
      rintro ⟨h1, h2⟩
      rw [hcomp h1] at h2
      exact absurd h2 (by decide)
    have key : ∃ pn1 child, ((n.hasChild sg.key = true ∧ pn1 = n) ∨
        (n.hasChild sg.key = false ∧
          ¬ (sg.pattern ≠ [] ∧ re.compiles (anchored sg.pattern) = false) ∧
          pn1 = n.attach (newChild sg))) ∧ pn1.getChild sg.key = some child := by
      by_cases hh : n.hasChild sg.key = true
      · have : ∃ child, n.getChild sg.key = some child := by
          rcases hok with ⟨-, hh1, hh2⟩ | ⟨-, h1⟩ | ⟨-, h1⟩
          · simp only [node.hasChild, hh1, hh2, if_false] at hh
            simp only [node.getChild, hh1, hh2, if_false]
            exact mem_find?_key _ _ ((any_key_iff _ _).1 hh)
          · simp only [node.hasChild, h1, if_true] at hh
            simp only [node.getChild, h1, if_true]
            exact mem_find?_key _ _ ((any_key_iff _ _).1 hh)
          · have h0 : sg.key.head? ≠ some ':' := by rw [h1]; decide
            simp only [node.hasChild, h0, h1, if_true, if_false] at hh
            simp only [node.getChild, h0, h1, if_true, if_false]
            exact Option.isSome_iff_exists.1 hh
        obtain ⟨child, hc⟩ := this
        exact ⟨n, child, Or.inl ⟨hh, rfl⟩, hc⟩
      · have hf : n.hasChild sg.key = false := by simpa using hh
        refine ⟨n.attach (newChild sg), newChild sg, Or.inr ⟨hf, hnc, rfl⟩, ?_⟩
        rcases hok with ⟨ht, hh1, hh2⟩ | ⟨ht, h1⟩ | ⟨ht, h1⟩
        · have hnt : (newChild sg : node H).nType = staticNode := ht
          simp only [node.hasChild, hh1, hh2, if_false] at hf
          simp only [node.getChild, hh1, hh2, if_false]
          rw [(attach_static n (newChild sg) hnt).1]
          apply find?_append_fresh sg.key n.children (newChild sg) rfl
          intro hm
          rw [(any_key_iff _ _).2 hm] at hf
          exact absurd hf (by decide)
        · have hnt : (newChild sg : node H).nType = paramNode := ht
          simp only [node.hasChild, h1, if_true] at hf
          simp only [node.getChild, h1, if_true]
          rw [(attach_param n (newChild sg) hnt).2.1]
          apply find?_append_fresh sg.key n.pChildren (newChild sg) rfl
          intro hm
          rw [(any_key_iff _ _).2 hm] at hf
          exact absurd hf (by decide)
        · have hnt : (newChild sg : node H).nType = catchAllNode := ht
          have h0 : sg.key.head? ≠ some ':' := by rw [h1]; decide
          simp only [node.getChild, h0, h1, if_true, if_false]
          exact (attach_catchAll n (newChild sg) hnt).2.2.1
    obtain ⟨pn1, child, hg, hchild⟩ := key
    obtain ⟨c1, hc1⟩ := ih child (acc ++ sg.pKeys) path r hrest
    exact ⟨pn1.setChild sg.key c1,
      by rw [addParts_cons_eq re s parts n pn1 child sg acc path r hp hg hchild, hc1]; rfl⟩

theorem wellFormed_spec (re : Regexp) (p : Str) (h : wellFormed re p = true) :
    ∀ s ∈ routeParts p, ∃ sg, parseSeg s = some sg ∧
      (sg.nType = staticNode → sg.key.head? ≠ some ':' ∧ sg.key.head? ≠ some '*') ∧
      (sg.pattern ≠ [] → re.compiles (anchored sg.pattern) = true) := by
  intro s hs
  unfold wellFormed at h
  rw [List.all_eq_true] at h
  have := h s hs
  cases hp : parseSeg s with
  | none => rw [hp] at this; simp at this
  | some sg =>
    rw [hp] at this
    simp only [Bool.and_eq_true, decide_eq_true_eq, Bool.or_eq_true, List.isEmpty_iff] at this
    refine ⟨sg, rfl, this.1, ?_⟩
    intro hne
    rcases this.2 with h1 | h1
    · exact absurd h1 hne
    · exact h1

/-- C5, counterexample. The pattern `/` is well formed and `//` equals it up
to leading and trailing slashes, but registering `/` and then `//` on the
empty tree fails: `addRoute` special-cases only `""` and `"/"`, and for `//`
it walks the one empty segment of `strings.Split("", "/")`, whose first byte
it reads. -/
theorem C5_counterexample_double_slash :
    wellFormed goRegexp "/".toList = true ∧
    trimSlash "//".toList = trimSlash "/".toList ∧
    ((node.empty : node String).addRoute goRegexp "/".toList (makeRoute "a")).isSome = true ∧
    (((node.empty : node String).addRoute goRegexp "/".toList (makeRoute "a")).bind
      (fun t1 => t1.addRoute goRegexp "//".toList (makeRoute "b"))).isSome = false := by
  decide

/-- C5, amended. For every tree `t`, every well-formed pattern `p`, every
pattern `p'` that walks the same segments as `p` once the slashes at its ends
are trimmed (which `//`, `///`, ... do not for `p = "/"` or `p = ""`) and all
routes `r1`, `r2`: registering `(p, r1)` and then `(p', r2)` raises no error
and gives exactly the tree that registering `(p', r2)` alone on `t` gives, so
that `getRoute` answers the same for every path and `r1` plays no part. -/
theorem C5_reregistration_overwrites {H : Type} (re : Regexp) (t : node H) (p p' : Str)
    (r1 r2 : Route H) (hwf : wellFormed re p = true) (hsame : routeParts p' = routeParts p) :
    ∃ t1 t2, t.addRoute re p r1 = some t1 ∧ t1.addRoute re p' r2 = some t2 ∧
      t.addRoute re p' r2 = some t2 ∧
      ∀ path pv, (t1.addRoute re p' r2).bind (fun x => x.getRoute re path pv)
        = (t.addRoute re p' r2).bind (fun x => x.getRoute re path pv) := by
  obtain ⟨t1, h1⟩ := addParts_succeeds re (routeParts p) t [] p r1 (wellFormed_spec re p hwf)
  obtain ⟨t2, h2, h3⟩ := addParts_twice re (routeParts p) t t1 [] p p' r1 r2 h1
  have e1 : t1.addRoute re p' r2 = some t2 := by
    unfold node.addRoute
    rw [hsame]
    exact h3
  have e2 : t.addRoute re p' r2 = some t2 := by
    unfold node.addRoute
    rw [hsame]
    exact h2
  exact ⟨t1, t2, h1, e1, e2, fun path pv => by rw [e1, e2]⟩

/-- C5, witness: `/users/{id}/` and then `/users/{id}`, as in
`TestTreeAddAndGet`. -/
theorem C5_reregistration_overwrites_witness :
    ∃ t1 t2, (node.empty : node String).addRoute goRegexp "/users/{id}/".toList (makeRoute "a")
        = some t1 ∧
      t1.addRoute goRegexp "/users/{id}".toList (makeRoute "b") = some t2 ∧
      (node.empty : node String).addRoute goRegexp "/users/{id}".toList (makeRoute "b")
        = some t2 := by
  obtain ⟨t1, t2, h1, h2, h3, -⟩ := C5_reregistration_overwrites goRegexp
    (node.empty : node String) "/users/{id}/".toList "/users/{id}".toList (makeRoute "a")
    (makeRoute "b") (by decide) (by decide)
  exact ⟨t1, t2, h1, h2, h3⟩

/-! ## C8: the first matching parameter child wins -/

theorem joinPath_ne_slash (v : Str) (vs : List Str) (h : v ≠ []) : joinPath (v :: vs) ≠ ['/'] := by
  rw [joinPath_cons]
  intro hh
  simp only [List.cons.injEq, true_and, List.append_eq_nil] at hh
  exact h hh.1

theorem joinPath_ne_nil (v : Str) (vs : List Str) : joinPath (v :: vs) ≠ [] := by
  rw [joinPath_cons]
  simp

theorem routeParts_three (x y z : Str) (hx : x ≠ [] ∧ '/' ∉ x) (hy : y ≠ [] ∧ '/' ∉ y)
    (hz : z ≠ [] ∧ '/' ∉ z) : routeParts (joinPath [x, y, z]) = [x, y, z] := by
  apply routeParts_joinPath
  intro w hw
  simp only [List.mem_cons, List.mem_singleton, List.not_mem_nil, or_false] at hw
  rcases hw with rfl | rfl | rfl
  · exact hx
  · exact hy
  · exact hz

theorem braces_ok (a : Str) (ha : '/' ∉ a) : braces a ≠ [] ∧ '/' ∉ braces a :=
  ⟨by simp [braces], by simp [braces, ha]⟩

/-- C8. For all names `a ≠ b` (without ':' and '/'), literal segments `p` and
`s` and every non-empty segment `v`, in the tree built by registering
`/p/{a}/s` and then `/p/{b}/s`, `getRoute("/p/v/s")` returns the handlers of
the first registration with the names `[a]` and writes `v` at entry 0 of the
buffer; in the tree of `TestTreeAddAndGet`, `/user/10/add` resolves to
`/user/{id}/add` and not to `/user/{name}/add`. -/
theorem C8_first_parameter_child_wins {H : Type} (re : Regexp) (a b p s v : Str)
    (r1 r2 : Route H) (pv : List Str)
    (hab : a ≠ b) (ha : ':' ∉ a ∧ '/' ∉ a) (hb : ':' ∉ b ∧ '/' ∉ b)
    (hp : Literal p) (hs : Literal s) (hv : v ≠ [] ∧ '/' ∉ v) (hpv : 0 < pv.length) :
    resolve re [(joinPath [p, braces a, s], r1), (joinPath [p, braces b, s], r2)]
        (joinPath [p, v, s]) pv
      = some (⟨r1.handlers, [a]⟩, pv.set 0 v) ∧
    resolve goRegexp testRoutes "/user/10/add".toList makeParamValues
      = some (⟨some ["/user/{id}/add"], ["id".toList]⟩,
          "10".toList :: List.replicate 19 []) := by
  refine ⟨?_, by decide⟩
  obtain ⟨hp1, hp2, hp3, hp4, hp5⟩ := hp
  obtain ⟨hs1, hs2, hs3, hs4, hs5⟩ := hs
  have hba : ¬ b = a := fun h => hab h.symm
  have hparts1 := routeParts_three p (braces a) s ⟨hp1, hp2⟩ (braces_ok a ha.2) ⟨hs1, hs2⟩
  have hparts2 := routeParts_three p (braces b) s ⟨hp1, hp2⟩ (braces_ok b hb.2) ⟨hs1, hs2⟩
  have hv1 : segValue (joinPath [p, v, s]) = p := segValue_joinPath p _ hp2
  have hr1 : segRest (joinPath [p, v, s]) = joinPath [v, s] := segRest_joinPath p _ hp2
  have hv2 : segValue (joinPath [v, s]) = v := segValue_joinPath v _ hv.2
  have hr2 : segRest (joinPath [v, s]) = joinPath [s] := segRest_joinPath v _ hv.2
  have hv3 : segValue (joinPath [s]) = s := segValue_joinPath s _ hs2
  have hr3 : segRest (joinPath [s]) = [] := segRest_joinPath s _ hs2
  have n1 := joinPath_ne_slash p [v, s] hp1
  have n2 := joinPath_ne_slash v [s] hv.1
  have n3 := joinPath_ne_slash s [] hs1
  have m1 := joinPath_ne_nil p [v, s]
  have m2 := joinPath_ne_nil v [s]
  have m3 := joinPath_ne_nil s []
  have hbuild : addRoutes re node.empty
      [(joinPath [p, braces a, s], r1), (joinPath [p, braces b, s], r2)]
      = some (node.mk 0 [] [] [] [node.mk 0 p [] [] []
          [node.mk 1 (':' :: a) [] [] [node.mk 0 s (joinPath [p, braces a, s]) [a] [] [] none
              none (some r1)] [] none none none,
           node.mk 1 (':' :: b) [] [] [node.mk 0 s (joinPath [p, braces b, s]) [b] [] [] none
              none (some r2)] [] none none none]
          none none none] [] none none none) := by
    simp [addRoutes, node.addRoute, hparts1, hparts2, addParts, parseSeg_literal p hp1 hp3,
      parseSeg_literal s hs1 hs3, parseSeg_param a ha.1, parseSeg_param b hb.1, node.hasChild,
      node.getChild, node.attach, node.setChild, newChild, node.empty, hp4, hp5, hs4, hs5,
      node.children, node.pChildren, node.wChildren, node.nType, node.key, node.path,
      node.pKeys, node.regex, node.route, staticNode, paramNode, catchAllNode, replaceFirst,
      hba, hab]
  simp only [resolve, hbuild, Option.bind]
  rw [getRoute_eq re _ _ pv m1]
  simp [find_eq, findStatic, findParam, hv1, hr1, hv2, hr2, hv3, hr3, n1, n2, n3, m2, m3,
    node.key, node.regex, node.route, node.pKeys, node.children, node.pChildren, node.wChildren,
    writeVals, setAt, hpv]

/-- C8, witness: `/user/{id}/add` and then `/user/{name}/add` on
`/user/10/add`. -/
theorem C8_first_parameter_child_wins_witness :
    resolve goRegexp
        [(joinPath ["user".toList, braces "id".toList, "add".toList], makeRoute "first"),
         (joinPath ["user".toList, braces "name".toList, "add".toList], makeRoute "second")]
        (joinPath ["user".toList, "10".toList, "add".toList]) makeParamValues
      = some (⟨some ["first"], ["id".toList]⟩, makeParamValues.set 0 "10".toList) :=
  (C8_first_parameter_child_wins goRegexp "id".toList "name".toList "user".toList "add".toList
    "10".toList (makeRoute "first") (makeRoute "second") makeParamValues (by decide)
    (by decide) (by decide) (by decide) (by decide) (by decide) (by decide)).1

/-! ## C3: a constrained parameter -/

theorem routeParts_two (x y : Str) (hx : x ≠ [] ∧ '/' ∉ x) (hy : y ≠ [] ∧ '/' ∉ y) :
    routeParts (joinPath [x, y]) = [x, y] := by
  apply routeParts_joinPath
  intro w hw
  simp only [List.mem_cons, List.mem_singleton, List.not_mem_nil, or_false] at hw
  rcases hw with rfl | rfl
  · exact hx
  · exact hy

/-- C3, counterexample. The empty expression is fully matched by the empty
text only, but in the tree of `/page/{page:}` the path `/page/x` resolves to
the route with `page = "x"`: an empty constraint text leaves the parameter
unconstrained. -/
theorem C3_counterexample_empty_expression :
    resolve goRegexp [(pagePattern [], makeRoute "page")] "/page/x".toList makeParamValues
      = some (⟨some ["page"], ["page".toList]⟩, "x".toList :: List.replicate 19 []) ∧
    fullyMatches [] "x".toList = false ∧ goRegexp.compiles [] = true := by
  decide

/-- The expression compiled for the constraint `a|b` is `^a|b$`, which Go
reads as `(^a)|(b$)`: it accepts `axx`, which `a|b` does not fully match. -/
theorem anchored_alternation_accepts_more :
    goRegexp.matchString (anchored "a|b".toList) "axx".toList = true ∧
    fullyMatches "a|b".toList "axx".toList = false ∧
    resolve goRegexp [(pagePattern "a|b".toList, makeRoute "page")] "/page/axx".toList
        makeParamValues
      = some (⟨some ["page"], ["page".toList]⟩, "axx".toList :: List.replicate 19 []) := by
  decide

/-- The tree of `/pg/{nm:R}` on the path `/pg/s`. -/
theorem constrained_route {H : Type} (re : Regexp) (pg nm R s : Str) (r : Route H)
    (pv : List Str) (hpg : Literal pg) (hnm : ':' ∉ nm ∧ '/' ∉ nm)
    (hR : R ≠ ['*']) (hRs : '/' ∉ R)
    (hc : R ≠ [] → re.compiles (anchored R) = true)
    (hs : s ≠ [] ∧ '/' ∉ s) (hpv : 0 < pv.length) :
    resolve re [(joinPath [pg, braces (nm ++ ':' :: R)], r)] (joinPath [pg, s]) pv
      = (if R = [] ∨ re.matchString (anchored R) s = true
          then some (⟨r.handlers, [nm]⟩, pv.set 0 s)
          else some (⟨none, []⟩, pv)) := by
  obtain ⟨hp1, hp2, hp3, hp4, hp5⟩ := hpg
  have hparts := routeParts_two pg (braces (nm ++ ':' :: R)) ⟨hp1, hp2⟩
    (braces_ok _ (by simp [hRs, hnm.2]))
  have hseg := parseSeg_constrained nm R hnm.1 hR
  have hv1 : segValue (joinPath [pg, s]) = pg := segValue_joinPath _ _ hp2
  have hr1 : segRest (joinPath [pg, s]) = joinPath [s] := segRest_joinPath _ _ hp2
  have hv2 : segValue (joinPath [s]) = s := segValue_joinPath s _ hs.2
  have hr2 : segRest (joinPath [s]) = [] := segRest_joinPath s _ hs.2
  have n1 := joinPath_ne_slash pg [s] hp1
  have n2 := joinPath_ne_slash s [] hs.1
  have m1 := joinPath_ne_nil pg [s]
  have m2 := joinPath_ne_nil s []
  have hbuild : addRoutes re node.empty [(joinPath [pg, braces (nm ++ ':' :: R)], r)]
      = some (node.mk 0 [] [] [] [node.mk 0 pg [] [] []
          [node.mk 1 (':' :: nm) (joinPath [pg, braces (nm ++ ':' :: R)]) [nm] [] [] none
            (if R ≠ [] then some (anchored R) else none) (some r)]
          none none none] [] none none none) := by
    by_cases hRe : R = []
    · subst hRe
      simp [addRoutes, node.addRoute, hparts, addParts,
        parseSeg_literal pg hp1 hp3, hseg, node.hasChild,
        node.getChild, node.attach, node.setChild, newChild, node.empty,
        node.children, node.pChildren, node.wChildren, node.nType, node.key, node.path,
        node.pKeys, node.regex, node.route, staticNode, paramNode, catchAllNode, replaceFirst,
        hp4, hp5]
    · have hcomp := hc hRe
      simp [addRoutes, node.addRoute, hparts, addParts,
        parseSeg_literal pg hp1 hp3, hseg, node.hasChild,
        node.getChild, node.attach, node.setChild, newChild, node.empty,
        node.children, node.pChildren, node.wChildren, node.nType, node.key, node.path,
        node.pKeys, node.regex, node.route, staticNode, paramNode, catchAllNode, replaceFirst,
        hRe, hcomp, hp4, hp5]
  simp only [resolve, hbuild, Option.bind]
  rw [getRoute_eq re _ _ pv m1]
  by_cases hRe : R = []
  · simp [find_eq, findStatic, findParam, hv1, hr1, hv2, hr2, n1, n2, m2,
      node.key, node.regex, node.route, node.pKeys, node.children, node.pChildren,
      node.wChildren, writeVals, setAt, hpv, hRe]
  · by_cases hm : re.matchString (anchored R) s = true
    · simp [find_eq, findStatic, findParam, hv1, hr1, hv2, hr2, n1, n2, m2,
        node.key, node.regex, node.route, node.pKeys, node.children, node.pChildren,
        node.wChildren, writeVals, setAt, hpv, hRe, hm]
    · simp [find_eq, findStatic, findParam, hv1, hr1, hv2, hr2, n1, n2, m2,
        node.key, node.regex, node.route, node.pKeys, node.children, node.pChildren,
        node.wChildren, writeVals, setAt, hpv, hRe, hm]

/-- C3, amended. For every expression `R` other than `*`, without a slash,
for which `"^" + R + "$"` compiles when `R` is not empty, and every non-empty
segment `s` without a slash: in the tree holding only `/page/{page:R}`,
`getRoute("/page/" + s)` returns the route with `page = s` if `R` is empty or
the expression compiled from `"^" + R + "$"` matches `s`, and no route
otherwise. For `R = [0-9]+` the path `/page/12` matches with `page = "12"` and
`/page/abc` does not match. -/
theorem C3_constraint_decides_the_match {H : Type} (re : Regexp) (R s : Str) (r : Route H)
    (pv : List Str) (hR : R ≠ ['*']) (hRs : '/' ∉ R)
    (hc : R ≠ [] → re.compiles (anchored R) = true)
    (hs : s ≠ [] ∧ '/' ∉ s) (hpv : 0 < pv.length) :
    resolve re [(pagePattern R, r)] (joinPath ["page".toList, s]) pv
      = (if R = [] ∨ re.matchString (anchored R) s = true
          then some (⟨r.handlers, ["page".toList]⟩, pv.set 0 s)
          else some (⟨none, []⟩, pv)) ∧
    resolve goRegexp [(pagePattern "[0-9]+".toList, makeRoute "page")] "/page/12".toList
        makeParamValues
      = some (⟨some ["page"], ["page".toList]⟩, "12".toList :: List.replicate 19 []) ∧
    resolve goRegexp [(pagePattern "[0-9]+".toList, makeRoute "page")] "/page/abc".toList
        makeParamValues
      = some (⟨none, []⟩, makeParamValues) :=
  ⟨constrained_route re "page".toList "page".toList R s r pv (by decide) (by decide) hR hRs hc
    hs hpv, by decide, by decide⟩

/-- C3, witness: `R = [0-9]+` and `s = 12` with Go's engine on the subset. -/
theorem C3_constraint_decides_the_match_witness :
    resolve goRegexp [(pagePattern "[0-9]+".toList, makeRoute "page")]
        (joinPath ["page".toList, "12".toList]) makeParamValues
      = (if "[0-9]+".toList = [] ∨
            goRegexp.matchString (anchored "[0-9]+".toList) "12".toList = true
          then some (⟨some ["page"], ["page".toList]⟩, makeParamValues.set 0 "12".toList)
          else some (⟨none, []⟩, makeParamValues)) :=
  (C3_constraint_decides_the_match goRegexp "[0-9]+".toList "12".toList (makeRoute "page")
    makeParamValues (by decide) (by decide) (fun _ => by decide) (by decide) (by decide)).1

/-! ## C7: static children are tried first -/

theorem findStatic_none_of_not_mem {H : Type} (re : Regexp) (l : List (node H)) (v rest : Str)
    (h : v ∉ l.map node.key) : findStatic re l v rest = none := by
  induction l with
  | nil => rfl
  | cons d ds ih =>
    rw [List.map_cons, List.mem_cons, not_or] at h
    rw [findStatic, if_neg (fun hk => h.1 hk.symm)]
    exact ih h.2

/-- With distinct keys, the loop over the static children is decided by the
one child whose key is the segment. -/
theorem findStatic_unique {H : Type} (re : Regexp) (l : List (node H)) (c : node H)
    (v rest : Str) (hnd : (l.map node.key).Nodup) (hc : c ∈ l) (hk : c.key = v) :
    findStatic re l v rest = if rest ≠ [] then node.find re c rest else some (c, []) := by
  induction l with
  | nil => simp at hc
  | cons d ds ih =>
    rw [List.map_cons, List.nodup_cons] at hnd
    rcases List.mem_cons.1 hc with rfl | hcd
    · rw [findStatic, if_pos hk]
      by_cases hr : rest ≠ []
      · rw [if_pos hr, if_pos hr]
        cases hf : node.find re c rest with
        | some x => rfl
        | none =>
          simp only
          exact findStatic_none_of_not_mem re ds v rest (hk ▸ hnd.1)
      · rw [if_neg hr, if_neg hr]
    · have hdk : d.key ≠ v := by
        intro hd
        apply hnd.1
        rw [hd, ← hk]
        exact List.mem_map_of_mem _ hcd
      rw [findStatic, if_neg hdk]
      exact ih hnd.2 hcd

theorem terminal_isSome {H : Type} (P : List (Entry H)) (e : Entry H) (he : e ∈ P)
    (hs : e.segs = []) : ∃ e1, terminal P = some e1 := by
  unfold terminal
  have hm : e ∈ P.filter (fun e => e.segs.isEmpty) := by
    rw [List.mem_filter]
    exact ⟨he, by simp [hs]⟩
  cases hl : (P.filter (fun e => e.segs.isEmpty)).getLast? with
  | some e1 => exact ⟨e1, rfl⟩
  | none =>
    rw [List.getLast?_eq_none_iff] at hl
    rw [hl] at hm
    simp at hm

theorem rep_route_isSome {H : Type} (G : Str → Option Str → Prop) (n : node H)
    (P : List (Entry H)) (hrep : Rep G n P) (e : Entry H) (he : e ∈ P) (hs : e.segs = []) :
    n.route.isSome = true := by
  rw [rep_iff] at hrep
  obtain ⟨e1, h1⟩ := terminal_isSome P e he hs
  rw [hrep.1, h1]
  rfl

/-- The search along a path of literal segments that some entry consists of
ends at the node of that entry; a final slash makes no difference. -/
theorem find_static_chain {H : Type} (G : Str → Option Str → Prop) (re : Regexp)
    (segs : List Str) :
    ∀ (n : node H) (P : List (Entry H)) (trail : Str),
      Rep G n P → (∀ s ∈ segs, s ≠ [] ∧ '/' ∉ s) →
      (∃ e ∈ P, e.segs = segs.map literalSeg) →
      (trail = [] ∨ trail = ['/']) → (segs = [] → trail = ['/']) →
      ∃ m, node.find re n (joinPath segs ++ trail) = some (m, []) ∧
        Rep G m (subs (segs.map literalSeg) P) := by
  induction segs with
  | nil =>
    intro n P trail hrep _ he _ htr
    obtain ⟨e, he, hs⟩ := he
    rw [htr rfl, joinPath_nil, List.nil_append, find_eq, if_pos rfl,
      rep_route_isSome G n P hrep e he hs]
    exact ⟨n, rfl, hrep⟩
  | cons v vs ih =>
    intro n P trail hrep hsegs he htrail _
    obtain ⟨e, he, hs⟩ := he
    obtain ⟨hv1, hv2⟩ := hsegs v (List.mem_cons_self _ _)
    have hrest_head : (joinPath vs ++ trail) = [] ∨ (joinPath vs ++ trail).head? = some '/' := by
      cases vs with
      | nil =>
        rcases htrail with rfl | rfl
        · exact Or.inl rfl
        · exact Or.inr rfl
      | cons w ws => right; rw [joinPath_cons]; rfl
    have hpath : joinPath (v :: vs) ++ trail = '/' :: (v ++ (joinPath vs ++ trail)) := by
      rw [joinPath_cons]; simp
    have hval : segValue (joinPath (v :: vs) ++ trail) = v := by
      rw [hpath]
      simp only [segValue, List.drop_succ_cons, List.drop_zero]
      exact (takeWhile_noSlash v _ hv2 hrest_head).1
    have hrest : segRest (joinPath (v :: vs) ++ trail) = joinPath vs ++ trail := by
      rw [hpath]
      simp only [segRest, List.drop_succ_cons, List.drop_zero]
      exact (takeWhile_noSlash v _ hv2 hrest_head).2
    have hns : joinPath (v :: vs) ++ trail ≠ ['/'] := by
      rw [hpath]
      intro hh
      simp only [List.cons.injEq, true_and, List.append_eq_nil] at hh
      exact hv1 hh.1
    have hrep0 := hrep
    rw [rep_iff] at hrep
    obtain ⟨-, -, hnd, -, hcov, -, hcs, -, -⟩ := hrep
    have hkey : v ∈ n.children.map node.key :=
      hcov e he (literalSeg v) (vs.map literalSeg) (by rw [hs]; rfl) rfl
    obtain ⟨c, hc, hck⟩ := List.mem_map.1 hkey
    obtain ⟨-, hrc⟩ := hcs c hc
    have he1 : (⟨vs.map literalSeg, e.pKeys, e.route⟩ : Entry H) ∈ sub staticNode c.key P := by
      rw [mem_sub]
      exact ⟨e, he, literalSeg v, by rw [hs]; rfl, rfl, Or.inr hck.symm, rfl, rfl⟩
    rw [find_eq, if_neg hns, hval, hrest, findStatic_unique re _ c v _ hnd hc hck]
    have hsubs : subs ((v :: vs).map literalSeg) P
        = subs (vs.map literalSeg) (sub staticNode c.key P) := by
      rw [List.map_cons, subs, hck]
      rfl
    by_cases hr : joinPath vs ++ trail ≠ []
    · rw [if_pos hr]
      have hcond : vs = [] → trail = ['/'] := by
        intro hvs
        subst hvs
        rcases htrail with rfl | rfl
        · exact absurd rfl hr
        · rfl
      obtain ⟨m, hm, hrm⟩ := ih c _ trail hrc
        (fun s hs => hsegs s (List.mem_cons_of_mem _ hs)) ⟨_, he1, rfl⟩ htrail hcond
      rw [hm]
      exact ⟨m, rfl, hsubs ▸ hrm⟩
    · rw [if_neg hr]
      have hnil : joinPath vs ++ trail = [] := by simpa using hr
      rw [List.append_eq_nil, joinPath_eq_nil] at hnil
      refine ⟨c, rfl, ?_⟩
      rw [hsubs, hnil.1]
      exact hrc

theorem sub_append_list {H : Type} (kind : Nat) (key : Str) (A B : List (Entry H)) :
    sub kind key (A ++ B) = sub kind key A ++ sub kind key B := by
  unfold sub
  rw [List.filterMap_append]

theorem subs_append_list {H : Type} (S : List segInfo) :
    ∀ (A B : List (Entry H)), subs S (A ++ B) = subs S A ++ subs S B := by
  induction S with
  | nil => intro A B; rfl
  | cons sg S ih =>
    intro A B
    rw [subs, subs, subs, sub_append_list, ih]

theorem subs_self {H : Type} (S rest : List segInfo) (pk : List Str) (r : Route H) :
    subs S [(⟨S ++ rest, pk, r⟩ : Entry H)] = [⟨rest, pk, r⟩] := by
  induction S with
  | nil => rfl
  | cons sg S ih =>
    rw [subs]
    have : sub sg.nType sg.key [(⟨sg :: S ++ rest, pk, r⟩ : Entry H)]
        = [⟨S ++ rest, pk, r⟩] := by
      simp [sub, List.filterMap, Entry.below]
    rw [this, ih]

theorem terminal_middle {H : Type} (X Y : List (Entry H)) (e : Entry H) (he : e.segs = [])
    (hY : ∀ y ∈ Y, y.segs ≠ []) : terminal (X ++ e :: Y) = some e := by
  unfold terminal
  have hfY : Y.filter (fun e => e.segs.isEmpty) = [] := by
    rw [List.filter_eq_nil_iff]
    intro y hy
    simpa using hY y hy
  rw [List.filter_append, List.filter_cons]
  simp [he, hfY]

theorem parseSeg_static (s : Str) (sg : segInfo) (h : parseSeg s = some sg)
    (ht : sg.nType = staticNode) : sg = literalSeg sg.key := by
  unfold parseSeg at h
  cases s with
  | nil => simp at h
  | cons c tl =>
    simp only at h
    split at h
    · split at h
      · split at h
        · simp only [Option.some.injEq] at h
          subst h
          exact absurd ht (by simp [catchAllNode, staticNode])
        · simp only [Option.some.injEq] at h
          subst h
          exact absurd ht (by simp [paramNode, staticNode])
      · simp only [Option.some.injEq] at h
        subst h
        exact absurd ht (by simp [paramNode, staticNode])
    · simp only [Option.some.injEq] at h
      subst h
      rfl

theorem steps_literal (pre : List segInfo) :
    ∀ (segs : List Str), pre.map stepOf = (segs.map literalSeg).map stepOf →
      (∀ sg ∈ pre, sg.nType = staticNode → sg = literalSeg sg.key) →
      pre = segs.map literalSeg := by
  induction pre with
  | nil =>
    intro segs h _
    cases segs with
    | nil => rfl
    | cons s ss => simp at h
  | cons a pre ih =>
    intro segs h hst
    cases segs with
    | nil => simp at h
    | cons s ss =>
      simp only [List.map_cons, List.cons.injEq] at h
      obtain ⟨h1, h2⟩ := h
      have hty : a.nType = staticNode := congrArg Prod.fst h1
      have hkey : a.key = s := by
        have := congrArg Prod.snd h1
        simp only [stepOf, literalSeg] at this
        rw [hty] at this
        simpa [staticNode, catchAllNode] using this
      rw [List.map_cons, hst a (List.mem_cons_self _ _) hty, hkey,
        ih ss h2 (fun sg hsg => hst sg (List.mem_cons_of_mem _ hsg))]

theorem trimSlash_wrapped (y : Str) (hne : y ≠ []) (h1 : y.head? ≠ some '/')
    (h2 : y.getLast? ≠ some '/') : trimSlash ('/' :: y ++ ['/']) = y := by
  have hd : List.dropWhile (fun c => c == '/') ('/' :: (y ++ ['/'])) = y ++ ['/'] := by
    rw [List.dropWhile_cons]
    simp only [beq_self_eq_true, if_true]
    apply dropWhile_slash_of_head
    rw [List.head?_append_of_ne_nil _ hne]
    exact h1
  have hr : List.dropWhile (fun c => c == '/') ('/' :: y.reverse) = y.reverse := by
    rw [List.dropWhile_cons]
    simp only [beq_self_eq_true, if_true]
    apply dropWhile_slash_of_head
    rw [List.head?_reverse]
    exact h2
  unfold trimSlash
  rw [List.cons_append, hd, List.reverse_append, List.reverse_singleton, List.singleton_append,
    hr, List.reverse_reverse]

theorem routeParts_joinPath_slash (v : Str) (vs : List Str)
    (h : ∀ s ∈ v :: vs, s ≠ [] ∧ '/' ∉ s) :
    routeParts (joinPath (v :: vs) ++ ['/']) = v :: vs := by
  obtain ⟨hv1, hv2⟩ := h v (List.mem_cons_self _ _)
  have hne : joinPath (v :: vs) ++ ['/'] ≠ [] := by simp
  have hns : joinPath (v :: vs) ++ ['/'] ≠ ['/'] := by
    rw [joinPath_cons]
    intro hh
    simp only [List.cons_append, List.cons.injEq, true_and, List.append_eq_nil] at hh
    exact hv1 hh.1.1
  unfold routeParts
  rw [if_neg (by simp [hne, hns])]
  have hlast : (v ++ joinPath vs).getLast? ≠ some '/' := by
    by_cases hvs : vs = []
    · subst hvs
      rw [joinPath_nil, List.append_nil]
      intro hl
      exact hv2 (List.mem_of_getLast?_eq_some hl)
    · exact getLast?_joinPath vs hvs (fun s hs => h s (List.mem_cons_of_mem _ hs)) v
  have hhead : (v ++ joinPath vs).head? ≠ some '/' := by
    obtain ⟨c, tl, rfl⟩ := List.exists_cons_of_ne_nil hv1
    simp only [List.cons_append, List.head?_cons, ne_eq, Option.some.injEq]
    intro hc
    exact hv2 (by rw [hc]; exact List.mem_cons_self _ _)
  have hyne : v ++ joinPath vs ≠ [] := by simp [hv1]
  have htrim : trimSlash (joinPath (v :: vs) ++ ['/']) = v ++ joinPath vs := by
    rw [joinPath_cons]
    exact trimSlash_wrapped _ hyne hhead hlast
  rw [htrim]
  exact splitSlash_join v vs hv2 (fun s hs => (h s (List.mem_cons_of_mem _ hs)).2)

theorem segsOf_literals (p : Str) (segs : List Str) (trail : Str)
    (hsegs : ∀ s ∈ segs, Literal s) (hp : p = joinPath segs ++ trail)
    (htrail : trail = [] ∨ trail = ['/']) (hroot : segs = [] → trail = ['/']) :
    segsOf p = segs.map literalSeg := by
  have hparts : routeParts p = segs := by
    cases segs with
    | nil =>
      rw [hp, hroot rfl]
      rfl
    | cons v vs =>
      have hgood : ∀ s ∈ v :: vs, s ≠ [] ∧ '/' ∉ s := fun s hs => ⟨(hsegs s hs).1, (hsegs s hs).2.1⟩
      rcases htrail with rfl | rfl
      · rw [hp, List.append_nil]
        exact routeParts_joinPath v vs hgood
      · rw [hp]
        exact routeParts_joinPath_slash v vs hgood
  unfold segsOf
  rw [hparts]
  clear hparts hp hroot
  induction segs with
  | nil => rfl
  | cons v vs ih =>
    obtain ⟨h1, -, h3, -, -⟩ := hsegs v (List.mem_cons_self _ _)
    simp only [List.filterMap_cons, parseSeg_literal v h1 h3, List.map_cons]
    rw [ih (fun s hs => hsegs s (List.mem_cons_of_mem _ hs))]
    rfl

/-- C7, counterexample. The list of `TestTreeAddAndGet` registers `/user/10/`
and after it `/user/10`; the two have the same segments, and
`getRoute("/user/10/")` returns the route registered for `/user/10`, not the
one registered for `/user/10/`. -/
theorem C7_counterexample_same_segments :
    ("/user/10/".toList, makeRoute "/user/10/") ∈ testRoutes ∧
    resolve goRegexp testRoutes "/user/10/".toList makeParamValues
      = some (⟨some ["/user/10"], []⟩, makeParamValues) ∧
    resolve goRegexp testRoutes "/user/10/".toList makeParamValues
      ≠ some (⟨some ["/user/10/"], []⟩, makeParamValues) :=
  ⟨List.mem_map.2 ⟨"/user/10/", by decide, rfl⟩, by decide, by decide⟩

/-- A path of literal segments resolves to the last route registered with
its segments, whatever the spelling of that registration. -/
theorem literal_path_resolves {H : Type} (re : Regexp) (L1 L2 : List (Str × Route H))
    (q : Str) (r : Route H) (t : node H) (p : Str) (segs : List Str) (trail : Str)
    (pv : List Str)
    (hbuild : addRoutes re node.empty (L1 ++ (q, r) :: L2) = some t)
    (hlit : LiteralsOK (allSegs (L1 ++ (q, r) :: L2)))
    (hsegs : ∀ s ∈ segs, Literal s) (hp : p = joinPath segs ++ trail)
    (htrail : trail = [] ∨ trail = ['/']) (hroot : segs = [] → trail = ['/'])
    (hsame : segsOf q = segsOf p)
    (hlast : ∀ x ∈ L2, segsOf x.1 ≠ segsOf p) :
    t.getRoute re p pv = some (⟨r.handlers, []⟩, pv) := by
  have hrep := addRoutes_rep_plain re _ t hlit hbuild
  have hS := segsOf_literals p segs trail hsegs hp htrail hroot
  have hent : entriesOf (L1 ++ (q, r) :: L2)
      = entriesOf L1 ++ (⟨segsOf p, namesOf (segsOf p), r⟩ : Entry H) :: entriesOf L2 := by
    simp [entriesOf, hsame]
  have hmem : (⟨segsOf p, namesOf (segsOf p), r⟩ : Entry H) ∈ entriesOf (L1 ++ (q, r) :: L2) := by
    rw [hent]
    simp
  obtain ⟨m, hfind, hrm⟩ := find_static_chain (fun _ _ => True) re segs t _ trail hrep
    (fun s hs => ⟨(hsegs s hs).1, (hsegs s hs).2.1⟩) ⟨_, hmem, hS⟩ htrail hroot
  have hpne : p ≠ [] := by
    rw [hp]
    cases segs with
    | nil => rw [hroot rfl]; simp
    | cons v vs => rw [joinPath_cons]; simp
  have hnames : namesOf (segsOf p) = [] := by
    rw [hS]
    simp [namesOf, literalSeg]
  have hterm : terminal (subs (segs.map literalSeg) (entriesOf (L1 ++ (q, r) :: L2)))
      = some ⟨[], [], r⟩ := by
    rw [hent, subs_append_list]
    have hcons : (⟨segsOf p, namesOf (segsOf p), r⟩ : Entry H) :: entriesOf L2
        = [⟨segsOf p, namesOf (segsOf p), r⟩] ++ entriesOf L2 := rfl
    rw [hcons, subs_append_list]
    have hself : subs (segs.map literalSeg)
        [(⟨segsOf p, namesOf (segsOf p), r⟩ : Entry H)] = [⟨[], [], r⟩] := by
      have := subs_self (H := H) (segs.map literalSeg) [] [] r
      rw [List.append_nil] at this
      rw [hnames, hS]
      exact this
    rw [hself]
    apply terminal_middle _ _ _ rfl
    intro y hy hys
    obtain ⟨e2, he2, pre2, hsegs2, hsteps, -, -⟩ := mem_subs _ _ y hy
    obtain ⟨x, hx, rfl⟩ := mem_entriesOf L2 e2 he2
    rw [hys, List.append_nil] at hsegs2
    simp only at hsegs2
    apply hlast x hx
    rw [hS, hsegs2]
    apply steps_literal pre2 segs hsteps
    intro sg hsg ht
    have hsgm : sg ∈ segsOf x.1 := by rw [hsegs2]; exact hsg
    unfold segsOf at hsgm
    rw [List.mem_filterMap] at hsgm
    obtain ⟨s, -, hs⟩ := hsgm
    exact parseSeg_static s sg hs ht
  rw [rep_iff] at hrm
  obtain ⟨hroute, hpk, -⟩ := hrm
  rw [hterm] at hroute hpk
  simp only [Option.map_some', Option.getD_some] at hroute hpk
  rw [getRoute_eq re t p pv hpne, hp, hfind]
  simp [writeVals, hroute, hpk]

/-- The last element of a list with a property splits the list. -/
theorem find?_reverse_split {α : Type} (P : α → Bool) (l : List α) (x : α)
    (h : l.reverse.find? P = some x) :
    P x = true ∧ ∃ l1 l2, l = l1 ++ x :: l2 ∧ ∀ y ∈ l2, P y = false := by
  induction l using List.reverseRecOn with
  | nil => simp at h
  | append_singleton l a ih =>
    rw [List.reverse_append, List.reverse_singleton, List.singleton_append, List.find?_cons] at h
    cases hP : P a with
    | true =>
      rw [hP] at h
      simp only [Option.some.injEq] at h
      subst h
      exact ⟨hP, l, [], rfl, fun y hy => by cases hy⟩
    | false =>
      rw [hP] at h
      obtain ⟨hx, l1, l2, hl, hall⟩ := ih h
      refine ⟨hx, l1, l2 ++ [a], by rw [hl]; simp, ?_⟩
      intro y hy
      rcases List.mem_append.1 hy with h1 | h1
      · exact hall y h1
      · rw [List.mem_singleton] at h1
        rw [h1]
        exact hP

/-- C7, amended. In every list of patterns none of whose literal segments
begins with ':' or '*', registered without error in any order, for every
pattern `p` of the list that is `/s1/.../sn` or `/s1/.../sn/` (or `/`) with
literal segments only: the list has a last registration `(q, r)` whose
pattern has the segments of `p` (`q` may be `p` or differ from it by the final
slash), and `getRoute(p)` returns the handlers of `r`, with no names and the
buffer untouched, also when parameter or catch-all patterns match `p` too.
The same holds however the list is cut at such a last registration. In the
tree of `TestTreeAddAndGet`, `/users/10/` resolves to the route `/users/10/`
and not to `/users/{id}`, and `/user/10/`, registered before `/user/10`,
resolves to the route of `/user/10`. -/
theorem C7_static_route_wins {H : Type} (re : Regexp) (L : List (Str × Route H))
    (p : Str) (r0 : Route H) (t : node H) (segs : List Str) (trail : Str) (pv : List Str)
    (hbuild : addRoutes re node.empty L = some t)
    (hlit : LiteralsOK (allSegs L))
    (hmem : (p, r0) ∈ L)
    (hsegs : ∀ s ∈ segs, Literal s) (hp : p = joinPath segs ++ trail)
    (htrail : trail = [] ∨ trail = ['/']) (hroot : segs = [] → trail = ['/']) :
    (∃ q r, L.reverse.find? (fun x => decide (segsOf x.1 = segsOf p)) = some (q, r) ∧
      t.getRoute re p pv = some (⟨r.handlers, []⟩, pv)) ∧
    (∀ (L1 L2 : List (Str × Route H)) (q : Str) (r : Route H), L = L1 ++ (q, r) :: L2 →
      segsOf q = segsOf p → (∀ x ∈ L2, segsOf x.1 ≠ segsOf p) →
      t.getRoute re p pv = some (⟨r.handlers, []⟩, pv)) ∧
    resolve goRegexp testRoutes "/users/10/".toList makeParamValues
      = some (⟨some ["/users/10/"], []⟩, makeParamValues) ∧
    resolve goRegexp testRoutes "/user/10/".toList makeParamValues
      = some (⟨some ["/user/10"], []⟩, makeParamValues) := by
  have hcut : ∀ (L1 L2 : List (Str × Route H)) (q : Str) (r : Route H),
      L = L1 ++ (q, r) :: L2 → segsOf q = segsOf p → (∀ x ∈ L2, segsOf x.1 ≠ segsOf p) →
      t.getRoute re p pv = some (⟨r.handlers, []⟩, pv) := by
    intro L1 L2 q r hL hsame hlast
    subst hL
    exact literal_path_resolves re L1 L2 q r t p segs trail pv hbuild hlit hsegs hp htrail
      hroot hsame hlast
  refine ⟨?_, hcut, by decide, by decide⟩
  cases hf : L.reverse.find? (fun x => decide (segsOf x.1 = segsOf p)) with
  | none =>
    rw [List.find?_eq_none] at hf
    have := hf (p, r0) (List.mem_reverse.2 hmem)
    simp at this
  | some x =>
    obtain ⟨q, r⟩ := x
    obtain ⟨hx, L1, L2, hL, hall⟩ := find?_reverse_split _ L (q, r) hf
    refine ⟨q, r, rfl, hcut L1 L2 q r hL (by simpa using hx) ?_⟩
    intro y hy
    have := hall y hy
    simpa using this

/-- C7, amended, witness: `/user/{id}`, then `/user/10/`, then `/user/10`,
then `/{x}/{y:*}`; the path `/user/10/` resolves to the route registered last
with its segments, that of `/user/10`. -/
theorem C7_static_route_wins_witness :
    resolve goRegexp [("/user/{id}".toList, makeRoute "param"),
        ("/user/10/".toList, makeRoute "early"), ("/user/10".toList, makeRoute "late"),
        ("/{x}/{y:*}".toList, makeRoute "all")]
        "/user/10/".toList makeParamValues
      = some (⟨some ["late"], []⟩, makeParamValues) := by
  have hsome : (addRoutes goRegexp node.empty [("/user/{id}".toList, makeRoute "param"),
      ("/user/10/".toList, makeRoute "early"), ("/user/10".toList, makeRoute "late"),
      ("/{x}/{y:*}".toList, makeRoute "all")]).isSome = true := by decide
  obtain ⟨t, ht⟩ := Option.isSome_iff_exists.1 hsome
  have h := (C7_static_route_wins goRegexp [("/user/{id}".toList, makeRoute "param"),
      ("/user/10/".toList, makeRoute "early"), ("/user/10".toList, makeRoute "late"),
      ("/{x}/{y:*}".toList, makeRoute "all")] "/user/10/".toList (makeRoute "early") t
    ["user".toList, "10".toList] ['/'] makeParamValues ht (by decide)
    (by simp) (by decide) (by decide) (by decide) (by decide)).2.1
    [("/user/{id}".toList, makeRoute "param"), ("/user/10/".toList, makeRoute "early")]
    [("/{x}/{y:*}".toList, makeRoute "all")] "/user/10".toList (makeRoute "late") rfl
    (by decide) (by decide)
  simp only [resolve, ht, Option.bind]
  exact h

/-! ## C1: the only matching pattern is found -/

theorem matchValues_nil_path (re : Regexp) (sg : segInfo) (pat : List segInfo) :
    matchValues re (sg :: pat) [] = [] := by
  rw [matchValues_cons]
  split_ifs <;> simp

theorem stepOf_inj (a b : segInfo) (h : stepOf a = stepOf b) :
    a.nType = b.nType ∧ (b.nType = catchAllNode ∨ a.key = b.key) := by
  have h1 : a.nType = b.nType := congrArg Prod.fst h
  refine ⟨h1, ?_⟩
  by_cases hc : b.nType = catchAllNode
  · exact Or.inl hc
  · right
    have h2 := congrArg Prod.snd h
    simp only [stepOf] at h2
    rw [h1, if_neg hc, if_neg hc] at h2
    exact h2

/-- An entry that begins with the steps of `pre` continues below `pre`. -/
theorem mem_subs_of_steps {H : Type} (pre : List segInfo) :
    ∀ (P : List (Entry H)) (e : Entry H) (pre2 post : List segInfo), e ∈ P →
      e.segs = pre2 ++ post → pre2.map stepOf = pre.map stepOf →
      (⟨post, e.pKeys, e.route⟩ : Entry H) ∈ subs pre P := by
  induction pre with
  | nil =>
    intro P e pre2 post he hs hst
    cases pre2 with
    | nil =>
      cases e with
      | mk s k r =>
        simp only [List.nil_append] at hs
        subst hs
        exact he
    | cons a b => simp at hst
  | cons sg pre ih =>
    intro P e pre2 post he hs hst
    cases pre2 with
    | nil => simp at hst
    | cons sg2 pre2 =>
      simp only [List.map_cons, List.cons.injEq] at hst
      obtain ⟨h1, h2⟩ := hst
      obtain ⟨ht, hk⟩ := stepOf_inj sg2 sg h1
      rw [subs]
      have hmem : (⟨pre2 ++ post, e.pKeys, e.route⟩ : Entry H) ∈ sub sg.nType sg.key P :=
        (mem_sub sg.nType sg.key P _).2 ⟨e, he, sg2, hs, ht, hk, rfl, rfl⟩
      exact ih _ ⟨pre2 ++ post, e.pKeys, e.route⟩ pre2 post hmem rfl h2

theorem findParam_isSome {H : Type} (re : Regexp) (value rest : Str) (ps : List (node H))
    (h : ∃ c ∈ ps, (∀ src, c.regex = some src → re.matchString src value = true) ∧
      (rest ≠ [] → (node.find re c rest).isSome = true) ∧
      (rest = [] → c.route.isSome = true)) :
    (findParam re ps value rest).isSome = true := by
  induction ps with
  | nil =>
    obtain ⟨c, hc, -⟩ := h
    cases hc
  | cons d ds ih =>
    obtain ⟨c, hc, hrx, hrest, hend⟩ := h
    rw [findParam]
    by_cases hcd : c = d
    · subst hcd
      have hcond : (match c.regex with
          | some src => !(re.matchString src value)
          | none => false) = false := by
        cases hreg : c.regex with
        | none => rfl
        | some src => simp [hrx src hreg]
      rw [hcond]
      simp only [Bool.false_eq_true, if_false]
      by_cases hr : rest = []
      · rw [if_neg (not_not.2 hr), if_pos (hend hr)]
        rfl
      · rw [if_pos hr]
        obtain ⟨⟨found, vals⟩, hf⟩ := Option.isSome_iff_exists.1 (hrest hr)
        rw [hf]
        rfl
    · have hcds : c ∈ ds := by
        rcases List.mem_cons.1 hc with h1 | h1
        · exact absurd h1 hcd
        · exact h1
      have hih := ih ⟨c, hcds, hrx, hrest, hend⟩
      split_ifs
      · exact hih
      · cases hf : node.find re d rest with
        | none => exact hih
        | some r => rfl
      · rfl
      · exact hih

/-- The search finds a node whenever an entry matches the path. -/
theorem find_complete {H : Type} (G : Str → Option Str → Prop) (A : segInfo → Prop)
    (re re2 : Regexp)
    (hlink : ∀ (key : Str) (rx : Option Str) (sg : segInfo) (value : Str), G key rx → A sg →
      sg.key = key → accepts re2 sg value →
      ∀ src, rx = some src → re.matchString src value = true)
    (k : Nat) :
    ∀ (n : node H) (P : List (Entry H)) (R : Str),
      R.length ≤ k → PathOK R → Rep G n P → AllParams A P →
      (∃ e ∈ P, matchValues re2 e.segs (pathSegs R) ≠ []) →
      (node.find re n R).isSome = true := by
  induction k with
  | zero =>
    intro n P R hlen hpath
    exact absurd (List.length_eq_zero.1 (Nat.le_zero.1 hlen)) hpath.1
  | succ k ih =>
    intro n P R hlen hpath hrep hA hex
    obtain ⟨e, he, hm⟩ := hex
    have hlt := segRest_length_lt R hpath.1
    rw [find_eq, if_neg (pathOK_ne_slash R hpath)]
    rw [rep_iff] at hrep
    obtain ⟨-, -, hnd, -, hst, hpa, hcs, hps, hw⟩ := hrep
    obtain ⟨vs, hvs, hvs1, hvs2⟩ : ∃ vs, pathSegs R = segValue R :: vs ∧
        (segRest R = [] → vs = []) ∧ (segRest R ≠ [] → vs = pathSegs (segRest R)) := by
      by_cases hr : segRest R = []
      · exact ⟨[], pathSegs_end R hr, fun _ => rfl, fun h => absurd hr h⟩
      · exact ⟨_, pathSegs_step R hr, fun h => absurd h hr, fun _ => rfl⟩
    cases hsegs : e.segs with
    | nil =>
      rw [hsegs, hvs] at hm
      simp [matchValues] at hm
    | cons sg rest =>
      rw [hsegs, hvs, matchValues_cons] at hm
      have hsgmem : sg ∈ e.segs := by rw [hsegs]; exact List.mem_cons_self _ _
      by_cases ht : sg.nType = staticNode
      · rw [if_pos ht] at hm
        simp only at hm
        have hk : sg.key = segValue R := by
          by_contra hk
          rw [if_neg hk] at hm
          exact hm rfl
        rw [if_pos hk] at hm
        obtain ⟨c, hc, hck⟩ := List.mem_map.1 (hst e he sg rest hsegs ht)
        rw [findStatic_unique re _ c _ _ hnd hc (hck.trans hk)]
        by_cases hr : segRest R = []
        · rw [if_neg (not_not.2 hr)]
          rfl
        · rw [if_pos hr]
          have hsome := ih c (sub staticNode c.key P) (segRest R) (by omega)
            (pathOK_rest R hpath hr) (hcs c hc).2 (allParams_sub A _ _ P hA)
            ⟨⟨rest, e.pKeys, e.route⟩,
              (mem_sub staticNode c.key P _).2 ⟨e, he, sg, hsegs, ht, Or.inr hck.symm, rfl, rfl⟩,
              by rw [← hvs2 hr]; exact hm⟩
          obtain ⟨r, hr1⟩ := Option.isSome_iff_exists.1 hsome
          rw [hr1]
          rfl
      · rw [if_neg ht] at hm
        by_cases hp : sg.nType = paramNode
        · rw [if_pos hp] at hm
          simp only at hm
          have hacc : accepts re2 sg (segValue R) := by
            by_contra hacc
            unfold accepts at hacc
            rw [if_neg hacc] at hm
            exact hm rfl
          unfold accepts at hacc
          rw [if_pos hacc] at hm
          have hm1 : matchValues re2 rest vs ≠ [] := fun h0 => hm (by rw [h0]; rfl)
          cases hfs : findStatic re n.children (segValue R) (segRest R) with
          | some r => rfl
          | none =>
            obtain ⟨c, hc, hck⟩ := List.mem_map.1 (hpa e he sg rest hsegs hp)
            obtain ⟨-, hG, hrc⟩ := hps c hc
            have hbelow : (⟨rest, e.pKeys, e.route⟩ : Entry H) ∈ sub paramNode c.key P :=
              (mem_sub paramNode c.key P _).2 ⟨e, he, sg, hsegs, hp, Or.inr hck.symm, rfl, rfl⟩
            have hsome : (findParam re n.pChildren (segValue R) (segRest R)).isSome = true := by
              apply findParam_isSome
              refine ⟨c, hc, hlink c.key c.regex sg (segValue R) hG (hA e he sg hsgmem hp)
                hck.symm hacc, ?_, ?_⟩
              · intro hr
                exact ih c (sub paramNode c.key P) (segRest R) (by omega)
                  (pathOK_rest R hpath hr) hrc (allParams_sub A _ _ P hA)
                  ⟨_, hbelow, by rw [← hvs2 hr]; exact hm1⟩
              · intro hr
                rw [hvs1 hr] at hm1
                have hrest : rest = [] := by
                  cases rest with
                  | nil => rfl
                  | cons a b => exact absurd (matchValues_nil_path re2 a b) hm1
                subst hrest
                exact rep_route_isSome G c _ hrc _ hbelow rfl
            obtain ⟨r, hr1⟩ := Option.isSome_iff_exists.1 hsome
            simp only [hr1]
            rfl
        · rw [if_neg hp] at hm
          by_cases hca : sg.nType = catchAllNode
          · have hbelow : (⟨rest, e.pKeys, e.route⟩ : Entry H) ∈ sub catchAllNode [] P :=
              (mem_sub catchAllNode [] P _).2 ⟨e, he, sg, hsegs, hca, Or.inl rfl, rfl, rfl⟩
            cases hwc : n.wChildren with
            | none =>
              rw [hwc] at hw
              simp only [RepOpt] at hw
              rw [hw] at hbelow
              cases hbelow
            | some wc =>
              cases findStatic re n.children (segValue R) (segRest R) with
              | some r => rfl
              | none =>
                cases findParam re n.pChildren (segValue R) (segRest R) with
                | some r => rfl
                | none => rfl
          · rw [if_neg hca] at hm
            exact absurd rfl hm

/-- C1, counterexample. In the tree of `TestTreeAddAndGet` the path `/user`
is matched by exactly one registered pattern, `/{id}`, and `getRoute("/user")`
returns no handlers: the static child `user` of the root, which carries no
route, is returned as soon as the path ends at it. -/
theorem C1_counterexample_static_dead_end :
    (testRoutes.filter (fun pr => matchesPath goRegexp pr.1 "/user".toList)).map Prod.fst
      = ["/{id}".toList] ∧
    resolve goRegexp testRoutes "/user".toList makeParamValues
      = some (⟨none, []⟩, makeParamValues) :=
  ⟨by decide, by decide⟩

/-- C1, amended. For every list of patterns registered without error whose
literal segments do not begin with ':' or '*' and whose parameters of the same
name carry the same constraint, and every non-empty request path that does not
end in '/': if exactly one registration `(p, r)` of the list matches the path,
if every non-empty beginning of a registered pattern that matches the whole
path by itself walks the nodes of a registered pattern, and if `p` has
`k ≤ 256` parameters and the buffer has room for them, then `getRoute` returns
the handlers of `r` and the names of `p`, and the buffer holds at positions
`0..k-1` the path segments that `p` binds to its parameters, in declared order,
the rest being unchanged. -/
theorem C1_unique_match_is_returned {H : Type} (re : Regexp) (L1 L2 : List (Str × Route H))
    (p : Str) (r : Route H) (t : node H) (path : Str) (pv : List Str)
    (hbuild : addRoutes re node.empty (L1 ++ (p, r) :: L2) = some t)
    (hlit : LiteralsOK (allSegs (L1 ++ (p, r) :: L2)))
    (hcon : ConstraintsOK (allSegs (L1 ++ (p, r) :: L2)))
    (hpath : PathOK path)
    (hmatch : matchesPath re p path = true)
    (huniq : ∀ pr ∈ L1 ++ L2, matchesPath re pr.1 path = false)
    (hdead : NoDeadEnd re (L1 ++ (p, r) :: L2) path)
    (hmax : paramCount (segsOf p) ≤ 256) (hbuf : paramCount (segsOf p) ≤ pv.length) :
    ∃ vals ∈ matchValues re (segsOf p) (pathSegs path),
      vals.length = paramCount (segsOf p) ∧
      t.getRoute re path pv
        = some (⟨r.handlers, namesOf (segsOf p)⟩, vals ++ pv.drop (paramCount (segsOf p))) := by
  obtain ⟨hrep, hA⟩ := addRoutes_rep re _ t hlit hcon hbuild
  have hlink : ∀ (key : Str) (rx : Option Str) (sg : segInfo) (value : Str),
      rx = regexOf (constraintOf (allSegs (L1 ++ (p, r) :: L2))) key →
      sg.pattern = constraintOf (allSegs (L1 ++ (p, r) :: L2)) sg.key →
      sg.key = key → (∀ src, rx = some src → re.matchString src value = true) →
      (sg.pattern = [] ∨ re.matchString (anchored sg.pattern) value = true) := by
    intro key rx sg value hG hAsg hk hacc
    by_cases hC : constraintOf (allSegs (L1 ++ (p, r) :: L2)) key = []
    · left; rw [hAsg, hk, hC]
    · right
      rw [hAsg, hk]
      apply hacc
      rw [hG, regexOf, if_neg hC]
  have hback : ∀ (key : Str) (rx : Option Str) (sg : segInfo) (value : Str),
      rx = regexOf (constraintOf (allSegs (L1 ++ (p, r) :: L2))) key →
      sg.pattern = constraintOf (allSegs (L1 ++ (p, r) :: L2)) sg.key →
      sg.key = key → accepts re sg value →
      ∀ src, rx = some src → re.matchString src value = true := by
    intro key rx sg value hG hAsg hk hacc src hsrc
    rw [hG, regexOf] at hsrc
    by_cases hC : constraintOf (allSegs (L1 ++ (p, r) :: L2)) key = []
    · rw [if_pos hC] at hsrc
      cases hsrc
    · rw [if_neg hC, Option.some.injEq] at hsrc
      unfold accepts at hacc
      rw [hAsg, hk] at hacc
      rcases hacc with h0 | h1
      · exact absurd h0 hC
      · rw [← hsrc]
        exact h1
  have hcongr : ∀ a b : segInfo,
      a.pattern = constraintOf (allSegs (L1 ++ (p, r) :: L2)) a.key →
      b.pattern = constraintOf (allSegs (L1 ++ (p, r) :: L2)) b.key →
      a.key = b.key → ∀ v, accepts re a v ↔ accepts re b v := by
    intro a b ha hb hk v
    unfold accepts
    rw [ha, hb, hk]
  have hmem : (⟨segsOf p, namesOf (segsOf p), r⟩ : Entry H) ∈ entriesOf (L1 ++ (p, r) :: L2) :=
    List.mem_map.2 ⟨(p, r), List.mem_append_right _ (List.mem_cons_self _ _), rfl⟩
  have hm0 : matchValues re (segsOf p) (pathSegs path) ≠ [] := by
    intro h0
    unfold matchesPath at hmatch
    rw [h0] at hmatch
    simp at hmatch
  -- the search returns a node
  have hsome := find_complete _ _ re re hback path.length t _ path (le_refl _) hpath hrep hA
    ⟨_, hmem, hm0⟩
  obtain ⟨⟨m, vals⟩, hfind⟩ := Option.isSome_iff_exists.1 hsome
  -- the node carries a route
  obtain ⟨e, he, pre, post, hsegs, hpre, hrm, hvals⟩ :=
    find_sound_aux _ _ re re hlink path.length t _ path m vals (le_refl _) hpath hrep hA hfind
  obtain ⟨pr, hpr, rfl⟩ := mem_entriesOf _ e he
  have hin : pre ∈ matchingPrefixes re (L1 ++ (p, r) :: L2) path := by
    unfold matchingPrefixes
    rw [List.mem_flatMap]
    refine ⟨pr, hpr, List.mem_filter.2 ⟨(List.mem_inits _ _).2 ⟨post, hsegs.symm⟩, ?_⟩⟩
    simp only [decide_eq_true_eq]
    exact ⟨hpre, List.ne_nil_of_mem hvals⟩
  obtain ⟨pr2, hpr2, hsteps⟩ := hdead pre hin
  have hmem2 : (⟨segsOf pr2.1, namesOf (segsOf pr2.1), pr2.2⟩ : Entry H)
      ∈ entriesOf (L1 ++ (p, r) :: L2) := List.mem_map.2 ⟨pr2, hpr2, rfl⟩
  have hend := mem_subs_of_steps pre _ _ (segsOf pr2.1) [] hmem2 (List.append_nil _).symm hsteps
  obtain ⟨r1, hr1⟩ := Option.isSome_iff_exists.1 (rep_route_isSome _ m _ hrm _ hend rfl)
  -- the route is that of a registration that matches: the only one
  obtain ⟨e3, he3, her, hpk, hv3⟩ :=
    find_routed _ _ re re hlink hcongr t _ path m vals r1 hpath hrep hA hfind hr1
  obtain ⟨pr3, hpr3, rfl⟩ := mem_entriesOf _ e3 he3
  have hpr3eq : pr3 = (p, r) := by
    rcases List.mem_append.1 hpr3 with h1 | h1
    · have := huniq pr3 (List.mem_append_left _ h1)
      unfold matchesPath at this
      have hne := List.ne_nil_of_mem hv3
      simp [hne] at this
    · rcases List.mem_cons.1 h1 with h2 | h2
      · exact h2
      · have := huniq pr3 (List.mem_append_right _ h2)
        unfold matchesPath at this
        have hne := List.ne_nil_of_mem hv3
        simp [hne] at this
  subst hpr3eq
  simp only at her hpk hv3
  have hnames := fun sg hsg => segsOf_names p sg hsg
  have hlen : vals.length = paramCount (segsOf p) := by
    rw [matchValues_length re _ _ vals hnames hv3, namesOf_length _ hnames]
  refine ⟨vals, hv3, hlen, ?_⟩
  rw [getRoute_eq re t path pv hpath.1, hfind]
  simp only
  rw [writeVals_eq pv vals 0 (by omega) (by omega), hr1, hpk, ← her, ← hlen]
  simp

/-- C1, amended, witness: the tree of `TestTreeAddAndGet` and the path
`/page/12`. -/
theorem C1_unique_match_is_returned_witness :
    resolve goRegexp testRoutes "/page/12".toList makeParamValues
      = some (⟨some ["/page/{page:[0-9]+}"], ["page".toList]⟩,
          "12".toList :: List.replicate 19 []) := by
  have hsome : (addRoutes goRegexp node.empty testRoutes).isSome = true := by decide
  obtain ⟨t, ht⟩ := Option.isSome_iff_exists.1 hsome
  have ht2 : addRoutes goRegexp node.empty (testRoutes.take 12 ++
      ("/page/{page:[0-9]+}".toList, makeRoute "/page/{page:[0-9]+}") :: testRoutes.drop 13)
      = some t := ht
  obtain ⟨vals, hv, -, hget⟩ := C1_unique_match_is_returned goRegexp (testRoutes.take 12)
    (testRoutes.drop 13) "/page/{page:[0-9]+}".toList (makeRoute "/page/{page:[0-9]+}") t
    "/page/12".toList makeParamValues ht2 (by decide) (by decide) (by decide) (by decide)
    (by decide) (by decide) (by decide) (by decide)
  have hvals : matchValues goRegexp (segsOf "/page/{page:[0-9]+}".toList)
      (pathSegs "/page/12".toList) = [["12".toList]] := by decide
  rw [hvals, List.mem_singleton] at hv
  subst hv
  simp only [resolve, ht, Option.bind]
  rw [hget]
  rfl

/-! ## C11-C13: the handler chain -/

theorem printAll_nil {E : Type} (c : Context E) : c.printAll [] = c := rfl

theorem printAll_cons {E : Type} (c : Context E) (s : Str) (ss : List Str) :
    c.printAll (s :: ss) = (c.print s).printAll ss := rfl

theorem printAll_append {E : Type} (c : Context E) (ss tt : List Str) :
    c.printAll (ss ++ tt) = (c.printAll ss).printAll tt := by
  unfold Context.printAll
  rw [List.foldl_append]

theorem printAll_fields {E : Type} (ss : List Str) : ∀ (c : Context E),
    (c.printAll ss).handlers = c.handlers ∧ (c.printAll ss).index = c.index ∧
    (c.printAll ss).trace = c.trace := by
  induction ss with
  | nil => intro c; exact ⟨rfl, rfl, rfl⟩
  | cons s ss ih => intro c; rw [printAll_cons]; exact ih (c.print s)

/-- Printing does not depend on the cursor or the trace. -/
theorem printAll_moveTo {E : Type} (ss : List Str) : ∀ (c : Context E) (i : Int) (t : List Int),
    (c.moveTo i t).printAll ss = (c.printAll ss).moveTo i t := by
  induction ss with
  | nil => intro c i t; rfl
  | cons s ss ih =>
    intro c i t
    rw [printAll_cons, printAll_cons]
    exact ih (c.print s) i t

@[simp] theorem moveTo_index {E : Type} (c : Context E) (i : Int) (t : List Int) :
    (c.moveTo i t).index = i := rfl

@[simp] theorem moveTo_trace {E : Type} (c : Context E) (i : Int) (t : List Int) :
    (c.moveTo i t).trace = t := rfl

@[simp] theorem moveTo_handlers {E : Type} (c : Context E) (i : Int) (t : List Int) :
    (c.moveTo i t).handlers = c.handlers := rfl

@[simp] theorem print_index {E : Type} (c : Context E) (s : Str) :
    (c.print s).index = c.index := rfl

@[simp] theorem print_trace {E : Type} (c : Context E) (s : Str) :
    (c.print s).trace = c.trace := rfl

@[simp] theorem print_handlers {E : Type} (c : Context E) (s : Str) :
    (c.print s).handlers = c.handlers := rfl

@[simp] theorem printAll_index {E : Type} (c : Context E) (ss : List Str) :
    (c.printAll ss).index = c.index := (printAll_fields ss c).2.1

@[simp] theorem printAll_trace {E : Type} (c : Context E) (ss : List Str) :
    (c.printAll ss).trace = c.trace := (printAll_fields ss c).2.2

@[simp] theorem printAll_handlers {E : Type} (c : Context E) (ss : List Str) :
    (c.printAll ss).handlers = c.handlers := (printAll_fields ss c).1

@[simp] theorem setHandlers_handlers {E : Type} (c : Context E) (hs : List (HandlerFunc E)) :
    (c.setHandlers hs).handlers = some hs := rfl

@[simp] theorem setHandlers_index {E : Type} (c : Context E) (hs : List (HandlerFunc E)) :
    (c.setHandlers hs).index = c.index := rfl

@[simp] theorem setHandlers_trace {E : Type} (c : Context E) (hs : List (HandlerFunc E)) :
    (c.setHandlers hs).trace = c.trace := rfl

@[simp] theorem reset_index {E : Type} (c : Context E) (w : ResponseWriter) (r : Request) :
    (c.reset w r).index = -1 := rfl

@[simp] theorem reset_trace {E : Type} (c : Context E) (w : ResponseWriter) (r : Request) :
    (c.reset w r).trace = c.trace := rfl

@[simp] theorem moveTo_moveTo {E : Type} (c : Context E) (i j : Int) (t u : List Int) :
    (c.moveTo i t).moveTo j u = c.moveTo j u := rfl

theorem moveTo_self {E : Type} (c : Context E) (i : Int) (t : List Int) (hi : c.index = i)
    (ht : c.trace = t) : c.moveTo i t = c := by
  cases c
  simp only [Context.moveTo] at hi ht ⊢
  rw [hi, ht]

theorem printAll_body {E : Type} (ss : List Str) : ∀ (c : Context E),
    (c.printAll ss).Response.Writer.body = c.Response.Writer.body ++ ss.flatten := by
  induction ss with
  | nil => intro c; simp [printAll_nil]
  | cons s ss ih =>
    intro c
    rw [printAll_cons, ih]
    simp [Context.print, ResponseWriter.Write]

theorem elemAt_middle {α : Type} (done rest : List α) (h : α) :
    elemAt (some (done ++ h :: rest)) (done.length : Int) = some h := by
  unfold elemAt
  rw [if_neg (by omega)]
  simp only [Option.getD_some, Int.toNat_ofNat]
  induction done with
  | nil => simp
  | cons d ds ih => simpa using ih

theorem positions_succ (i n : Nat) : positions i (n + 1) = (i : Int) :: positions (i + 1) n := by
  simp [positions, List.range'_succ]

theorem positions_end (i n : Nat) :
    positions i (n + 1) = positions i n ++ [((i + n : Nat) : Int)] := by
  simp [positions, List.range'_concat]

/-- A call of `Next` at or beyond the end of the chain invokes nothing. -/
theorem next_at_end {E : Type} (c : Context E) (depth : Nat)
    (h : (lenOf c.handlers : Int) ≤ c.index + 1) :
    Context.Next (depth + 1) c = some (none, c.moveTo (c.index + 1) c.trace) := by
  rw [Context.Next]
  simp only
  rw [if_neg (by omega)]
  rfl

/-- A call of `Next` that invokes the handler `h`. -/
theorem next_invokes {E : Type} (c : Context E) (depth : Nat) (done rest : List (HandlerFunc E))
    (h : HandlerFunc E) (hh : c.handlers = some (done ++ h :: rest))
    (hi : c.index = (done.length : Int) - 1) :
    Context.Next (depth + 1) c =
      h.call (Context.Next depth)
        (c.moveTo (done.length : Int) (c.trace ++ [(done.length : Int)])) := by
  rw [Context.Next]
  simp only
  have hidx : c.index + 1 = (done.length : Int) := by omega
  rw [hidx, hh]
  have hlen : (done.length : Int) < (lenOf (some (done ++ h :: rest)) : Int) := by
    simp [lenOf]
  rw [if_pos hlen, elemAt_middle]
  simp only
  have key : ∀ r : Option (Option E × Context E),
      (match r with
        | none => none
        | some (some err, c2) => some (some err, c2)
        | some (none, c2) => some (none, c2)) = r := by
    intro r
    rcases r with _ | ⟨_ | e, c2⟩ <;> rfl
  rw [key]
  simp only [Context.moveTo, hh]

/-- Handlers that wrap `Next` run as the layers of an onion around whatever
the rest of the chain does. -/
theorem wrap_layers {E : Type} (pre : List (Str × Str)) :
    ∀ (done rest : List (HandlerFunc E)) (c : Context E) (depth : Nat) (err : Option E)
      (c2 : Context E),
      c.handlers = some (done ++ pre.map (fun m => wrapNext m.1 m.2) ++ rest) →
      c.index = (done.length : Int) - 1 →
      Context.Next depth ((c.printAll (pre.map Prod.fst)).moveTo
          (((done.length + pre.length : Nat) : Int) - 1)
          (c.trace ++ positions done.length pre.length)) = some (err, c2) →
      Context.Next (depth + pre.length) c
        = some (err, c2.printAll (pre.map Prod.snd).reverse) := by
  induction pre with
  | nil =>
    intro done rest c depth err c2 _ hi hin
    simp only [List.map_nil, List.length_nil, printAll_nil, Nat.add_zero, positions,
      List.range'_zero, List.append_nil] at hin
    rw [moveTo_self c _ _ hi rfl] at hin
    exact hin
  | cons m pre ih =>
    intro done rest c depth err c2 hh hi hin
    have hh1 : c.handlers
        = some (done ++ wrapNext m.1 m.2 :: (pre.map (fun m => wrapNext m.1 m.2) ++ rest)) := by
      rw [hh]
      simp
    rw [List.length_cons, ← Nat.add_assoc, next_invokes c (depth + pre.length) done _ _ hh1 hi]
    simp only [wrapNext, HandlerFunc.call]
    have hstep := ih (done ++ [wrapNext m.1 m.2]) rest
      ((c.moveTo (done.length : Int) (c.trace ++ [(done.length : Int)])).print m.1) depth err c2
      (by rw [show ((c.moveTo (done.length : Int) (c.trace ++ [(done.length : Int)])).print
            m.1).handlers = c.handlers from rfl, hh1]; simp [wrapNext])
      (by simp [Context.print, Context.moveTo])
      (by
        have e1 : ((c.moveTo (done.length : Int) (c.trace ++ [(done.length : Int)])).print m.1)
            = (c.print m.1).moveTo (done.length : Int) (c.trace ++ [(done.length : Int)]) := rfl
        rw [e1, printAll_moveTo, moveTo_moveTo]
        simp only [List.map_cons, printAll_cons, List.length_cons, positions_succ] at hin
        simp only [List.length_append, List.length_singleton, List.append_assoc,
          List.singleton_append, moveTo_trace]
        have e2 : ((done.length + (pre.length + 1) : Nat) : Int)
            = ((done.length + 1 + pre.length : Nat) : Int) := by omega
        rw [e2] at hin
        exact hin)
    simp only [wrapNext] at hstep
    rw [hstep]
    simp only [HandlerFunc.call, List.map_cons, List.reverse_cons, printAll_append]
    rfl

/-- C11. For every list of `n` pairs of marks, the chain of the `n` handlers
that each print their opening mark, call `Next`, print their closing mark and
return what `Next` returned, every context that was just reset and given that
chain, and every allowed depth above `n`: one call of `Next` returns no
error, invokes the handlers `0, ..., n-1` in this order, leaves the cursor at
`n` and prints exactly the opening marks in order followed by the closing
marks in reverse order (nothing at all when `n = 0`); for the three handlers
of `TestContext_Next` the body is `<h1><h2><h3></h3></h2></h1>`. -/
theorem C11_onion_order {E : Type} (marks : List (Str × Str)) (c0 : Context E)
    (w : ResponseWriter) (req : Request) (depth : Nat) (hdepth : marks.length < depth) :
    Context.Next depth ((c0.reset w req).setHandlers (wrapChain marks))
      = some (none,
          (((c0.reset w req).setHandlers (wrapChain marks)).printAll
            (marks.map Prod.fst ++ (marks.map Prod.snd).reverse)).moveTo
              (marks.length : Int) (c0.trace ++ positions 0 marks.length)) ∧
    (((c0.reset w req).setHandlers (wrapChain marks)).printAll
        (marks.map Prod.fst ++ (marks.map Prod.snd).reverse)).Response.Writer.body
      = w.body ++ (marks.map Prod.fst ++ (marks.map Prod.snd).reverse).flatten ∧
    ((testContext (E := E) [getNextHandler "h1".toList, getNextHandler "h2".toList,
        getNextHandler "h3".toList]).Next 4).map (fun r => (r.1, r.2.Response.Writer.body))
      = some (none, "<h1><h2><h3></h3></h2></h1>".toList) := by
  refine ⟨?_, ?_, rfl⟩
  · obtain ⟨d, rfl⟩ : ∃ d, depth = (d + 1) + marks.length := ⟨depth - marks.length - 1, by omega⟩
    have hin := next_at_end
      ((((c0.reset w req).setHandlers (wrapChain marks)).printAll
        (marks.map Prod.fst)).moveTo
          (((([] : List (HandlerFunc E)).length + marks.length : Nat) : Int) - 1)
          (((c0.reset w req).setHandlers (wrapChain marks)).trace ++
            positions ([] : List (HandlerFunc E)).length marks.length))
      d (by simp [lenOf, wrapChain])
    have h := wrap_layers marks [] []
      ((c0.reset w req).setHandlers (wrapChain marks)) (d + 1) none _
      (by simp [wrapChain]) (by simp) hin
    rw [h, printAll_append]
    simp [printAll_moveTo]
  · rw [printAll_body]
    rfl

/-- C11, witness: the chain of `TestContext_Next` with the depth 4. -/
theorem C11_onion_order_witness :
    Context.Next 4 ((testContext (E := Unit) []).setHandlers
        (wrapChain [("<h1>".toList, "</h1>".toList), ("<h2>".toList, "</h2>".toList),
          ("<h3>".toList, "</h3>".toList)]))
      = some (none,
          ((testContext (E := Unit) (wrapChain [("<h1>".toList, "</h1>".toList),
            ("<h2>".toList, "</h2>".toList), ("<h3>".toList, "</h3>".toList)])).printAll
            ["<h1>".toList, "<h2>".toList, "<h3>".toList, "</h3>".toList, "</h2>".toList,
              "</h1>".toList]).moveTo 3 [0, 1, 2]) :=
  (C11_onion_order (E := Unit) [("<h1>".toList, "</h1>".toList),
    ("<h2>".toList, "</h2>".toList), ("<h3>".toList, "</h3>".toList)] zeroContext ⟨none, []⟩
    ⟨"GET".toList, "/test".toList⟩ 4 (by decide)).1

/-! ### C12: `Abort` -/

theorem abort_eq {E : Type} (c : Context E) :
    c.Abort = c.moveTo (lenOf c.handlers : Int) c.trace := rfl

/-- C12. For every list of `k` pairs of marks, every mark and every list of
further handlers, in the chain made of the `k` handlers that wrap `Next`, the
handler that prints its mark, calls `Abort` and returns, and the further
handlers: one call of `Next` on a context that was just reset and given that
chain (allowed depth above `k`) returns no error, invokes the handlers
`0, ..., k` in this order and none of the further ones, prints the `k` opening
marks, the mark and the `k` closing marks in reverse order, and leaves the
cursor at the length of the chain, where `IsAborted` is true. Right after
`Abort`, `IsAborted()` is true, and after `Abort` followed by any number `j` of
calls of `Next`, a call of `Next` returns no error and invokes no handler. For
the chain of `TestContext_Abort` the body is `<h1><h2/></h1>`. -/
theorem C12_abort_skips_later_handlers {E : Type} (pre : List (Str × Str)) (mark : Str)
    (post : List (HandlerFunc E)) (c0 : Context E) (w : ResponseWriter) (req : Request)
    (depth : Nat) (hdepth : pre.length < depth) :
    Context.Next depth
        ((c0.reset w req).setHandlers (wrapChain pre ++ markAbort mark :: post))
      = some (none,
          (((c0.reset w req).setHandlers (wrapChain pre ++ markAbort mark :: post)).printAll
            (pre.map Prod.fst ++ mark :: (pre.map Prod.snd).reverse)).moveTo
              ((pre.length + 1 + post.length : Nat) : Int)
              (c0.trace ++ positions 0 (pre.length + 1))) ∧
    ((((c0.reset w req).setHandlers (wrapChain pre ++ markAbort mark :: post)).printAll
        (pre.map Prod.fst ++ mark :: (pre.map Prod.snd).reverse)).moveTo
          ((pre.length + 1 + post.length : Nat) : Int)
          (c0.trace ++ positions 0 (pre.length + 1))).IsAborted = true ∧
    (∀ c : Context E, c.Abort.IsAborted = true) ∧
    (∀ (c : Context E) (j d : Nat),
      Context.Next (d + 1) (c.Abort.moveTo (c.Abort.index + (j : Int)) c.trace)
        = some (none, c.Abort.moveTo (c.Abort.index + (j : Int) + 1) c.trace)) ∧
    ((testContext (E := E) [getNextHandler "h1".toList, getAbortHandler "h2".toList,
        getNextHandler "h3".toList]).Next 2).map (fun r => (r.1, r.2.Response.Writer.body))
      = some (none, "<h1><h2/></h1>".toList) := by
  refine ⟨?_, ?_, ?_, ?_, rfl⟩
  · obtain ⟨d, rfl⟩ : ∃ d, depth = (d + 1) + pre.length := ⟨depth - pre.length - 1, by omega⟩
    have hin := next_invokes
      ((((c0.reset w req).setHandlers (wrapChain pre ++ markAbort mark :: post)).printAll
        (pre.map Prod.fst)).moveTo
          (((([] : List (HandlerFunc E)).length + pre.length : Nat) : Int) - 1)
          (((c0.reset w req).setHandlers (wrapChain pre ++ markAbort mark :: post)).trace ++
            positions ([] : List (HandlerFunc E)).length pre.length))
      d (wrapChain pre) post (markAbort mark) (by simp) (by simp [wrapChain])
    simp only [markAbort, HandlerFunc.call] at hin
    have h := wrap_layers pre [] (markAbort mark :: post)
      ((c0.reset w req).setHandlers (wrapChain pre ++ markAbort mark :: post)) (d + 1) none _
      (by simp [wrapChain, markAbort]) (by simp) hin
    rw [h, abort_eq]
    have e1 : ∀ (c : Context E) (i : Int) (t : List Int),
        (c.moveTo i t).print mark = (c.print mark).moveTo i t := fun _ _ _ => rfl
    simp [printAll_moveTo, e1, lenOf, wrapChain, positions_end, ← printAll_cons,
      ← printAll_append]
    have e : ((pre.length : Int) + ((post.length : Int) + 1))
        = (pre.length : Int) + 1 + (post.length : Int) := by omega
    rw [e]
    rfl
  · simp [Context.IsAborted, lenOf, wrapChain]
    omega
  · intro c
    simp [Context.IsAborted, Context.Abort]
  · intro c j d
    rw [next_at_end _ d (by simp [Context.Abort]; omega)]
    rfl

/-- C12, witness: the chain of `TestContext_Abort`, with the handlers written
by their marks. -/
theorem C12_abort_skips_later_handlers_witness :
    Context.Next 2 ((testContext (E := Unit) []).setHandlers
        (wrapChain [("<h1>".toList, "</h1>".toList)] ++ markAbort "<h2/>".toList ::
          [getNextHandler "h3".toList]))
      = some (none,
          (((testContext (E := Unit) []).setHandlers
            (wrapChain [("<h1>".toList, "</h1>".toList)] ++ markAbort "<h2/>".toList ::
              [getNextHandler "h3".toList])).printAll
            ["<h1>".toList, "<h2/>".toList, "</h1>".toList]).moveTo 3 [0, 1]) :=
  (C12_abort_skips_later_handlers (E := Unit) [("<h1>".toList, "</h1>".toList)] "<h2/>".toList
    [getNextHandler "h3".toList] zeroContext ⟨none, []⟩ ⟨"GET".toList, "/test".toList⟩ 2
    (by decide)).1

/-! ### C13: an error stops the chain -/

/-- A handler that does not call `Next` returns its error whatever `Next`
would do, invokes nothing and leaves the chain as it is. -/
theorem silent_call {E : Type} (err : Option E) (h : HandlerFunc E) (hs : Silent err h)
    (next : Context E → Option (Option E × Context E)) :
    ∀ c : Context E, ∃ c1, h.call next c = some (err, c1) ∧ c1.trace = c.trace ∧
      c1.handlers = c.handlers := by
  induction hs with
  | ret => intro c; exact ⟨c, rfl, rfl, rfl⟩
  | write s k _ ih =>
    intro c
    obtain ⟨c1, h1, h2, h3⟩ := ih (c.print s)
    exact ⟨c1, h1, h2, h3⟩
  | writeHeader code k _ ih =>
    intro c
    obtain ⟨c1, h1, h2, h3⟩ := ih (c.sendStatus code)
    exact ⟨c1, h1, h2, h3⟩
  | abort k _ ih =>
    intro c
    obtain ⟨c1, h1, h2, h3⟩ := ih c.Abort
    exact ⟨c1, h1, h2, h3⟩
  | isAborted k _ ih =>
    intro c
    obtain ⟨c1, h1, h2, h3⟩ := ih c.IsAborted c
    exact ⟨c1, h1, h2, h3⟩

/-- A handler that forwards the result of its call of `Next` returns the error
that this call returns. -/
theorem forwards_call {E : Type} (h : HandlerFunc E) (hf : Forwards h)
    (next : Context E → Option (Option E × Context E)) (err : Option E) (hs : Option (List (HandlerFunc E)))
    (i : Int) (t u : List Int)
    (hnext : ∀ c : Context E, c.handlers = hs → c.index = i → c.trace = t →
      ∃ c1, next c = some (err, c1) ∧ c1.trace = u ∧ c1.handlers = hs) :
    ∀ c : Context E, c.handlers = hs → c.index = i → c.trace = t →
      ∃ c1, h.call next c = some (err, c1) ∧ c1.trace = u ∧ c1.handlers = hs := by
  induction hf with
  | next k hk =>
    intro c h1 h2 h3
    obtain ⟨c1, hn, ht, hh⟩ := hnext c h1 h2 h3
    obtain ⟨c2, hc, ht2, hh2⟩ := silent_call err (k err) (hk err) next c1
    refine ⟨c2, ?_, ht2.trans ht, hh2.trans hh⟩
    simp only [HandlerFunc.call, hn]
    exact hc
  | write s k _ ih =>
    intro c h1 h2 h3
    exact ih (c.print s) h1 h2 h3
  | writeHeader code k _ ih =>
    intro c h1 h2 h3
    exact ih (c.sendStatus code) h1 h2 h3
  | isAborted k _ ih =>
    intro c h1 h2 h3
    exact ih c.IsAborted c h1 h2 h3

/-- The chain up to the handler that fails. -/
theorem error_chain {E : Type} (e : E) (hk : HandlerFunc E) (hsil : Silent (some e) hk)
    (pre : List (HandlerFunc E)) :
    ∀ (done post : List (HandlerFunc E)) (c : Context E) (depth : Nat),
      (∀ h ∈ pre, Forwards h) → c.handlers = some (done ++ pre ++ hk :: post) →
      c.index = (done.length : Int) - 1 → pre.length < depth →
      ∃ c1, Context.Next depth c = some (some e, c1) ∧
        c1.trace = c.trace ++ positions done.length (pre.length + 1) ∧
        c1.handlers = c.handlers := by
  induction pre with
  | nil =>
    intro done post c depth _ hh hi hd
    obtain ⟨d, rfl⟩ : ∃ d, depth = d + 1 := ⟨depth - 1, by omega⟩
    rw [List.append_nil] at hh
    rw [next_invokes c d done post hk hh hi]
    obtain ⟨c1, h1, h2, h3⟩ := silent_call (some e) hk hsil (Context.Next d)
      (c.moveTo (done.length : Int) (c.trace ++ [(done.length : Int)]))
    exact ⟨c1, h1, by rw [h2]; simp [positions], h3⟩
  | cons h pre ih =>
    intro done post c depth hpre hh hi hd
    obtain ⟨d, rfl⟩ : ∃ d, depth = d + 1 := ⟨depth - 1, by omega⟩
    have hh1 : c.handlers = some (done ++ h :: (pre ++ hk :: post)) := by
      rw [hh]
      simp
    rw [next_invokes c d done _ h hh1 hi]
    have hrest : ∀ c2 : Context E, c2.handlers = c.handlers → c2.index = (done.length : Int) →
        c2.trace = c.trace ++ [(done.length : Int)] →
        ∃ c3, Context.Next d c2 = some (some e, c3) ∧
          c3.trace = c.trace ++ positions done.length (pre.length + 1 + 1) ∧
          c3.handlers = c.handlers := by
      intro c2 g1 g2 g3
      obtain ⟨c3, k1, k2, k3⟩ := ih (done ++ [h]) post c2 d
        (fun x hx => hpre x (List.mem_cons_of_mem _ hx))
        (by rw [g1, hh1]; simp) (by rw [g2]; simp) (by simpa using hd)
      refine ⟨c3, k1, ?_, k3.trans g1⟩
      rw [k2, g3, positions_succ done.length (pre.length + 1)]
      simp
    exact forwards_call h (hpre h (List.mem_cons_self _ _)) (Context.Next d) (some e)
      c.handlers (done.length : Int) (c.trace ++ [(done.length : Int)]) _ hrest
      (c.moveTo (done.length : Int) (c.trace ++ [(done.length : Int)])) rfl rfl rfl

/-- C13. For every chain made of `k` handlers that each return what their own
call of `Next` returns, a handler that returns the error `e` without calling
`Next`, and any further handlers, and every context that was just reset and
given that chain (allowed depth above `k`): the outermost call of `Next`
returns exactly `e`, and the handlers it has invoked are those at the positions
`0, ..., k` in this order, none of the further ones. -/
theorem C13_error_stops_the_chain {E : Type} (e : E) (pre post : List (HandlerFunc E))
    (hk : HandlerFunc E) (c0 : Context E) (w : ResponseWriter) (req : Request) (depth : Nat)
    (hpre : ∀ h ∈ pre, Forwards h) (hfail : Silent (some e) hk) (hdepth : pre.length < depth) :
    ∃ c1, Context.Next depth ((c0.reset w req).setHandlers (pre ++ hk :: post)) = some (some e, c1) ∧
      c1.trace = c0.trace ++ positions 0 (pre.length + 1) := by
  obtain ⟨c1, h1, h2, -⟩ := error_chain e hk hfail pre [] post
    ((c0.reset w req).setHandlers (pre ++ hk :: post)) depth hpre (by simp) (by simp) hdepth
  exact ⟨c1, h1, by simpa using h2⟩

/-- C13, witness: the handler `h1` of the tests, a handler that prints `<h2>`
and returns the error 7, and the handler `h3`. -/
theorem C13_error_stops_the_chain_witness :
    ∃ c1, Context.Next 2 ((testContext (E := Nat) []).setHandlers
        ([getNextHandler "h1".toList] ++ .write "<h2>".toList (.ret (some 7)) ::
          [getNextHandler "h3".toList])) = some (some 7, c1) ∧
      c1.trace = [] ++ positions 0 ([getNextHandler (E := Nat) "h1".toList].length + 1) :=
  C13_error_stops_the_chain (E := Nat) 7 [getNextHandler "h1".toList]
    [getNextHandler "h3".toList] (.write "<h2>".toList (.ret (some 7))) zeroContext ⟨none, []⟩
    ⟨"GET".toList, "/test".toList⟩ 2
    (fun h hh => by
      rw [List.mem_singleton] at hh
      subst hh
      exact Forwards.write _ _ (Forwards.next _ (fun err => Silent.write _ _ Silent.ret)))
    (Silent.write _ _ Silent.ret) (by decide)

/-! ## C14-C16: the dispatcher -/

/-- What `ServeHTTP` does once the chain is installed. -/
theorem serveHTTP_eq (re : Regexp) (depth : Nat) (app : Application) (c c1 : Context GoError)
    (w : ResponseWriter) (req : Request) (hinst : app.install re c w req = some c1) :
    app.ServeHTTP re depth c w req =
      match c1.Next depth with
      | none => none
      | some (some err, c2) => some (app.handleError c2 err)
      | some (none, c2) => some c2 := by
  unfold Application.ServeHTTP
  rw [hinst]

/-- C14. Once the chain is installed on the context `c1`: if the call of
`Next` returns an error `e` whose type implements `HTTPError`, `ServeHTTP`
ends with the one call `errorHandler(c, e.Error(), e.Status())` on the context
as the chain left it; if it returns any other error `e`, with the one call
`errorHandler(c, e.Error(), 500)`; if it returns no error, the context is put
back as the chain left it, without any call of the error handler. The error
`NewHTTPError(s)` has the status `s` and the message `http.StatusText(s)`, the
error `NewHTTPError(s, m, ...)` the status `s` and the message `m`. -/
theorem C14_error_classification (re : Regexp) (depth : Nat) (app : Application)
    (c c1 : Context GoError) (w : ResponseWriter) (req : Request) (statusText : Int → Str)
    (hinst : app.install re c w req = some c1) :
    (∀ (e : GoError) (c2 : Context GoError) (status : Int),
      c1.Next depth = some (some e, c2) → e.status = some status →
      app.ServeHTTP re depth c w req = some (app.errorHandler c2 e.text status)) ∧
    (∀ (e : GoError) (c2 : Context GoError),
      c1.Next depth = some (some e, c2) → e.status = none →
      app.ServeHTTP re depth c w req = some (app.errorHandler c2 e.text 500)) ∧
    (∀ c2 : Context GoError, c1.Next depth = some (none, c2) →
      app.ServeHTTP re depth c w req = some c2) ∧
    (∀ s : Int, (NewHTTPError statusText s []).toError = ⟨statusText s, some s⟩) ∧
    (∀ (s : Int) (m : Str) (rest : List Str),
      (NewHTTPError statusText s (m :: rest)).toError = ⟨m, some s⟩) := by
  refine ⟨?_, ?_, ?_, fun _ => rfl, fun _ _ _ => rfl⟩
  · intro e c2 status hn hs
    rw [serveHTTP_eq re depth app c c1 w req hinst, hn]
    simp only [Application.handleError, hs]
  · intro e c2 hn hs
    rw [serveHTTP_eq re depth app c c1 w req hinst, hn]
    simp only [Application.handleError, hs]
  · intro c2 hn
    rw [serveHTTP_eq re depth app c c1 w req hinst, hn]

/-- C14, witness: the application whose one handler returns
`NewHTTPError(404)`, served on `GET /e`. -/
theorem C14_error_classification_witness :
    ∃ c1, (failingApp (NewHTTPError (fun _ => "Not Found".toList) 404 []).toError).install goRegexp
        zeroContext ⟨none, []⟩ ⟨"GET".toList, "/e".toList⟩ = some c1 ∧
      ∀ (e : GoError) (c2 : Context GoError) (status : Int),
        c1.Next 2 = some (some e, c2) → e.status = some status →
        (failingApp (NewHTTPError (fun _ => "Not Found".toList) 404 []).toError).ServeHTTP goRegexp 2
            zeroContext ⟨none, []⟩ ⟨"GET".toList, "/e".toList⟩
          = some ((failingApp (NewHTTPError (fun _ => "Not Found".toList) 404
              []).toError).errorHandler c2 e.text status) := by
  have hsome : ((failingApp (NewHTTPError (fun _ => "Not Found".toList) 404 []).toError).install
      goRegexp zeroContext ⟨none, []⟩ ⟨"GET".toList, "/e".toList⟩).isSome = true := by decide
  obtain ⟨c1, h1⟩ := Option.isSome_iff_exists.1 hsome
  exact ⟨c1, h1, (C14_error_classification goRegexp 2 _ zeroContext c1 ⟨none, []⟩
    ⟨"GET".toList, "/e".toList⟩ (fun _ => "Not Found".toList) h1).1⟩

/-! ### C15: the message of an untyped error -/

/-- C15, counterexample. With the default error handler, the untyped errors
with the texts `a` and `b` give the response bodies `a` and `b` (each followed
by a newline): the message handed to the error handler is the text of the
error. -/
theorem C15_counterexample_error_text_is_the_message :
    ((Application.New.handleError (testContext []) (plainError "a".toList)).Response.Writer.body,
      (Application.New.handleError (testContext []) (plainError "a".toList)).Response.Writer.code)
      = ("a\n".toList, some 500) ∧
    ((Application.New.handleError (testContext []) (plainError "b".toList)).Response.Writer.body,
      (Application.New.handleError (testContext []) (plainError "b".toList)).Response.Writer.code)
      = ("b\n".toList, some 500) ∧
    ((failingApp (plainError "secret".toList)).ServeHTTP goRegexp 2 zeroContext ⟨none, []⟩
        ⟨"GET".toList, "/e".toList⟩).map (fun c => c.Response.Writer.body)
      = some "xsecret\n".toList := by
  decide

/-- C15, amended. For an error whose type does not implement `HTTPError`,
`handleError` calls the error handler with the status 500 and with the text of
the error itself as the message; two such errors are handled by the same call
when their texts are equal. -/
theorem C15_untyped_error_keeps_its_text (app : Application) (c : Context GoError)
    (e1 e2 : GoError) (h1 : e1.status = none) (h2 : e2.status = none) :
    app.handleError c e1 = app.errorHandler c e1.text 500 ∧
    app.handleError c e2 = app.errorHandler c e2.text 500 ∧
    (e1.text = e2.text → app.handleError c e1 = app.handleError c e2) := by
  have g1 : app.handleError c e1 = app.errorHandler c e1.text 500 := by
    simp only [Application.handleError, h1]
  have g2 : app.handleError c e2 = app.errorHandler c e2.text 500 := by
    simp only [Application.handleError, h2]
  exact ⟨g1, g2, fun ht => by rw [g1, g2, ht]⟩

/-- C15, amended, witness: two untyped errors with the text `a`. -/
theorem C15_untyped_error_keeps_its_text_witness :
    Application.New.handleError (testContext []) (plainError "a".toList)
      = Application.New.errorHandler (testContext []) "a".toList 500 :=
  (C15_untyped_error_keeps_its_text Application.New (testContext []) (plainError "a".toList)
    (plainError "a".toList) rfl rfl).1

/-! ### C16: the not-found chain -/

/-- C16. For every application, context from the pool and request: if the
method of the request has no tree, or if `getRoute` on the tree of that method
resolves the path of the request to nil handlers, the chain installed on the
context is the one handler `notFoundHandler`. The installed context depends on
the trees only through the tree of the method of the request: two
applications with the same tree for that method (and the same not-found
handler) install the same context, whatever is registered under other
methods. In the application of `TestNew`, `GET /users` prints `GET:ok`,
`POST /users` prints `POST:ok`, and `PUT /users` runs the not-found
handler. -/
theorem C16_not_found_chain (re : Regexp) (app : Application) (c : Context GoError)
    (w : ResponseWriter) (req : Request)
    (h : app.trees.lookup req.Method = none ∨
      ∃ root value pValues, app.trees.lookup req.Method = some root ∧
        root.getRoute re req.Path c.pValues = some (value, pValues) ∧ value.handlers = none) :
    (∃ c1, app.install re c w req = some c1 ∧ c1.handlers = some [app.notFoundHandler]) ∧
    (∀ app2 : Application, app2.trees.lookup req.Method = app.trees.lookup req.Method →
      app2.notFoundHandler = app.notFoundHandler →
      app2.install re c w req = app.install re c w req) ∧
    (testNewApp.bind (fun a => a.ServeHTTP goRegexp 2 (poolContext a) ⟨none, []⟩
        ⟨"GET".toList, "/users".toList⟩)).map (fun c => c.Response.Writer.body)
      = some "GET:ok".toList ∧
    (testNewApp.bind (fun a => a.ServeHTTP goRegexp 2 (poolContext a) ⟨none, []⟩
        ⟨"POST".toList, "/users".toList⟩)).map (fun c => c.Response.Writer.body)
      = some "POST:ok".toList ∧
    (testNewApp.bind (fun a => a.ServeHTTP goRegexp 2 (poolContext a) ⟨none, []⟩
        ⟨"PUT".toList, "/users".toList⟩)).map (fun c => c.Response.Writer.body)
      = some "404 page not found\n".toList := by
  refine ⟨?_, ?_, by decide, by decide, by decide⟩
  · rcases h with h | ⟨root, value, pValues, h1, h2, h3⟩
    · refine ⟨{ (c.reset w req) with handlers := some [app.notFoundHandler] }, ?_, rfl⟩
      simp only [Application.install, h]
      rfl
    · refine ⟨{ (c.reset w req) with pValues := pValues, handlers := some [app.notFoundHandler] },
        ?_, rfl⟩
      have h2a : root.getRoute re req.Path (c.reset w req).pValues = some (value, pValues) := h2
      simp only [Application.install, h1, h2a, h3]
      rfl
  · intro app2 ht hn
    simp only [Application.install, ht, hn]

/-- C16, witness: the application of `TestNew` and the request `PUT /users`,
a method without a tree. -/
theorem C16_not_found_chain_witness :
    ∃ c1, (testNewApp.getD Application.New).install goRegexp zeroContext ⟨none, []⟩
        ⟨"PUT".toList, "/users".toList⟩ = some c1 ∧
      c1.handlers = some [(testNewApp.getD Application.New).notFoundHandler] :=
  (C16_not_found_chain goRegexp (testNewApp.getD Application.New) zeroContext ⟨none, []⟩
    ⟨"PUT".toList, "/users".toList⟩ (Or.inl rfl)).1

/-- A route registered with an empty chain that is not nil keeps its empty
chain: the not-found handler replaces a nil chain only. -/
theorem empty_chain_is_kept :
    ((Application.New.addRoute goRegexp "GET".toList "/x".toList (some [])).bind
      (fun a => a.install goRegexp (poolContext a) ⟨none, []⟩
        ⟨"GET".toList, "/x".toList⟩)).map (fun c => lenOf c.handlers) = some 0 := by
  decide

/-! ## C17-C20: reverse lookup -/

theorem urlScan_eq {H : Type} (routes : List (Route H)) (name : Str) (pairs : List Value) :
    urlScan routes name pairs =
      ((routes.find? (fun r => decide (r.name = name))).map
        (fun r => urlPairs r.path pairs)).getD [] := by
  induction routes with
  | nil => rfl
  | cons r rs ih =>
    by_cases h : r.name = name
    · simp [urlScan, List.find?, h]
    · simp [urlScan, List.find?, h, ih]

/-- The loop over the arguments, for a list of complete pairs. -/
theorem urlPairs_pairs (kvs : List (Value × Value)) : ∀ s : Str,
    urlPairs s (kvs.flatMap (fun p => [p.1, p.2]))
      = kvs.foldl (fun s p => stringsReplaceAll s (':' :: Sprint p.1) (QueryEscape (Sprint p.2)))
          s := by
  induction kvs with
  | nil => intro s; rfl
  | cons p kvs ih =>
    intro s
    simp only [List.flatMap_cons, List.cons_append, List.nil_append, urlPairs, List.foldl_cons]
    exact ih _

/-- C17. For every application in which the first route with the name `name`
has the template `T`, and every list of pairs `(k1, v1), ..., (kn, vn)`:
`URL(name, k1, v1, ..., kn, vn)` is `T` after replacing, for `i = 1..n` in
this order, the instances of `":" + Sprint(ki)` by
`QueryEscape(Sprint(vi))`. In the application of `TestApplication_URL`,
`URL("user.info", "id", 10)` is `/user/10` and
`URL("group.user.post", "id", 10, "pid", 1)` is `/group/user/10/posts/1`. -/
theorem C17_url_replaces_each_placeholder (app : Application) (name : Str) (r : Route Handler)
    (kvs : List (Value × Value))
    (hfind : app.routes.find? (fun q => decide (q.name = name)) = some r) :
    app.URL name (kvs.flatMap (fun p => [p.1, p.2]))
      = kvs.foldl (fun s p => stringsReplaceAll s (':' :: Sprint p.1) (QueryEscape (Sprint p.2)))
          r.path ∧
    urlTestApp.map (fun a => a.URL "user.info".toList [.str "id".toList, .int 10])
      = some "/user/10".toList ∧
    urlTestApp.map (fun a => a.URL "group.user.post".toList
        [.str "id".toList, .int 10, .str "pid".toList, .int 1])
      = some "/group/user/10/posts/1".toList := by
  refine ⟨?_, by decide, by decide⟩
  unfold Application.URL
  rw [urlScan_eq, hfind]
  exact urlPairs_pairs kvs r.path

/-- C17, witness: the route `user.info` of `TestApplication_URL` and the pair
`("id", 10)`. -/
theorem C17_url_replaces_each_placeholder_witness :
    (urlTestApp.getD Application.New).URL "user.info".toList
        ([(Value.str "id".toList, Value.int 10)].flatMap (fun p => [p.1, p.2]))
      = [(Value.str "id".toList, Value.int 10)].foldl
          (fun s p => stringsReplaceAll s (':' :: Sprint p.1) (QueryEscape (Sprint p.2)))
          "/user/:id".toList :=
  (C17_url_replaces_each_placeholder (urlTestApp.getD Application.New) "user.info".toList
    ⟨"GET".toList, "user.info".toList, "/user/:id".toList, 1, some [.ret none]⟩
    [(Value.str "id".toList, Value.int 10)] rfl).1

/-! ### C18: the first route with the name -/

/-- C18. `URL` uses the first route, in the order of registration, whose name
is the requested one: its result is computed from the template of that route,
whatever routes follow it, also routes with the same name; when no route has
the name, the result is the empty string, whatever pairs are given. In the
application of `TestApplication_URL`, `URL("undefined_name")` is empty; of two
routes named `n`, the first gives the result. -/
theorem C18_first_route_with_the_name_wins (app : Application) (name : Str)
    (pairs : List Value) :
    (app.URL name pairs =
      ((app.routes.find? (fun r => decide (r.name = name))).map
        (fun r => urlPairs r.path pairs)).getD []) ∧
    (∀ (L1 L2 : List (Route Handler)) (r : Route Handler), app.routes = L1 ++ r :: L2 →
      (∀ q ∈ L1, q.name ≠ name) → r.name = name → app.URL name pairs = urlPairs r.path pairs) ∧
    ((∀ q ∈ app.routes, q.name ≠ name) → app.URL name pairs = []) ∧
    urlTestApp.map (fun a => a.URL "undefined_name".toList []) = some [] ∧
    ((Application.register goRegexp Application.New
        [("GET".toList, "/a/{id}".toList, none), ("GET".toList, "/b/{id}".toList, none)]).map
      (fun a => ((a.nameRoute 0 "n".toList).nameRoute 1 "n".toList).URL "n".toList
        [.str "id".toList, .int 7])) = some "/a/7".toList := by
  have h0 : app.URL name pairs =
      ((app.routes.find? (fun r => decide (r.name = name))).map
        (fun r => urlPairs r.path pairs)).getD [] := urlScan_eq app.routes name pairs
  refine ⟨h0, ?_, ?_, by decide, by decide⟩
  · intro L1 L2 r hr hL1 hn
    rw [h0, hr, List.find?_append]
    have h1 : L1.find? (fun r => decide (r.name = name)) = none := by
      rw [List.find?_eq_none]
      intro q hq
      simpa using hL1 q hq
    rw [h1]
    simp [List.find?, hn]
  · intro hall
    rw [h0]
    have h1 : app.routes.find? (fun r => decide (r.name = name)) = none := by
      rw [List.find?_eq_none]
      intro q hq
      simpa using hall q hq
    rw [h1]
    rfl

/-! ### C20: routes without a name -/

/-- C20, counterexample. In the application of `TestNew`, where no route was
given a name, `URL("")` is `/users`, the template of the first route. -/
theorem C20_counterexample_empty_name :
    testNewApp.map (fun a => (a.routes.map (fun r => r.name), a.URL [] []))
      = some ([[], []], "/users".toList) := by
  decide

theorem register_names (re : Regexp) (regs : List (Str × Str × Option (List Handler))) :
    ∀ (app app1 : Application), Application.register re app regs = some app1 →
      (∀ r ∈ app.routes, r.name = []) → ∀ r ∈ app1.routes, r.name = [] := by
  induction regs with
  | nil =>
    intro app app1 h hall
    simp only [Application.register, Option.some.injEq] at h
    subst h
    exact hall
  | cons reg regs ih =>
    intro app app1 h hall
    obtain ⟨method, path, handlers⟩ := reg
    simp only [Application.register] at h
    cases hadd : app.addRoute re method path handlers with
    | none => rw [hadd] at h; cases h
    | some app2 =>
      rw [hadd] at h
      refine ih app2 app1 h ?_
      unfold Application.addRoute at hadd
      simp only at hadd
      cases hroot : ((app.trees.lookup method).getD node.empty).addRoute re path
          (NewRoute method path handlers) with
      | none => rw [hroot] at hadd; cases hadd
      | some root1 =>
        rw [hroot] at hadd
        simp only [Option.some.injEq] at hadd
        subst hadd
        intro r hr
        rcases List.mem_append.1 hr with h1 | h1
        · exact hall r h1
        · rw [List.mem_singleton] at h1
          subst h1
          rfl

/-- C20, amended. In every application built from `New()` by registrations
only, without any call of `Route.Name`, `URL(name, ...)` is the empty string
for every name other than the empty one and all pairs; `URL("", ...)` is
computed from the template of the first registered route, if there is one. -/
theorem C20_unnamed_routes_need_the_empty_name (re : Regexp)
    (regs : List (Str × Str × Option (List Handler))) (app : Application) (name : Str)
    (pairs : List Value) (hbuild : Application.register re Application.New regs = some app)
    (hname : name ≠ []) :
    app.URL name pairs = [] ∧
    app.URL [] pairs = (app.routes.head?.map (fun r => urlPairs r.path pairs)).getD [] := by
  have hall := register_names re regs Application.New app hbuild (fun r hr => by cases hr)
  constructor
  · unfold Application.URL
    rw [urlScan_eq]
    have h1 : app.routes.find? (fun r => decide (r.name = name)) = none := by
      rw [List.find?_eq_none]
      intro q hq
      simp only [decide_eq_true_eq]
      rw [hall q hq]
      exact fun h => hname h.symm
    rw [h1]
    rfl
  · unfold Application.URL
    cases hr : app.routes with
    | nil => rfl
    | cons r rs =>
      have : r.name = [] := hall r (by rw [hr]; exact List.mem_cons_self _ _)
      simp [urlScan, this]

/-- C20, amended, witness: the application of `TestNew` and the name
`users`. -/
theorem C20_unnamed_routes_need_the_empty_name_witness :
    (testNewApp.getD Application.New).URL "users".toList [] = [] :=
  (C20_unnamed_routes_need_the_empty_name goRegexp
    [("GET".toList, "/users".toList, some [printHandler "GET:ok".toList]),
     ("POST".toList, "/users".toList, some [printHandler "POST:ok".toList])]
    (testNewApp.getD Application.New) "users".toList [] rfl (by decide)).1

/-! ### C19: placeholders of keys that are not supplied -/

theorem isPrefixOf_append_slash (old seg rest : Str) (hold : '/' ∉ old) :
    old.isPrefixOf (seg ++ '/' :: rest) = old.isPrefixOf seg := by
  induction old generalizing seg with
  | nil => simp
  | cons o os ih =>
    have ho : o ≠ '/' := fun h => hold (by rw [h]; exact List.mem_cons_self _ _)
    have hos : '/' ∉ os := fun h => hold (List.mem_cons_of_mem _ h)
    cases seg with
    | nil => simp [List.isPrefixOf, ho]
    | cons c cs =>
      simp only [List.cons_append, List.isPrefixOf, List.append_eq]
      rw [ih cs hos]

theorem isPrefixOf_length (old s : Str) (h : old.isPrefixOf s = true) :
    old.length ≤ s.length := by
  rw [List.isPrefixOf_iff_prefix] at h
  exact h.length_le

/-- A replacement never crosses a slash when `old` contains none. -/
theorem replaceFrom_append_slash (old new : Str) (hne : old ≠ []) (hold : '/' ∉ old)
    (seg : Str) :
    ∀ (skip : Nat) (rest : Str), skip ≤ seg.length →
      replaceFrom old new skip (seg ++ '/' :: rest)
        = replaceFrom old new skip seg ++ '/' :: replaceFrom old new 0 rest := by
  induction seg with
  | nil =>
    intro skip rest hs
    have h0 : skip = 0 := by simpa using hs
    subst h0
    obtain ⟨o, os, rfl⟩ := List.exists_cons_of_ne_nil hne
    have ho : o ≠ '/' := fun h => hold (by rw [h]; exact List.mem_cons_self _ _)
    simp [replaceFrom, List.isPrefixOf, ho]
  | cons c cs ih =>
    intro skip rest hs
    cases skip with
    | succ k =>
      simp only [List.cons_append, replaceFrom, List.append_eq]
      exact ih k rest (by simpa using hs)
    | zero =>
      simp only [List.cons_append, replaceFrom, List.append_eq]
      have hp := isPrefixOf_append_slash old (c :: cs) rest hold
      simp only [List.cons_append] at hp
      rw [hp]
      by_cases hpre : old.isPrefixOf (c :: cs) = true
      · rw [if_pos hpre, if_pos hpre]
        have hl := isPrefixOf_length old (c :: cs) hpre
        rw [ih (old.length - 1) rest (by simp at hl; omega)]
        simp
      · rw [if_neg hpre, if_neg hpre]
        rw [ih 0 rest (Nat.zero_le _)]
        rfl

theorem replaceFrom_noSlash (old new : Str) (hnew : '/' ∉ new) (s : Str) :
    ∀ skip : Nat, '/' ∉ s → '/' ∉ replaceFrom old new skip s := by
  induction s with
  | nil => intro skip _; simp [replaceFrom]
  | cons c cs ih =>
    intro skip hs
    have hc : c ≠ '/' := fun h => hs (by rw [h]; exact List.mem_cons_self _ _)
    have hcs : '/' ∉ cs := fun h => hs (List.mem_cons_of_mem _ h)
    cases skip with
    | succ k =>
      simp only [replaceFrom]
      exact ih k hcs
    | zero =>
      simp only [replaceFrom]
      split
      · intro hm
        rcases List.mem_append.1 hm with h1 | h1
        · exact hnew h1
        · exact ih _ hcs h1
      · intro hm
        rcases List.mem_cons.1 hm with h1 | h1
        · exact hc h1.symm
        · exact ih _ hcs h1

/-- Where the first character of `old` does not occur, nothing is
replaced. -/
theorem replaceFrom_no_head (o : Char) (os new : Str) (s : Str) (h : o ∉ s) :
    replaceFrom (o :: os) new 0 s = s := by
  induction s with
  | nil => rfl
  | cons c cs ih =>
    have hc : o ≠ c := fun hh => h (by rw [hh]; exact List.mem_cons_self _ _)
    have hcs : o ∉ cs := fun hh => h (List.mem_cons_of_mem _ hh)
    simp [replaceFrom, List.isPrefixOf, hc, ih hcs]

/-- A placeholder `:name` is left alone by the replacement of `:key` when the
key is not a beginning of the name. -/
theorem replace_placeholder (k nm new : Str) (hnm : ':' ∉ nm) (hk : ¬ k <+: nm) :
    stringsReplaceAll (':' :: nm) (':' :: k) new = ':' :: nm := by
  unfold stringsReplaceAll
  rw [if_neg (by simp)]
  simp only [replaceFrom, List.isPrefixOf, beq_self_eq_true, Bool.true_and]
  have hp : k.isPrefixOf nm = false := by
    rw [← Bool.not_eq_true, List.isPrefixOf_iff_prefix]
    exact hk
  rw [hp]
  simp only [Bool.false_eq_true, if_false]
  rw [replaceFrom_no_head ':' k new nm hnm]

theorem hexDigit_mem (n : Nat) : hexDigit n ∈ "0123456789ABCDEF".toList := by
  unfold hexDigit
  by_cases h : n < "0123456789ABCDEF".toList.length
  · rw [List.getD_eq_getElem _ _ h]
    exact List.getElem_mem _
  · rw [List.getD_eq_default _ _ (by omega)]
    decide

/-- The text `url.QueryEscape` returns contains no slash. -/
theorem queryEscape_noSlash (s : Str) : '/' ∉ QueryEscape s := by
  unfold QueryEscape
  rw [List.mem_flatMap]
  rintro ⟨c, -, hc⟩
  split at hc
  · rename_i hu
    rw [List.mem_singleton] at hc
    subst hc
    revert hu
    decide
  · split at hc
    · rw [List.mem_singleton] at hc
      revert hc
      decide
    · rw [List.mem_flatMap] at hc
      obtain ⟨b, -, hb⟩ := hc
      simp only [List.mem_cons, List.mem_singleton, List.not_mem_nil, or_false] at hb
      rcases hb with h1 | h1 | h1
      · revert h1; decide
      · have := hexDigit_mem (b / 16)
        rw [← h1] at this
        revert this
        decide
      · have := hexDigit_mem (b % 16)
        rw [← h1] at this
        revert this
        decide

theorem two_step_induction {α : Type} {P : List α → Prop} (h0 : P [])
    (h1 : ∀ a, P [a]) (h2 : ∀ a b l, P l → P (a :: b :: l)) : ∀ l, P l := by
  intro l
  have key : ∀ n (l : List α), l.length ≤ n → P l := by
    intro n
    induction n with
    | zero =>
      intro l hl
      have : l = [] := List.length_eq_zero.1 (Nat.le_zero.1 hl)
      subst this
      exact h0
    | succ n ih =>
      intro l hl
      match l with
      | [] => exact h0
      | [a] => exact h1 a
      | a :: b :: rest =>
        apply h2
        apply ih
        simp only [List.length_cons] at hl
        omega
  exact key l.length l (Nat.le_refl _)

theorem joinSlash_nil : joinSlash [] = [] := rfl

theorem joinSlash_single (v : Str) : joinSlash [v] = v := by
  simp [joinSlash, List.intercalate, List.intersperse]

theorem joinSlash_cons_cons (v w : Str) (rest : List Str) :
    joinSlash (v :: w :: rest) = v ++ '/' :: joinSlash (w :: rest) := by
  simp [joinSlash, List.intercalate, List.intersperse]

theorem splitSlash_noSlash (t : Str) : ∀ s ∈ splitSlash t, '/' ∉ s := by
  induction t with
  | nil => intro s hs; simp [splitSlash] at hs; subst hs; simp
  | cons c cs ih =>
    intro s hs
    rw [splitSlash] at hs
    by_cases hc : c = '/'
    · rw [if_pos hc] at hs
      rcases List.mem_cons.1 hs with h1 | h1
      · subst h1; simp
      · exact ih s h1
    · rw [if_neg hc] at hs
      cases hsp : splitSlash cs with
      | nil => exact absurd hsp (splitSlash_ne_nil cs)
      | cons hd tl =>
        rw [hsp] at hs ih
        simp only at hs
        rcases List.mem_cons.1 hs with h1 | h1
        · subst h1
          intro hm
          rcases List.mem_cons.1 hm with h2 | h2
          · exact hc h2.symm
          · exact ih hd (List.mem_cons_self _ _) h2
        · exact ih s (List.mem_cons_of_mem _ h1)

theorem splitSlash_joinSlash (segs : List Str) (hne : segs ≠ [])
    (h : ∀ s ∈ segs, '/' ∉ s) : splitSlash (joinSlash segs) = segs := by
  have key : ∀ s, joinSlash (splitSlash s) = s := joinSlash_splitSlash
  induction segs with
  | nil => exact absurd rfl hne
  | cons v vs ih =>
    cases vs with
    | nil =>
      have hv := h v (List.mem_cons_self _ _)
      rw [joinSlash_single]
      have h2 := takeWhile_noSlash v [] hv (Or.inl rfl)
      rw [List.append_nil] at h2
      rw [splitSlash_eq, h2.1, h2.2]
    | cons w rest =>
      have hv := h v (List.mem_cons_self _ _)
      rw [joinSlash_cons_cons]
      have h2 := takeWhile_noSlash v ('/' :: joinSlash (w :: rest)) hv (Or.inr rfl)
      rw [splitSlash_eq, h2.1, h2.2]
      simp only
      rw [ih (by simp) (fun s hs => h s (List.mem_cons_of_mem _ hs))]

theorem stringsReplaceAll_noSlash (s old new : Str) (hne : old ≠ []) (hnew : '/' ∉ new)
    (hs : '/' ∉ s) : '/' ∉ stringsReplaceAll s old new := by
  unfold stringsReplaceAll
  rw [if_neg hne]
  exact replaceFrom_noSlash old new hnew s 0 hs

/-- Replacing in a path is replacing in each of its segments, when neither
`old` nor the segments contain a slash. -/
theorem replace_joinSlash (old new : Str) (hne : old ≠ []) (hold : '/' ∉ old)
    (segs : List Str) (h : ∀ s ∈ segs, '/' ∉ s) :
    stringsReplaceAll (joinSlash segs) old new
      = joinSlash (segs.map (fun s => stringsReplaceAll s old new)) := by
  induction segs with
  | nil => simp [joinSlash_nil, stringsReplaceAll, hne, replaceFrom]
  | cons v vs ih =>
    cases vs with
    | nil => simp [joinSlash_single]
    | cons w rest =>
      have ih1 := ih (fun s hs => h s (List.mem_cons_of_mem _ hs))
      have e : joinSlash ((v :: w :: rest).map (fun s => stringsReplaceAll s old new))
          = stringsReplaceAll v old new ++ '/' ::
              stringsReplaceAll (joinSlash (w :: rest)) old new := by
        rw [ih1]
        exact joinSlash_cons_cons _ _ _
      rw [e, joinSlash_cons_cons]
      unfold stringsReplaceAll
      rw [if_neg hne, if_neg hne, if_neg hne]
      exact replaceFrom_append_slash old new hne hold v 0 _ (Nat.zero_le _)

/-- One replacement of `URL`, seen on the segments of the path. -/
theorem replace_step (k new : Str) (hk : '/' ∉ k) (hnew : '/' ∉ new) (segs : List Str)
    (h : ∀ s ∈ segs, '/' ∉ s) :
    stringsReplaceAll (joinSlash segs) (':' :: k) new
        = joinSlash (segs.map (fun s => stringsReplaceAll s (':' :: k) new)) ∧
      (∀ s ∈ segs.map (fun s => stringsReplaceAll s (':' :: k) new), '/' ∉ s) ∧
      ∀ (i : Nat) (nm : Str), segs[i]? = some (':' :: nm) → ':' ∉ nm → ¬ k <+: nm →
        (segs.map (fun s => stringsReplaceAll s (':' :: k) new))[i]? = some (':' :: nm) := by
  have hold : '/' ∉ ':' :: k := by
    intro hm
    rcases List.mem_cons.1 hm with h1 | h1
    · exact absurd h1 (by decide)
    · exact hk h1
  refine ⟨replace_joinSlash _ new (by simp) hold segs h, ?_, ?_⟩
  · intro s hs
    obtain ⟨s0, hs0, rfl⟩ := List.mem_map.1 hs
    exact stringsReplaceAll_noSlash s0 _ new (by simp) hnew (h s0 hs0)
  · intro i nm hi hnm hnot
    rw [List.getElem?_map, hi]
    simp only [Option.map_some']
    rw [replace_placeholder k nm new hnm hnot]

/-- The loop of `URL`, seen on the segments of the template. -/
theorem urlPairs_segments : ∀ (pairs : List Value) (segs : List Str),
    (∀ s ∈ segs, '/' ∉ s) → (∀ k ∈ keysOf pairs, '/' ∉ Sprint k) →
    ∃ segs1, urlPairs (joinSlash segs) pairs = joinSlash segs1 ∧
      segs1.length = segs.length ∧ (∀ s ∈ segs1, '/' ∉ s) ∧
      ∀ (i : Nat) (nm : Str), segs[i]? = some (':' :: nm) → ':' ∉ nm →
        (∀ k ∈ keysOf pairs, ¬ Sprint k <+: nm) → segs1[i]? = some (':' :: nm) := by
  intro pairs
  induction pairs using two_step_induction with
  | h0 =>
    intro segs h _
    exact ⟨segs, rfl, rfl, h, fun i nm hi _ _ => hi⟩
  | h1 k =>
    intro segs h hk
    have hk1 : '/' ∉ Sprint k := hk k (by simp [keysOf])
    obtain ⟨e1, e2, e3⟩ := replace_step (Sprint k) [] hk1 (by simp) segs h
    refine ⟨_, e1, by simp, e2, ?_⟩
    intro i nm hi hnm hnot
    exact e3 i nm hi hnm (hnot k (by simp [keysOf]))
  | h2 k v rest ih =>
    intro segs h hk
    have hk1 : '/' ∉ Sprint k := hk k (by simp [keysOf])
    obtain ⟨e1, e2, e3⟩ := replace_step (Sprint k) (QueryEscape (Sprint v)) hk1
      (queryEscape_noSlash _) segs h
    obtain ⟨segs1, f1, f2, f3, f4⟩ := ih _ e2
      (fun k1 hk1m => hk k1 (by simp [keysOf, hk1m]))
    refine ⟨segs1, ?_, by rw [f2]; simp, f3, ?_⟩
    · rw [urlPairs, e1]
      exact f1
    · intro i nm hi hnm hnot
      exact f4 i nm (e3 i nm hi hnm (hnot k (by simp [keysOf]))) hnm
        (fun k1 hk1m => hnot k1 (by simp [keysOf, hk1m]))

/-- C19, counterexample. For the route `/user/{id}/{idx}` named `u`, whose
template is `/user/:id/:idx`, `URL("u", "id", 10)` is `/user/10/10x`: the
placeholder `:idx`, whose key is not supplied, is changed. -/
theorem C19_counterexample_key_begins_another_name :
    ((Application.New.addRoute goRegexp "GET".toList "/user/{id}/{idx}".toList none).map
      (fun a => ((a.nameRoute 0 "u".toList).routes.map (fun r => r.path),
        (a.nameRoute 0 "u".toList).URL "u".toList [.str "id".toList, .int 10])))
      = some (["/user/:id/:idx".toList], "/user/10/10x".toList) := by
  decide

/-- C19, amended. For every application, every name whose first route has the
template `T`, and every list of arguments whose keys, as printed, contain no
slash: the result of `URL` has as many segments as `T`, and every segment of
`T` of the form `:name`, where `name` contains no colon and no supplied key is
a beginning of `name` (in particular none equals it), stands unchanged at the
same position in the result. In the application of `TestApplication_URL`,
`URL("group.user.post", "pid", 1)` is `/group/user/:id/posts/1`. -/
theorem C19_unsupplied_placeholders_stay (app : Application) (name : Str) (r : Route Handler)
    (pairs : List Value) (i : Nat) (nm : Str)
    (hfind : app.routes.find? (fun q => decide (q.name = name)) = some r)
    (hkeys : ∀ k ∈ keysOf pairs, '/' ∉ Sprint k)
    (hseg : (splitSlash r.path)[i]? = some (':' :: nm)) (hnm : ':' ∉ nm)
    (hnot : ∀ k ∈ keysOf pairs, ¬ Sprint k <+: nm) :
    (splitSlash (app.URL name pairs)).length = (splitSlash r.path).length ∧
    (splitSlash (app.URL name pairs))[i]? = some (':' :: nm) ∧
    urlTestApp.map (fun a => a.URL "group.user.post".toList [.str "pid".toList, .int 1])
      = some "/group/user/:id/posts/1".toList := by
  refine ⟨?_, ?_, by decide⟩ <;>
  · have hurl : app.URL name pairs = urlPairs (joinSlash (splitSlash r.path)) pairs := by
      unfold Application.URL
      rw [urlScan_eq, hfind, joinSlash_splitSlash]
      rfl
    obtain ⟨segs1, f1, f2, f3, f4⟩ := urlPairs_segments pairs (splitSlash r.path)
      (splitSlash_noSlash r.path) hkeys
    have hne : segs1 ≠ [] := by
      intro h0
      rw [h0] at f2
      exact splitSlash_ne_nil r.path (List.length_eq_zero.1 f2.symm)
    rw [hurl, f1, splitSlash_joinSlash segs1 hne f3]
    first
      | exact f2
      | exact f4 i nm hseg hnm hnot

/-- C19, amended, witness: the route `group.user.post` of
`TestApplication_URL`, the arguments `("pid", 1)` and the placeholder `:id`,
the fourth segment of the template. -/
theorem C19_unsupplied_placeholders_stay_witness :
    (splitSlash ((urlTestApp.getD Application.New).URL "group.user.post".toList
      [.str "pid".toList, .int 1]))[3]? = some (':' :: "id".toList) :=
  (C19_unsupplied_placeholders_stay (urlTestApp.getD Application.New) "group.user.post".toList
    ⟨"GET".toList, "group.user.post".toList, "/group/user/:id/posts/:pid".toList, 2,
      some [.ret none]⟩
    [.str "pid".toList, .int 1] 3 "id".toList rfl (by decide) (by decide) (by decide)
    (by decide)).2.1

/-! ### What `strings.Replace` computes -/

theorem replaceFrom_skip (old new : Str) (s : Str) : ∀ k : Nat,
    replaceFrom old new k s = replaceFrom old new 0 (s.drop k) := by
  induction s with
  | nil => intro k; simp [replaceFrom]
  | cons c cs ih =>
    intro k
    cases k with
    | zero => rfl
    | succ k =>
      simp only [replaceFrom, List.drop_succ_cons]
      exact ih k

/-- A text in which `old` does not occur is returned as it is. -/
theorem replace_no_instance (s old new : Str) (hne : old ≠ []) (h : ¬ old <:+: s) :
    stringsReplaceAll s old new = s := by
  unfold stringsReplaceAll
  rw [if_neg hne]
  induction s with
  | nil => rfl
  | cons c cs ih =>
    have hp : old.isPrefixOf (c :: cs) = false := by
      rw [← Bool.not_eq_true, List.isPrefixOf_iff_prefix]
      exact fun hh => h hh.isInfix
    have hcs : ¬ old <:+: cs := fun hh => h (hh.trans (List.suffix_cons c cs).isInfix)
    simp only [replaceFrom, hp, Bool.false_eq_true, if_false]
    rw [ih hcs]

/-- The first instance of `old` is replaced by `new`, and the scan goes on
after it. -/
theorem replace_first_instance (a b old new : Str) (hne : old ≠ [])
    (hfirst : ∀ a1 a2, a = a1 ++ a2 → a2 ≠ [] → ¬ old <+: a2 ++ old ++ b) :
    stringsReplaceAll (a ++ old ++ b) old new = a ++ new ++ stringsReplaceAll b old new := by
  unfold stringsReplaceAll
  rw [if_neg hne, if_neg hne]
  induction a with
  | nil =>
    obtain ⟨o, os, rfl⟩ := List.exists_cons_of_ne_nil hne
    have hp : (o :: os).isPrefixOf (o :: os ++ b) = true := by
      rw [List.isPrefixOf_iff_prefix]
      exact List.prefix_append _ _
    simp only [List.nil_append, List.cons_append, replaceFrom, List.append_eq] at hp ⊢
    rw [if_pos hp, replaceFrom_skip]
    simp
  | cons c a ih =>
    have hp : old.isPrefixOf (c :: a ++ old ++ b) = false := by
      rw [← Bool.not_eq_true, List.isPrefixOf_iff_prefix]
      exact hfirst [] (c :: a) rfl (by simp)
    simp only [List.cons_append, List.append_assoc, replaceFrom, List.append_eq] at hp ⊢
    rw [if_neg (by rw [hp]; simp)]
    have := ih (fun a1 a2 h1 h2 => hfirst (c :: a1) a2 (by rw [h1]; rfl) h2)
    simp only [List.append_assoc] at this
    rw [this]

/-! ## C24: the template of a route -/

theorem isBraced_iff (s : Str) : isBraced s = true ↔ ∃ inner, s = braces inner := by
  constructor
  · intro h
    cases s with
    | nil => simp [isBraced] at h
    | cons c tl =>
      simp only [isBraced, List.head?_cons, Bool.and_eq_true, decide_eq_true_eq,
        Option.some.injEq] at h
      obtain ⟨hc, hl⟩ := h
      subst hc
      cases tl with
      | nil => simp at hl
      | cons d tl2 =>
        rw [List.getLast?_cons_cons] at hl
        refine ⟨(d :: tl2).dropLast, ?_⟩
        unfold braces
        rw [List.dropLast_append_getLast? _ hl]
  · rintro ⟨inner, rfl⟩
    have hl := getLast?_braces inner
    simp only [isBraced, hl]
    rfl

theorem specName_plain (name : Str) (h : ':' ∉ name) : specName (braces name) = name := by
  have : ∀ c ∈ name, (decide (c ≠ ':')) = true := by
    intro c hc
    simp only [ne_eq, decide_not, Bool.not_eq_eq_eq_not, Bool.not_true, decide_eq_false_iff_not]
    rintro rfl
    exact h hc
  simp only [specName, braces, List.drop_succ_cons, List.drop_zero, List.dropLast_concat]
  exact List.takeWhile_eq_self_iff.2 this

theorem specName_colon (name anything : Str) (h : ':' ∉ name) :
    specName (braces (name ++ ':' :: anything)) = name := by
  have : ∀ c ∈ name, (decide (c ≠ ':')) = true := by
    intro c hc
    simp only [ne_eq, decide_not, Bool.not_eq_eq_eq_not, Bool.not_true, decide_eq_false_iff_not]
    rintro rfl
    exact h hc
  simp only [specName, braces, List.drop_succ_cons, List.drop_zero, List.dropLast_concat]
  rw [List.takeWhile_append_of_pos this]
  simp

theorem templatePart_plain (name : Str) (h : ':' ∉ name) :
    templatePart (braces name) = some (':' :: name) := by
  have hmem : ':' ∉ braces name := by
    simp [braces, h]
  have hs := slice_braces name
  have hl := getLast?_braces name
  unfold templatePart
  simp only [braces] at hmem hs hl ⊢
  simp only [hl, hmem, hs, ne_eq, not_true_eq_false, or_self, if_false]

theorem templatePart_colon (name anything : Str) (h : ':' ∉ name) :
    templatePart (braces (name ++ ':' :: anything)) = some (':' :: name) := by
  have hl := getLast?_braces (name ++ ':' :: anything)
  have hmem : ':' ∈ braces (name ++ ':' :: anything) := by simp [braces]
  have hidx : (braces (name ++ ':' :: anything)).indexOf ':' = name.length + 1 := by
    have := indexOf_colon ('{' :: name) (anything ++ ['}']) (by simp [h])
    simpa [braces] using this
  have hs1 : slice (braces (name ++ ':' :: anything)) 1 (name.length + 1) = name := by
    simp [slice, braces, List.take_append_eq_append_take]
  unfold templatePart
  simp only [braces] at hmem hs1 hl hidx ⊢
  simp only [hl, hmem, hs1, hidx, ne_eq, not_true_eq_false, or_self, if_true, if_false]

theorem split_at_colon (inner : Str) (h : ':' ∈ inner) :
    ∃ name anything, ':' ∉ name ∧ inner = name ++ ':' :: anything := by
  induction inner with
  | nil => simp at h
  | cons c tl ih =>
    by_cases hc : c = ':'
    · exact ⟨[], tl, by simp, by simp [hc]⟩
    · have : ':' ∈ tl := by
        rcases List.mem_cons.1 h with h1 | h1
        · exact absurd h1.symm hc
        · exact h1
      obtain ⟨name, anything, hn, he⟩ := ih this
      refine ⟨c :: name, anything, ?_, by simp [he]⟩
      simp only [List.mem_cons, not_or]
      exact ⟨fun e => hc e.symm, hn⟩

/-- The function `templatePart` computes the template of a segment. -/
theorem templatePart_spec (s : Str) : (templatePart s).getD s = specSegment s := by
  unfold specSegment
  by_cases hb : isBraced s = true
  · rw [if_pos hb]
    obtain ⟨inner, rfl⟩ := (isBraced_iff s).1 hb
    by_cases hc : ':' ∈ inner
    · obtain ⟨name, anything, hn, rfl⟩ := split_at_colon inner hc
      rw [templatePart_colon name anything hn, specName_colon name anything hn]
      rfl
    · rw [templatePart_plain inner hc, specName_plain inner hc]
      rfl
  · rw [if_neg hb]
    cases s with
    | nil => rfl
    | cons c tl =>
      have : c ≠ '{' ∨ (c :: tl).getLast? ≠ some '}' := by
        by_contra hcon
        push_neg at hcon
        obtain ⟨h1, h2⟩ := hcon
        apply hb
        subst h1
        simp only [isBraced, h2]
        rfl
      simp only [templatePart, this, if_true, Option.getD_none]

theorem templatePart_isSome (s : Str) : (templatePart s).isSome = isBraced s := by
  by_cases hb : isBraced s = true
  · rw [hb]
    obtain ⟨inner, rfl⟩ := (isBraced_iff s).1 hb
    by_cases hc : ':' ∈ inner
    · obtain ⟨name, anything, hn, rfl⟩ := split_at_colon inner hc
      rw [templatePart_colon name anything hn]
      rfl
    · rw [templatePart_plain inner hc]
      rfl
  · have hb2 : isBraced s = false := by simpa using hb
    rw [hb2]
    cases s with
    | nil => rfl
    | cons c tl =>
      have : c ≠ '{' ∨ (c :: tl).getLast? ≠ some '}' := by
        by_contra hcon
        push_neg at hcon
        obtain ⟨h1, h2⟩ := hcon
        apply hb
        subst h1
        simp only [isBraced, h2]
        rfl
      simp only [templatePart, this, if_true, Option.isSome_none]

/-- C24: `Route.buildPathTemplate` sets the template to the path with each
segment of the form `{name}` or `{name:anything}` replaced by `:name` and every
other segment unchanged, and `maxParams` to the number of replaced segments
(modulo 256, `maxParams` being a `uint8`, hence that number when it is less
than 256); the other fields of the route are kept. The example of
`TestRoute_BuildPathTemplate` gives `/user/:id/:action` and 2. -/
theorem C24_template_of_a_path {H : Type} (r : Route H) (path : Str) :
    (r.buildPathTemplate path).path = specTemplate path ∧
    (r.buildPathTemplate path).maxParams = ((splitSlash path).filter isBraced).length % 256 ∧
    (((splitSlash path).filter isBraced).length < 256 →
      (r.buildPathTemplate path).maxParams = ((splitSlash path).filter isBraced).length) ∧
    (r.buildPathTemplate path).method = r.method ∧
    (r.buildPathTemplate path).name = r.name ∧
    (r.buildPathTemplate path).handlers = r.handlers ∧
    (∀ s, isBraced s = true ↔ ∃ inner, s = braces inner) ∧
    (∀ name, ':' ∉ name → specSegment (braces name) = ':' :: name) ∧
    (∀ name anything, ':' ∉ name →
      specSegment (braces (name ++ ':' :: anything)) = ':' :: name) ∧
    (∀ s, isBraced s = false → specSegment s = s) ∧
    (r.buildPathTemplate "/user/{id:[0-9]}/{action:*}".toList).path
      = "/user/:id/:action".toList ∧
    (r.buildPathTemplate "/user/{id:[0-9]}/{action:*}".toList).maxParams = 2 := by
  have hpath : (r.buildPathTemplate path).path = specTemplate path := by
    show joinSlash ((splitSlash path).map (fun s => (templatePart s).getD s)) = _
    unfold specTemplate
    congr 1
    exact List.map_congr_left (fun s _ => templatePart_spec s)
  have hmax : (r.buildPathTemplate path).maxParams
      = ((splitSlash path).filter isBraced).length % 256 := by
    show ((splitSlash path).filter (fun s => (templatePart s).isSome)).length % 256 = _
    congr 2
    exact List.filter_congr (fun s _ => templatePart_isSome s)
  refine ⟨hpath, hmax, ?_, rfl, rfl, rfl, isBraced_iff, ?_, ?_, ?_, ?_, ?_⟩
  · intro h
    rw [hmax, Nat.mod_eq_of_lt h]
  · intro name h
    have hb : isBraced (braces name) = true := (isBraced_iff _).2 ⟨name, rfl⟩
    rw [specSegment, if_pos hb, specName_plain name h]
  · intro name anything h
    have hb : isBraced (braces (name ++ ':' :: anything)) = true := (isBraced_iff _).2 ⟨_, rfl⟩
    rw [specSegment, if_pos hb, specName_colon name anything h]
  · intro s h
    simp [specSegment, h]
  · show joinSlash ((splitSlash "/user/{id:[0-9]}/{action:*}".toList).map
      (fun s => (templatePart s).getD s)) = _
    decide
  · show ((splitSlash "/user/{id:[0-9]}/{action:*}".toList).filter
      (fun s => (templatePart s).isSome)).length % 256 = 2
    decide

/-- The route of `TestRoute_BuildPathTemplate`. -/
theorem C24_template_of_a_path_witness :
    (NewRoute "GET".toList "/user/{id:[0-9]}/{action:*}".toList (none : Option (List Nat))).path
      = "/user/:id/:action".toList ∧
    (NewRoute "GET".toList "/user/{id:[0-9]}/{action:*}".toList
      (none : Option (List Nat))).maxParams = 2 :=
  ⟨(C24_template_of_a_path _ "/user/{id:[0-9]}/{action:*}".toList).1.trans (by decide),
   ((C24_template_of_a_path _ "/user/{id:[0-9]}/{action:*}".toList).2.2.1 (by decide)).trans
    (by decide)⟩

/-! ## C28: the reset of a context -/

/-- C28: whatever the state of a context, after `Context.reset` the cursor is
-1, there is no handler chain, the list of parameter names is empty, so that
`Param` gives the empty string for every key, and the cached query, post form
and form, the view data and the view layout are cleared; the writer and the
request are the ones given. -/
theorem C28_reset_clears_the_context {E : Type} (c : Context E) (w : ResponseWriter)
    (req : Request) :
    (c.reset w req).index = -1 ∧
    (c.reset w req).handlers = none ∧
    (c.reset w req).pKeys = [] ∧
    (∀ k, (c.reset w req).Param k = some []) ∧
    (c.reset w req).queryCache = none ∧
    (c.reset w req).postFormCache = none ∧
    (c.reset w req).formCache = none ∧
    (c.reset w req).viewData = none ∧
    (c.reset w req).viewLayout = [] ∧
    (c.reset w req).Request = some req ∧
    (c.reset w req).Response.Writer = w :=
  ⟨rfl, rfl, rfl, fun _ => rfl, rfl, rfl, rfl, rfl, rfl, rfl, rfl⟩

/-! ## C29: `RouteRedirect` -/

theorem take_length_sub_one_append {α : Type} (xs : List α) (x : α) :
    (xs ++ [x]).take ((xs ++ [x]).length - 2) = xs.dropLast := by
  rw [List.dropLast_eq_take]
  have : (xs ++ [x]).length - 2 = xs.length - 1 := by simp
  rw [this, List.take_append_of_le_length (by omega)]

theorem getElem?_length_sub_one_append {α : Type} (xs : List α) (x : α) :
    (xs ++ [x])[(xs ++ [x]).length - 1]? = some x := by
  simp

/-- C29: what `RouteRedirect` does with its arguments. For an even number of
arguments `pairs`: followed by an integer status, the slice expression
`pairs[0 : l-2]` drops the last of `pairs` together with the status, so that
the target is `URL(name, ...)` of `pairs` without its last value, and with no
pair at all the expression panics; with no trailing status the redirect goes
to `URL(name, pairs...)` with the status 302; a trailing argument that is not
an `int` gives the error `invalid redirect status code`. In the application of
`TestContext_RouteRedirect`, `RouteRedirect("user", "id", 10, 307)` redirects
to `/user/`, where `URL("user", "id", 10)` is `/user/10`, and
`RouteRedirect("users", 307)` panics. -/
theorem C29_route_redirect_drops_the_last_value (app : Application) (redirect : RedirectFunc)
    (c : Context GoError) (name : Str) (pairs : List Value) (heven : pairs.length % 2 = 0) :
    (∀ status : Int, pairs ≠ [] →
      c.RouteRedirect app redirect name (pairs ++ [.int status])
        = some (c.Redirect redirect (app.URL name pairs.dropLast)
            [if status = 0 then 302 else status])) ∧
    (∀ status : Int, c.RouteRedirect app redirect name [.int status] = none) ∧
    c.RouteRedirect app redirect name pairs
      = some (c.Redirect redirect (app.URL name pairs) [302]) ∧
    (∀ x : Value, (∀ n, x ≠ .int n) →
      c.RouteRedirect app redirect name (pairs ++ [x])
        = some (some (plainError "invalid redirect status code".toList), c)) ∧
    (redirectTestApp.bind (fun a => (testContext []).RouteRedirect a recordRedirect
        "user".toList [.str "id".toList, .int 10, .int 307])).map
        (fun r => (r.1, r.2.Response.Writer.code, r.2.Response.Writer.body))
      = some (none, some 307, "/user/".toList) ∧
    redirectTestApp.map (fun a => a.URL "user".toList [.str "id".toList, .int 10])
      = some "/user/10".toList ∧
    (redirectTestApp.map (fun a => ((testContext []).RouteRedirect a recordRedirect
        "users".toList [.int 307]).isSome)) = some false := by
  have hodd : ∀ x : Value, 0 < (pairs ++ [x]).length ∧ (pairs ++ [x]).length % 2 = 1 := by
    intro x
    rw [List.length_append, List.length_singleton]
    omega
  refine ⟨?_, ?_, ?_, ?_, by decide, by decide, by decide⟩
  · intro status hne
    have hlen : ¬ (pairs ++ [Value.int status]).length < 2 := by
      have : 0 < pairs.length := List.length_pos.2 hne
      rw [List.length_append, List.length_singleton]
      omega
    unfold Context.RouteRedirect
    simp only [hodd, and_self, if_true, getElem?_length_sub_one_append, hlen, if_false,
      take_length_sub_one_append]
  · intro status
    rfl
  · have hnot : ¬ (0 < pairs.length ∧ pairs.length % 2 = 1) := by omega
    unfold Context.RouteRedirect
    simp only [hnot, if_false]
    rfl
  · intro x hx
    unfold Context.RouteRedirect
    simp only [hodd, and_self, if_true, getElem?_length_sub_one_append]
    cases x with
    | int n => exact absurd rfl (hx n)
    | str s => rfl
    | other s => rfl

/-- The call `RouteRedirect("user", "id", 10, 307)` is the redirect to
`URL("user", "id")`. -/
theorem C29_route_redirect_drops_the_last_value_witness :
    [Value.str "id".toList, Value.int 10].length % 2 = 0 ∧
    (testContext []).RouteRedirect Application.New recordRedirect "user".toList
        ([.str "id".toList, .int 10] ++ [.int 307])
      = some ((testContext []).Redirect recordRedirect
          (Application.New.URL "user".toList [.str "id".toList]) [307]) :=
  ⟨by decide,
   (C29_route_redirect_drops_the_last_value Application.New recordRedirect (testContext [])
      "user".toList [.str "id".toList, .int 10] (by decide)).1 307 (by simp)⟩

/-! ## C30: `QueryMap`, `PostValueMap`, `FormValueMap` -/

theorem indexOf_append_of_not_mem (a : Char) (xs rest : Str) (h : a ∉ xs) :
    (xs ++ a :: rest).indexOf a = xs.length := by
  induction xs with
  | nil => simp [List.indexOf_cons]
  | cons c tl ih =>
    have hc : c ≠ a := fun hc => h (by rw [hc]; exact List.mem_cons_self _ _)
    have htl : a ∉ tl := fun hm => h (List.mem_cons_of_mem _ hm)
    simp only [List.cons_append, List.indexOf_cons, List.length_cons]
    have hb : (c == a) = false := by simpa using hc
    rw [hb]
    simp only [cond_false, Nat.add_right_cancel_iff]
    exact ih htl

/-- The key under which the entry `k[s]` is filed is `s` without its last
character. -/
theorem subKey_bracketed (k s : Str) (hk : k ≠ []) (hk2 : '[' ∉ k) (hs : s ≠ [])
    (hs2 : ']' ∉ s) : subKey k (k ++ '[' :: (s ++ [']'])) = some s.dropLast := by
  have hmem : '[' ∈ k ++ '[' :: (s ++ [']']) := by simp
  have hi : (k ++ '[' :: (s ++ [']'])).indexOf '[' = k.length :=
    indexOf_append_of_not_mem '[' k _ hk2
  have hklen : 1 ≤ k.length := List.length_pos.2 hk
  have hslen : 1 ≤ s.length := List.length_pos.2 hs
  have hpre : slice (k ++ '[' :: (s ++ [']'])) 0 k.length = k := by
    simp [slice]
  have hdrop : (k ++ '[' :: (s ++ [']'])).drop (k.length + 1) = s ++ [']'] := by
    have : k ++ '[' :: (s ++ [']']) = (k ++ ['[']) ++ (s ++ [']']) := by simp
    rw [this, List.drop_left' (by simp)]
  have hmem2 : ']' ∈ s ++ [']'] := by simp
  have hj : (s ++ [']']).indexOf ']' = s.length := indexOf_append_of_not_mem ']' s [] hs2
  have hsl : slice (k ++ '[' :: (s ++ [']'])) (k.length + 1) (k.length + s.length)
      = s.dropLast := by
    have e : k ++ '[' :: (s ++ [']']) = (k ++ ['[']) ++ (s.dropLast ++ (s.drop (s.length - 1) ++ [']'])) := by
      have : s.dropLast ++ s.drop (s.length - 1) = s := by
        rw [List.dropLast_eq_take, List.take_append_drop]
      simp only [List.append_assoc, List.singleton_append, List.cons_append, List.nil_append]
      rw [← List.append_assoc s.dropLast, this]
    rw [e]
    exact slice_middle _ _ _ _ _ (by simp) (by simp; omega)
  unfold subKey
  simp only [hmem, hi, hklen, hpre, hdrop, hmem2, hj, hslen, hsl, and_self, if_true]

/-- C30: the maps built by `QueryMap`, `PostValueMap` and `FormValueMap` file
the entry named `k[s]` under `s` without its last character (the slice
`k[i+1:i+j]` ends one position early): on a context with no cached query and a
query whose one parameter is `k[s]` with the first value `v`, `QueryMap(k)` is
the map with the one entry from `s` without its last character to `v`, and
likewise for the two forms. For the query of `TestContext_Query`, which holds
`a[s]=1` and `a[f]=2`, `QueryMap("a")` has the one key `""` and no key `f`,
whichever of the two entries the loop visits first. -/
theorem C30_sub_key_loses_its_last_character {E : Type} (c : Context E) (k s v : Str)
    (more : List Str) (hk : k ≠ []) (hk2 : '[' ∉ k) (hs : s ≠ []) (hs2 : ']' ∉ s)
    (hq : c.queryCache = none) (hp : c.postFormCache = none) (hf : c.formCache = none) :
    (c.QueryMap [(k ++ '[' :: (s ++ [']']), v :: more)] k).map (fun r => r.1)
      = some [(s.dropLast, v)] ∧
    (c.PostValueMap [(k ++ '[' :: (s ++ [']']), v :: more)] k).map (fun r => r.1)
      = some [(s.dropLast, v)] ∧
    (c.FormValueMap [(k ++ '[' :: (s ++ [']']), v :: more)] k).map (fun r => r.1)
      = some [(s.dropLast, v)] ∧
    (((zeroContext : Context GoError).QueryMap testQuery "a".toList).map (fun r => r.1))
      = some [("".toList, "2".toList)] ∧
    (((zeroContext : Context GoError).QueryMap testQuery.reverse "a".toList).map (fun r => r.1))
      = some [("".toList, "1".toList)] ∧
    (((zeroContext : Context GoError).QueryMap testQuery "a".toList).map
      (fun r => r.1.lookup "f".toList)) = some none := by
  have hsub := subKey_bracketed k s hk hk2 hs hs2
  have hv : valuesMap k [(k ++ '[' :: (s ++ [']']), v :: more)] [] = some [(s.dropLast, v)] := by
    simp only [valuesMap, hsub]
    rfl
  refine ⟨?_, ?_, ?_, by decide, by decide, by decide⟩
  · simp only [Context.QueryMap, Context.getQuery, hq, hv, Option.map_some']
  · simp only [Context.PostValueMap, Context.getPostForm, hp, hv, Option.map_some']
  · simp only [Context.FormValueMap, Context.getForm, hf, hv, Option.map_some']

/-- The parameter `a[f]=2`: `QueryMap("a")` maps the empty key to `2`. -/
theorem C30_sub_key_loses_its_last_character_witness :
    ((zeroContext : Context GoError).QueryMap [("a[f]".toList, ["2".toList])] "a".toList).map
      (fun r => r.1) = some [("".toList, "2".toList)] :=
  (C30_sub_key_loses_its_last_character (zeroContext : Context GoError) "a".toList "f".toList
    "2".toList [] (by decide) (by decide) (by decide) (by decide) rfl rfl rfl).1

/-! ## C27: the invariants of the tree -/

mutual

theorem keeps_refl {H : Type} : ∀ n : node H, Keeps n n
  | node.mk _ _ _ _ cs ps w _ _ => by
    unfold Keeps
    exact ⟨rfl, rfl, keepsList_refl cs, keepsList_refl ps, keepsOpt_refl w⟩

theorem keepsList_refl {H : Type} : ∀ l : List (node H), KeepsList l l
  | [] => by unfold KeepsList; trivial
  | c :: cs => by
    unfold KeepsList
    exact ⟨keeps_refl c, keepsList_refl cs⟩

theorem keepsOpt_refl {H : Type} : ∀ w : Option (node H), KeepsOpt w w
  | none => by unfold KeepsOpt; trivial
  | some c => by
    unfold KeepsOpt
    exact keeps_refl c

end

theorem keeps_iff {H : Type} (n n1 : node H) :
    Keeps n n1 ↔ n1.nType = n.nType ∧ n1.key = n.key ∧ KeepsList n.children n1.children ∧
      KeepsList n.pChildren n1.pChildren ∧ KeepsOpt n.wChildren n1.wChildren := by
  obtain ⟨t, key, p, ks, cs, ps, w, rx, rt⟩ := n
  unfold Keeps
  exact Iff.rfl

mutual

theorem keeps_trans {H : Type} : ∀ a b c : node H, Keeps a b → Keeps b c → Keeps a c
  | node.mk _ _ _ _ cs ps w _ _, b, c, h1, h2 => by
    rw [keeps_iff] at h1 h2
    unfold Keeps
    simp only [node.nType, node.key, node.children, node.pChildren, node.wChildren] at h1
    exact ⟨h2.1.trans h1.1, h2.2.1.trans h1.2.1,
      keepsList_trans cs b.children c.children h1.2.2.1 h2.2.2.1,
      keepsList_trans ps b.pChildren c.pChildren h1.2.2.2.1 h2.2.2.2.1,
      keepsOpt_trans w b.wChildren c.wChildren h1.2.2.2.2 h2.2.2.2.2⟩

theorem keepsList_trans {H : Type} :
    ∀ l1 l2 l3 : List (node H), KeepsList l1 l2 → KeepsList l2 l3 → KeepsList l1 l3
  | [], _, _, _, _ => by unfold KeepsList; trivial
  | _ :: _, [], _, h1, _ => by unfold KeepsList at h1; exact h1.elim
  | _ :: _, _ :: _, [], _, h2 => by unfold KeepsList at h2; exact h2.elim
  | c :: cs, d :: ds, e :: es, h1, h2 => by
    unfold KeepsList at h1 h2 ⊢
    exact ⟨keeps_trans c d e h1.1 h2.1, keepsList_trans cs ds es h1.2 h2.2⟩

theorem keepsOpt_trans {H : Type} :
    ∀ w1 w2 w3 : Option (node H), KeepsOpt w1 w2 → KeepsOpt w2 w3 → KeepsOpt w1 w3
  | none, _, _, _, _ => by unfold KeepsOpt; trivial
  | some _, none, _, h1, _ => by unfold KeepsOpt at h1; exact h1.elim
  | some _, some _, none, _, h2 => by unfold KeepsOpt at h2; exact h2.elim
  | some c, some d, some e, h1, h2 => by
    unfold KeepsOpt at h1 h2 ⊢
    exact keeps_trans c d e h1 h2

end

theorem distinctKeysList_iff {H : Type} (l : List (node H)) :
    DistinctKeysList l ↔ ∀ c ∈ l, DistinctKeys c := by
  induction l with
  | nil => simp [DistinctKeysList]
  | cons c cs ih => simp [DistinctKeysList, ih]

theorem distinctKeys_iff {H : Type} (n : node H) :
    DistinctKeys n ↔ (n.children.map node.key).Nodup ∧ (n.pChildren.map node.key).Nodup ∧
      (∀ c ∈ n.children, DistinctKeys c) ∧ (∀ c ∈ n.pChildren, DistinctKeys c) ∧
      (∀ c, n.wChildren = some c → DistinctKeys c) := by
  obtain ⟨t, key, p, ks, cs, ps, w, rx, rt⟩ := n
  simp only [DistinctKeys, distinctKeysList_iff, node.children, node.pChildren, node.wChildren]
  cases w <;> simp [DistinctKeysOpt]

theorem keepsList_append {H : Type} (l more : List (node H)) : KeepsList l (l ++ more) := by
  induction l with
  | nil => unfold KeepsList; trivial
  | cons c cs ih =>
    rw [List.cons_append]
    unfold KeepsList
    exact ⟨keeps_refl c, ih⟩

theorem keepsList_replaceFirst {H : Type} (k : Str) (c c1 : node H) (l : List (node H))
    (hf : l.find? (fun child => child.key = k) = some c) (hK : Keeps c c1) :
    KeepsList l (replaceFirst k c1 l) := by
  induction l with
  | nil => simp at hf
  | cons d ds ih =>
    rw [replaceFirst]
    by_cases hk : d.key = k
    · rw [if_pos hk]
      simp only [List.find?, hk, decide_True, Option.some.injEq] at hf
      subst hf
      unfold KeepsList
      exact ⟨hK, keepsList_refl ds⟩
    · rw [if_neg hk]
      simp only [List.find?, hk, decide_False] at hf
      unfold KeepsList
      exact ⟨keeps_refl d, ih hf⟩

theorem keepsList_keys {H : Type} (l1 : List (node H)) :
    ∀ l2 : List (node H), KeepsList l1 l2 →
      ∃ more, l2.map node.key = l1.map node.key ++ more := by
  induction l1 with
  | nil => intro l2 _; exact ⟨l2.map node.key, rfl⟩
  | cons c cs ih =>
    intro l2 h
    cases l2 with
    | nil => unfold KeepsList at h; exact h.elim
    | cons d ds =>
      unfold KeepsList at h
      obtain ⟨more, hm⟩ := ih ds h.2
      refine ⟨more, ?_⟩
      rw [List.map_cons, List.map_cons, hm, ((keeps_iff c d).1 h.1).2.1]
      rfl

theorem hasChild_false {H : Type} (n : node H) (k : Str) (h : n.hasChild k = false) :
    n.getChild k = none ∧
    (k.head? = some ':' → k ∉ n.pChildren.map node.key) ∧
    (k.head? = some '*' → n.wChildren = none) ∧
    (k.head? ≠ some ':' → k.head? ≠ some '*' → k ∉ n.children.map node.key) := by
  unfold node.hasChild at h
  unfold node.getChild
  by_cases h1 : k.head? = some ':'
  · have h2 : k.head? ≠ some '*' := by rw [h1]; decide
    rw [if_pos h1] at h
    rw [if_pos h1]
    have hn : k ∉ n.pChildren.map node.key := by
      rw [← any_key_iff, h]
      decide
    refine ⟨?_, fun _ => hn, fun h => absurd h h2, fun h => absurd h1 h⟩
    rw [List.find?_eq_none]
    intro x hx hxk
    exact hn (List.mem_map.2 ⟨x, hx, by simpa using hxk⟩)
  · rw [if_neg h1] at h
    rw [if_neg h1]
    by_cases h2 : k.head? = some '*'
    · rw [if_pos h2] at h
      rw [if_pos h2]
      have hw : n.wChildren = none := by
        cases hw : n.wChildren with
        | none => rfl
        | some c => rw [hw] at h; simp at h
      exact ⟨hw, fun h => absurd h h1, fun _ => hw, fun _ h => absurd h2 h⟩
    · rw [if_neg h2] at h
      rw [if_neg h2]
      have hn : k ∉ n.children.map node.key := by
        rw [← any_key_iff, h]
        decide
      refine ⟨?_, fun h => absurd h h1, fun h => absurd h h2, fun _ _ => hn⟩
      rw [List.find?_eq_none]
      intro x hx hxk
      exact hn (List.mem_map.2 ⟨x, hx, by simpa using hxk⟩)

theorem attach_root {H : Type} (n c : node H) :
    (n.attach c).nType = n.nType ∧ (n.attach c).key = n.key := by
  obtain ⟨t, key, p, ks, cs, ps, w, rx, rt⟩ := n
  unfold node.attach
  split_ifs <;> exact ⟨rfl, rfl⟩

theorem setChild_root {H : Type} (n c : node H) (k : Str) :
    (n.setChild k c).nType = n.nType ∧ (n.setChild k c).key = n.key := by
  obtain ⟨t, key, p, ks, cs, ps, w, rx, rt⟩ := n
  unfold node.setChild
  split_ifs <;> exact ⟨rfl, rfl⟩

theorem attach_other {H : Type} (n c : node H) (h0 : c.nType ≠ staticNode)
    (h1 : c.nType ≠ paramNode) (h2 : c.nType ≠ catchAllNode) : n.attach c = n := by
  unfold node.attach
  rw [if_neg h0, if_neg h1, if_neg h2]

/-- The child that `getChild` finds after a new child was attached is the new
child, and the new child went to the list that `getChild` searches. -/
theorem attach_cases {H : Type} (n child : node H) (sg : segInfo)
    (hhas : n.hasChild sg.key = false)
    (hget : (n.attach (newChild sg)).getChild sg.key = some child) :
    child = newChild sg ∧
    ((sg.nType = staticNode ∧ sg.key.head? ≠ some ':' ∧ sg.key.head? ≠ some '*' ∧
        sg.key ∉ n.children.map node.key) ∨
     (sg.nType = paramNode ∧ sg.key.head? = some ':' ∧ sg.key ∉ n.pChildren.map node.key) ∨
     (sg.nType = catchAllNode ∧ sg.key.head? = some '*' ∧ n.wChildren = none)) := by
  obtain ⟨hnone, hp, hw, hc⟩ := hasChild_false n sg.key hhas
  have hnt : (newChild sg : node H).nType = sg.nType := rfl
  have hnk : (newChild sg : node H).key = sg.key := rfl
  have hfind : ∀ l : List (node H), sg.key ∉ l.map node.key →
      l.find? (fun c => c.key = sg.key) = none := by
    intro l hl
    rw [List.find?_eq_none]
    intro x hx hxk
    exact hl (List.mem_map.2 ⟨x, hx, by simpa using hxk⟩)
  by_cases t0 : sg.nType = staticNode
  · obtain ⟨e1, e2, e3, -, -⟩ := attach_static n (newChild sg) (hnt.trans t0)
    unfold node.getChild at hget
    rw [e1, e2, e3] at hget
    by_cases h1 : sg.key.head? = some ':'
    · rw [if_pos h1, hfind _ (hp h1)] at hget
      cases hget
    · rw [if_neg h1] at hget
      by_cases h2 : sg.key.head? = some '*'
      · rw [if_pos h2, hw h2] at hget
        cases hget
      · rw [if_neg h2, find?_append_fresh sg.key _ _ hnk (hc h1 h2)] at hget
        exact ⟨(Option.some.inj hget).symm, Or.inl ⟨t0, h1, h2, hc h1 h2⟩⟩
  · by_cases t1 : sg.nType = paramNode
    · obtain ⟨e1, e2, e3, -, -⟩ := attach_param n (newChild sg) (hnt.trans t1)
      unfold node.getChild at hget
      rw [e1, e2, e3] at hget
      by_cases h1 : sg.key.head? = some ':'
      · rw [if_pos h1, find?_append_fresh sg.key _ _ hnk (hp h1)] at hget
        exact ⟨(Option.some.inj hget).symm, Or.inr (Or.inl ⟨t1, h1, hp h1⟩)⟩
      · rw [if_neg h1] at hget
        by_cases h2 : sg.key.head? = some '*'
        · rw [if_pos h2, hw h2] at hget
          cases hget
        · rw [if_neg h2, hfind _ (hc h1 h2)] at hget
          cases hget
    · by_cases t2 : sg.nType = catchAllNode
      · obtain ⟨e1, e2, e3, -, -⟩ := attach_catchAll n (newChild sg) (hnt.trans t2)
        unfold node.getChild at hget
        rw [e1, e2, e3] at hget
        by_cases h1 : sg.key.head? = some ':'
        · rw [if_pos h1, hfind _ (hp h1)] at hget
          cases hget
        · rw [if_neg h1] at hget
          by_cases h2 : sg.key.head? = some '*'
          · rw [if_pos h2] at hget
            exact ⟨(Option.some.inj hget).symm, Or.inr (Or.inr ⟨t2, h2, hw h2⟩)⟩
          · rw [if_neg h2, hfind _ (hc h1 h2)] at hget
            cases hget
      · rw [attach_other n (newChild sg) t0 t1 t2, hnone] at hget
        cases hget

theorem distinctKeys_newChild {H : Type} (sg : segInfo) : DistinctKeys (newChild sg : node H) := by
  rw [distinctKeys_iff]
  simp [newChild, node.children, node.pChildren, node.wChildren]

theorem nodup_append_fresh (l : List Str) (k : Str) (hl : l.Nodup) (hk : k ∉ l) :
    (l ++ [k]).Nodup := by
  rw [List.nodup_append]
  refine ⟨hl, List.nodup_singleton k, ?_⟩
  intro a ha hb
  rw [List.mem_singleton] at hb
  exact hk (hb ▸ ha)

/-- Attaching a new child keeps the keys distinct and the nodes in place. -/
theorem attach_keeps {H : Type} (n child : node H) (sg : segInfo) (hD : DistinctKeys n)
    (hhas : n.hasChild sg.key = false)
    (hget : (n.attach (newChild sg)).getChild sg.key = some child) :
    DistinctKeys (n.attach (newChild sg)) ∧ Keeps n (n.attach (newChild sg)) := by
  have hnt : (newChild sg : node H).nType = sg.nType := rfl
  have hroot := attach_root n (newChild sg)
  rw [distinctKeys_iff] at hD
  obtain ⟨hn1, hn2, hc, hp, hw⟩ := hD
  rw [distinctKeys_iff, keeps_iff]
  rcases (attach_cases n child sg hhas hget).2 with ⟨t0, -, -, hk⟩ | ⟨t1, -, hk⟩ | ⟨t2, -, hk⟩
  · obtain ⟨e1, e2, e3, -, -⟩ := attach_static n (newChild sg) (hnt.trans t0)
    rw [e1, e2, e3]
    refine ⟨⟨?_, hn2, ?_, hp, hw⟩, hroot.1, hroot.2, keepsList_append _ _, keepsList_refl _,
      keepsOpt_refl _⟩
    · rw [List.map_append]
      exact nodup_append_fresh _ _ hn1 hk
    · intro x hx
      rcases List.mem_append.1 hx with h | h
      · exact hc x h
      · rw [List.mem_singleton] at h
        rw [h]
        exact distinctKeys_newChild sg
  · obtain ⟨e1, e2, e3, -, -⟩ := attach_param n (newChild sg) (hnt.trans t1)
    rw [e1, e2, e3]
    refine ⟨⟨hn1, ?_, hc, ?_, hw⟩, hroot.1, hroot.2, keepsList_refl _, keepsList_append _ _,
      keepsOpt_refl _⟩
    · rw [List.map_append]
      exact nodup_append_fresh _ _ hn2 hk
    · intro x hx
      rcases List.mem_append.1 hx with h | h
      · exact hp x h
      · rw [List.mem_singleton] at h
        rw [h]
        exact distinctKeys_newChild sg
  · obtain ⟨e1, e2, e3, -, -⟩ := attach_catchAll n (newChild sg) (hnt.trans t2)
    rw [e1, e2, e3, hk]
    refine ⟨⟨hn1, hn2, hc, hp, ?_⟩, hroot.1, hroot.2, keepsList_refl _, keepsList_refl _, ?_⟩
    · intro c hc1
      rw [← Option.some.inj hc1]
      exact distinctKeys_newChild sg
    · unfold KeepsOpt
      trivial

/-- Replacing the child that `getChild` finds by a node that keeps it keeps
the keys distinct and the nodes in place. -/
theorem setChild_keeps {H : Type} (n child c1 : node H) (k : Str) (hD : DistinctKeys n)
    (hget : n.getChild k = some child) (hD1 : DistinctKeys c1) (hK : Keeps child c1) :
    DistinctKeys (n.setChild k c1) ∧ Keeps n (n.setChild k c1) := by
  have hkey1 : c1.key = child.key := ((keeps_iff _ _).1 hK).2.1
  have hroot := setChild_root n c1 k
  rw [distinctKeys_iff] at hD
  obtain ⟨hn1, hn2, hc, hp, hw⟩ := hD
  rw [distinctKeys_iff, keeps_iff]
  unfold node.getChild at hget
  by_cases h1 : k.head? = some ':'
  · rw [if_pos h1] at hget
    obtain ⟨e1, e2, e3, -, -⟩ := setChild_param n c1 k h1
    obtain ⟨-, hck⟩ := find?_key_some k _ child hget
    rw [e1, e2, e3, map_key_replaceFirst k c1 _ (hkey1.trans hck)]
    refine ⟨⟨hn1, hn2, hc, ?_, hw⟩, hroot.1, hroot.2, keepsList_refl _,
      keepsList_replaceFirst k child c1 _ hget hK, keepsOpt_refl _⟩
    intro x hx
    rcases mem_replaceFirst k c1 _ hn2 x hx with h | ⟨h, -⟩
    · rw [h]
      exact hD1
    · exact hp x h
  · rw [if_neg h1] at hget
    by_cases h2 : k.head? = some '*'
    · rw [if_pos h2] at hget
      obtain ⟨e1, e2, e3, -, -⟩ := setChild_catchAll n c1 k h2
      rw [e1, e2, e3]
      refine ⟨⟨hn1, hn2, hc, hp, ?_⟩, hroot.1, hroot.2, keepsList_refl _, keepsList_refl _, ?_⟩
      · intro c hc1
        rw [← Option.some.inj hc1]
        exact hD1
      · rw [hget]
        unfold KeepsOpt
        exact hK
    · rw [if_neg h2] at hget
      obtain ⟨e1, e2, e3, -, -⟩ := setChild_static n c1 k h1 h2
      obtain ⟨-, hck⟩ := find?_key_some k _ child hget
      rw [e1, e2, e3, map_key_replaceFirst k c1 _ (hkey1.trans hck)]
      refine ⟨⟨hn1, hn2, ?_, hp, hw⟩, hroot.1, hroot.2,
        keepsList_replaceFirst k child c1 _ hget hK, keepsList_refl _, keepsOpt_refl _⟩
      intro x hx
      rcases mem_replaceFirst k c1 _ hn1 x hx with h | ⟨h, -⟩
      · rw [h]
        exact hD1
      · exact hc x h

theorem distinctKeys_getChild {H : Type} (n child : node H) (k : Str) (hD : DistinctKeys n)
    (hget : n.getChild k = some child) : DistinctKeys child := by
  rw [distinctKeys_iff] at hD
  obtain ⟨-, -, hc, hp, hw⟩ := hD
  unfold node.getChild at hget
  split_ifs at hget
  · exact hp child (find?_key_some k _ child hget).1
  · exact hw child hget
  · exact hc child (find?_key_some k _ child hget).1

/-- The walk of `addRoute` keeps the keys distinct and the nodes in place. -/
theorem addParts_keeps {H : Type} (re : Regexp) (parts : List Str) :
    ∀ (n n1 : node H) (acc : List Str) (path : Str) (route : Route H),
      DistinctKeys n → addParts re parts n acc path route = some n1 →
      DistinctKeys n1 ∧ Keeps n n1 := by
  induction parts with
  | nil =>
    intro n n1 acc path route hD h
    simp only [addParts, Option.some.injEq] at h
    subst h
    rw [distinctKeys_iff] at hD
    rw [distinctKeys_iff, keeps_iff]
    exact ⟨hD, rfl, rfl, keepsList_refl _, keepsList_refl _, keepsOpt_refl _⟩
  | cons s parts ih =>
    intro n n1 acc path route hD h
    obtain ⟨sg, pn1, child, c1, -, hg, hchild, hrec, rfl⟩ :=
      addParts_cons_some re s parts n n1 acc path route h
    have h1 : DistinctKeys pn1 ∧ Keeps n pn1 := by
      rcases hg with ⟨-, rfl⟩ | ⟨hhas, -, rfl⟩
      · exact ⟨hD, keeps_refl _⟩
      · exact attach_keeps n child sg hD hhas hchild
    obtain ⟨hDc1, hKc1⟩ := ih child c1 _ path route
      (distinctKeys_getChild pn1 child sg.key h1.1 hchild) hrec
    obtain ⟨h2, h3⟩ := setChild_keeps pn1 child c1 sg.key h1.1 hchild hDc1 hKc1
    exact ⟨h2, keeps_trans _ _ _ h1.2 h3⟩

theorem distinctKeys_empty {H : Type} : DistinctKeys (node.empty : node H) := by
  rw [distinctKeys_iff]
  simp [node.empty, node.children, node.pChildren, node.wChildren]

theorem addRoutes_keeps {H : Type} (re : Regexp) (routes : List (Str × Route H)) :
    ∀ (n t : node H), DistinctKeys n → addRoutes re n routes = some t →
      DistinctKeys t ∧ Keeps n t := by
  induction routes with
  | nil =>
    intro n t hD h
    simp only [addRoutes, Option.some.injEq] at h
    subst h
    exact ⟨hD, keeps_refl _⟩
  | cons pr rest ih =>
    intro n t hD h
    obtain ⟨p, r⟩ := pr
    simp only [addRoutes] at h
    cases hadd : n.addRoute re p r with
    | none => rw [hadd] at h; cases h
    | some n1 =>
      rw [hadd] at h
      obtain ⟨h1, h2⟩ := addParts_keeps re _ n n1 [] p r hD hadd
      obtain ⟨h3, h4⟩ := ih n1 t h1 h
      exact ⟨h3, keeps_trans _ _ _ h2 h4⟩

/-- C27: every tree that successful `addRoute` calls build from the empty tree
has, at every node, static children with pairwise distinct keys and parameter
children with pairwise distinct keys (and one field for a catch-all child);
and a further successful `addRoute` keeps every node in place: at every node
the lists of children begin with the children they had, in the same order,
new children coming after them, and a catch-all child is not replaced by
another node. -/
theorem C27_children_stay_distinct_and_in_place {H : Type} (re : Regexp)
    (routes : List (Str × Route H)) (t : node H)
    (hbuild : addRoutes re node.empty routes = some t) :
    DistinctKeys t ∧
    ∀ (path : Str) (route : Route H) (t1 : node H), t.addRoute re path route = some t1 →
      DistinctKeys t1 ∧ Keeps t t1 ∧
      (∃ more, t1.children.map node.key = t.children.map node.key ++ more) ∧
      (∃ more, t1.pChildren.map node.key = t.pChildren.map node.key ++ more) ∧
      (t.wChildren.isSome = true → t1.wChildren.isSome = true) := by
  obtain ⟨hD, -⟩ := addRoutes_keeps re routes node.empty t distinctKeys_empty hbuild
  refine ⟨hD, ?_⟩
  intro path route t1 h
  obtain ⟨h1, h2⟩ := addParts_keeps re _ t t1 [] path route hD h
  have h3 := (keeps_iff t t1).1 h2
  refine ⟨h1, h2, keepsList_keys _ _ h3.2.2.1, keepsList_keys _ _ h3.2.2.2.1, ?_⟩
  intro hw
  have h4 := h3.2.2.2.2
  cases hw0 : t.wChildren with
  | none => rw [hw0] at hw; cases hw
  | some c =>
    rw [hw0] at h4
    cases hw1 : t1.wChildren with
    | none => rw [hw1] at h4; unfold KeepsOpt at h4; exact h4.elim
    | some d => rfl

/-- The tree of `TestTreeAddAndGet` has distinct keys at every node. -/
theorem C27_children_stay_distinct_and_in_place_witness :
    ∃ t, addRoutes goRegexp node.empty testRoutes = some t ∧ DistinctKeys t := by
  have hsome : (addRoutes goRegexp node.empty testRoutes).isSome = true := by decide
  obtain ⟨t, ht⟩ := Option.isSome_iff_exists.1 hsome
  exact ⟨t, ht, (C27_children_stay_distinct_and_in_place goRegexp testRoutes t ht).1⟩

/-! ## C21: a malformed constraint -/

theorem descend_newChild {H : Type} (sg : segInfo) (k : Str) (ks : List Str) :
    descend (k :: ks) (newChild sg : node H) = none := by
  have : (newChild sg : node H).getChild k = none := by
    simp [node.getChild, newChild, node.children, node.pChildren, node.wChildren]
  simp only [descend, this]

theorem hasChild_of_getChild_none {H : Type} (n : node H) (k : Str) (h : n.getChild k = none) :
    n.hasChild k = false := by
  unfold node.getChild at h
  unfold node.hasChild
  split_ifs at h ⊢
  · rw [List.find?_eq_none] at h
    rw [Bool.eq_false_iff]
    intro hany
    obtain ⟨x, hx, hxk⟩ := List.any_eq_true.1 hany
    exact h x hx hxk
  · rw [h]
    rfl
  · rw [List.find?_eq_none] at h
    rw [Bool.eq_false_iff]
    intro hany
    obtain ⟨x, hx, hxk⟩ := List.any_eq_true.1 hany
    exact h x hx hxk

/-- The walk of `addRoute` panics at a constraint that does not compile when
the tree has no node for the segments up to and including the constrained
one. -/
theorem addParts_rejects {H : Type} (re : Regexp) (s : Str) (sg : segInfo) (post : List Str)
    (hs : parseSeg s = some sg) (hpat : sg.pattern ≠ [])
    (hbad : re.compiles (anchored sg.pattern) = false) :
    ∀ (pre : List Str) (n : node H) (acc : List Str) (path : Str) (route : Route H),
      descend ((pre.filterMap parseSeg).map (fun x => x.key) ++ [sg.key]) n = none →
      addParts re (pre ++ s :: post) n acc path route = none := by
  intro pre
  induction pre with
  | nil =>
    intro n acc path route hd
    have hget : n.getChild sg.key = none := by
      cases hg : n.getChild sg.key with
      | none => rfl
      | some c =>
        simp only [List.filterMap_nil, List.map_nil, List.nil_append, descend, hg] at hd
        cases hd
    have hhas := hasChild_of_getChild_none n sg.key hget
    simp [addParts, hs, hhas, hpat, hbad]
  | cons x pre ih =>
    intro n acc path route hd
    cases hres : addParts re (x :: pre ++ s :: post) n acc path route with
    | none => rfl
    | some n1 =>
      exfalso
      obtain ⟨sgx, pn1, child, c1, hx, hg, hchild, hrec, -⟩ :=
        addParts_cons_some re x (pre ++ s :: post) n n1 acc path route hres
      simp only [List.filterMap_cons, hx, List.map_cons, List.cons_append] at hd
      have hnone : descend ((pre.filterMap parseSeg).map (fun x => x.key) ++ [sg.key]) child
          = none := by
        rcases hg with ⟨-, rfl⟩ | ⟨hhas, -, rfl⟩
        · simp only [descend, hchild] at hd
          exact hd
        · rw [(attach_cases n child sgx hhas hchild).1]
          cases hks : (pre.filterMap parseSeg).map (fun x => x.key) ++ [sg.key] with
          | nil => simp at hks
          | cons k ks => exact descend_newChild sgx k ks
      rw [ih child _ path route hnone] at hrec
      cases hrec

/-- C21, counterexample. The constraint `[` does not compile, yet the pattern
`/{a:[}` is accepted after `/{a}` was registered: the node of the parameter
`a` exists, so that `addRoute` does not compile the constraint; the path `/x`
then resolves to the second route. On the empty tree the same pattern is
rejected. -/
theorem C21_counterexample_known_parameter_name :
    goRegexp.compiles (anchored "[".toList) = false ∧
    (addRoutes goRegexp node.empty
      [("/{a}".toList, makeRoute "first"), ("/{a:[}".toList, makeRoute "second")]).isSome = true ∧
    resolve goRegexp [("/{a}".toList, makeRoute "first"), ("/{a:[}".toList, makeRoute "second")]
        "/x".toList makeParamValues
      = some (⟨some ["second"], ["a".toList]⟩, "x".toList :: List.replicate 19 []) ∧
    ((node.empty : node String).addRoute goRegexp "/{a:[}".toList (makeRoute "second")).isSome
      = false := by
  decide

/-- C21, amended. For every tree and every pattern with a segment `{name:R}`,
`R` neither empty nor `*`, whose anchored text `^R$` does not compile: if the
tree has no node at the position of that segment (following `getChild` along
the keys of the segments before it and then the key `:name` finds no node),
`addRoute` panics; in particular it panics on the empty tree. -/
theorem C21_malformed_constraint_is_rejected {H : Type} (re : Regexp) (n : node H)
    (path : Str) (route : Route H) (pre post : List Str) (name R : Str)
    (hparts : routeParts path = pre ++ braces (name ++ ':' :: R) :: post)
    (hname : ':' ∉ name) (hR : R ≠ ['*']) (hR0 : R ≠ [])
    (hbad : re.compiles (anchored R) = false) :
    (descend ((pre.filterMap parseSeg).map (fun x => x.key) ++ [':' :: name]) n = none →
      n.addRoute re path route = none) ∧
    (node.empty : node H).addRoute re path route = none := by
  have hs := parseSeg_constrained name R hname hR
  have key := addParts_rejects (H := H) re _ _ post hs hR0 hbad pre
  constructor
  · intro hd
    unfold node.addRoute
    rw [hparts]
    exact key n [] path route hd
  · unfold node.addRoute
    rw [hparts]
    apply key
    cases hks : (pre.filterMap parseSeg).map (fun x => x.key) ++ [':' :: name] with
    | nil => simp at hks
    | cons k ks =>
      have : (node.empty : node H).getChild k = none := by
        simp [node.getChild, node.empty, node.children, node.pChildren, node.wChildren]
      simp only [descend, this]

/-- C21, witness: the pattern `/x/{a:[}` on the tree of `/x/{b}`. -/
theorem C21_malformed_constraint_is_rejected_witness :
    (((node.empty : node String).addRoute goRegexp "/x/{b}".toList (makeRoute "b")).bind
      (fun t => t.addRoute goRegexp "/x/{a:[}".toList (makeRoute "a"))) = none := by
  have hsome : ((node.empty : node String).addRoute goRegexp "/x/{b}".toList
      (makeRoute "b")).isSome = true := by decide
  obtain ⟨t, ht⟩ := Option.isSome_iff_exists.1 hsome
  have hd : descend ((["x".toList].filterMap parseSeg).map (fun x => x.key)
      ++ [':' :: "a".toList]) t = none := by
    have : (((node.empty : node String).addRoute goRegexp "/x/{b}".toList (makeRoute "b")).bind
        (fun t => descend ((["x".toList].filterMap parseSeg).map (fun x => x.key)
          ++ [':' :: "a".toList]) t)).isSome = false := by decide
    rw [ht] at this
    simpa using this
  rw [ht]
  exact (C21_malformed_constraint_is_rejected goRegexp t "/x/{a:[}".toList (makeRoute "a")
    ["x".toList] [] "a".toList "[".toList (by decide) (by decide) (by decide) (by decide)
    (by decide)).1 hd

/-! ## C23: literal segments -/

/-- A pattern of literal segments resolves to the last route registered with
its segments. -/
theorem literal_route_resolves {H : Type} (re : Regexp) (L1 L2 : List (Str × Route H))
    (p : Str) (r : Route H) (t : node H) (segs : List Str) (trail : Str) (pv : List Str)
    (hbuild : addRoutes re node.empty (L1 ++ (p, r) :: L2) = some t)
    (hlit : LiteralsOK (allSegs (L1 ++ (p, r) :: L2)))
    (hsegs : ∀ s ∈ segs, Literal s) (hp : p = joinPath segs ++ trail)
    (htrail : trail = [] ∨ trail = ['/']) (hroot : segs = [] → trail = ['/'])
    (hlast : ∀ q ∈ L2, segsOf q.1 ≠ segsOf p) :
    t.getRoute re p pv = some (⟨r.handlers, []⟩, pv) := by
  have hrep := addRoutes_rep_plain re _ t hlit hbuild
  have hS := segsOf_literals p segs trail hsegs hp htrail hroot
  have hent : entriesOf (L1 ++ (p, r) :: L2)
      = entriesOf L1 ++ (⟨segsOf p, namesOf (segsOf p), r⟩ : Entry H) :: entriesOf L2 := by
    simp [entriesOf]
  have hmem : (⟨segsOf p, namesOf (segsOf p), r⟩ : Entry H) ∈ entriesOf (L1 ++ (p, r) :: L2) := by
    rw [hent]
    simp
  obtain ⟨m, hfind, hrm⟩ := find_static_chain (fun _ _ => True) re segs t _ trail hrep
    (fun s hs => ⟨(hsegs s hs).1, (hsegs s hs).2.1⟩) ⟨_, hmem, hS⟩ htrail hroot
  have hpne : p ≠ [] := by
    rw [hp]
    cases segs with
    | nil => rw [hroot rfl]; simp
    | cons v vs => rw [joinPath_cons]; simp
  have hnames : namesOf (segsOf p) = [] := by
    rw [hS]
    simp [namesOf, literalSeg]
  have hterm : terminal (subs (segs.map literalSeg) (entriesOf (L1 ++ (p, r) :: L2)))
      = some ⟨[], [], r⟩ := by
    rw [hent, subs_append_list]
    have hcons : (⟨segsOf p, namesOf (segsOf p), r⟩ : Entry H) :: entriesOf L2
        = [⟨segsOf p, namesOf (segsOf p), r⟩] ++ entriesOf L2 := rfl
    rw [hcons, subs_append_list]
    have hself : subs (segs.map literalSeg)
        [(⟨segsOf p, namesOf (segsOf p), r⟩ : Entry H)] = [⟨[], [], r⟩] := by
      have := subs_self (H := H) (segs.map literalSeg) [] [] r
      rw [List.append_nil] at this
      rw [hnames, hS]
      exact this
    rw [hself]
    apply terminal_middle _ _ _ rfl
    intro y hy hys
    obtain ⟨e2, he2, pre2, hsegs2, hsteps, -, -⟩ := mem_subs _ _ y hy
    obtain ⟨q, hq, rfl⟩ := mem_entriesOf L2 e2 he2
    rw [hys, List.append_nil] at hsegs2
    simp only at hsegs2
    apply hlast q hq
    rw [hS, hsegs2]
    apply steps_literal pre2 segs hsteps
    intro sg hsg ht
    have hsgm : sg ∈ segsOf q.1 := by rw [hsegs2]; exact hsg
    unfold segsOf at hsgm
    rw [List.mem_filterMap] at hsgm
    obtain ⟨s, -, hs⟩ := hsgm
    exact parseSeg_static s sg hs ht
  rw [rep_iff] at hrm
  obtain ⟨hroute, hpk, -⟩ := hrm
  rw [hterm] at hroute hpk
  simp only [Option.map_some', Option.getD_some] at hroute hpk
  rw [getRoute_eq re t p pv hpne, hp, hfind]
  simp [writeVals, hroute, hpk]

/-- C23: a segment `s` that is not wrapped in braces, registered as `/a/s` on
the empty tree. If `s` begins with ':' or '*', `addRoute` panics: the new node
is a static child, and `getChild` looks for a key that begins with ':' among
the parameter children and for one that begins with '*' in the catch-all
child, finds nothing and hands out the nil pointer that the walk then
dereferences. Otherwise `addRoute` completes and `getRoute` of `/a/s` returns
the handlers of the route, no parameter names and the buffer unchanged. -/
theorem C23_literal_segment_after_a {H : Type} (re : Regexp) (s : Str) (r : Route H)
    (pv : List Str) (hne : s ≠ []) (hs : '/' ∉ s)
    (hb : ¬ (s.head? = some '{' ∧ s.getLast? = some '}')) :
    (s.head? = some ':' ∨ s.head? = some '*' →
      (node.empty : node H).addRoute re ("/a/".toList ++ s) r = none) ∧
    (s.head? ≠ some ':' → s.head? ≠ some '*' →
      ∃ t, (node.empty : node H).addRoute re ("/a/".toList ++ s) r = some t ∧
        t.getRoute re ("/a/".toList ++ s) pv = some (⟨r.handlers, []⟩, pv)) := by
  have hpath : "/a/".toList ++ s = joinPath ["a".toList, s] := by
    simp [joinPath]
  have hparts : routeParts ("/a/".toList ++ s) = ["a".toList, s] := by
    rw [hpath]
    exact routeParts_two _ _ (by decide) ⟨hne, hs⟩
  have hpa : parseSeg "a".toList = some ⟨staticNode, "a".toList, [], []⟩ := by decide
  have hps : parseSeg s = some ⟨staticNode, s, [], []⟩ := parseSeg_literal s hne hb
  constructor
  · intro hhead
    unfold node.addRoute
    rw [hparts]
    have hget : ∀ n : node H, n.pChildren = [] → n.wChildren = none → n.getChild s = none := by
      intro n h1 h2
      unfold node.getChild
      rcases hhead with h | h
      · rw [if_pos h, h1]
        rfl
      · have h0 : s.head? ≠ some ':' := by rw [h]; decide
        rw [if_neg h0, if_pos h, h2]
    have hhas : ∀ n : node H, n.pChildren = [] → n.wChildren = none → n.hasChild s = false :=
      fun n h1 h2 => hasChild_of_getChild_none n s (hget n h1 h2)
    have hsecond : ∀ (n : node H) (acc : List Str) (path : Str), n.pChildren = [] →
        n.wChildren = none → addParts re [s] n acc path r = none := by
      intro n acc path hn1 hn2
      have hnew : n.hasChild s = false := hhas n hn1 hn2
      obtain ⟨-, e2, e3, -, -⟩ := attach_static n (newChild ⟨staticNode, s, [], []⟩) rfl
      have hnew2 : (n.attach (newChild ⟨staticNode, s, [], []⟩)).getChild s = none :=
        hget _ (e2.trans hn1) (e3.trans hn2)
      rw [addParts]
      simp only [hps, hnew]
      simp [hnew2]
    have hfirst : ((node.empty : node H).attach
        (newChild ⟨staticNode, "a".toList, [], []⟩)).getChild "a".toList
          = some (newChild ⟨staticNode, "a".toList, [], []⟩) := by
      simp [node.getChild, node.attach, node.empty, newChild, node.children, node.key,
        node.nType, staticNode]
    have hfirst0 : (node.empty : node H).hasChild "a".toList = false := by
      simp [node.hasChild, node.empty, node.children]
    rw [addParts_cons_eq re "a".toList [s] node.empty _ _ _ [] _ r hpa
      (Or.inr ⟨hfirst0, fun h => h.1 rfl, rfl⟩) hfirst,
      hsecond (newChild ⟨staticNode, "a".toList, [], []⟩) _ _ rfl rfl]
    rfl
  · intro h1 h2
    have hlitS : Literal s := ⟨hne, hs, hb, h1, h2⟩
    have hlitA : Literal "a".toList := by decide
    have hall : ∀ x ∈ ["a".toList, s], Literal x := by
      intro x hx
      rcases List.mem_cons.1 hx with h | h
      · rw [h]; exact hlitA
      · rw [List.mem_singleton] at h
        rw [h]; exact hlitS
    have hsegsOf : segsOf ("/a/".toList ++ s) = ["a".toList, s].map literalSeg :=
      segsOf_literals _ _ [] hall (by rw [hpath, List.append_nil]) (Or.inl rfl) (by simp)
    obtain ⟨t, ht⟩ := addParts_succeeds (H := H) re (routeParts ("/a/".toList ++ s)) node.empty []
      ("/a/".toList ++ s) r (by
        rw [hparts]
        intro x hx
        rcases List.mem_cons.1 hx with h | h
        · rw [h]
          exact ⟨_, hpa, fun _ => by decide, fun h => absurd rfl h⟩
        · rw [List.mem_singleton] at h
          rw [h]
          exact ⟨_, hps, fun _ => ⟨h1, h2⟩, fun h => absurd rfl h⟩)
    refine ⟨t, ht, ?_⟩
    have hbuild : addRoutes re node.empty ([] ++ ("/a/".toList ++ s, r) :: [])
        = some t := by
      simp only [List.nil_append, addRoutes]
      have : (node.empty : node H).addRoute re ("/a/".toList ++ s) r = some t := ht
      rw [this]
    apply literal_route_resolves re [] [] _ r t ["a".toList, s] [] pv hbuild
    · intro sg hsg ht0
      simp only [allSegs, List.nil_append, List.flatMap_cons, List.flatMap_nil,
        List.append_nil] at hsg
      rw [hsegsOf] at hsg
      simp only [List.map_cons, List.map_nil, List.mem_cons, List.mem_singleton,
        List.not_mem_nil, or_false] at hsg
      rcases hsg with h | h
      · rw [h]
        exact ⟨by decide, by decide⟩
      · rw [h]
        exact ⟨h1, h2⟩
    · exact hall
    · rw [hpath, List.append_nil]
    · exact Or.inl rfl
    · simp
    · simp

/-- The segments `:x`, `*x` and `x` after `/a/`. -/
theorem C23_literal_segment_after_a_witness :
    (node.empty : node String).addRoute goRegexp "/a/:x".toList (makeRoute "r") = none ∧
    (node.empty : node String).addRoute goRegexp "/a/*x".toList (makeRoute "r") = none ∧
    ∃ t, (node.empty : node String).addRoute goRegexp "/a/x".toList (makeRoute "r") = some t ∧
      t.getRoute goRegexp "/a/x".toList makeParamValues
        = some (⟨some ["r"], []⟩, makeParamValues) :=
  ⟨(C23_literal_segment_after_a goRegexp ":x".toList (makeRoute "r") makeParamValues
      (by decide) (by decide) (by decide)).1 (Or.inl rfl),
   (C23_literal_segment_after_a goRegexp "*x".toList (makeRoute "r") makeParamValues
      (by decide) (by decide) (by decide)).1 (Or.inr rfl),
   (C23_literal_segment_after_a goRegexp "x".toList (makeRoute "r") makeParamValues
      (by decide) (by decide) (by decide)).2 (by decide) (by decide)⟩

/-! ## C22: the value of a constrained parameter -/

/-- In every match of a pattern, the value bound to a parameter is accepted by
the constraint of the parameter. -/
theorem matchValues_accepted (re : Regexp) (segs : List segInfo) :
    ∀ (vs vals : List Str), vals ∈ matchValues re segs vs →
      List.Forall₂ (fun sg v => sg.nType = paramNode → accepts re sg v)
        (paramSegs segs) vals := by
  induction segs with
  | nil =>
    intro vs vals h
    simp only [matchValues] at h
    split_ifs at h
    · rw [List.mem_singleton] at h
      rw [h]
      exact List.Forall₂.nil
    · cases h
  | cons sg pat ih =>
    intro vs vals h
    rw [matchValues_cons] at h
    by_cases t0 : sg.nType = staticNode
    · rw [if_pos t0] at h
      have hp : paramSegs (sg :: pat) = paramSegs pat := by
        simp [paramSegs, t0]
      rw [hp]
      cases vs with
      | nil => cases h
      | cons v rest =>
        simp only at h
        split_ifs at h
        · exact ih rest vals h
        · cases h
    · rw [if_neg t0] at h
      have hp : paramSegs (sg :: pat) = sg :: paramSegs pat := by
        simp [paramSegs, t0]
      rw [hp]
      by_cases t1 : sg.nType = paramNode
      · rw [if_pos t1] at h
        cases vs with
        | nil => cases h
        | cons v rest =>
          simp only at h
          split_ifs at h with hacc
          · obtain ⟨vals1, hv1, rfl⟩ := List.mem_map.1 h
            exact List.Forall₂.cons (fun _ => hacc) (ih rest vals1 hv1)
          · cases h
      · rw [if_neg t1] at h
        split_ifs at h
        · obtain ⟨i, -, hi⟩ := List.mem_flatMap.1 h
          obtain ⟨vals1, hv1, rfl⟩ := List.mem_map.1 hi
          exact List.Forall₂.cons (fun ht => absurd ht t1) (ih _ vals1 hv1)
        · cases h

/-- C22, counterexample. With `/item/{id}` and then `/item/{id:[0-9]+}/edit`
registered, the path `/item/abc/edit` resolves to the second route with `id`
bound to `abc`, which `[0-9]+` does not match: the node of the parameter `id`
was created by the first registration, without an expression. Likewise after
`/n/{a:[a-z]+}` the pattern `/n/{a:[0-9]+}/edit` is tried with the expression
of the first. -/
theorem C22_counterexample_constraint_of_the_first_registration :
    resolve goRegexp [("/item/{id}".toList, makeRoute "first"),
        ("/item/{id:[0-9]+}/edit".toList, makeRoute "second")] "/item/abc/edit".toList
        makeParamValues
      = some (⟨some ["second"], ["id".toList]⟩, "abc".toList :: List.replicate 19 []) ∧
    fullyMatches "[0-9]+".toList "abc".toList = false ∧
    goRegexp.matchString (anchored "[0-9]+".toList) "abc".toList = false ∧
    resolve goRegexp [("/n/{a:[a-z]+}".toList, makeRoute "first"),
        ("/n/{a:[0-9]+}/edit".toList, makeRoute "second")] "/n/abc/edit".toList
        makeParamValues
      = some (⟨some ["second"], ["a".toList]⟩, "abc".toList :: List.replicate 19 []) := by
  decide

/-- C22, amended. For every list of registered patterns in which no literal
segment begins with ':' or '*' and parameter segments with the same name carry
the same constraint, every non-empty request path that does not end in a slash
and every buffer with room for the parameters of each pattern: `getRoute`
either finds nothing, or returns the handlers and the names of a registered
pattern together with the values `vals` that it wrote to the buffer, one for
each parameter and catch-all of the pattern in order, and the value of every
parameter `{name:R}` of the pattern with a constraint is accepted by the
expression compiled from `^R$`. -/
theorem C22_bound_values_satisfy_the_constraints {H : Type} (re : Regexp)
    (routes : List (Str × Route H)) (t : node H) (path : Str) (pv : List Str)
    (hbuild : addRoutes re node.empty routes = some t)
    (hlit : LiteralsOK (allSegs routes)) (hcon : ConstraintsOK (allSegs routes))
    (hpath : PathOK path)
    (hbuf : ∀ pr ∈ routes, (namesOf (segsOf pr.1)).length ≤ pv.length) :
    (∃ pv1, t.getRoute re path pv = some (⟨none, []⟩, pv1)) ∨
    (∃ pr ∈ routes, ∃ vals pv1,
      t.getRoute re path pv = some (⟨pr.2.handlers, namesOf (segsOf pr.1)⟩, pv1) ∧
      writeVals pv 0 vals = some pv1 ∧
      List.Forall₂ (fun sg v => sg.nType = paramNode → sg.pattern ≠ [] →
          re.matchString (anchored sg.pattern) v = true)
        (paramSegs (segsOf pr.1)) vals) := by
  rcases getRoute_sound re routes t path pv hbuild hlit hcon hpath hbuf with
    h | ⟨pr, hpr, vals, hv, pv1, hw, hget⟩
  · exact Or.inl h
  · refine Or.inr ⟨pr, hpr, vals, pv1, hget, hw, ?_⟩
    refine (matchValues_accepted re _ _ vals hv).imp ?_
    intro sg v hacc ht hne
    rcases hacc ht with h | h
    · exact absurd h hne
    · exact h

/-- C22, witness: the tree of `TestTreeAddAndGet` and the path `/page/12`. -/
theorem C22_bound_values_satisfy_the_constraints_witness :
    ∃ t, addRoutes goRegexp node.empty testRoutes = some t ∧
    ((∃ pv1, t.getRoute goRegexp "/page/12".toList makeParamValues = some (⟨none, []⟩, pv1)) ∨
    (∃ pr ∈ testRoutes, ∃ vals pv1,
      t.getRoute goRegexp "/page/12".toList makeParamValues
        = some (⟨pr.2.handlers, namesOf (segsOf pr.1)⟩, pv1) ∧
      writeVals makeParamValues 0 vals = some pv1 ∧
      List.Forall₂ (fun sg v => sg.nType = paramNode → sg.pattern ≠ [] →
          goRegexp.matchString (anchored sg.pattern) v = true)
        (paramSegs (segsOf pr.1)) vals)) := by
  have hsome : (addRoutes goRegexp node.empty testRoutes).isSome = true := by decide
  obtain ⟨t, ht⟩ := Option.isSome_iff_exists.1 hsome
  exact ⟨t, ht, C22_bound_values_satisfy_the_constraints goRegexp testRoutes t
    "/page/12".toList makeParamValues ht (by decide) (by decide) (by decide) (by decide)⟩

/-! ## C25, C26: routers, groups and the chains of routes -/

theorem writeCells_length {H : Type} (cells : List (Option H)) :
    ∀ (off : Nat) (xs : List (Option H)), (writeCells cells off xs).length = cells.length := by
  induction cells with
  | nil => intro off xs; simp [writeCells]
  | cons c cs ih =>
    intro off xs
    cases off with
    | zero =>
      cases xs with
      | nil => simp [writeCells]
      | cons x xs => simp [writeCells, ih]
    | succ off => simp [writeCells, ih]

theorem writeCells_eq {H : Type} (cells : List (Option H)) :
    ∀ (off : Nat) (xs : List (Option H)), off + xs.length ≤ cells.length →
      writeCells cells off xs = cells.take off ++ xs ++ cells.drop (off + xs.length) := by
  induction cells with
  | nil =>
    intro off xs h
    have h1 : xs = [] := by
      apply List.eq_nil_of_length_eq_zero
      simp only [List.length_nil] at h
      omega
    subst h1
    simp [writeCells]
  | cons c cs ih =>
    intro off xs h
    cases off with
    | zero =>
      cases xs with
      | nil => simp [writeCells]
      | cons x xs =>
        have h2 : 0 + xs.length ≤ cs.length := by
          simp only [List.length_cons] at h
          omega
        simp only [writeCells, ih 0 xs h2]
        simp
    | succ off =>
      have h2 : off + xs.length ≤ cs.length := by
        simp only [List.length_cons] at h
        omega
      have e : off + 1 + xs.length = (off + xs.length) + 1 := by omega
      simp only [writeCells, ih off xs h2, e, List.take_succ_cons, List.drop_succ_cons,
        List.cons_append]

theorem writeCells_nil {H : Type} (cells : List (Option H)) (off : Nat) :
    writeCells cells off [] = cells := by
  induction cells generalizing off with
  | nil => simp [writeCells]
  | cons c cs ih =>
    cases off with
    | zero => simp [writeCells]
    | succ off => simp [writeCells, ih]

theorem getD_set_ne {H : Type} (heap : Heap H) (a b : Nat) (x : List (Option H)) (h : a ≠ b) :
    (heap.set a x).getD b [] = heap.getD b [] := by
  simp [List.getD_eq_getElem?_getD, List.getElem?_set_ne h]

theorem getD_set_self {H : Type} (heap : Heap H) (a : Nat) (x : List (Option H))
    (h : a < heap.length) : (heap.set a x).getD a [] = x := by
  simp [List.getD_eq_getElem?_getD, h]

theorem getD_append_lt {H : Type} (heap : Heap H) (a : Nat) (x : List (Option H))
    (h : a < heap.length) : (heap ++ [x]).getD a [] = heap.getD a [] := by
  simp [List.getD_eq_getElem?_getD, List.getElem?_append_left h]

theorem getD_append_length {H : Type} (heap : Heap H) (x : List (Option H)) :
    (heap ++ [x]).getD heap.length [] = x := by
  simp [List.getD_eq_getElem?_getD]

theorem getD_of_le {H : Type} (heap : Heap H) (a : Nat) (h : heap.length ≤ a) :
    heap.getD a [] = [] := by
  simp [List.getD_eq_getElem?_getD, List.getElem?_eq_none h]

theorem sliceOK_arr {H : Type} (heap : Heap H) (s : Slice) (h : SliceOK heap s) (hc : 0 < s.cap) :
    s.arr < heap.length := by
  by_contra hn
  have := getD_of_le heap s.arr (by omega)
  have h2 := h.2
  rw [this] at h2
  simp at h2
  omega

theorem sliceOK_append {H : Type} (heap : Heap H) (x : List (Option H)) (s : Slice)
    (h : SliceOK heap s) : SliceOK (heap ++ [x]) s := by
  refine ⟨h.1, ?_⟩
  by_cases hc : 0 < s.cap
  · rw [getD_append_lt heap s.arr x (sliceOK_arr heap s h hc)]
    exact h.2
  · omega

theorem readSlice_append {H : Type} (heap : Heap H) (x : List (Option H)) (s : Slice)
    (h : SliceOK heap s) : readSlice (heap ++ [x]) s = readSlice heap s := by
  unfold readSlice
  by_cases hc : 0 < s.cap
  · rw [getD_append_lt heap s.arr x (sliceOK_arr heap s h hc)]
  · have : s.len = 0 := by have := h.1; omega
    rw [this]
    simp

theorem readSlice_length {H : Type} (heap : Heap H) (s : Slice) (h : SliceOK heap s) :
    (readSlice heap s).length = s.len := by
  unfold readSlice
  rw [List.length_take]
  have := h.1
  have := h.2
  omega

theorem readSlice_new {H : Type} (heap : Heap H) (x : List (Option H)) (n c : Nat) :
    readSlice (heap ++ [x]) ⟨heap.length, n, c⟩ = x.take n := by
  unfold readSlice
  rw [getD_append_length]

theorem goAppend_fit {H : Type} (grow : Nat → Nat → Nat) (heap : Heap H) (s : Slice)
    (xs : List H) (h : s.len + xs.length ≤ s.cap) :
    goAppend grow heap s xs
      = (heap.set s.arr (writeCells (heap.getD s.arr []) s.len (xs.map some)),
          ⟨s.arr, s.len + xs.length, s.cap⟩) := by
  unfold goAppend
  rw [if_pos h]

theorem goAppend_grow {H : Type} (grow : Nat → Nat → Nat) (heap : Heap H) (s : Slice)
    (xs : List H) (h : ¬ s.len + xs.length ≤ s.cap) :
    goAppend grow heap s xs
      = (heap ++ [readSlice heap s ++ xs.map some ++ List.replicate
            (max (grow s.cap (s.len + xs.length)) (s.len + xs.length) - (s.len + xs.length))
            none],
          ⟨heap.length, s.len + xs.length,
            max (grow s.cap (s.len + xs.length)) (s.len + xs.length)⟩) := by
  unfold goAppend
  rw [if_neg h]

/-- What `append` does to the heap and to the slices that lie on it. -/
theorem goAppend_spec {H : Type} (grow : Nat → Nat → Nat) (heap : Heap H) (s : Slice)
    (xs : List H) (hs : SliceOK heap s) :
    SliceOK (goAppend grow heap s xs).1 (goAppend grow heap s xs).2 ∧
    readSlice (goAppend grow heap s xs).1 (goAppend grow heap s xs).2
      = readSlice heap s ++ xs.map some ∧
    (∀ t, SliceOK heap t → SliceOK (goAppend grow heap s xs).1 t) ∧
    (∀ t, SliceOK heap t → (t.arr = s.arr → s.len < s.cap → t.len ≤ s.len) →
      readSlice (goAppend grow heap s xs).1 t = readSlice heap t) ∧
    heap.length ≤ (goAppend grow heap s xs).1.length ∧
    ((s.len + xs.length ≤ s.cap ∧
        (goAppend grow heap s xs).2 = ⟨s.arr, s.len + xs.length, s.cap⟩) ∨
      (goAppend grow heap s xs).2.arr = heap.length) := by
  by_cases hfit : s.len + xs.length ≤ s.cap
  · rw [goAppend_fit grow heap s xs hfit]
    have hlen : ∀ a, ((heap.set s.arr (writeCells (heap.getD s.arr []) s.len
        (xs.map some))).getD a []).length = (heap.getD a []).length := by
      intro a
      by_cases ha : s.arr = a
      · subst ha
        by_cases hin : s.arr < heap.length
        · rw [getD_set_self heap _ _ hin, writeCells_length]
        · rw [List.set_eq_of_length_le (by omega)]
      · rw [getD_set_ne heap _ _ _ ha]
    have hfit2 : s.len + (xs.map some).length ≤ (heap.getD s.arr []).length := by
      rw [List.length_map]
      exact le_trans hfit hs.2
    have hread : ∀ t : Slice, (t.arr = s.arr → s.len < s.cap → t.len ≤ s.len) →
        readSlice (heap.set s.arr (writeCells (heap.getD s.arr []) s.len (xs.map some))) t
          = readSlice heap t := by
      intro t ht
      unfold readSlice
      by_cases ha : s.arr = t.arr
      · by_cases hin : s.arr < heap.length
        · rw [← ha, getD_set_self heap _ _ hin]
          by_cases hk : xs = []
          · rw [hk, List.map_nil, writeCells_nil]
          · have hpos : 0 < xs.length := List.length_pos.2 hk
            have hle : t.len ≤ s.len := ht ha.symm (by omega)
            rw [writeCells_eq _ _ _ hfit2, List.append_assoc,
              List.take_append_of_le_length (by rw [List.length_take]; omega),
              List.take_take, Nat.min_eq_left hle]
        · rw [List.set_eq_of_length_le (by omega)]
      · rw [getD_set_ne heap _ _ _ ha]
    refine ⟨⟨hfit, ?_⟩, ?_, ?_, ?_, ?_, Or.inl ⟨hfit, rfl⟩⟩
    · show s.cap ≤ _
      rw [hlen]
      exact hs.2
    · show readSlice _ ⟨s.arr, s.len + xs.length, s.cap⟩ = _
      unfold readSlice
      show List.take (s.len + xs.length) _ = _
      by_cases hin : s.arr < heap.length
      · rw [getD_set_self heap _ _ hin, writeCells_eq _ _ _ hfit2]
        have e : s.len + xs.length = (List.take s.len (heap.getD s.arr [])
            ++ List.map some xs).length := by
          rw [List.length_append, List.length_take, List.length_map]
          have := hs.1
          have := hs.2
          omega
        rw [e, List.take_left]
      · have h0 := getD_of_le heap s.arr (by omega)
        have hcap : s.cap = 0 := by
          have := hs.2
          rw [h0] at this
          simpa using this
        have hx : xs = [] := List.eq_nil_of_length_eq_zero (by omega)
        have hl : s.len = 0 := by omega
        rw [hx, hl]
        simp
    · intro t ht
      exact ⟨ht.1, by show t.cap ≤ _; rw [hlen]; exact ht.2⟩
    · intro t _ hcond
      exact hread t hcond
    · show heap.length ≤ (heap.set _ _).length
      rw [List.length_set]
  · rw [goAppend_grow grow heap s xs hfit]
    have hr := readSlice_length heap s hs
    refine ⟨⟨Nat.le_max_right _ _, ?_⟩, ?_, ?_, ?_, ?_, Or.inr rfl⟩
    · show max _ _ ≤ ((heap ++ [_]).getD heap.length []).length
      rw [getD_append_length]
      simp only [List.length_append, List.length_map, List.length_replicate, hr]
      have := Nat.le_max_right (grow s.cap (s.len + xs.length)) (s.len + xs.length)
      omega
    · show readSlice (heap ++ [_]) ⟨heap.length, s.len + xs.length, _⟩ = _
      rw [readSlice_new]
      have e : s.len + xs.length = (readSlice heap s ++ List.map some xs).length := by
        rw [List.length_append, hr, List.length_map]
      rw [e, List.take_left]
    · intro t ht
      exact sliceOK_append heap _ t ht
    · intro t ht _
      exact readSlice_append heap _ t ht
    · show heap.length ≤ (heap ++ [_]).length
      rw [List.length_append]
      omega
theorem middleware_eq {H : Type} (w : World H) (r : Nat) (rt : Router)
    (h : w.routers[r]? = some rt) : w.middleware r = readSlice w.heap rt.handlers := by
  simp only [World.middleware, h]

theorem mem_of_getElem? {α : Type} (l : List α) (i : Nat) (a : α) (h : l[i]? = some a) :
    a ∈ l := by
  obtain ⟨hi, rfl⟩ := List.getElem?_eq_some.1 h
  exact List.getElem_mem _

/-- What `Use` does: the invariant stays, the router `r` has its handlers
followed by the new ones, and every other router and every route reads what it
read before. -/
theorem use_spec {H : Type} (grow : Nat → Nat → Nat) (w w1 : World H) (r : Nat)
    (mw : List H) (hok : WorldOK w) (hu : w.Use grow r mw = some w1) :
    WorldOK w1 ∧ w1.routers.length = w.routers.length ∧ w1.routes = w.routes ∧
    r < w.routers.length ∧
    w1.middleware r = w.middleware r ++ mw.map some ∧
    (∀ q, q ≠ r → w1.middleware q = w.middleware q) ∧
    (∀ i, w1.chain i = w.chain i) := by
  unfold World.Use at hu
  cases hr : w.routers[r]? with
  | none => rw [hr] at hu; cases hu
  | some rt =>
    rw [hr] at hu
    simp only [Option.some.injEq] at hu
    have hrlt : r < w.routers.length := (List.getElem?_eq_some.1 hr).1
    have hrt : rt ∈ w.routers := mem_of_getElem? _ _ _ hr
    obtain ⟨g1, g2, g3, g4, g5, g6⟩ := goAppend_spec grow w.heap rt.handlers mw
      (hok.routers rt hrt)
    -- the routers of the new world
    have hget : ∀ q, w1.routers[q]? = if r = q
        then some { rt with handlers := (goAppend grow w.heap rt.handlers mw).2 }
        else w.routers[q]? := by
      intro q
      rw [← hu]
      show (w.routers.set r _)[q]? = _
      rw [List.getElem?_set]
      by_cases hq : r = q
      · rw [if_pos hq, if_pos hq, if_pos hrlt]
      · rw [if_neg hq, if_neg hq]
    have hheap : w1.heap = (goAppend grow w.heap rt.handlers mw).1 := by rw [← hu]
    have hroutes : w1.routes = w.routes := by rw [← hu]
    have hlen : w1.routers.length = w.routers.length := by
      rw [← hu]
      show (w.routers.set r _).length = _
      rw [List.length_set]
    -- a router other than `r` reads what it read
    have hother : ∀ q rq, q ≠ r → w.routers[q]? = some rq →
        readSlice w1.heap rq.handlers = readSlice w.heap rq.handlers := by
      intro q rq hq hrq
      rw [hheap]
      apply g4 _ (hok.routers rq (mem_of_getElem? _ _ _ hrq))
      intro harr hcap
      exact (hok.owner r q rt rq hr hrq (Ne.symm hq) harr.symm hcap).2
    refine ⟨⟨?_, ?_, ?_, ?_⟩, hlen, hroutes, hrlt, ?_, ?_, ?_⟩
    · intro x hx
      obtain ⟨q, hq⟩ := List.getElem?_of_mem hx
      rw [hget q] at hq
      rw [hheap]
      by_cases hqr : r = q
      · rw [if_pos hqr, Option.some.injEq] at hq
        rw [← hq]
        exact g1
      · rw [if_neg hqr] at hq
        exact g3 _ (hok.routers x (mem_of_getElem? _ _ _ hq))
    · intro e he
      rw [hroutes] at he
      rw [hheap]
      exact ⟨lt_of_lt_of_le (hok.routes e he).1 g5, g3 _ (hok.routes e he).2⟩
    · intro i j ri rj hi hj hij harr hcap
      rw [hget i] at hi
      rw [hget j] at hj
      by_cases hir : r = i
      · rw [if_pos hir, Option.some.injEq] at hi
        have hjr : ¬ r = j := fun h => hij (hir.symm.trans h)
        rw [if_neg hjr] at hj
        rw [← hi] at harr hcap ⊢
        simp only at harr hcap ⊢
        rcases g6 with ⟨hfit, hs2⟩ | hnew
        · rw [hs2] at harr hcap ⊢
          simp only at harr hcap ⊢
          have := hok.owner r j rt rj hr hj hjr harr (by omega)
          exact ⟨this.1, by omega⟩
        · have hjok := hok.routers rj (mem_of_getElem? _ _ _ hj)
          have h0 : w.heap.getD rj.handlers.arr [] = [] :=
            getD_of_le _ _ (by rw [← harr, hnew])
          have h2 := hjok.2
          rw [h0] at h2
          have h1 := hjok.1
          simp only [List.length_nil] at h2
          exact ⟨by omega, by omega⟩
      · rw [if_neg hir] at hi
        by_cases hjr : r = j
        · rw [if_pos hjr, Option.some.injEq] at hj
          rw [← hj] at harr ⊢
          simp only at harr ⊢
          rcases g6 with ⟨hfit, hs2⟩ | hnew
          · rw [hs2] at harr ⊢
            simp only at harr ⊢
            have := hok.owner i r ri rt hi hr (fun h => hir h.symm) harr hcap
            have hk : mw.length = 0 := by omega
            exact ⟨by omega, by omega⟩
          · exfalso
            have hiok := hok.routers ri (mem_of_getElem? _ _ _ hi)
            have h0 : w.heap.getD ri.handlers.arr [] = [] :=
              getD_of_le _ _ (by rw [harr, hnew])
            have h2 := hiok.2
            rw [h0] at h2
            simp only [List.length_nil] at h2
            omega
        · rw [if_neg hjr] at hj
          exact hok.owner i j ri rj hi hj hij harr hcap
    · intro e he x hx hcap
      rw [hroutes] at he
      obtain ⟨q, hq⟩ := List.getElem?_of_mem hx
      rw [hget q] at hq
      by_cases hqr : r = q
      · rw [if_pos hqr, Option.some.injEq] at hq
        rw [← hq] at hcap ⊢
        simp only at hcap ⊢
        rcases g6 with ⟨hfit, hs2⟩ | hnew
        · rw [hs2] at hcap ⊢
          simp only at hcap ⊢
          exact hok.apart e he rt hrt (by omega)
        · rw [hnew]
          have := (hok.routes e he).1
          omega
      · rw [if_neg hqr] at hq
        exact hok.apart e he x (mem_of_getElem? _ _ _ hq) hcap
    · have h1 : w1.routers[r]? = some { rt with handlers := (goAppend grow w.heap rt.handlers mw).2 } := by
        rw [hget r, if_pos rfl]
      rw [middleware_eq w1 r _ h1, middleware_eq w r rt hr, hheap]
      exact g2
    · intro q hq
      have h1 : w1.routers[q]? = w.routers[q]? := by
        rw [hget q, if_neg (Ne.symm hq)]
      cases hrq : w.routers[q]? with
      | none => simp only [World.middleware, h1, hrq]
      | some rq =>
        rw [middleware_eq w q rq hrq, middleware_eq w1 q rq (h1.trans hrq)]
        exact hother q rq hq hrq
    · intro i
      simp only [World.chain, hroutes]
      cases hi : w.routes[i]? with
      | none => rfl
      | some e =>
        have he : e ∈ w.routes := mem_of_getElem? _ _ _ hi
        simp only
        rw [hheap]
        apply g4 _ (hok.routes e he).2
        intro harr hcap
        exact absurd harr.symm (hok.apart e he rt hrt hcap)

/-- What `Group` does: the invariant stays, the new router reads the handlers
of `r`, and every router and route of the world reads what it read before. -/
theorem group_spec {H : Type} (w w1 : World H) (r c : Nat) (p : Str) (hok : WorldOK w)
    (hg : w.Group r p = some (w1, c)) :
    WorldOK w1 ∧ c = w.routers.length ∧ w1.routers.length = w.routers.length + 1 ∧
    w1.routes = w.routes ∧ r < w.routers.length ∧
    w1.middleware c = w.middleware r ∧
    (∀ q, q < w.routers.length → w1.middleware q = w.middleware q) ∧
    (∀ i, w1.chain i = w.chain i) := by
  unfold World.Group at hg
  cases hr : w.routers[r]? with
  | none => rw [hr] at hg; cases hg
  | some rt =>
    rw [hr] at hg
    simp only [Option.some.injEq, Prod.mk.injEq] at hg
    obtain ⟨hw1, hc⟩ := hg
    have hrlt : r < w.routers.length := (List.getElem?_eq_some.1 hr).1
    have hrt : rt ∈ w.routers := mem_of_getElem? _ _ _ hr
    have hrok := hok.routers rt hrt
    have hheap : w1.heap = w.heap := by rw [← hw1]
    have hroutes : w1.routes = w.routes := by rw [← hw1]
    have hrouters : w1.routers = w.routers ++
        [⟨pathJoin [rt.base, p], ⟨rt.handlers.arr, rt.handlers.len, rt.handlers.len⟩⟩] := by
      rw [← hw1]
    have hold : ∀ q, q < w.routers.length → w1.routers[q]? = w.routers[q]? := by
      intro q hq
      rw [hrouters, List.getElem?_append_left hq]
    have hnew : w1.routers[w.routers.length]?
        = some ⟨pathJoin [rt.base, p], ⟨rt.handlers.arr, rt.handlers.len, rt.handlers.len⟩⟩ := by
      rw [hrouters]
      simp
    have hcases : ∀ q x, w1.routers[q]? = some x →
        (q < w.routers.length ∧ w.routers[q]? = some x) ∨
        (q = w.routers.length ∧
          x = ⟨pathJoin [rt.base, p], ⟨rt.handlers.arr, rt.handlers.len, rt.handlers.len⟩⟩) := by
      intro q x hq
      have hlt : q < w1.routers.length := (List.getElem?_eq_some.1 hq).1
      rw [hrouters, List.length_append, List.length_singleton] at hlt
      by_cases hq2 : q < w.routers.length
      · exact Or.inl ⟨hq2, (hold q hq2).symm.trans hq⟩
      · have hqe : q = w.routers.length := by omega
        subst hqe
        rw [hnew, Option.some.injEq] at hq
        exact Or.inr ⟨rfl, hq.symm⟩
    refine ⟨⟨?_, ?_, ?_, ?_⟩, hc.symm, ?_, hroutes, hrlt, ?_, ?_, ?_⟩
    · intro x hx
      rw [hheap]
      rw [hrouters] at hx
      rcases List.mem_append.1 hx with h | h
      · exact hok.routers x h
      · rw [List.mem_singleton] at h
        rw [h]
        exact ⟨le_refl _, le_trans hrok.1 hrok.2⟩
    · intro e he
      rw [hroutes] at he
      rw [hheap]
      exact hok.routes e he
    · intro i j ri rj hi hj hij harr hcap
      rcases hcases i ri hi with ⟨-, hi0⟩ | ⟨-, hi1⟩
      · rcases hcases j rj hj with ⟨-, hj0⟩ | ⟨-, hj1⟩
        · exact hok.owner i j ri rj hi0 hj0 hij harr hcap
        · rw [hj1] at harr ⊢
          simp only at harr ⊢
          refine ⟨trivial, ?_⟩
          by_cases hir : i = r
          · subst hir
            rw [hr, Option.some.injEq] at hi0
            rw [hi0]
          · exact (hok.owner i r ri rt hi0 hr hir harr hcap).2
      · rw [hi1] at hcap
        simp only at hcap
        omega
    · intro e he x hx hcap
      rw [hroutes] at he
      rw [hrouters] at hx
      rcases List.mem_append.1 hx with h | h
      · exact hok.apart e he x h hcap
      · rw [List.mem_singleton] at h
        rw [h] at hcap
        simp only at hcap
        omega
    · rw [hrouters, List.length_append, List.length_singleton]
    · rw [← hc, middleware_eq w1 _ _ hnew, middleware_eq w r rt hr, hheap]
      rfl
    · intro q hq
      simp only [World.middleware, hold q hq, hheap]
    · intro i
      simp only [World.chain, hroutes, hheap]

theorem writeCells_two {H : Type} (xs ys : List (Option H)) :
    writeCells (writeCells (List.replicate (xs.length + ys.length) none) 0 xs) xs.length ys
      = xs ++ ys := by
  have h1 : writeCells (List.replicate (xs.length + ys.length) (none : Option H)) 0 xs
      = xs ++ List.replicate ys.length none := by
    rw [writeCells_eq _ _ _ (by simp)]
    simp
  rw [h1, writeCells_eq _ _ _ (by simp)]
  simp

/-- What `add` does: the invariant stays, the new route reads the handlers of
the router followed by its own, and every router and every route of the world
reads what it read before. -/
theorem add_spec {H : Type} (w w1 : World H) (r : Nat) (method path : Str) (hs : List H)
    (hok : WorldOK w) (ha : w.add r method path hs = some w1) :
    WorldOK w1 ∧ w1.routers = w.routers ∧ w1.routes.length = w.routes.length + 1 ∧
    r < w.routers.length ∧
    w1.chain w.routes.length = w.middleware r ++ hs.map some ∧
    (w1.routes[w.routes.length]?).map (fun e => (e.1, e.2.1))
      = (w.routers[r]?).map (fun rt => (method, pathJoin [rt.base, path])) ∧
    (∀ q, w1.middleware q = w.middleware q) ∧
    (∀ i, i < w.routes.length → w1.chain i = w.chain i) := by
  unfold World.add at ha
  cases hr : w.routers[r]? with
  | none => rw [hr] at ha; cases ha
  | some rt =>
    rw [hr] at ha
    simp only [Option.some.injEq] at ha
    have hrlt : r < w.routers.length := (List.getElem?_eq_some.1 hr).1
    have hrt : rt ∈ w.routers := mem_of_getElem? _ _ _ hr
    have hrok := hok.routers rt hrt
    have hrl := readSlice_length w.heap rt.handlers hrok
    have hcells : writeCells (writeCells (List.replicate (rt.handlers.len + hs.length) none) 0
        (readSlice w.heap rt.handlers)) rt.handlers.len (hs.map some)
        = readSlice w.heap rt.handlers ++ hs.map some := by
      have := writeCells_two (readSlice w.heap rt.handlers) (hs.map some)
      rw [hrl, List.length_map] at this
      exact this
    rw [hcells] at ha
    have hheap : w1.heap = w.heap ++ [readSlice w.heap rt.handlers ++ hs.map some] := by
      rw [← ha]
    have hrouters : w1.routers = w.routers := by rw [← ha]
    have hroutes : w1.routes = w.routes ++ [(method, pathJoin [rt.base, path],
        ⟨w.heap.length, rt.handlers.len + hs.length, rt.handlers.len + hs.length⟩)] := by
      rw [← ha]
    have hnew : w1.routes[w.routes.length]? = some (method, pathJoin [rt.base, path],
        ⟨w.heap.length, rt.handlers.len + hs.length, rt.handlers.len + hs.length⟩) := by
      rw [hroutes]
      simp
    refine ⟨⟨?_, ?_, ?_, ?_⟩, hrouters, ?_, hrlt, ?_, ?_, ?_, ?_⟩
    · intro x hx
      rw [hrouters] at hx
      rw [hheap]
      exact sliceOK_append _ _ _ (hok.routers x hx)
    · intro e he
      rw [hroutes] at he
      rw [hheap, List.length_append, List.length_singleton]
      rcases List.mem_append.1 he with h | h
      · exact ⟨by have := (hok.routes e h).1; omega, sliceOK_append _ _ _ (hok.routes e h).2⟩
      · rw [List.mem_singleton] at h
        rw [h]
        refine ⟨by simp, le_refl _, ?_⟩
        show _ ≤ ((w.heap ++ [_]).getD w.heap.length []).length
        rw [getD_append_length, List.length_append, hrl, List.length_map]
    · intro i j ri rj hi hj hij harr hcap
      rw [hrouters] at hi hj
      exact hok.owner i j ri rj hi hj hij harr hcap
    · intro e he x hx hcap
      rw [hroutes] at he
      rw [hrouters] at hx
      rcases List.mem_append.1 he with h | h
      · exact hok.apart e h x hx hcap
      · rw [List.mem_singleton] at h
        rw [h]
        have := sliceOK_arr w.heap x.handlers (hok.routers x hx) (by omega)
        show x.handlers.arr ≠ w.heap.length
        omega
    · rw [hroutes, List.length_append, List.length_singleton]
    · simp only [World.chain, hnew]
      rw [hheap, readSlice_new, middleware_eq w r rt hr]
      have e : rt.handlers.len + hs.length
          = (readSlice w.heap rt.handlers ++ List.map some hs).length := by
        rw [List.length_append, hrl, List.length_map]
      rw [e, List.take_length]
    · rw [hnew]
      rfl
    · intro q
      simp only [World.middleware, hrouters]
      cases hq : w.routers[q]? with
      | none => rfl
      | some rq =>
        simp only
        rw [hheap]
        exact readSlice_append _ _ _ (hok.routers rq (mem_of_getElem? _ _ _ hq))
    · intro i hi
      have hold : w1.routes[i]? = w.routes[i]? := by
        rw [hroutes, List.getElem?_append_left hi]
      simp only [World.chain, hold]
      cases he : w.routes[i]? with
      | none => rfl
      | some e =>
        simp only
        rw [hheap]
        exact readSlice_append _ _ _ (hok.routes e (mem_of_getElem? _ _ _ he)).2
theorem worldOK_new {H : Type} : WorldOK (World.New : World H) := by
  refine ⟨?_, ?_, ?_, ?_⟩
  · intro rt hrt
    simp only [World.New, List.mem_singleton] at hrt
    rw [hrt]
    exact ⟨le_refl _, Nat.zero_le _⟩
  · intro e he
    simp [World.New] at he
  · intro i j ri rj hi hj hij _ _
    have h1 := (List.getElem?_eq_some.1 hi).1
    have h2 := (List.getElem?_eq_some.1 hj).1
    simp only [World.New, List.length_singleton] at h1 h2
    omega
  · intro e he
    simp [World.New] at he

theorem run_append {H : Type} (grow : Nat → Nat → Nat) (a b : List (Op H)) :
    ∀ w : World H, World.run grow w (a ++ b) = (World.run grow w a).bind
      (fun w1 => World.run grow w1 b) := by
  induction a with
  | nil => intro w; rfl
  | cons op ops ih =>
    intro w
    simp only [List.cons_append, World.run]
    cases World.step grow w op with
    | none => rfl
    | some w1 => exact ih w1

/-- What a sequence of calls does to the routers and routes that exist when it
begins: a router has its handlers followed by those of the calls of `Use` on
it, in order; a route keeps its method, its path and its chain. -/
theorem run_spec {H : Type} (grow : Nat → Nat → Nat) (ops : List (Op H)) :
    ∀ (w w2 : World H), WorldOK w → World.run grow w ops = some w2 →
      WorldOK w2 ∧ w.routers.length ≤ w2.routers.length ∧
      w.routes.length ≤ w2.routes.length ∧
      (∀ q, q < w.routers.length →
        w2.middleware q = w.middleware q ++ (usesOf q ops).map some) ∧
      (∀ i, i < w.routes.length → w2.chain i = w.chain i) ∧
      (∀ i, i < w.routes.length →
        (w2.routes[i]?).map (fun e => (e.1, e.2.1)) = (w.routes[i]?).map (fun e => (e.1, e.2.1))) := by
  induction ops with
  | nil =>
    intro w w2 hok h
    simp only [World.run, Option.some.injEq] at h
    subst h
    exact ⟨hok, le_refl _, le_refl _, fun q _ => by simp [usesOf], fun _ _ => rfl,
      fun _ _ => rfl⟩
  | cons op ops ih =>
    intro w w2 hok h
    simp only [World.run] at h
    cases hstep : World.step grow w op with
    | none => rw [hstep] at h; cases h
    | some w1 =>
      rw [hstep] at h
      cases op with
      | use r mw =>
        obtain ⟨hok1, hlen, hroutes, hrlt, hmr, hmq, hch⟩ := use_spec grow w w1 r mw hok hstep
        obtain ⟨hok2, l1, l2, hm2, hc2, hr2⟩ := ih w1 w2 hok1 h
        refine ⟨hok2, by omega, by rw [hroutes] at l2; exact l2, ?_, ?_, ?_⟩
        · intro q hq
          rw [hm2 q (by omega)]
          by_cases hqr : q = r
          · subst hqr
            rw [hmr]
            simp [usesOf]
          · rw [hmq q hqr]
            have : ¬ r = q := fun h => hqr h.symm
            simp [usesOf, this]
        · intro i hi
          rw [hc2 i (by rw [hroutes]; exact hi), hch i]
        · intro i hi
          rw [hr2 i (by rw [hroutes]; exact hi), hroutes]
      | group r p =>
        simp only [World.step] at hstep
        cases hg : w.Group r p with
        | none => rw [hg] at hstep; cases hstep
        | some res =>
          obtain ⟨w1', c⟩ := res
          rw [hg] at hstep
          simp only [Option.map_some', Option.some.injEq] at hstep
          subst hstep
          obtain ⟨hok1, -, hlen, hroutes, -, -, hmq, hch⟩ := group_spec w w1' r c p hok hg
          obtain ⟨hok2, l1, l2, hm2, hc2, hr2⟩ := ih w1' w2 hok1 h
          refine ⟨hok2, by omega, by rw [hroutes] at l2; exact l2, ?_, ?_, ?_⟩
          · intro q hq
            rw [hm2 q (by omega), hmq q hq]
            simp [usesOf]
          · intro i hi
            rw [hc2 i (by rw [hroutes]; exact hi), hch i]
          · intro i hi
            rw [hr2 i (by rw [hroutes]; exact hi), hroutes]
      | add r method path hs =>
        obtain ⟨hok1, hrouters, hlen, -, -, -, hmq, hch⟩ :=
          add_spec w w1 r method path hs hok hstep
        obtain ⟨hok2, l1, l2, hm2, hc2, hr2⟩ := ih w1 w2 hok1 h
        have hkeep : ∀ i, i < w.routes.length → w1.routes[i]? = w.routes[i]? := by
          intro i hi
          have hadd : w.add r method path hs = some w1 := hstep
          unfold World.add at hadd
          cases hr : w.routers[r]? with
          | none => rw [hr] at hadd; cases hadd
          | some rt =>
            rw [hr] at hadd
            simp only [Option.some.injEq] at hadd
            rw [← hadd]
            exact List.getElem?_append_left hi
        refine ⟨hok2, by rw [hrouters] at l1; exact l1, by omega, ?_, ?_, ?_⟩
        · intro q hq
          rw [hm2 q (by rw [hrouters]; exact hq), hmq q]
          simp [usesOf]
        · intro i hi
          rw [hc2 i (by omega), hch i hi]
        · intro i hi
          rw [hr2 i (by omega), hkeep i hi]

/-- C25: a route registered on a router or group, at any moment of a sequence
of calls that begins with `New()`, gets as its chain the handlers that the
router holds at that moment followed by the handlers of the route, in order;
whatever calls of `Use`, `Group` and route registrations follow, on this
router, its parent or its children, the route keeps this chain, its method and
its path; and the handlers that a router holds are, from any earlier moment
on, those it held then followed by the arguments of the calls of `Use` on it,
in the order of the calls. In `TestRouter_Group` the second route of the group
has the path `/api/logout`, and the request `GET /api/login` runs the two
middleware and prints `login`. -/
theorem C25_chain_is_fixed_at_registration {H : Type} (grow : Nat → Nat → Nat)
    (ops1 ops2 : List (Op H)) (w w1 w2 : World H) (r : Nat) (method path : Str)
    (hs : List H) (h1 : World.run grow World.New ops1 = some w)
    (ha : w.add r method path hs = some w1) (h2 : World.run grow w1 ops2 = some w2) :
    w1.chain w.routes.length = w.middleware r ++ hs.map some ∧
    w2.chain w.routes.length = w.middleware r ++ hs.map some ∧
    (w2.routes[w.routes.length]?).map (fun e => (e.1, e.2.1))
      = (w.routers[r]?).map (fun rt => (method, pathJoin [rt.base, path])) ∧
    (∀ (opsA opsB : List (Op H)) (wA : World H), ops1 = opsA ++ opsB →
      World.run grow World.New opsA = some wA → r < wA.routers.length →
      w.middleware r = wA.middleware r ++ (usesOf r opsB).map some) ∧
    (World.run goGrow World.New groupTestOps).map
        (fun t => t.routes.map (fun e => (e.1, e.2.1)))
      = some [("GET".toList, "/api/login".toList), ("GET".toList, "/api/logout".toList)] ∧
    ((World.run goGrow World.New groupTestOps).bind (fun t =>
      (t.application goRegexp).bind (fun a => a.ServeHTTP goRegexp 3 (poolContext a)
        ⟨none, []⟩ ⟨"GET".toList, "/api/login".toList⟩))).map
        (fun c => (c.Response.Writer.body, c.trace))
      = some ("login".toList, [0, 1, 2]) := by
  obtain ⟨hok, -, -, -, -, -⟩ := run_spec grow ops1 World.New w worldOK_new h1
  obtain ⟨hok1, -, hlen, -, hchain, hroute, -, -⟩ := add_spec w w1 r method path hs hok ha
  obtain ⟨-, -, -, -, hc2, hr2⟩ := run_spec grow ops2 w1 w2 hok1 h2
  refine ⟨hchain, ?_, ?_, ?_, by decide, ?_⟩
  · rw [hc2 _ (by omega), hchain]
  · rw [hr2 _ (by omega), hroute]
  · intro opsA opsB wA hsplit hA hr
    rw [hsplit, run_append, hA] at h1
    obtain ⟨hokA, -, -, -, -, -⟩ := run_spec grow opsA World.New wA worldOK_new hA
    exact (run_spec grow opsB wA w hokA h1).2.2.2.1 r hr
  · have hreg : (World.run goGrow World.New groupTestOps).map World.registrations
        = some [("GET".toList, "/api/login".toList,
            some [nextHandler, nextHandler, printHandler "login".toList]),
          ("GET".toList, "/api/logout".toList,
            some [nextHandler, nextHandler, printHandler "logout".toList])] := rfl
    cases hrun : World.run goGrow World.New groupTestOps with
    | none => rw [hrun] at hreg; cases hreg
    | some t =>
      rw [hrun, Option.map_some', Option.some.injEq] at hreg
      simp only [Option.bind, World.application, hreg]
      decide

/-- A route of a group, with calls of `Use` on the group and on its parent
before and after the registration. -/
theorem C25_chain_is_fixed_at_registration_witness :
    ∃ w w1 w2 : World Nat,
      World.run goGrow World.New [.use 0 [1], .group 0 "/api".toList, .use 1 [2], .use 0 [3]]
        = some w ∧
      w.add 1 "GET".toList "/login".toList [7] = some w1 ∧
      World.run goGrow w1 [.use 1 [4], .use 0 [5], .group 1 "/v1".toList, .use 2 [6]]
        = some w2 ∧
      w2.chain w.routes.length = w.middleware 1 ++ [some 7] := by
  have hs1 : (World.run goGrow (World.New : World Nat)
      [.use 0 [1], .group 0 "/api".toList, .use 1 [2], .use 0 [3]]).isSome = true := by decide
  obtain ⟨w, hw⟩ := Option.isSome_iff_exists.1 hs1
  have hs2 : ((World.run goGrow (World.New : World Nat)
      [.use 0 [1], .group 0 "/api".toList, .use 1 [2], .use 0 [3]]).bind
      (fun w => w.add 1 "GET".toList "/login".toList [7])).isSome = true := by decide
  rw [hw, Option.some_bind] at hs2
  obtain ⟨w1, hw1⟩ := Option.isSome_iff_exists.1 hs2
  have hs3 : (((World.run goGrow (World.New : World Nat)
      [.use 0 [1], .group 0 "/api".toList, .use 1 [2], .use 0 [3]]).bind
      (fun w => w.add 1 "GET".toList "/login".toList [7])).bind
      (fun w1 => World.run goGrow w1
        [.use 1 [4], .use 0 [5], .group 1 "/v1".toList, .use 2 [6]])).isSome = true := by
    decide
  rw [hw, Option.some_bind, hw1, Option.some_bind] at hs3
  obtain ⟨w2, hw2⟩ := Option.isSome_iff_exists.1 hs3
  exact ⟨w, w1, w2, hw, hw1, hw2,
    (C25_chain_is_fixed_at_registration goGrow _ _ w w1 w2 1 "GET".toList "/login".toList [7]
      hw hw1 hw2).2.1⟩

/-- C26: in a world built by calls on routers after `New()`, `Group` gives a
router that holds the handlers of its parent at that moment and changes the
handlers of no router; and whatever calls follow, every router holds what it
held after the call of `Group`, followed by the arguments of the calls of
`Use` on this very router: a call of `Use` on the child changes neither the
parent nor a sibling, a call of `Use` on the parent does not change the child.
In `TestRouter_Group` the group holds two handlers and the application one. -/
theorem C26_group_isolation {H : Type} (grow : Nat → Nat → Nat) (ops1 ops2 : List (Op H))
    (w w1 w2 : World H) (parent child : Nat) (p : Str)
    (h1 : World.run grow World.New ops1 = some w)
    (hg : w.Group parent p = some (w1, child)) (h2 : World.run grow w1 ops2 = some w2) :
    child = w.routers.length ∧ parent < child ∧
    w1.middleware child = w.middleware parent ∧
    (∀ q, q < w.routers.length → w1.middleware q = w.middleware q) ∧
    (∀ q, q < w1.routers.length →
      w2.middleware q = w1.middleware q ++ (usesOf q ops2).map some) ∧
    (∀ (r : Nat) (mw : List H) (w3 : World H), w2.Use grow r mw = some w3 →
      w3.middleware r = w2.middleware r ++ mw.map some ∧
      ∀ q, q ≠ r → w3.middleware q = w2.middleware q) ∧
    (World.run goGrow World.New groupTestOps).map
        (fun t => ((t.middleware 0).length, (t.middleware 1).length)) = some (1, 2) := by
  obtain ⟨hok, -, -, -, -, -⟩ := run_spec grow ops1 World.New w worldOK_new h1
  obtain ⟨hok1, hc, hlen, -, hplt, hchild, hold, -⟩ := group_spec w w1 parent child p hok hg
  obtain ⟨hok2, -, -, hm2, -, -⟩ := run_spec grow ops2 w1 w2 hok1 h2
  refine ⟨hc, by omega, hchild, hold, hm2, ?_, by decide⟩
  intro r mw w3 hu
  obtain ⟨-, -, -, -, hmr, hmq, -⟩ := use_spec grow w2 w3 r mw hok2 hu
  exact ⟨hmr, hmq⟩

/-- A group of the application, with calls of `Use` on both of them after the
call of `Group`: the group holds `[1, 3, 4]`, the application `[1, 2, 5]`. -/
theorem C26_group_isolation_witness :
    ∃ w w1 w2 : World Nat,
      World.run goGrow World.New [.use 0 [1]] = some w ∧
      w.Group 0 "/api".toList = some (w1, 1) ∧
      World.run goGrow w1 [.use 0 [2], .use 1 [3], .use 1 [4], .use 0 [5]] = some w2 ∧
      w2.middleware 1 = w1.middleware 1 ++ [some 3, some 4] ∧
      w2.middleware 0 = w1.middleware 0 ++ [some 2, some 5] := by
  have hs1 : (World.run goGrow (World.New : World Nat) [.use 0 [1]]).isSome = true := by decide
  obtain ⟨w, hw⟩ := Option.isSome_iff_exists.1 hs1
  have hs2 : ((World.run goGrow (World.New : World Nat) [.use 0 [1]]).bind
      (fun w => w.Group 0 "/api".toList)).isSome = true := by decide
  rw [hw, Option.some_bind] at hs2
  obtain ⟨⟨w1, c⟩, hw1⟩ := Option.isSome_iff_exists.1 hs2
  have hc : ((World.run goGrow (World.New : World Nat) [.use 0 [1]]).bind
      (fun w => w.Group 0 "/api".toList)).map (fun res => res.2) = some 1 := by decide
  rw [hw, Option.some_bind, hw1] at hc
  simp only [Option.map_some', Option.some.injEq] at hc
  subst hc
  have hs3 : (((World.run goGrow (World.New : World Nat) [.use 0 [1]]).bind
      (fun w => w.Group 0 "/api".toList)).bind
      (fun res => World.run goGrow res.1
        [.use 0 [2], .use 1 [3], .use 1 [4], .use 0 [5]])).isSome = true := by decide
  rw [hw, Option.some_bind, hw1, Option.some_bind] at hs3
  obtain ⟨w2, hw2⟩ := Option.isSome_iff_exists.1 hs3
  have key := (C26_group_isolation goGrow _ _ w w1 w2 0 1 "/api".toList hw hw1 hw2).2.2.2.2.1
  exact ⟨w, w1, w2, hw, hw1, hw2, key 1 (by
      have := (C26_group_isolation goGrow _ _ w w1 w2 0 1 "/api".toList hw hw1 hw2).1
      have hl := (group_spec w w1 0 1 "/api".toList
        (run_spec goGrow _ World.New w worldOK_new hw).1 hw1).2.2.1
      omega),
    key 0 (by
      have hl := (group_spec w w1 0 1 "/api".toList
        (run_spec goGrow _ World.New w worldOK_new hw).1 hw1).2.2.1
      omega)⟩

/-! ## C31: `Context.Param` -/

theorem paramAt_spec (pValues : List Str) (key : Str) (names : List Str) :
    ∀ i : Nat, paramAt pValues key i names
      = if key ∈ names then pValues[i + names.indexOf key]? else some [] := by
  induction names with
  | nil => intro i; simp [paramAt]
  | cons n ns ih =>
    intro i
    by_cases h : n = key
    · subst h
      simp [paramAt, List.indexOf_cons]
    · have h2 : ¬ key = n := fun e => h e.symm
      have hb : (n == key) = false := by simpa using h
      rw [paramAt, if_neg h, ih (i + 1)]
      by_cases hm : key ∈ ns
      · simp [hm, List.indexOf_cons, hb, Nat.add_assoc, Nat.add_comm 1]
      · simp [hm, h2]

theorem indexOf_name (key : Str) (before after : List Str) (h : key ∉ before) :
    (before ++ key :: after).indexOf key = before.length := by
  induction before with
  | nil => simp [List.indexOf_cons]
  | cons c tl ih =>
    have hc : c ≠ key := fun hc => h (by rw [hc]; exact List.mem_cons_self _ _)
    have htl : key ∉ tl := fun hm => h (List.mem_cons_of_mem _ hm)
    simp only [List.cons_append, List.indexOf_cons, List.length_cons]
    have hb : (c == key) = false := by simpa using hc
    rw [hb]
    simp only [cond_false, Nat.add_right_cancel_iff]
    exact ih htl

/-- C31: `Param(key)` is the empty string when no recorded name equals `key`;
otherwise it is the value at the first position `i` whose name equals `key`
(the names before it differ from `key`), and a panic when the buffer has no
entry `i`. In `TestContext_Param`, with the names `[id, name]` and the values
`[12, foo]`, `Param("name")` is `foo` and `Param("undefined")` is empty. -/
theorem C31_param_is_the_first_value_of_the_name {E : Type} (c : Context E) (key : Str) :
    (key ∉ c.pKeys → c.Param key = some []) ∧
    (∀ (before after : List Str), c.pKeys = before ++ key :: after → key ∉ before →
      c.Param key = c.pValues[before.length]?) ∧
    (∀ (before after : List Str) (v : Str), c.pKeys = before ++ key :: after →
      key ∉ before → c.pValues[before.length]? = some v → c.Param key = some v) ∧
    ({ (zeroContext : Context E) with
        pKeys := ["id".toList, "name".toList],
        pValues := ["12".toList, "foo".toList] }.Param "name".toList = some "foo".toList) ∧
    ({ (zeroContext : Context E) with
        pKeys := ["id".toList, "name".toList],
        pValues := ["12".toList, "foo".toList] }.Param "undefined".toList = some []) := by
  have hspec := paramAt_spec c.pValues key c.pKeys 0
  have hfirst : ∀ (before after : List Str), c.pKeys = before ++ key :: after → key ∉ before →
      c.Param key = c.pValues[before.length]? := by
    intro before after hk hb
    unfold Context.Param
    rw [hspec, hk]
    have hm : key ∈ before ++ key :: after := by simp
    rw [if_pos hm, indexOf_name key before after hb, Nat.zero_add]
  refine ⟨?_, hfirst, ?_, rfl, rfl⟩
  · intro h
    unfold Context.Param
    rw [hspec, if_neg h]
  · intro before after v hk hb hv
    rw [hfirst before after hk hb, hv]

/-! ## C32: the status and the size of a response -/

theorem write_size (res : Response) (b : Str) (n : Nat) :
    (res.Write b n).size = (if res.Written then res.size else 0) + (n : Int) := by
  unfold Response.Write Response.tryWriteHeader
  by_cases h : res.Written = true
  · simp [h]
  · have h2 : res.Written = false := by simpa using h
    simp only [h2, Bool.not_false, if_true, Bool.false_eq_true, if_false]
    split_ifs <;> rfl

theorem write_written (res : Response) (b : Str) (n : Nat) : (res.Write b n).Written = true := by
  have h := write_size res b n
  unfold Response.Written at h ⊢
  rw [h]
  by_cases hw : res.size > -1
  · simp only [hw, decide_True, if_true, gt_iff_lt, decide_eq_true_eq]
    omega
  · simp only [hw, decide_False, Bool.false_eq_true, if_false, gt_iff_lt, decide_eq_true_eq]
    omega

theorem writeAll_size (bs : List Str) :
    ∀ res : Response, res.Written = true →
      (res.writeAll bs).Written = true ∧
      (res.writeAll bs).size = res.size + ((bs.map List.length).sum : Nat) := by
  induction bs with
  | nil => intro res h; exact ⟨h, by simp [Response.writeAll]⟩
  | cons b bs ih =>
    intro res h
    have h1 := write_written res b b.length
    have h2 := write_size res b b.length
    rw [h, if_pos rfl] at h2
    obtain ⟨h3, h4⟩ := ih (res.Write b b.length) h1
    refine ⟨h3, ?_⟩
    show ((res.Write b b.length).writeAll bs).size = _
    rw [h4, h2]
    simp only [List.map_cons, List.sum_cons, Nat.cast_add]
    omega

/-- C32: after `Response.reset` the status is 200, the size is -1 and
`Written()` is false. After a non-empty sequence of calls of `Write` whose
bytes the writer accepts in full, `Written()` is true and `Size()` is the
number of bytes written by the sequence, added to the size before it if
something was written before; after `reset` it is the number of bytes of the
sequence. `WriteHeader(code)` leaves `Status()` at `code` when `code > 0` and
unchanged otherwise, and changes neither the size nor `Written()`. In
`TestResponse_Write` the sizes are 3 and 6. -/
theorem C32_status_and_size (res : Response) (w : ResponseWriter) (bs : List Str)
    (hne : bs ≠ []) :
    (res.reset w).Status = 200 ∧ (res.reset w).Size = -1 ∧ (res.reset w).Written = false ∧
    ((res.reset w).writeAll bs).Written = true ∧
    ((res.reset w).writeAll bs).Size = ((bs.map List.length).sum : Nat) ∧
    (res.writeAll bs).Written = true ∧
    (res.writeAll bs).Size
      = (if res.Written then res.Size else 0) + ((bs.map List.length).sum : Nat) ∧
    (∀ code : Int, (res.WriteHeader code).Status = if code > 0 then code else res.Status) ∧
    (∀ code : Int, (res.WriteHeader code).Written = res.Written ∧
      (res.WriteHeader code).Size = res.Size ∧
      ((res.reset w).WriteHeader code).Written = false) ∧
    (((res.reset w).Write "foo".toList 3).Size = 3 ∧
      (((res.reset w).Write "foo".toList 3).Write "bar".toList 3).Size = 6 ∧
      ((res.reset w).WriteHeader 404).Status = 404 ∧
      (((res.reset w).WriteHeader 404).WriteHeader (-1)).Status = 404) := by
  have hgen : ∀ r : Response, (r.writeAll bs).Written = true ∧
      (r.writeAll bs).Size
        = (if r.Written then r.Size else 0) + ((bs.map List.length).sum : Nat) := by
    intro r
    obtain ⟨b, rest, rfl⟩ := List.exists_cons_of_ne_nil hne
    have h1 := write_written r b b.length
    have h2 := write_size r b b.length
    obtain ⟨h3, h4⟩ := writeAll_size rest (r.Write b b.length) h1
    refine ⟨h3, ?_⟩
    show ((r.Write b b.length).writeAll rest).size = _
    rw [h4, h2]
    simp only [List.map_cons, List.sum_cons, Nat.cast_add, Response.Size]
    omega
  have hwh : ∀ (r : Response) (code : Int),
      (r.WriteHeader code).size = r.size ∧
      (r.WriteHeader code).status = if code > 0 then code else r.status := by
    intro r code
    unfold Response.WriteHeader
    by_cases h1 : code > 0
    · by_cases h2 : r.status = code
      · simp [h1, h2]
      · simp [h1, h2]
    · simp [h1]
  refine ⟨rfl, rfl, rfl, (hgen _).1, ?_, (hgen _).1, (hgen _).2, ?_, ?_, ?_⟩
  · have := (hgen (res.reset w)).2
    rw [this]
    have : (res.reset w).Written = false := rfl
    rw [this]
    simp
  · intro code
    exact (hwh res code).2
  · intro code
    refine ⟨?_, (hwh res code).1, ?_⟩
    · unfold Response.Written
      rw [(hwh res code).1]
    · unfold Response.Written
      rw [(hwh _ code).1]
      rfl
  · refine ⟨?_, ?_, ?_, ?_⟩
    · have := write_size (res.reset w) "foo".toList 3
      rw [Response.Size, this]
      rfl
    · have h1 := write_written (res.reset w) "foo".toList 3
      have h2 := write_size ((res.reset w).Write "foo".toList 3) "bar".toList 3
      have h3 := write_size (res.reset w) "foo".toList 3
      rw [Response.Size, h2, h1, if_pos rfl, h3]
      rfl
    · rw [Response.Status, (hwh _ 404).2]
      rfl
    · rw [Response.Status, (hwh _ (-1)).2, (hwh _ 404).2]
      rfl

/-- The two writes of `TestResponse_Write`. -/
theorem C32_status_and_size_witness :
    ((Response.reset ⟨⟨none, []⟩, 0, 0⟩ ⟨none, []⟩).writeAll ["foo".toList, "bar".toList]).Size
      = 6 :=
  (C32_status_and_size ⟨⟨none, []⟩, 0, 0⟩ ⟨none, []⟩ ["foo".toList, "bar".toList]
    (by decide)).2.2.2.2.1

/-! ## C34: the data of a recycled context -/

theorem lookup_map_set (key : Str) (value : Value) (m : List (Str × Value))
    (h : (m.lookup key).isSome = true) :
    (m.map (fun p => if p.1 = key then (key, value) else p)).lookup key = some value := by
  induction m with
  | nil => simp at h
  | cons p ps ih =>
    obtain ⟨k, v⟩ := p
    rw [List.map_cons]
    by_cases hk : k = key
    · have e : (if (k, v).1 = key then (key, value) else (k, v)) = (key, value) := if_pos hk
      rw [e, List.lookup_cons]
      simp
    · have e : (if (k, v).1 = key then (key, value) else (k, v)) = (k, v) := if_neg hk
      have hb : (key == k) = false := by
        simpa using fun e : key = k => hk e.symm
      rw [List.lookup_cons, hb] at h
      rw [e, List.lookup_cons, hb]
      exact ih h

theorem lookup_append_new (key : Str) (value : Value) (m : List (Str × Value))
    (h : m.lookup key = none) : (m ++ [(key, value)]).lookup key = some value := by
  induction m with
  | nil => simp [List.lookup]
  | cons p ps ih =>
    obtain ⟨k, v⟩ := p
    by_cases hk : key = k
    · subst hk
      rw [List.lookup_cons] at h
      simp at h
    · have hb : (key == k) = false := by simpa using hk
      rw [List.lookup_cons, hb] at h
      rw [List.cons_append, List.lookup_cons, hb]
      exact ih h

theorem lookup_dataSet (m : List (Str × Value)) (key : Str) (value : Value) :
    (dataSet m key value).lookup key = some value := by
  unfold dataSet
  by_cases h : (m.lookup key).isSome = true
  · rw [if_pos h]
    exact lookup_map_set key value m h
  · rw [if_neg h]
    apply lookup_append_new
    cases hl : m.lookup key with
    | none => rfl
    | some v => rw [hl] at h; simp at h

/-- C34: `Context.reset` does not touch the map `data`: after `reset`, `Get`
answers what it answered before, so that a value stored with `Set(k, v)` is
still found under `k` by the next request that receives the context. For
`c.Set("foo", "bar")` followed by `reset`, `Get("foo")` gives `bar` and
true. -/
theorem C34_reset_keeps_the_data {E : Type} (c : Context E) (w : ResponseWriter)
    (req : Request) (k : Str) (v : Value) :
    (c.reset w req).Get k = c.Get k ∧
    ((c.Set k v).reset w req).Get k = (some v, true) ∧
    (((zeroContext : Context E).Set "foo".toList (.str "bar".toList)).reset ⟨none, []⟩
      ⟨"GET".toList, "/test".toList⟩).Get "foo".toList = (some (.str "bar".toList), true) := by
  have h2 : ∀ c0 : Context E, ((c0.Set k v).reset w req).Get k = (some v, true) := by
    intro c0
    show (match ((some (dataSet (c0.data.getD []) k v)).getD []).lookup k with
      | some v => (some v, true)
      | none => (none, false)) = _
    rw [Option.getD_some, lookup_dataSet]
  exact ⟨rfl, h2 c, rfl⟩

/-! ## C35: `IsAborted` after `Abort` and `Next` -/

/-- C35: right after `Abort`, `IsAborted()` is true; one call of `Next` later
it is false, and it stays false after every further call of `Next`: `Abort`
puts the cursor at the length of the chain, `Next` moves it one further
without calling a handler, and `IsAborted` compares the cursor with the
length. -/
theorem C35_next_after_abort_clears_isAborted {E : Type} (c : Context E) (d j : Nat) :
    c.Abort.IsAborted = true ∧
    Context.Next (d + 1) c.Abort
      = some (none, c.Abort.moveTo ((lenOf c.handlers : Int) + 1) c.trace) ∧
    (c.Abort.moveTo ((lenOf c.handlers : Int) + 1) c.trace).IsAborted = false ∧
    Context.Next (d + 1) (c.Abort.moveTo ((lenOf c.handlers : Int) + 1 + (j : Int)) c.trace)
      = some (none, c.Abort.moveTo ((lenOf c.handlers : Int) + 1 + (j : Int) + 1) c.trace) ∧
    (c.Abort.moveTo ((lenOf c.handlers : Int) + 1 + (j : Int) + 1) c.trace).IsAborted = false ∧
    ((testContext [getNextHandler "h1".toList] : Context E).Abort.Next 1).map
      (fun r => (r.1, r.2.IsAborted, r.2.trace)) = some (none, false, []) := by
  have hab : c.Abort.IsAborted = true := by
    simp [Context.Abort, Context.IsAborted]
  have hfalse : ∀ i : Nat, (c.Abort.moveTo ((lenOf c.handlers : Int) + 1 + (i : Int))
      c.trace).IsAborted = false := by
    intro i
    simp only [Context.IsAborted, moveTo_index, moveTo_handlers, Context.Abort,
      beq_eq_false_iff_ne, ne_eq]
    omega
  refine ⟨hab, ?_, ?_, ?_, ?_, ?_⟩
  · have := next_at_end c.Abort d (by
      show (lenOf c.handlers : Int) ≤ (lenOf c.handlers : Int) + 1
      omega)
    rw [this]
    rfl
  · have := hfalse 0
    simpa using this
  · have := next_at_end (c.Abort.moveTo ((lenOf c.handlers : Int) + 1 + (j : Int)) c.trace) d (by
      simp only [moveTo_index, moveTo_handlers]
      show (lenOf c.handlers : Int) ≤ _
      omega)
    rw [this]
    rfl
  · have := hfalse (j + 1)
    rw [Nat.cast_add, Nat.cast_one, ← Int.add_assoc] at this
    exact this
  · rfl

/-! ## C36: a failed search below a static child -/

theorem getStatic_skip {H : Type} (re : Regexp) (value rest : Str) (pv : List Str) (i : Nat)
    (hrest : rest ≠ []) (cs : List (node H))
    (h : ∀ c ∈ cs, c.key = value → ∃ pv1, node.get re c rest pv i = some (none, pv1)) :
    getStatic re cs value rest pv i = some (none, pv) := by
  induction cs with
  | nil => simp [getStatic]
  | cons c cs ih =>
    have ih2 := ih (fun d hd => h d (List.mem_cons_of_mem _ hd))
    by_cases hk : c.key = value
    · obtain ⟨pv1, hget⟩ := h c (List.mem_cons_self _ _) hk
      have hpv : pv1 = pv := by
        rw [get_eq_find re c rest pv i hrest] at hget
        cases hf : node.find re c rest with
        | none =>
          rw [hf] at hget
          simp only [getOfFind, Option.some.injEq, Prod.mk.injEq, true_and] at hget
          exact hget.symm
        | some x =>
          rw [hf] at hget
          obtain ⟨m, vals⟩ := x
          simp only [getOfFind] at hget
          cases hw : writeVals pv i vals with
          | none => rw [hw] at hget; cases hget
          | some b => rw [hw] at hget; cases hget
      subst hpv
      simp only [getStatic, hk, if_true, hrest, ne_eq, not_false_eq_true, hget]
      exact ih2
    · simp only [getStatic, hk, if_false]
      exact ih2

/-- C36: at every node and for every path whose first segment is followed by
more of the path, if the search below every static child whose key is that
segment returns nothing, `node.get` returns what it returns at the node with
its static children taken away: the parameter children are tried in their
order, then the catch-all child. With `/a/b/c` and `/a/{x}/d` registered,
`/a/b/d` resolves to `/a/{x}/d` with `x = b`. -/
theorem C36_failed_static_search_falls_through {H : Type} (re : Regexp) (n : node H)
    (path : Str) (pv : List Str) (i : Nat) (hrest : segRest path ≠ [])
    (hfail : ∀ c ∈ n.children, c.key = segValue path →
      ∃ pv1, node.get re c (segRest path) pv i = some (none, pv1)) :
    node.get re n path pv i = node.get re n.withoutStatic path pv i ∧
    resolve goRegexp [("/a/b/c".toList, makeRoute "abc"), ("/a/{x}/d".toList, makeRoute "axd")]
        "/a/b/d".toList makeParamValues
      = some (⟨some ["axd"], ["x".toList]⟩, "b".toList :: List.replicate 19 []) := by
  refine ⟨?_, by decide⟩
  obtain ⟨t, k, p, ks, cs, ps, w, rx, rt⟩ := n
  have hs := getStatic_skip re (segValue path) (segRest path) pv i hrest cs hfail
  have hne : path ≠ ['/'] := by
    intro h
    rw [h] at hrest
    exact hrest rfl
  cases path with
  | nil => exact absurd rfl hrest
  | cons c tl =>
    simp only [node.withoutStatic, node.get, hne, if_false, hs, getStatic]

/-- The root of the tree of `/a/b/c` and `/a/{x}/d` and the path `/a/b/d`: the
search below the static child `a` returns nothing if the static children of
`a` are all there is, and the search at the root goes on without it. -/
theorem C36_failed_static_search_falls_through_witness :
    node.get goRegexp (node.mk 0 [] [] [] [node.mk 0 "a".toList [] [] [] [] none none none]
        [node.mk 1 ":x".toList "/{x}".toList ["x".toList] [] [] none none
          (some (makeRoute "x"))] none none none) "/a/b".toList makeParamValues 0
      = node.get goRegexp (node.mk 0 [] [] [] []
        [node.mk 1 ":x".toList "/{x}".toList ["x".toList] [] [] none none
          (some (makeRoute "x"))] none none none) "/a/b".toList makeParamValues 0 :=
  (C36_failed_static_search_falls_through goRegexp
    (node.mk 0 [] [] [] [node.mk 0 "a".toList [] [] [] [] none none none]
        [node.mk 1 ":x".toList "/{x}".toList ["x".toList] [] [] none none
          (some (makeRoute "x"))] none none none) "/a/b".toList makeParamValues 0
    (by decide) (by
      intro c hc _
      simp only [node.children, List.mem_singleton] at hc
      subst hc
      exact ⟨makeParamValues, rfl⟩)).1

/-! ## The walk of `node.get` along any path -/

theorem splitSlash_append_slash (x : Str) : splitSlash (x ++ ['/']) = splitSlash x ++ [[]] := by
  induction x with
  | nil => rfl
  | cons c cs ih =>
    by_cases hc : c = '/'
    · simp only [List.cons_append, splitSlash, hc, if_true, List.append_eq, ih]
    · simp only [List.cons_append, splitSlash, hc, if_false, List.append_eq, ih]
      cases h : splitSlash cs with
      | nil => exact absurd h (splitSlash_ne_nil cs)
      | cons hd tl => rfl

theorem trimmedSegs_eq (R : Str) (hne : R ≠ []) :
    trimmedSegs R = if R.getLast? = some '/' then (pathSegs R).dropLast else pathSegs R := by
  unfold trimmedSegs
  by_cases hl : R.getLast? = some '/'
  · simp only [hl, if_true]
    have hR : R = R.dropLast ++ ['/'] := (List.dropLast_append_getLast? _ hl).symm
    by_cases hq : R.dropLast = []
    · rw [if_pos hq]
      rw [hq] at hR
      rw [hR]
      rfl
    · rw [if_neg hq]
      have h1 : pathSegs R = pathSegs R.dropLast ++ [[]] := by
        unfold pathSegs
        conv_lhs => rw [hR]
        obtain ⟨c, tl, hct⟩ := List.exists_cons_of_ne_nil hq
        rw [hct]
        simp only [List.cons_append, List.drop_succ_cons, List.drop_zero]
        exact splitSlash_append_slash tl
      rw [h1, List.dropLast_concat]
  · simp only [hl, if_false, hne]

theorem trimmedSegs_slash : trimmedSegs ['/'] = [] := rfl

theorem trimmedSegs_end (R : Str) (hne : R ≠ []) (hs : R ≠ ['/']) (hr : segRest R = []) :
    trimmedSegs R = [segValue R] := by
  rw [trimmedSegs_eq R hne, pathSegs_end R hr]
  have hl : R.getLast? ≠ some '/' := by
    intro hl
    obtain ⟨c, tl, rfl⟩ := List.exists_cons_of_ne_nil hne
    unfold segRest at hr
    simp only [List.drop_succ_cons, List.drop_zero, List.dropWhile_eq_nil_iff] at hr
    cases tl with
    | nil =>
      simp only [List.getLast?_singleton, Option.some.injEq] at hl
      exact hs (by rw [hl])
    | cons d tl2 =>
      rw [List.getLast?_cons_cons] at hl
      have hm : '/' ∈ d :: tl2 := List.mem_of_mem_getLast? (Option.mem_def.2 hl)
      have := hr '/' hm
      simp at this
  rw [if_neg hl]

theorem trimmedSegs_step (R : Str) (hne : R ≠ []) (hr : segRest R ≠ []) :
    trimmedSegs R = segValue R :: trimmedSegs (segRest R) := by
  rw [trimmedSegs_eq R hne, trimmedSegs_eq _ hr, pathSegs_step R hr,
    getLast?_of_suffix _ _ (segRest_suffix R) hr]
  by_cases hl : R.getLast? = some '/'
  · rw [if_pos hl, if_pos hl]
    obtain ⟨x, xs, hx⟩ := List.exists_cons_of_ne_nil (pathSegs_ne_nil (segRest R))
    rw [hx]
    rfl
  · rw [if_neg hl, if_neg hl]

theorem paramCount_static (sg : segInfo) (pre : List segInfo) (h : sg.nType = staticNode) :
    paramCount (sg :: pre) = paramCount pre := by
  simp [paramCount, h]

theorem paramCount_other (sg : segInfo) (pre : List segInfo) (h : sg.nType ≠ staticNode) :
    paramCount (sg :: pre) = paramCount pre + 1 := by
  simp [paramCount, h]

/-- Whatever the path, the node that the search returns lies on a registered
pattern: the search walked a beginning `pre` of it, bound one value for each
parameter and catch-all of `pre`, and, if `pre` has no catch-all, `pre` has as
many segments as the path (one trailing slash aside), its literal segments
being those of the path. -/
theorem find_walk {H : Type} (G : Str → Option Str → Prop) (re : Regexp) (k : Nat) :
    ∀ (n : node H) (P : List (Entry H)) (R : Str) (m : node H) (vals : List Str),
      R.length ≤ k → R ≠ [] → Rep G n P → node.find re n R = some (m, vals) →
      ∃ e ∈ P, ∃ pre post, e.segs = pre ++ post ∧ Rep G m (subs pre P) ∧
        vals.length = paramCount pre ∧
        ((∀ sg ∈ pre, sg.nType ≠ catchAllNode) →
          List.Forall₂ (fun sg v => sg.nType = staticNode → sg.key = v) pre
            (trimmedSegs R)) := by
  induction k with
  | zero =>
    intro n P R m vals hl hne
    exact absurd (List.length_eq_zero.1 (Nat.le_zero.1 hl)) hne
  | succ k ih =>
    intro n P R m vals hl hne hrep hfind
    have hlt := segRest_length_lt R hne
    have hrep0 := hrep
    rw [find_eq] at hfind
    rw [rep_iff] at hrep
    obtain ⟨-, -, -, -, -, -, hcs, hps, hw⟩ := hrep
    have hstatic : ¬ (staticNode = catchAllNode) := by decide
    have hparam : ¬ (paramNode = catchAllNode) := by decide
    have hps0 : paramNode ≠ staticNode := by decide
    have hca0 : catchAllNode ≠ staticNode := by decide
    -- the catch-all child
    have hcatch : ∀ wc, n.wChildren = some wc → m = wc → vals = [R.drop 1] →
        ∃ e ∈ P, ∃ pre post, e.segs = pre ++ post ∧ Rep G m (subs pre P) ∧
          vals.length = paramCount pre ∧
          ((∀ sg ∈ pre, sg.nType ≠ catchAllNode) →
            List.Forall₂ (fun sg v => sg.nType = staticNode → sg.key = v) pre
              (trimmedSegs R)) := by
      intro wc hwc hm hv
      rw [hwc] at hw
      simp only [RepOpt] at hw
      obtain ⟨hne2, hrw⟩ := hw
      obtain ⟨e, he, sg, rest, hsegs, ht, -⟩ := sub_head _ _ _ hne2
      refine ⟨e, he, [sg], rest, by simpa using hsegs, ?_, ?_, ?_⟩
      · simp only [subs]
        rw [ht, sub_catchAll_key sg.key [], hm]
        exact hrw
      · rw [hv, paramCount_other sg [] (by rw [ht]; exact hca0)]
        rfl
      · intro hno
        exact absurd ht (hno sg (List.mem_singleton_self _))
    by_cases hsl : R = ['/']
    · rw [if_pos hsl] at hfind
      by_cases hrt : n.route.isSome = true
      · rw [if_pos hrt, Option.some.injEq, Prod.mk.injEq] at hfind
        obtain ⟨rfl, rfl⟩ := hfind
        obtain ⟨r, hr⟩ := Option.isSome_iff_exists.1 hrt
        obtain ⟨e, he, hes, -, -⟩ := rep_route G n P r hrep0 hr
        refine ⟨e, he, [], [], by simpa using hes, hrep0, rfl, ?_⟩
        intro _
        rw [hsl, trimmedSegs_slash]
        exact List.Forall₂.nil
      · rw [if_neg hrt] at hfind
        cases hwc : n.wChildren with
        | none => rw [hwc] at hfind; simp at hfind
        | some wc =>
          rw [hwc] at hfind
          simp only [Option.map_some', Option.some.injEq, Prod.mk.injEq] at hfind
          exact hcatch wc hwc hfind.1.symm hfind.2.symm
    · rw [if_neg hsl] at hfind
      cases hs : findStatic re n.children (segValue R) (segRest R) with
      | some r =>
        rw [hs] at hfind
        simp only [Option.some.injEq] at hfind
        subst hfind
        obtain ⟨c, hc, hkey, hcase⟩ := findStatic_some re _ _ m vals _ hs
        obtain ⟨hne2, hrc⟩ := hcs c hc
        rcases hcase with ⟨hr, rfl, rfl⟩ | ⟨hr, hf⟩
        · obtain ⟨e, he, sg, rest, hsegs, ht, hk⟩ := sub_head _ _ _ hne2
          have hk' : sg.key = m.key := by
            rcases hk with hk | hk
            · exact absurd hk hstatic
            · exact hk
          refine ⟨e, he, [sg], rest, by simpa using hsegs, ?_, ?_, ?_⟩
          · simp only [subs]
            rw [ht, hk']
            exact hrc
          · rw [paramCount_static sg [] ht]
            rfl
          · intro _
            rw [trimmedSegs_end R hne hsl hr]
            exact List.Forall₂.cons (fun _ => hk'.trans hkey) List.Forall₂.nil
        · obtain ⟨e1, he1, pre1, post, hsegs1, hrm, hlen, hshape⟩ :=
            ih c _ (segRest R) m vals (by omega) hr hrc hf
          obtain ⟨e, he, sg, hsegs, ht, hk, -, -⟩ := (mem_sub _ _ P e1).1 he1
          have hk' : sg.key = c.key := by
            rcases hk with hk | hk
            · exact absurd hk hstatic
            · exact hk
          refine ⟨e, he, sg :: pre1, post, by rw [hsegs, hsegs1]; rfl, ?_, ?_, ?_⟩
          · simp only [subs]
            rw [ht, hk']
            exact hrm
          · rw [paramCount_static sg pre1 ht]
            exact hlen
          · intro hno
            rw [trimmedSegs_step R hne hr]
            exact List.Forall₂.cons (fun _ => hk'.trans hkey)
              (hshape (fun x hx => hno x (List.mem_cons_of_mem _ hx)))
      | none =>
        rw [hs] at hfind
        simp only at hfind
        cases hq : findParam re n.pChildren (segValue R) (segRest R) with
        | some r =>
          rw [hq] at hfind
          simp only [Option.some.injEq] at hfind
          subst hfind
          obtain ⟨c, hc, -, hcase⟩ := findParam_some re _ _ m vals _ hq
          obtain ⟨hne2, -, hrc⟩ := hps c hc
          rcases hcase with ⟨hr, -, rfl, rfl⟩ | ⟨hr, vs, hf, rfl⟩
          · obtain ⟨e, he, sg, rest, hsegs, ht, hk⟩ := sub_head _ _ _ hne2
            have hk' : sg.key = m.key := by
              rcases hk with hk | hk
              · exact absurd hk hparam
              · exact hk
            refine ⟨e, he, [sg], rest, by simpa using hsegs, ?_, ?_, ?_⟩
            · simp only [subs]
              rw [ht, hk']
              exact hrc
            · rw [paramCount_other sg [] (by rw [ht]; exact hps0)]
              rfl
            · intro _
              rw [trimmedSegs_end R hne hsl hr]
              exact List.Forall₂.cons (fun h => absurd (ht.symm.trans h) hps0)
                List.Forall₂.nil
          · obtain ⟨e1, he1, pre1, post, hsegs1, hrm, hlen, hshape⟩ :=
              ih c _ (segRest R) m vs (by omega) hr hrc hf
            obtain ⟨e, he, sg, hsegs, ht, hk, -, -⟩ := (mem_sub _ _ P e1).1 he1
            have hk' : sg.key = c.key := by
              rcases hk with hk | hk
              · exact absurd hk hparam
              · exact hk
            refine ⟨e, he, sg :: pre1, post, by rw [hsegs, hsegs1]; rfl, ?_, ?_, ?_⟩
            · simp only [subs]
              rw [ht, hk']
              exact hrm
            · rw [paramCount_other sg pre1 (by rw [ht]; exact hps0), List.length_cons, hlen]
            · intro hno
              rw [trimmedSegs_step R hne hr]
              exact List.Forall₂.cons (fun h => absurd (ht.symm.trans h) hps0)
                (hshape (fun x hx => hno x (List.mem_cons_of_mem _ hx)))
        | none =>
          rw [hq] at hfind
          simp only at hfind
          cases hwc : n.wChildren with
          | none => rw [hwc] at hfind; simp at hfind
          | some wc =>
            rw [hwc] at hfind
            simp only [Option.map_some', Option.some.injEq, Prod.mk.injEq] at hfind
            exact hcatch wc hwc hfind.1.symm hfind.2.symm
theorem forall2_steps (segs : List Str) :
    ∀ (pre pre2 : List segInfo), pre2.map stepOf = pre.map stepOf →
      List.Forall₂ (fun sg v => sg.nType = staticNode → sg.key = v) pre segs →
      List.Forall₂ (fun sg v => sg.nType = staticNode → sg.key = v) pre2 segs := by
  induction segs with
  | nil =>
    intro pre pre2 hst h
    cases h
    cases pre2 with
    | nil => exact List.Forall₂.nil
    | cons a b => simp at hst
  | cons v vs ih =>
    intro pre pre2 hst h
    cases h with
    | cons hhead htail =>
      rename_i sg pre1
      cases pre2 with
      | nil => simp at hst
      | cons a b =>
        simp only [List.map_cons, List.cons.injEq] at hst
        obtain ⟨h1, h2⟩ := stepOf_inj a sg hst.1
        refine List.Forall₂.cons ?_ (ih pre1 b hst.2 htail)
        intro ha
        have hsg : sg.nType = staticNode := h1.symm.trans ha
        rcases h2 with h2 | h2
        · rw [hsg] at h2
          exact absurd h2 (by decide)
        · rw [h2]
          exact hhead hsg

theorem noCatchAll_steps (pre pre2 : List segInfo) (hst : pre2.map stepOf = pre.map stepOf)
    (h : NoCatchAll pre2) : NoCatchAll pre := by
  induction pre generalizing pre2 with
  | nil => intro sg hsg; cases hsg
  | cons a pre1 ih =>
    cases pre2 with
    | nil => simp at hst
    | cons b pre3 =>
      simp only [List.map_cons, List.cons.injEq] at hst
      intro sg hsg
      rcases List.mem_cons.1 hsg with h1 | h1
      · rw [h1, ← (stepOf_inj b a hst.1).1]
        exact h b (List.mem_cons_self _ _)
      · exact ih pre3 hst.2 (fun x hx => h x (List.mem_cons_of_mem _ hx)) sg h1

theorem segsOf_mem_allSegs {H : Type} (routes : List (Str × Route H)) (pr : Str × Route H)
    (hpr : pr ∈ routes) (sg : segInfo) (hsg : sg ∈ segsOf pr.1) : sg ∈ allSegs routes := by
  unfold allSegs
  rw [List.mem_flatMap]
  exact ⟨pr, hpr, hsg⟩

/-- The node that a search returns with a route lies at the end of a
registered pattern, whose route and names it carries; the search bound one
value for each of its parameters and catch-alls, and, if it has no catch-all,
the pattern has the segments of the path at its literal positions. -/
theorem find_route_walk {H : Type} (re : Regexp) (routes : List (Str × Route H)) (t : node H)
    (path : Str) (m : node H) (vals : List Str) (rt : Route H)
    (hbuild : addRoutes re node.empty routes = some t)
    (hlit : LiteralsOK (allSegs routes)) (hne : path ≠ [])
    (hfind : node.find re t path = some (m, vals)) (hrt : m.route = some rt) :
    ∃ pr ∈ routes, rt = pr.2 ∧ m.pKeys = namesOf (segsOf pr.1) ∧
      vals.length = paramCount (segsOf pr.1) ∧
      (NoCatchAll (segsOf pr.1) →
        List.Forall₂ (fun sg v => sg.nType = staticNode → sg.key = v) (segsOf pr.1)
          (trimmedSegs path)) := by
  have hrep := addRoutes_rep_plain re routes t hlit hbuild
  obtain ⟨e, he, pre, post, hsegs, hrm, hlen, hshape⟩ :=
    find_walk (fun _ _ => True) re path.length t _ path m vals (le_refl _) hne hrep hfind
  obtain ⟨e1, he1, hes1, hr1, hk1⟩ := rep_route _ m _ rt hrm hrt
  obtain ⟨e2, he2, pre2, hsegs2, hsteps, hpk2, hrt2⟩ := mem_subs pre _ e1 he1
  obtain ⟨pr, hpr, rfl⟩ := mem_entriesOf routes e2 he2
  rw [hes1, List.append_nil] at hsegs2
  simp only at hsegs2 hpk2 hrt2
  refine ⟨pr, hpr, by rw [← hr1, hrt2], by rw [hk1, hpk2], ?_, ?_⟩
  · rw [hlen, hsegs2]
    unfold paramCount
    have : ∀ (a b : List segInfo), a.map stepOf = b.map stepOf →
        (a.filter (fun sg => sg.nType != staticNode)).length
          = (b.filter (fun sg => sg.nType != staticNode)).length := by
      intro a
      induction a with
      | nil =>
        intro b hb
        cases b with
        | nil => rfl
        | cons x y => simp at hb
      | cons x a ih =>
        intro b hb
        cases b with
        | nil => simp at hb
        | cons y b =>
          simp only [List.map_cons, List.cons.injEq] at hb
          have := (stepOf_inj x y hb.1).1
          simp only [List.filter_cons, this]
          split_ifs
          · simp only [List.length_cons, ih b hb.2]
          · exact ih b hb.2
    exact (this pre2 pre hsteps).symm
  · intro hno
    rw [hsegs2] at hno
    rw [hsegs2]
    exact forall2_steps _ pre pre2 hsteps (hshape (noCatchAll_steps pre pre2 hsteps hno))

/-- The result of `getRoute` with handlers is the result of a search that
returned a node with a route. -/
theorem getRoute_route {H : Type} (re : Regexp) (t : node H) (path : Str) (pv pv1 : List Str)
    (val : nodeValue H) (hne : path ≠ [])
    (hget : t.getRoute re path pv = some (val, pv1)) (hval : val.handlers.isSome = true) :
    ∃ m vals rt, node.find re t path = some (m, vals) ∧ m.route = some rt ∧
      val = ⟨rt.handlers, m.pKeys⟩ ∧ writeVals pv 0 vals = some pv1 := by
  rw [getRoute_eq re t path pv hne] at hget
  cases hf : node.find re t path with
  | none =>
    rw [hf] at hget
    simp only [Option.some.injEq, Prod.mk.injEq] at hget
    rw [← hget.1] at hval
    cases hval
  | some x =>
    obtain ⟨m, vals⟩ := x
    rw [hf] at hget
    simp only at hget
    cases hw : writeVals pv 0 vals with
    | none => rw [hw] at hget; cases hget
    | some b =>
      rw [hw] at hget
      simp only [Option.map_some', Option.some.injEq, Prod.mk.injEq] at hget
      cases hr : m.route with
      | none =>
        rw [hr] at hget
        rw [← hget.1] at hval
        cases hval
      | some rt =>
        rw [hr] at hget
        exact ⟨m, vals, rt, rfl, hr, hget.1.symm, by rw [← hget.2]; exact hw⟩

/-! ## C39: literal segments are matched verbatim -/

/-- C39: in a tree built from patterns without catch-all whose literal
segments do not begin with ':' or '*' (parameters may carry constraints), for
every path that begins with '/': if `getRoute` returns handlers, they are the
handlers of a registered pattern, returned with its names, and the path, one
trailing slash dropped, has as many segments as that pattern and the segment
of the pattern at every literal position. In the tree of `/a/{x}` the path
`/a//` resolves with `x` empty, the path `/b/1` does not resolve. -/
theorem C39_literal_segments_are_matched_verbatim {H : Type} (re : Regexp)
    (routes : List (Str × Route H)) (t : node H) (path : Str) (pv pv1 : List Str)
    (val : nodeValue H)
    (hbuild : addRoutes re node.empty routes = some t)
    (hlit : LiteralsOK (allSegs routes)) (hno : NoCatchAll (allSegs routes))
    (hpath : path.head? = some '/')
    (hget : t.getRoute re path pv = some (val, pv1)) (hval : val.handlers.isSome = true) :
    (∃ pr ∈ routes, val = ⟨pr.2.handlers, namesOf (segsOf pr.1)⟩ ∧
      (segsOf pr.1).length = (trimmedSegs path).length ∧
      List.Forall₂ (fun sg v => sg.nType = staticNode → sg.key = v) (segsOf pr.1)
        (trimmedSegs path)) ∧
    resolve goRegexp [("/a/{x}".toList, makeRoute "ax")] "/a//".toList makeParamValues
      = some (⟨some ["ax"], ["x".toList]⟩, makeParamValues) ∧
    resolve goRegexp [("/a/{x}".toList, makeRoute "ax")] "/b/1".toList makeParamValues
      = some (⟨none, []⟩, makeParamValues) := by
  refine ⟨?_, by decide, by decide⟩
  have hne : path ≠ [] := by
    intro h
    rw [h] at hpath
    cases hpath
  obtain ⟨m, vals, rt, hfind, hrt, hv, -⟩ := getRoute_route re t path pv pv1 val hne hget hval
  obtain ⟨pr, hpr, hr, hk, -, hshape⟩ :=
    find_route_walk re routes t path m vals rt hbuild hlit hne hfind hrt
  have hshape2 := hshape (fun sg hsg => hno sg (segsOf_mem_allSegs routes pr hpr sg hsg))
  exact ⟨pr, hpr, by rw [hv, hr, hk], hshape2.length_eq, hshape2⟩

/-- C39, witness: the tree of `/users/{id}` and `/users/10/x` and the path
`/users/10/`. -/
theorem C39_literal_segments_are_matched_verbatim_witness :
    ∃ pr ∈ [("/users/{id}".toList, makeRoute "id"), ("/users/10/x".toList, makeRoute "x")],
      (segsOf pr.1).length = (trimmedSegs "/users/10/".toList).length ∧
      List.Forall₂ (fun sg v => sg.nType = staticNode → sg.key = v) (segsOf pr.1)
        (trimmedSegs "/users/10/".toList) := by
  have hsome : (addRoutes goRegexp node.empty
      [("/users/{id}".toList, makeRoute "id"), ("/users/10/x".toList, makeRoute "x")]).isSome
      = true := by decide
  obtain ⟨t, ht⟩ := Option.isSome_iff_exists.1 hsome
  have hres : resolve goRegexp
      [("/users/{id}".toList, makeRoute "id"), ("/users/10/x".toList, makeRoute "x")]
      "/users/10/".toList makeParamValues
      = some (⟨some ["id"], ["id".toList]⟩, "10".toList :: List.replicate 19 []) := by decide
  simp only [resolve, ht, Option.bind] at hres
  obtain ⟨pr, hpr, -, h1, h2⟩ := (C39_literal_segments_are_matched_verbatim goRegexp _ t
    "/users/10/".toList makeParamValues _ _ ht (by decide) (by decide) (by decide) hres rfl).1
  exact ⟨pr, hpr, h1, h2⟩

/-- On a tree built from patterns whose literal segments do not begin with
':' or '*', `getRoute` does not panic on a non-empty path when the buffer has
room for the parameters of each pattern. -/
theorem getRoute_total {H : Type} (re : Regexp) (routes : List (Str × Route H)) (t : node H)
    (path : Str) (pv : List Str)
    (hbuild : addRoutes re node.empty routes = some t)
    (hlit : LiteralsOK (allSegs routes)) (hne : path ≠ [])
    (hbuf : ∀ pr ∈ routes, paramCount (segsOf pr.1) ≤ pv.length) :
    ∃ r, t.getRoute re path pv = some r := by
  have hrep := addRoutes_rep_plain re routes t hlit hbuild
  rw [getRoute_eq re t path pv hne]
  cases hf : node.find re t path with
  | none => exact ⟨_, rfl⟩
  | some x =>
    obtain ⟨m, vals⟩ := x
    obtain ⟨e, he, pre, post, hsegs, -, hlen, -⟩ :=
      find_walk (fun _ _ => True) re path.length t _ path m vals (le_refl _) hne hrep hf
    obtain ⟨pr, hpr, rfl⟩ := mem_entriesOf routes e he
    simp only at hsegs
    have hle : vals.length ≤ pv.length := by
      have h1 := hbuf pr hpr
      rw [hsegs] at h1
      have h2 : paramCount pre ≤ paramCount (pre ++ post) := by
        unfold paramCount
        rw [List.filter_append, List.length_append]
        omega
      omega
    obtain ⟨pv1, hw⟩ := writeVals_isSome pv vals 0 (by omega) (Or.inl (by omega))
    simp only [hw, Option.map_some']
    exact ⟨_, rfl⟩

/-! ## C38: the value buffer of an application -/

theorem addRoutes_append {H : Type} (re : Regexp) (A B : List (Str × Route H)) :
    ∀ (n : node H), addRoutes re n (A ++ B) = (addRoutes re n A).bind (fun t => addRoutes re t B) := by
  induction A with
  | nil => intro n; rfl
  | cons pr rest ih =>
    intro n
    obtain ⟨p, r⟩ := pr
    simp only [List.cons_append, addRoutes]
    cases n.addRoute re p r with
    | none => rfl
    | some n1 => exact ih n1

theorem lookup_cons_if {β : Type} (a k : Str) (v : β) (ps : List (Str × β)) :
    List.lookup a ((k, v) :: ps) = if a = k then some v else List.lookup a ps := by
  rw [List.lookup_cons]
  by_cases h : a = k
  · subst h
    simp
  · have hb : (a == k) = false := by simpa using h
    rw [hb, if_neg h]

theorem lookup_map_tree (m m1 : Str) (root : node Handler) (trees : List (Str × node Handler)) :
    (trees.map (fun p => if p.1 = m then (p.1, root) else p)).lookup m1
      = if m1 = m then (trees.lookup m).map (fun _ => root) else trees.lookup m1 := by
  induction trees with
  | nil => simp [List.lookup]
  | cons p ps ih =>
    obtain ⟨k, v⟩ := p
    rw [List.map_cons]
    by_cases hk : k = m
    · have hh : (if (k, v).1 = m then ((k, v).1, root) else (k, v)) = (k, root) := if_pos hk
      rw [hh, lookup_cons_if, lookup_cons_if, lookup_cons_if, ih]
      subst hk
      by_cases h1 : m1 = k
      · subst h1
        simp
      · simp [h1]
    · have hh : (if (k, v).1 = m then ((k, v).1, root) else (k, v)) = (k, v) := if_neg hk
      rw [hh, lookup_cons_if, lookup_cons_if, lookup_cons_if, ih]
      by_cases h1 : m1 = k
      · subst h1
        simp [hk]
      · by_cases h2 : m1 = m
        · subst h2
          simp [h1]
        · simp [h1, h2]

theorem lookup_append_tree (m m1 : Str) (root : node Handler) (trees : List (Str × node Handler))
    (h : trees.lookup m = none) :
    (trees ++ [(m, root)]).lookup m1 = if m1 = m then some root else trees.lookup m1 := by
  induction trees with
  | nil =>
    rw [List.nil_append, lookup_cons_if]
  | cons p ps ih =>
    obtain ⟨k, v⟩ := p
    rw [lookup_cons_if] at h
    by_cases hk : m = k
    · rw [if_pos hk] at h
      cases h
    · rw [if_neg hk] at h
      rw [List.cons_append, lookup_cons_if, lookup_cons_if, ih h]
      by_cases h1 : m1 = k
      · subst h1
        simp [Ne.symm hk]
      · simp [h1]

theorem lookup_setTree (trees : List (Str × node Handler)) (m m1 : Str) (root : node Handler) :
    (setTree trees m root).lookup m1 = if m1 = m then some root else trees.lookup m1 := by
  unfold setTree
  split
  · rename_i h
    rw [lookup_map_tree]
    obtain ⟨x, hx⟩ := Option.isSome_iff_exists.1 h
    rw [hx]
    rfl
  · rename_i h
    have hn : trees.lookup m = none := by
      cases hl : trees.lookup m with
      | none => rfl
      | some x => rw [hl] at h; simp at h
    exact lookup_append_tree m m1 root trees hn

theorem routesFor_append_same (method path : Str) (handlers : Option (List Handler))
    (done : List (Str × Str × Option (List Handler))) :
    routesFor method (done ++ [(method, path, handlers)])
      = routesFor method done ++ [(path, NewRoute method path handlers)] := by
  unfold routesFor
  rw [List.filter_append, List.map_append]
  simp

theorem routesFor_append_other (m method path : Str) (handlers : Option (List Handler))
    (done : List (Str × Str × Option (List Handler))) (h : m ≠ method) :
    routesFor m (done ++ [(method, path, handlers)]) = routesFor m done := by
  unfold routesFor
  rw [List.filter_append, List.map_append]
  have : List.filter (fun g => decide (g.1 = m)) [(method, path, handlers)] = [] := by
    simp [List.filter, Ne.symm h]
  rw [this, List.map_nil, List.append_nil]

/-- The trees of an application are the trees of the registrations of each
method, and `maxParams` is at least the count of every registered route. -/
theorem register_trees (re : Regexp) (regs : List (Str × Str × Option (List Handler))) :
    ∀ (app app1 : Application) (done : List (Str × Str × Option (List Handler))),
      Application.register re app regs = some app1 →
      (∀ m root, app.trees.lookup m = some root →
        addRoutes re node.empty (routesFor m done) = some root) →
      (∀ m, app.trees.lookup m = none → routesFor m done = []) →
      (∀ g ∈ done, (NewRoute g.1 g.2.1 g.2.2 : Route Handler).maxParams ≤ app.maxParams) →
      (∀ m root, app1.trees.lookup m = some root →
        addRoutes re node.empty (routesFor m (done ++ regs)) = some root) ∧
      (∀ g ∈ done ++ regs,
        (NewRoute g.1 g.2.1 g.2.2 : Route Handler).maxParams ≤ app1.maxParams) := by
  induction regs with
  | nil =>
    intro app app1 done h h1 _ h3
    simp only [Application.register, Option.some.injEq] at h
    subst h
    rw [List.append_nil]
    exact ⟨h1, h3⟩
  | cons g rest ih =>
    intro app app1 done h h1 h2 h3
    obtain ⟨method, path, handlers⟩ := g
    simp only [Application.register] at h
    cases hadd : app.addRoute re method path handlers with
    | none => rw [hadd] at h; cases h
    | some app2 =>
      rw [hadd] at h
      have hcons : done ++ (method, path, handlers) :: rest
          = (done ++ [(method, path, handlers)]) ++ rest := by simp
      rw [hcons]
      unfold Application.addRoute at hadd
      simp only at hadd
      cases hroot : node.addRoute re ((app.trees.lookup method).getD node.empty) path
          (NewRoute method path handlers) with
      | none => rw [hroot] at hadd; cases hadd
      | some root1 =>
        rw [hroot] at hadd
        simp only [Option.some.injEq] at hadd
        subst hadd
        have hstart : addRoutes re node.empty (routesFor method done)
            = some ((app.trees.lookup method).getD node.empty) := by
          cases hl : app.trees.lookup method with
          | none => rw [h2 method hl]; rfl
          | some root => rw [h1 method root hl]; rfl
        refine ih _ app1 _ h ?_ ?_ ?_
        · intro m root hm
          simp only at hm
          rw [lookup_setTree] at hm
          by_cases hmm : m = method
          · subst hmm
            rw [if_pos rfl] at hm
            rw [routesFor_append_same, addRoutes_append, hstart]
            simp only [Option.some_bind, addRoutes, hroot]
            exact hm
          · rw [if_neg hmm] at hm
            rw [routesFor_append_other m method path handlers done hmm]
            exact h1 m root hm
        · intro m hm
          simp only at hm
          rw [lookup_setTree] at hm
          by_cases hmm : m = method
          · rw [if_pos hmm] at hm
            cases hm
          · rw [if_neg hmm] at hm
            rw [routesFor_append_other m method path handlers done hmm]
            exact h2 m hm
        · intro g hg
          simp only
          rcases List.mem_append.1 hg with hg | hg
          · have := h3 g hg
            split_ifs <;> omega
          · simp only [List.mem_singleton] at hg
            subst hg
            simp only
            split_ifs <;> omega

theorem parseSeg_braced (s : Str) (sg : segInfo) (h : parseSeg s = some sg)
    (ht : sg.nType ≠ staticNode) : isBraced s = true := by
  unfold parseSeg at h
  cases s with
  | nil => simp at h
  | cons c tl =>
    simp only at h
    split at h
    · rename_i hc
      obtain ⟨hc1, hc2⟩ := hc
      subst hc1
      simp [isBraced, hc2]
    · simp only [Option.some.injEq] at h
      subst h
      exact absurd rfl ht

theorem paramCount_filterMap (l : List Str) :
    paramCount (l.filterMap parseSeg) ≤ (l.filter isBraced).length := by
  induction l with
  | nil => exact le_refl _
  | cons s rest ih =>
    cases hp : parseSeg s with
    | none =>
      rw [List.filterMap_cons_none hp]
      exact le_trans ih ((List.Sublist.filter _ (List.sublist_cons_self s rest)).length_le)
    | some sg =>
      rw [List.filterMap_cons_some hp]
      by_cases ht : sg.nType = staticNode
      · rw [paramCount_static sg _ ht]
        exact le_trans ih
          ((List.Sublist.filter _ (List.sublist_cons_self s rest)).length_le)
      · rw [paramCount_other sg _ ht, List.filter_cons, if_pos (parseSeg_braced s sg hp ht)]
        simp only [List.length_cons]
        omega

theorem splitSlash_dropWhile (s : Str) :
    (splitSlash (s.dropWhile (fun c => c == '/'))).Sublist (splitSlash s) := by
  induction s with
  | nil => exact List.Sublist.refl _
  | cons c cs ih =>
    by_cases hc : c = '/'
    · subst hc
      rw [List.dropWhile_cons]
      simp only [beq_self_eq_true, if_true]
      have : splitSlash ('/' :: cs) = [] :: splitSlash cs := by simp [splitSlash]
      rw [this]
      exact List.Sublist.cons _ ih
    · rw [List.dropWhile_cons]
      have hb : (c == '/') = false := by simpa using hc
      simp only [hb]
      exact List.Sublist.refl _

theorem splitSlash_dropWhile_end (r : Str) :
    (splitSlash (r.dropWhile (fun c => c == '/')).reverse).Sublist (splitSlash r.reverse) := by
  induction r with
  | nil => exact List.Sublist.refl _
  | cons c cs ih =>
    by_cases hc : c = '/'
    · subst hc
      rw [List.dropWhile_cons]
      simp only [beq_self_eq_true, if_true]
      rw [List.reverse_cons, splitSlash_append_slash]
      exact ih.trans (List.sublist_append_left _ _)
    · rw [List.dropWhile_cons]
      have hb : (c == '/') = false := by simpa using hc
      simp only [hb]
      exact List.Sublist.refl _

theorem routeParts_sublist (p : Str) : (routeParts p).Sublist (splitSlash p) := by
  unfold routeParts
  split
  · exact List.nil_sublist _
  · unfold trimSlash
    have h1 := splitSlash_dropWhile_end (p.dropWhile (fun c => c == '/')).reverse
    rw [List.reverse_reverse] at h1
    exact h1.trans (splitSlash_dropWhile p)

/-- A pattern has at most as many parameter and catch-all segments as it
has segments in braces. -/
theorem paramCount_le_braced (p : Str) : paramCount (segsOf p) ≤ bracedCount p := by
  unfold segsOf bracedCount
  exact le_trans (paramCount_filterMap _)
    ((List.Sublist.filter _ (routeParts_sublist p)).length_le)

theorem newRoute_maxParams (method path : Str) (handlers : Option (List Handler)) :
    (NewRoute method path handlers).maxParams = bracedCount path % 256 := by
  unfold NewRoute Route.buildPathTemplate bracedCount
  simp only
  congr 2
  apply List.filter_congr
  intro s _
  exact templatePart_isSome s

/-- C38: with the routes `GET /{x}` and `GET /:x/{y}`, whose segments are
not empty and which have one parameter each, `maxParams` is 1 and the request
`GET /a/b` panics with a buffer of one value: the literal `:x` is registered
on the node of the parameter `x`, so that the tree holds a pattern with two
parameters. When no literal segment begins with ':' or '*': for every
application built by `addRoute` from patterns with fewer than 256 segments in
braces each, every non-empty path and every buffer of at least `maxParams`
values, `getRoute` on the tree of a method does not panic. -/
theorem C38_buffer_has_room_without_colon_literals (re : Regexp)
    (regs : List (Str × Str × Option (List Handler))) (app : Application) (method : Str)
    (root : node Handler) (path : Str) (pv : List Str)
    (hreg : Application.register re Application.New regs = some app)
    (hlit : ∀ g ∈ regs, LiteralsOK (segsOf g.2.1))
    (hcount : ∀ g ∈ regs, bracedCount g.2.1 < 256)
    (hroot : app.trees.lookup method = some root)
    (hpath : path ≠ []) (hbuf : app.maxParams ≤ pv.length) :
    (∃ r, root.getRoute re path pv = some r) ∧
    colonApp.map (fun a => a.maxParams) = some 1 ∧
    colonApp.map (fun a => (a.trees.lookup "GET".toList).map
      (fun t => (t.getRoute goRegexp "/a/b".toList [[]]).isSome)) = some (some false) ∧
    colonApp.map (fun a => (a.ServeHTTP goRegexp 2 (poolContext a) ⟨none, []⟩
      ⟨"GET".toList, "/a/b".toList⟩).isSome) = some false := by
  refine ⟨?_, by decide, by decide, by decide⟩
  obtain ⟨h1, h2⟩ := register_trees re regs Application.New app [] hreg
    (fun m root h => by cases h) (fun m _ => rfl) (fun g hg => by cases hg)
  rw [List.nil_append] at h1 h2
  have hbuild := h1 method root hroot
  apply getRoute_total re (routesFor method regs) root path pv hbuild ?_ hpath ?_
  · intro sg hsg
    unfold allSegs at hsg
    rw [List.mem_flatMap] at hsg
    obtain ⟨pr, hpr, hsg⟩ := hsg
    unfold routesFor at hpr
    rw [List.mem_map] at hpr
    obtain ⟨g, hg, rfl⟩ := hpr
    exact hlit g (List.mem_of_mem_filter hg) sg hsg
  · intro pr hpr
    unfold routesFor at hpr
    rw [List.mem_map] at hpr
    obtain ⟨g, hg, rfl⟩ := hpr
    have hg1 := List.mem_of_mem_filter hg
    have h3 := h2 g hg1
    rw [newRoute_maxParams, Nat.mod_eq_of_lt (hcount g hg1)] at h3
    have h4 := paramCount_le_braced g.2.1
    simp only
    omega

/-- C38, witness: the application of `TestNew`, the method GET, the path
`/users` and an empty buffer. -/
theorem C38_buffer_has_room_without_colon_literals_witness :
    ∃ r, (((testNewApp.bind (fun a => a.trees.lookup "GET".toList)).getD node.empty).getRoute
      goRegexp "/users".toList []) = some r := by
  have hsome : testNewApp.isSome = true := by decide
  obtain ⟨app, happ⟩ := Option.isSome_iff_exists.1 hsome
  have hl : (testNewApp.bind (fun a => a.trees.lookup "GET".toList)).isSome = true := by decide
  obtain ⟨root, hroot⟩ := Option.isSome_iff_exists.1 hl
  rw [hroot]
  rw [happ, Option.some_bind] at hroot
  have hmax : testNewApp.map (fun a => a.maxParams) = some 0 := by decide
  rw [happ] at hmax
  simp only [Option.map_some', Option.some.injEq] at hmax
  exact (C38_buffer_has_room_without_colon_literals goRegexp _ app "GET".toList root
    "/users".toList [] happ (by decide) (by decide) hroot (by decide)
    (by rw [hmax]; exact le_refl _)).1

/-! ## C37: a trailing slash on the request path -/

theorem takeWhile_append_slash (tl : Str) :
    (tl ++ ['/']).takeWhile (fun c => c != '/') = tl.takeWhile (fun c => c != '/') ∧
    (tl ++ ['/']).dropWhile (fun c => c != '/') = tl.dropWhile (fun c => c != '/') ++ ['/'] := by
  induction tl with
  | nil => exact ⟨rfl, rfl⟩
  | cons c cs ih =>
    by_cases hc : c = '/'
    · subst hc
      exact ⟨rfl, rfl⟩
    · have hb : (c != '/') = true := by simpa using hc
      simp only [List.cons_append, List.takeWhile_cons, List.dropWhile_cons, hb, if_true]
      exact ⟨by rw [ih.1], ih.2⟩

theorem segValue_append_slash (R : Str) (hne : R ≠ []) :
    segValue (R ++ ['/']) = segValue R := by
  cases R with
  | nil => exact absurd rfl hne
  | cons c tl =>
    simp only [segValue, List.cons_append, List.drop_succ_cons, List.drop_zero]
    exact (takeWhile_append_slash tl).1

theorem segRest_append_slash (R : Str) (hne : R ≠ []) :
    segRest (R ++ ['/']) = segRest R ++ ['/'] := by
  cases R with
  | nil => exact absurd rfl hne
  | cons c tl =>
    simp only [segRest, List.cons_append, List.drop_succ_cons, List.drop_zero]
    exact (takeWhile_append_slash tl).2

theorem find_at_slash {H : Type} (re : Regexp) (c : node H) (hw : c.wChildren = none) :
    node.find re c ['/'] = if c.route.isSome then some (c, []) else none := by
  rw [find_eq, if_pos rfl, hw]
  rfl

theorem findStatic_slash {H : Type} (re : Regexp) (value rest : Str) (cs : List (node H))
    (hrec : ∀ c ∈ cs, rest ≠ [] →
      (node.find re c rest = none → node.find re c (rest ++ ['/']) = none) ∧
      (∀ m vals, node.find re c rest = some (m, vals) → m.route.isSome = true →
        node.find re c (rest ++ ['/']) = some (m, vals)))
    (hw : ∀ c ∈ cs, c.wChildren = none) :
    (findStatic re cs value rest = none → findStatic re cs value (rest ++ ['/']) = none) ∧
    (∀ m vals, findStatic re cs value rest = some (m, vals) → m.route.isSome = true →
      findStatic re cs value (rest ++ ['/']) = some (m, vals)) := by
  induction cs with
  | nil => exact ⟨fun _ => rfl, fun m vals h => by simp [findStatic] at h⟩
  | cons c cs ih =>
    have ih1 := ih (fun x hx => hrec x (List.mem_cons_of_mem _ hx))
      (fun x hx => hw x (List.mem_cons_of_mem _ hx))
    have hne2 : rest ++ ['/'] ≠ [] := by simp
    rw [findStatic, findStatic]
    by_cases hk : c.key = value
    · rw [if_pos hk, if_pos hk, if_pos hne2]
      by_cases hr : rest = []
      · subst hr
        rw [if_neg (fun h => h rfl), List.nil_append,
          find_at_slash re c (hw c (List.mem_cons_self _ _))]
        refine ⟨fun h => (by cases h), ?_⟩
        intro m vals h hm
        simp only [Option.some.injEq, Prod.mk.injEq] at h
        obtain ⟨rfl, rfl⟩ := h
        rw [if_pos hm]
      · rw [if_pos hr]
        obtain ⟨h1, h2⟩ := hrec c (List.mem_cons_self _ _) hr
        cases hf : node.find re c rest with
        | none =>
          rw [h1 hf]
          exact ih1
        | some x =>
          obtain ⟨m0, vals0⟩ := x
          refine ⟨fun h => (by cases h), ?_⟩
          intro m vals h hm
          simp only [Option.some.injEq, Prod.mk.injEq] at h
          obtain ⟨rfl, rfl⟩ := h
          rw [h2 m0 vals0 hf hm]
    · rw [if_neg hk, if_neg hk]
      exact ih1

theorem findParam_slash {H : Type} (re : Regexp) (value rest : Str) (cs : List (node H))
    (hrec : ∀ c ∈ cs, rest ≠ [] →
      (node.find re c rest = none → node.find re c (rest ++ ['/']) = none) ∧
      (∀ m vals, node.find re c rest = some (m, vals) → m.route.isSome = true →
        node.find re c (rest ++ ['/']) = some (m, vals)))
    (hw : ∀ c ∈ cs, c.wChildren = none) :
    (findParam re cs value rest = none → findParam re cs value (rest ++ ['/']) = none) ∧
    (∀ m vals, findParam re cs value rest = some (m, vals) → m.route.isSome = true →
      findParam re cs value (rest ++ ['/']) = some (m, vals)) := by
  induction cs with
  | nil => exact ⟨fun _ => rfl, fun m vals h => by simp [findParam] at h⟩
  | cons c cs ih =>
    have ih1 := ih (fun x hx => hrec x (List.mem_cons_of_mem _ hx))
      (fun x hx => hw x (List.mem_cons_of_mem _ hx))
    have hne2 : rest ++ ['/'] ≠ [] := by simp
    rw [findParam, findParam]
    by_cases hx : (match c.regex with
        | some src => !(re.matchString src value)
        | none => false) = true
    · rw [if_pos hx, if_pos hx]
      exact ih1
    · rw [if_neg hx, if_neg hx, if_pos hne2]
      by_cases hr : rest = []
      · subst hr
        rw [if_neg (fun h => h rfl), List.nil_append,
          find_at_slash re c (hw c (List.mem_cons_self _ _))]
        by_cases hrt : c.route.isSome = true
        · rw [if_pos hrt, if_pos hrt]
          refine ⟨fun h => (by cases h), ?_⟩
          intro m vals h _
          exact h
        · rw [if_neg hrt, if_neg hrt]
          exact ih1
      · rw [if_pos hr]
        obtain ⟨h1, h2⟩ := hrec c (List.mem_cons_self _ _) hr
        cases hf : node.find re c rest with
        | none =>
          rw [h1 hf]
          exact ih1
        | some x =>
          obtain ⟨m0, vals0⟩ := x
          refine ⟨fun h => (by cases h), ?_⟩
          intro m vals h hm
          simp only [Option.some.injEq, Prod.mk.injEq] at h
          obtain ⟨rfl, rfl⟩ := h
          rw [h2 m0 vals0 hf hm]

theorem rep_noCatch {H : Type} (G : Str → Option Str → Prop) (n : node H) (P : List (Entry H))
    (hrep : Rep G n P) (hno : ∀ e ∈ P, NoCatchAll e.segs) : n.wChildren = none := by
  rw [rep_iff] at hrep
  obtain ⟨-, -, -, -, -, -, -, -, hw⟩ := hrep
  cases hwc : n.wChildren with
  | none => rfl
  | some wc =>
    rw [hwc] at hw
    simp only [RepOpt] at hw
    obtain ⟨e, he, sg, rest, hsegs, ht, -⟩ := sub_head _ _ _ hw.1
    exact absurd ht (hno e he sg (by rw [hsegs]; exact List.mem_cons_self _ _))

theorem sub_noCatch {H : Type} (kind : Nat) (key : Str) (P : List (Entry H))
    (hno : ∀ e ∈ P, NoCatchAll e.segs) : ∀ e ∈ sub kind key P, NoCatchAll e.segs := by
  intro e1 he1 sg hsg
  obtain ⟨e, he, sg0, hsegs, -⟩ := (mem_sub kind key P e1).1 he1
  exact hno e he sg (by rw [hsegs]; exact List.mem_cons_of_mem _ hsg)

/-- In a tree without catch-all, a path and the path with a slash appended
have the same search result when the search of the path ends at a node with a
route or finds no node. -/
theorem find_slash {H : Type} (G : Str → Option Str → Prop) (re : Regexp) (k : Nat) :
    ∀ (n : node H) (P : List (Entry H)) (R : Str), R.length ≤ k → PathOK R → Rep G n P →
      (∀ e ∈ P, NoCatchAll e.segs) →
      (node.find re n R = none → node.find re n (R ++ ['/']) = none) ∧
      (∀ m vals, node.find re n R = some (m, vals) → m.route.isSome = true →
        node.find re n (R ++ ['/']) = some (m, vals)) := by
  induction k with
  | zero =>
    intro n P R hl hok
    exact absurd (List.length_eq_zero.1 (Nat.le_zero.1 hl)) hok.1
  | succ k ih =>
    intro n P R hl hok hrep hno
    have hne := hok.1
    have hlt := segRest_length_lt R hne
    have hwn := rep_noCatch G n P hrep hno
    rw [rep_iff] at hrep
    obtain ⟨-, -, -, -, -, -, hcs, hps, -⟩ := hrep
    have hne1 : R ≠ ['/'] := pathOK_ne_slash R hok
    have hne2 : R ++ ['/'] ≠ ['/'] := by
      cases R with
      | nil => exact absurd rfl hne
      | cons c tl => simp
    rw [find_eq re n R, find_eq re n (R ++ ['/']), if_neg hne1, if_neg hne2,
      segValue_append_slash R hne, segRest_append_slash R hne, hwn]
    obtain ⟨hs1, hs2⟩ := findStatic_slash re (segValue R) (segRest R) n.children
      (fun c hc hr => ih c _ (segRest R) (by omega) (pathOK_rest R hok hr) (hcs c hc).2
        (sub_noCatch _ _ P hno))
      (fun c hc => rep_noCatch G c _ (hcs c hc).2 (sub_noCatch _ _ P hno))
    obtain ⟨hp1, hp2⟩ := findParam_slash re (segValue R) (segRest R) n.pChildren
      (fun c hc hr => ih c _ (segRest R) (by omega) (pathOK_rest R hok hr) (hps c hc).2.2
        (sub_noCatch _ _ P hno))
      (fun c hc => rep_noCatch G c _ (hps c hc).2.2 (sub_noCatch _ _ P hno))
    cases hs : findStatic re n.children (segValue R) (segRest R) with
    | some x =>
      obtain ⟨m0, vals0⟩ := x
      refine ⟨fun h => (by cases h), ?_⟩
      intro m vals h hm
      simp only [Option.some.injEq, Prod.mk.injEq] at h
      obtain ⟨rfl, rfl⟩ := h
      rw [hs2 m0 vals0 hs hm]
    | none =>
      rw [hs1 hs]
      cases hq : findParam re n.pChildren (segValue R) (segRest R) with
      | some x =>
        obtain ⟨m0, vals0⟩ := x
        refine ⟨fun h => (by cases h), ?_⟩
        intro m vals h hm
        simp only [Option.some.injEq, Prod.mk.injEq] at h
        obtain ⟨rfl, rfl⟩ := h
        rw [hp2 m0 vals0 hq hm]
      | none =>
        rw [hp1 hq]
        exact ⟨fun _ => rfl, fun m vals h => by cases h⟩

/-- C37, counterexamples: with `/users/10/x` and `/users/{id}` registered,
`/users/10` resolves to nothing (the search stops at the node of the literal
`10`, which has no route) and `/users/10/` resolves to `/users/{id}` with
`id = 10`; with `/src/{f:*}` registered, `/src/a` binds `f` to `a` and
`/src/a/` binds it to `a/`. -/
theorem C37_counterexample_dead_end_and_catchAll :
    resolve goRegexp [("/users/10/x".toList, makeRoute "x"), ("/users/{id}".toList, makeRoute "id")]
        "/users/10".toList makeParamValues = some (⟨none, []⟩, makeParamValues) ∧
    resolve goRegexp [("/users/10/x".toList, makeRoute "x"), ("/users/{id}".toList, makeRoute "id")]
        "/users/10/".toList makeParamValues
      = some (⟨some ["id"], ["id".toList]⟩, "10".toList :: List.replicate 19 []) ∧
    resolve goRegexp [("/src/{f:*}".toList, makeRoute "f")] "/src/a".toList makeParamValues
      = some (⟨some ["f"], ["f".toList]⟩, "a".toList :: List.replicate 19 []) ∧
    resolve goRegexp [("/src/{f:*}".toList, makeRoute "f")] "/src/a/".toList makeParamValues
      = some (⟨some ["f"], ["f".toList]⟩, "a/".toList :: List.replicate 19 []) := by
  refine ⟨by decide, by decide, by decide, by decide⟩

/-- C37, amended: in a tree built from patterns without catch-all whose
literal segments do not begin with ':' or '*', for every non-empty path `p`
that does not end with '/': if `getRoute(p)` returns handlers, `getRoute(p + "/")`
returns the same handlers, names and values; and if `node.get` finds no node
for `p`, it finds none for `p + "/"`. In the tree of `tree_test.go`,
`/users/99/` resolves to `/users/{id}` with `id = 99` and `/users/10/` to the
static route. -/
theorem C37_trailing_slash_keeps_a_route {H : Type} (re : Regexp)
    (routes : List (Str × Route H)) (t : node H) (p : Str) (pv : List Str)
    (hbuild : addRoutes re node.empty routes = some t)
    (hlit : LiteralsOK (allSegs routes)) (hno : NoCatchAll (allSegs routes))
    (hp : PathOK p) :
    (∀ val pv1, t.getRoute re p pv = some (val, pv1) → val.handlers.isSome = true →
      t.getRoute re (p ++ ['/']) pv = some (val, pv1)) ∧
    (∀ pv1, node.get re t p pv 0 = some (none, pv1) →
      node.get re t (p ++ ['/']) pv 0 = some (none, pv1)) ∧
    resolve goRegexp testRoutes "/users/99/".toList makeParamValues
      = resolve goRegexp testRoutes "/users/99".toList makeParamValues ∧
    resolve goRegexp testRoutes "/users/10/".toList makeParamValues
      = resolve goRegexp testRoutes "/users/10".toList makeParamValues := by
  have hrep := addRoutes_rep_plain re routes t hlit hbuild
  have hfree : ∀ e ∈ entriesOf routes, NoCatchAll e.segs := by
    intro e he sg hsg
    obtain ⟨pr, hpr, rfl⟩ := mem_entriesOf routes e he
    exact hno sg (segsOf_mem_allSegs routes pr hpr sg hsg)
  obtain ⟨h1, h2⟩ := find_slash (fun _ _ => True) re p.length t _ p (le_refl _) hp hrep hfree
  have hne2 : p ++ ['/'] ≠ [] := by simp
  refine ⟨?_, ?_, by decide, by decide⟩
  · intro val pv1 hget hval
    obtain ⟨m, vals, rt, hfind, hrt, hv, hw⟩ := getRoute_route re t p pv pv1 val hp.1 hget hval
    rw [getRoute_eq re t _ pv hne2, h2 m vals hfind (by rw [hrt]; rfl)]
    simp only [hw, Option.map_some', hrt, hv]
  · intro pv1 hget
    rw [get_eq_find re t p pv 0 hp.1] at hget
    rw [get_eq_find re t _ pv 0 hne2]
    cases hf : node.find re t p with
    | none =>
      rw [hf] at hget
      rw [h1 hf]
      exact hget
    | some x =>
      obtain ⟨m, vals⟩ := x
      rw [hf] at hget
      simp only [getOfFind] at hget
      cases hw : writeVals pv 0 vals with
      | none => rw [hw] at hget; cases hget
      | some b =>
        rw [hw] at hget
        simp at hget

/-- C37, witness: the tree of `/users/10` and `/users/{id}` and the path
`/users/7`. -/
theorem C37_trailing_slash_keeps_a_route_witness :
    resolve goRegexp [("/users/10".toList, makeRoute "ten"), ("/users/{id}".toList, makeRoute "id")]
        "/users/7/".toList makeParamValues
      = some (⟨some ["id"], ["id".toList]⟩, "7".toList :: List.replicate 19 []) := by
  have hsome : (addRoutes goRegexp node.empty
      [("/users/10".toList, makeRoute "ten"), ("/users/{id}".toList, makeRoute "id")]).isSome
      = true := by decide
  obtain ⟨t, ht⟩ := Option.isSome_iff_exists.1 hsome
  have hres : resolve goRegexp
      [("/users/10".toList, makeRoute "ten"), ("/users/{id}".toList, makeRoute "id")]
      "/users/7".toList makeParamValues
      = some (⟨some ["id"], ["id".toList]⟩, "7".toList :: List.replicate 19 []) := by decide
  simp only [resolve, ht, Option.bind] at hres ⊢
  exact (C37_trailing_slash_keeps_a_route goRegexp _ t "/users/7".toList makeParamValues ht
    (by decide) (by decide) (by decide)).1 _ _ hres rfl

/-! ## C33: one more registration -/

/-- On a tree built from well-formed registrations with consistent
constraints, a path that some registered pattern matches and on which the
search meets no node without a route resolves to a registered pattern that
matches it, with the values that pattern binds. -/
theorem match_resolves {H : Type} (re : Regexp) (routes : List (Str × Route H)) (t : node H)
    (path : Str) (pv : List Str)
    (hbuild : addRoutes re node.empty routes = some t)
    (hlit : LiteralsOK (allSegs routes)) (hcon : ConstraintsOK (allSegs routes))
    (hpath : PathOK path)
    (hmatch : ∃ pr ∈ routes, matchesPath re pr.1 path = true)
    (hdead : NoDeadEnd re routes path)
    (hmax : ∀ pr ∈ routes, paramCount (segsOf pr.1) ≤ 256)
    (hbuf : ∀ pr ∈ routes, paramCount (segsOf pr.1) ≤ pv.length) :
    ∃ pr ∈ routes, ∃ vals ∈ matchValues re (segsOf pr.1) (pathSegs path),
      vals.length = paramCount (segsOf pr.1) ∧
      t.getRoute re path pv
        = some (⟨pr.2.handlers, namesOf (segsOf pr.1)⟩,
            vals ++ pv.drop (paramCount (segsOf pr.1))) := by
  obtain ⟨hrep, hA⟩ := addRoutes_rep re _ t hlit hcon hbuild
  have hlink : ∀ (key : Str) (rx : Option Str) (sg : segInfo) (value : Str),
      rx = regexOf (constraintOf (allSegs routes)) key →
      sg.pattern = constraintOf (allSegs routes) sg.key →
      sg.key = key → (∀ src, rx = some src → re.matchString src value = true) →
      (sg.pattern = [] ∨ re.matchString (anchored sg.pattern) value = true) := by
    intro key rx sg value hG hAsg hk hacc
    by_cases hC : constraintOf (allSegs routes) key = []
    · left; rw [hAsg, hk, hC]
    · right
      rw [hAsg, hk]
      apply hacc
      rw [hG, regexOf, if_neg hC]
  have hback : ∀ (key : Str) (rx : Option Str) (sg : segInfo) (value : Str),
      rx = regexOf (constraintOf (allSegs routes)) key →
      sg.pattern = constraintOf (allSegs routes) sg.key →
      sg.key = key → accepts re sg value →
      ∀ src, rx = some src → re.matchString src value = true := by
    intro key rx sg value hG hAsg hk hacc src hsrc
    rw [hG, regexOf] at hsrc
    by_cases hC : constraintOf (allSegs routes) key = []
    · rw [if_pos hC] at hsrc
      cases hsrc
    · rw [if_neg hC, Option.some.injEq] at hsrc
      unfold accepts at hacc
      rw [hAsg, hk] at hacc
      rcases hacc with h0 | h1
      · exact absurd h0 hC
      · rw [← hsrc]
        exact h1
  have hcongr : ∀ a b : segInfo,
      a.pattern = constraintOf (allSegs routes) a.key →
      b.pattern = constraintOf (allSegs routes) b.key →
      a.key = b.key → ∀ v, accepts re a v ↔ accepts re b v := by
    intro a b ha hb hk v
    unfold accepts
    rw [ha, hb, hk]
  obtain ⟨pr0, hpr0, hm⟩ := hmatch
  have hmem : (⟨segsOf pr0.1, namesOf (segsOf pr0.1), pr0.2⟩ : Entry H) ∈ entriesOf routes :=
    List.mem_map.2 ⟨pr0, hpr0, rfl⟩
  have hm0 : matchValues re (segsOf pr0.1) (pathSegs path) ≠ [] := by
    intro h0
    unfold matchesPath at hm
    rw [h0] at hm
    simp at hm
  have hsome := find_complete _ _ re re hback path.length t _ path (le_refl _) hpath hrep hA
    ⟨_, hmem, hm0⟩
  obtain ⟨⟨m, vals⟩, hfind⟩ := Option.isSome_iff_exists.1 hsome
  obtain ⟨e, he, pre, post, hsegs, hpre, hrm, hvals⟩ :=
    find_sound_aux _ _ re re hlink path.length t _ path m vals (le_refl _) hpath hrep hA hfind
  obtain ⟨pr, hpr, rfl⟩ := mem_entriesOf _ e he
  have hin : pre ∈ matchingPrefixes re routes path := by
    unfold matchingPrefixes
    rw [List.mem_flatMap]
    refine ⟨pr, hpr, List.mem_filter.2 ⟨(List.mem_inits _ _).2 ⟨post, hsegs.symm⟩, ?_⟩⟩
    simp only [decide_eq_true_eq]
    exact ⟨hpre, List.ne_nil_of_mem hvals⟩
  obtain ⟨pr2, hpr2, hsteps⟩ := hdead pre hin
  have hmem2 : (⟨segsOf pr2.1, namesOf (segsOf pr2.1), pr2.2⟩ : Entry H)
      ∈ entriesOf routes := List.mem_map.2 ⟨pr2, hpr2, rfl⟩
  have hend := mem_subs_of_steps pre _ _ (segsOf pr2.1) [] hmem2 (List.append_nil _).symm hsteps
  obtain ⟨r1, hr1⟩ := Option.isSome_iff_exists.1 (rep_route_isSome _ m _ hrm _ hend rfl)
  obtain ⟨e3, he3, her, hpk, hv3⟩ :=
    find_routed _ _ re re hlink hcongr t _ path m vals r1 hpath hrep hA hfind hr1
  obtain ⟨pr3, hpr3, rfl⟩ := mem_entriesOf _ e3 he3
  simp only at her hpk hv3
  have hnames := fun sg hsg => segsOf_names pr3.1 sg hsg
  have hlen : vals.length = paramCount (segsOf pr3.1) := by
    rw [matchValues_length re _ _ vals hnames hv3, namesOf_length _ hnames]
  have h1 := hmax pr3 hpr3
  have h2 := hbuf pr3 hpr3
  refine ⟨pr3, hpr3, vals, hv3, hlen, ?_⟩
  rw [getRoute_eq re t path pv hpath.1, hfind]
  simp only
  rw [writeVals_eq pv vals 0 (by omega) (by omega), hr1, hpk, ← her, ← hlen]
  simp

theorem allSegs_append_left {H : Type} (L M : List (Str × Route H)) (sg : segInfo)
    (h : sg ∈ allSegs L) : sg ∈ allSegs (L ++ M) := by
  unfold allSegs at h ⊢
  rw [List.flatMap_append]
  exact List.mem_append_left _ h

/-- C33, counterexample: the tree of `/{p}` resolves the path `/a`; after
`addRoute("/a/b")` the path `/a` resolves to nothing, because the search
stops at the new node of the literal `a`, which has no route. -/
theorem C33_counterexample_new_literal_node :
    resolve goRegexp [("/{p}".toList, makeRoute "p")] "/a".toList makeParamValues
      = some (⟨some ["p"], ["p".toList]⟩, "a".toList :: List.replicate 19 []) ∧
    resolve goRegexp [("/{p}".toList, makeRoute "p"), ("/a/b".toList, makeRoute "ab")]
        "/a".toList makeParamValues
      = some (⟨none, []⟩, makeParamValues) :=
  ⟨by decide, by decide⟩

/-- C33, amended: let a tree be built from a list of patterns, and let
`addRoute(p, r)` succeed on it, where in the list with `(p, r)` appended no
literal segment begins with ':' or '*', parameters of the same name carry the
same constraint, every pattern has at most 256 parameters and the buffer has
room for them. For every non-empty path that does not end in '/' and on which
every beginning of a pattern that matches the whole path walks the nodes of a
registered pattern: if `getRoute` returned handlers before `addRoute(p, r)`,
it returns afterwards the handlers and names of a registered pattern that
matches the path. -/
theorem C33_registration_keeps_a_match {H : Type} (re : Regexp) (L : List (Str × Route H))
    (p : Str) (r : Route H) (t t1 : node H) (path : Str) (pv pv0 : List Str)
    (val : nodeValue H)
    (hbuild : addRoutes re node.empty L = some t)
    (hadd : t.addRoute re p r = some t1)
    (hlit : LiteralsOK (allSegs (L ++ [(p, r)])))
    (hcon : ConstraintsOK (allSegs (L ++ [(p, r)])))
    (hpath : PathOK path)
    (hdead : NoDeadEnd re (L ++ [(p, r)]) path)
    (hmax : ∀ pr ∈ L ++ [(p, r)], paramCount (segsOf pr.1) ≤ 256)
    (hbuf : ∀ pr ∈ L ++ [(p, r)], paramCount (segsOf pr.1) ≤ pv.length)
    (hget : t.getRoute re path pv = some (val, pv0)) (hval : val.handlers.isSome = true) :
    ∃ pr ∈ L ++ [(p, r)], matchesPath re pr.1 path = true ∧
      ∃ pv1, t1.getRoute re path pv = some (⟨pr.2.handlers, namesOf (segsOf pr.1)⟩, pv1) := by
  have hbuild1 : addRoutes re node.empty (L ++ [(p, r)]) = some t1 := by
    rw [addRoutes_append, hbuild]
    simp only [Option.some_bind, addRoutes, hadd]
  have hlit0 : LiteralsOK (allSegs L) := fun sg hsg => hlit sg (allSegs_append_left L _ sg hsg)
  have hcon0 : ConstraintsOK (allSegs L) := fun a ha b hb =>
    hcon a (allSegs_append_left L _ a ha) b (allSegs_append_left L _ b hb)
  have hmatch : ∃ pr ∈ L ++ [(p, r)], matchesPath re pr.1 path = true := by
    rcases getRoute_sound re L t path pv hbuild hlit0 hcon0 hpath (by
      intro pr hpr
      rw [namesOf_length _ (fun sg hsg => segsOf_names pr.1 sg hsg)]
      exact hbuf pr (List.mem_append_left _ hpr)) with ⟨pv1, h⟩ | ⟨pr, hpr, vals, hv, pv1, -, -⟩
    · rw [hget, Option.some.injEq, Prod.mk.injEq] at h
      rw [h.1] at hval
      cases hval
    · refine ⟨pr, List.mem_append_left _ hpr, ?_⟩
      unfold matchesPath
      have hne := List.ne_nil_of_mem hv
      cases hmv : matchValues re (segsOf pr.1) (pathSegs path) with
      | nil => exact absurd hmv hne
      | cons a b => rfl
  obtain ⟨pr, hpr, vals, hv, -, hres⟩ :=
    match_resolves re _ t1 path pv hbuild1 hlit hcon hpath hmatch hdead hmax hbuf
  refine ⟨pr, hpr, ?_, _, hres⟩
  unfold matchesPath
  have hne := List.ne_nil_of_mem hv
  cases hmv : matchValues re (segsOf pr.1) (pathSegs path) with
  | nil => exact absurd hmv hne
  | cons a b => rfl

/-- C33, amended, witness: the tree of `/{p}`, the pattern `/a/b` and the
path `/c`. -/
theorem C33_registration_keeps_a_match_witness :
    ∃ pr ∈ [("/{p}".toList, makeRoute "p"), ("/a/b".toList, makeRoute "ab")],
      matchesPath goRegexp pr.1 "/c".toList = true ∧
      ∃ pv1, resolve goRegexp [("/{p}".toList, makeRoute "p"), ("/a/b".toList, makeRoute "ab")]
        "/c".toList makeParamValues = some (⟨pr.2.handlers, namesOf (segsOf pr.1)⟩, pv1) := by
  have hsome : (addRoutes goRegexp node.empty [("/{p}".toList, makeRoute "p")]).isSome
      = true := by decide
  obtain ⟨t, ht⟩ := Option.isSome_iff_exists.1 hsome
  have hsome1 : (addRoutes goRegexp node.empty
      [("/{p}".toList, makeRoute "p"), ("/a/b".toList, makeRoute "ab")]).isSome = true := by
    decide
  obtain ⟨t1, ht1⟩ := Option.isSome_iff_exists.1 hsome1
  have hadd : t.addRoute goRegexp "/a/b".toList (makeRoute "ab") = some t1 := by
    have h := ht1
    rw [show [("/{p}".toList, makeRoute "p"), ("/a/b".toList, makeRoute "ab")]
      = [("/{p}".toList, makeRoute "p")] ++ [("/a/b".toList, makeRoute "ab")] from rfl,
      addRoutes_append, ht] at h
    simp only [Option.some_bind, addRoutes] at h
    cases hx : t.addRoute goRegexp "/a/b".toList (makeRoute "ab") with
    | none => rw [hx] at h; cases h
    | some x => rw [hx] at h; exact h
  have hres : resolve goRegexp [("/{p}".toList, makeRoute "p")] "/c".toList makeParamValues
      = some (⟨some ["p"], ["p".toList]⟩, "c".toList :: List.replicate 19 []) := by decide
  simp only [resolve, ht, Option.bind] at hres
  simp only [resolve, ht1, Option.bind]
  exact C33_registration_keeps_a_match goRegexp [("/{p}".toList, makeRoute "p")] "/a/b".toList
    (makeRoute "ab") t t1 "/c".toList makeParamValues _ _ ht hadd (by decide) (by decide)
    (by decide) (by decide) (by decide) (by decide) hres rfl

/-! ## C40: from a pattern to a path and back -/

/-- The text `url.QueryEscape` returns contains no colon. -/
theorem queryEscape_noColon (s : Str) : ':' ∉ QueryEscape s := by
  unfold QueryEscape
  rw [List.mem_flatMap]
  rintro ⟨c, -, hc⟩
  split at hc
  · rename_i hu
    rw [List.mem_singleton] at hc
    rw [← hc] at hu
    revert hu
    decide
  · split at hc
    · rw [List.mem_singleton] at hc
      revert hc
      decide
    · rw [List.mem_flatMap] at hc
      obtain ⟨b, -, hb⟩ := hc
      simp only [List.mem_cons, List.mem_singleton, List.not_mem_nil, or_false] at hb
      rcases hb with h1 | h1 | h1
      · revert h1; decide
      · have := hexDigit_mem (b / 16)
        rw [← h1] at this
        revert this
        decide
      · have := hexDigit_mem (b % 16)
        rw [← h1] at this
        revert this
        decide

theorem utf8Bytes_ne_nil (c : Char) : utf8Bytes c ≠ [] := by
  unfold utf8Bytes
  simp only
  split_ifs <;> simp

theorem queryEscape_ne_nil (s : Str) (h : s ≠ []) : QueryEscape s ≠ [] := by
  obtain ⟨c, cs, rfl⟩ := List.exists_cons_of_ne_nil h
  unfold QueryEscape
  rw [List.flatMap_cons]
  intro h0
  have h1 := (List.append_eq_nil.1 h0).1
  by_cases hu : unreserved c = true
  · rw [if_pos hu] at h1
    cases h1
  · rw [if_neg hu] at h1
    by_cases hsp : c = ' '
    · rw [if_pos hsp] at h1
      cases h1
    · rw [if_neg hsp] at h1
      obtain ⟨b, bs, hb⟩ := List.exists_cons_of_ne_nil (utf8Bytes_ne_nil c)
      rw [hb, List.flatMap_cons] at h1
      cases h1

theorem replace_self (old new : Str) (hne : old ≠ []) : stringsReplaceAll old old new = new := by
  unfold stringsReplaceAll
  rw [if_neg hne]
  obtain ⟨o, os, rfl⟩ := List.exists_cons_of_ne_nil hne
  have hp : (o :: os).isPrefixOf (o :: os) = true := by
    rw [List.isPrefixOf_iff_prefix]
  simp only [replaceFrom, hp, if_true, List.length_cons, Nat.add_sub_cancel]
  rw [replaceFrom_skip, List.drop_length]
  simp [replaceFrom]

theorem replace_no_colon (s k new : Str) (h : ':' ∉ s) :
    stringsReplaceAll s (':' :: k) new = s := by
  unfold stringsReplaceAll
  rw [if_neg (by simp)]
  exact replaceFrom_no_head ':' k new s h

theorem valueFor_nil (name : Str) : valueFor [] name = ':' :: name := rfl

theorem valueFor_found (kvs : List (Value × Value)) (name : Str) (p : Value × Value)
    (h : kvs.find? (fun p => decide (Sprint p.1 = name)) = some p) :
    valueFor kvs name = QueryEscape (Sprint p.2) := by
  unfold valueFor
  rw [h]

theorem valueFor_append (done : List (Value × Value)) (k v : Value) (name : Str) :
    valueFor (done ++ [(k, v)]) name =
      if (done.find? (fun p => decide (Sprint p.1 = name))).isSome then valueFor done name
      else if Sprint k = name then QueryEscape (Sprint v) else ':' :: name := by
  unfold valueFor
  rw [List.find?_append]
  cases hf : done.find? (fun p => decide (Sprint p.1 = name)) with
  | some p => simp
  | none =>
    by_cases hk : Sprint k = name
    · simp [List.find?, hk]
    · simp [List.find?, hk]

/-- One replacement of `URL` on a segment of the template. -/
theorem fill_step (done : List (Value × Value)) (k v : Value) (sg : PatSeg)
    (hlit : ∀ s, sg = .lit s → ':' ∉ s)
    (hpar : ∀ n, sg = .par n → ':' ∉ n ∧ (Sprint k = n ∨ ¬ Sprint k <+: n)) :
    stringsReplaceAll (sg.fill done) (':' :: Sprint k) (QueryEscape (Sprint v))
      = sg.fill (done ++ [(k, v)]) := by
  cases sg with
  | lit s => exact replace_no_colon s _ _ (hlit s rfl)
  | par n =>
    obtain ⟨hn, hk⟩ := hpar n rfl
    simp only [PatSeg.fill]
    rw [valueFor_append]
    cases hf : done.find? (fun p => decide (Sprint p.1 = n)) with
    | some p =>
      simp only [Option.isSome_some, if_true]
      rw [valueFor_found done n p hf]
      exact replace_no_colon _ _ _ (queryEscape_noColon _)
    | none =>
      have hv : valueFor done n = ':' :: n := by
        unfold valueFor
        rw [hf]
      simp only [Option.isSome_none, Bool.false_eq_true, if_false]
      rw [hv]
      by_cases hkn : Sprint k = n
      · rw [if_pos hkn, hkn]
        exact replace_self _ _ (by simp)
      · rw [if_neg hkn]
        rcases hk with hk | hk
        · exact absurd hk hkn
        · exact replace_placeholder (Sprint k) n _ hn hk

theorem fill_noSlash (kvs : List (Value × Value)) (sg : PatSeg)
    (hlit : ∀ s, sg = .lit s → '/' ∉ s) (hpar : ∀ n, sg = .par n → '/' ∉ n) :
    '/' ∉ sg.fill kvs := by
  cases sg with
  | lit s => exact hlit s rfl
  | par n =>
    simp only [PatSeg.fill]
    unfold valueFor
    cases kvs.find? (fun p => decide (Sprint p.1 = n)) with
    | some p => exact queryEscape_noSlash _
    | none =>
      intro hm
      rcases List.mem_cons.1 hm with h1 | h1
      · exact absurd h1 (by decide)
      · exact hpar n rfl h1

theorem mem_parNames (segs : List PatSeg) (n : Str) : n ∈ parNames segs ↔ PatSeg.par n ∈ segs := by
  induction segs with
  | nil => simp [parNames]
  | cons sg rest ih =>
    cases sg with
    | lit s => simp [parNames, ih]
    | par m => simp [parNames, ih]

/-- The loop of `URL` on the template of a pattern of literals and
parameters: every placeholder receives the value of its name. -/
theorem url_fill (segs : List PatSeg)
    (hlit : ∀ s, PatSeg.lit s ∈ segs → '/' ∉ s ∧ ':' ∉ s)
    (hpar : ∀ n ∈ parNames segs, '/' ∉ n ∧ ':' ∉ n)
    (hfree : ∀ a ∈ parNames segs, ∀ b ∈ parNames segs, a <+: b → a = b)
    (kvs : List (Value × Value)) (hkeys : ∀ p ∈ kvs, Sprint p.1 ∈ parNames segs) :
    ∀ done : List (Value × Value),
      kvs.foldl (fun s p => stringsReplaceAll s (':' :: Sprint p.1) (QueryEscape (Sprint p.2)))
          (joinSlash ([] :: segs.map (PatSeg.fill done)))
        = joinSlash ([] :: segs.map (PatSeg.fill (done ++ kvs))) := by
  induction kvs with
  | nil =>
    intro done
    rw [List.append_nil]
    rfl
  | cons p kvs ih =>
    intro done
    obtain ⟨k, v⟩ := p
    have hk := hkeys (k, v) (List.mem_cons_self _ _)
    have hks := hpar _ hk
    have hold : '/' ∉ ':' :: Sprint k := by
      intro hm
      rcases List.mem_cons.1 hm with h1 | h1
      · exact absurd h1 (by decide)
      · exact hks.1 h1
    rw [List.foldl_cons]
    simp only
    rw [replace_joinSlash _ _ (by simp) hold]
    · have hmap : ([] :: segs.map (PatSeg.fill done)).map
          (fun s => stringsReplaceAll s (':' :: Sprint k) (QueryEscape (Sprint v)))
          = [] :: segs.map (PatSeg.fill (done ++ [(k, v)])) := by
        rw [List.map_cons, List.map_map]
        congr 1
        apply List.map_congr_left
        intro sg hsg
        simp only [Function.comp]
        apply fill_step
        · intro s hs
          rw [hs] at hsg
          exact (hlit s hsg).2
        · intro n hn
          rw [hn] at hsg
          have hn1 := (mem_parNames segs n).2 hsg
          refine ⟨(hpar n hn1).2, ?_⟩
          by_cases hkn : Sprint k = n
          · exact Or.inl hkn
          · exact Or.inr (fun hp => hkn (hfree _ hk _ hn1 hp))
      rw [hmap, ih (fun p hp => hkeys p (List.mem_cons_of_mem _ hp)) (done ++ [(k, v)])]
      simp
    · intro s hs
      rcases List.mem_cons.1 hs with h1 | h1
      · rw [h1]
        simp
      · obtain ⟨sg, hsg, rfl⟩ := List.mem_map.1 h1
        apply fill_noSlash
        · intro s hs
          rw [hs] at hsg
          exact (hlit s hsg).1
        · intro n hn
          rw [hn] at hsg
          exact (hpar n ((mem_parNames segs n).2 hsg)).1
theorem joinPath_eq_joinSlash (texts : List Str) (hne : texts ≠ []) :
    joinPath texts = joinSlash ([] :: texts) := by
  induction texts with
  | nil => exact absurd rfl hne
  | cons w rest ih =>
    rw [joinPath_cons, joinSlash_cons_cons, List.nil_append]
    cases rest with
    | nil => rw [joinPath_nil, List.append_nil, joinSlash_single]
    | cons x rest2 =>
      rw [ih (by simp), joinSlash_cons_cons, joinSlash_cons_cons, List.nil_append]

theorem templatePart_literal (s : Str)
    (h : ¬ (s.head? = some '{' ∧ s.getLast? = some '}')) : templatePart s = none := by
  unfold templatePart
  cases s with
  | nil => rfl
  | cons c tl =>
    simp only
    rw [if_pos]
    by_contra hc
    rw [not_or, not_not, not_not] at hc
    apply h
    rw [hc.1]
    exact ⟨rfl, by rw [← hc.1]; exact hc.2⟩

theorem braces_noSlash (n : Str) (h : '/' ∉ n) : '/' ∉ braces n := by
  unfold braces
  intro hm
  rcases List.mem_cons.1 hm with h1 | h1
  · exact absurd h1 (by decide)
  · rcases List.mem_append.1 h1 with h2 | h2
    · exact h h2
    · rw [List.mem_singleton] at h2
      exact absurd h2 (by decide)

theorem text_ok (segs : List PatSeg)
    (hlit : ∀ s, PatSeg.lit s ∈ segs → Literal s ∧ ':' ∉ s)
    (hpar : ∀ n ∈ parNames segs, '/' ∉ n ∧ ':' ∉ n) :
    ∀ s ∈ segs.map PatSeg.text, s ≠ [] ∧ '/' ∉ s := by
  intro s hs
  obtain ⟨sg, hsg, rfl⟩ := List.mem_map.1 hs
  cases sg with
  | lit s => exact ⟨(hlit s hsg).1.1, (hlit s hsg).1.2.1⟩
  | par n =>
    exact ⟨by simp [PatSeg.text, braces],
      braces_noSlash n (hpar n ((mem_parNames segs n).2 hsg)).1⟩

/-- The template `NewRoute` builds for a pattern of literals and
parameters. -/
theorem newRoute_path {H : Type} (method : Str) (handlers : Option (List H))
    (segs : List PatSeg) (hsegs : segs ≠ [])
    (hlit : ∀ s, PatSeg.lit s ∈ segs → Literal s ∧ ':' ∉ s)
    (hpar : ∀ n ∈ parNames segs, '/' ∉ n ∧ ':' ∉ n) :
    (NewRoute method (patternOf segs) handlers).path
      = joinSlash ([] :: segs.map (PatSeg.fill [])) := by
  have htexts : segs.map PatSeg.text ≠ [] := by simpa using hsegs
  have hok := text_ok segs hlit hpar
  unfold NewRoute Route.buildPathTemplate patternOf
  simp only
  rw [joinPath_eq_joinSlash _ htexts, splitSlash_joinSlash _ (by simp)]
  · congr 1
    rw [List.map_cons, List.map_map]
    congr 1
    apply List.map_congr_left
    intro sg hsg
    simp only [Function.comp]
    cases sg with
    | lit s =>
      rw [PatSeg.text, templatePart_literal s (hlit s hsg).1.2.2.1]
      rfl
    | par n =>
      rw [PatSeg.text, templatePart_plain n (hpar n ((mem_parNames segs n).2 hsg)).2]
      rfl
  · intro s hs
    rcases List.mem_cons.1 hs with h1 | h1
    · rw [h1]
      simp
    · exact (hok s h1).2

/-- What `addRoute` leaves in a new application. -/
theorem new_addRoute (re : Regexp) (method path : Str) (handlers : Option (List Handler))
    (app : Application)
    (hadd : Application.New.addRoute re method path handlers = some app) :
    ∃ root, node.addRoute re node.empty path (NewRoute method path handlers) = some root ∧
      app.routes = [NewRoute method path handlers] ∧ app.trees.lookup method = some root := by
  unfold Application.addRoute at hadd
  simp only at hadd
  have hl : Application.New.trees.lookup method = none := rfl
  rw [hl] at hadd
  simp only [Option.getD_none] at hadd
  cases hroot : node.addRoute re node.empty path (NewRoute method path handlers) with
  | none => rw [hroot] at hadd; cases hadd
  | some root =>
    rw [hroot] at hadd
    simp only [Option.some.injEq] at hadd
    subst hadd
    refine ⟨root, rfl, rfl, ?_⟩
    simp only
    rw [lookup_setTree, if_pos rfl]

theorem segsOf_patternOf (segs : List PatSeg) (hsegs : segs ≠ [])
    (hlit : ∀ s, PatSeg.lit s ∈ segs → Literal s ∧ ':' ∉ s)
    (hpar : ∀ n ∈ parNames segs, '/' ∉ n ∧ ':' ∉ n) :
    segsOf (patternOf segs) = segs.map PatSeg.info := by
  have hok := text_ok segs hlit hpar
  unfold segsOf patternOf
  obtain ⟨sg0, rest0, hs0⟩ := List.exists_cons_of_ne_nil hsegs
  have hparts : routeParts (joinPath (segs.map PatSeg.text)) = segs.map PatSeg.text := by
    rw [hs0, List.map_cons]
    apply routeParts_joinPath
    rw [← List.map_cons, ← hs0]
    exact hok
  rw [hparts]
  have key : ∀ l : List PatSeg, (∀ sg ∈ l, sg ∈ segs) →
      (l.map PatSeg.text).filterMap parseSeg = l.map PatSeg.info := by
    intro l
    induction l with
    | nil => intro _; rfl
    | cons sg rest ih =>
      intro hl
      have hsg := hl sg (List.mem_cons_self _ _)
      have hp : parseSeg sg.text = some sg.info := by
        cases sg with
        | lit s => exact parseSeg_literal s (hlit s hsg).1.1 (hlit s hsg).1.2.2.1
        | par n => exact parseSeg_param n (hpar n ((mem_parNames segs n).2 hsg)).2
      rw [List.map_cons, List.filterMap_cons_some hp, List.map_cons,
        ih (fun x hx => hl x (List.mem_cons_of_mem _ hx))]
  exact key segs (fun _ h => h)

theorem matchValues_fill (re : Regexp) (kvs : List (Value × Value)) (segs : List PatSeg) :
    matchValues re (segs.map PatSeg.info) (segs.map (PatSeg.fill kvs))
      = [(parNames segs).map (valueFor kvs)] := by
  induction segs with
  | nil => simp [matchValues, parNames]
  | cons sg rest ih =>
    cases sg with
    | lit s =>
      simp only [List.map_cons, PatSeg.info, PatSeg.fill, literalSeg, matchValues, if_true,
        parNames]
      exact ih
    | par n =>
      have h1 : ¬ (paramNode = staticNode) := by decide
      simp only [List.map_cons, PatSeg.info, PatSeg.fill, matchValues, h1, if_false, if_true,
        true_or, parNames]
      rw [ih]
      rfl

theorem namesOf_info (segs : List PatSeg) : namesOf (segs.map PatSeg.info) = parNames segs := by
  induction segs with
  | nil => rfl
  | cons sg rest ih =>
    cases sg with
    | lit s =>
      rw [List.map_cons, namesOf_cons, ih]
      rfl
    | par n =>
      rw [List.map_cons, namesOf_cons, ih]
      rfl

theorem paramCount_info (segs : List PatSeg) :
    paramCount (segs.map PatSeg.info) = (parNames segs).length := by
  induction segs with
  | nil => rfl
  | cons sg rest ih =>
    cases sg with
    | lit s =>
      rw [List.map_cons, paramCount_static _ _ rfl, ih]
      rfl
    | par n =>
      rw [List.map_cons, paramCount_other _ _ (show paramNode ≠ staticNode by decide), ih]
      rfl

/-- A beginning of a pattern without catch-all that matches a path has as
many segments as the path. -/
theorem matchValues_same_length (re : Regexp) (pre : List segInfo) :
    ∀ vs : List Str, NoCatchAll pre → matchValues re pre vs ≠ [] → pre.length = vs.length := by
  induction pre with
  | nil =>
    intro vs _ h
    rw [matchValues] at h
    by_cases hv : vs = []
    · subst hv
      rfl
    · rw [if_neg hv] at h
      exact absurd rfl h
  | cons sg rest ih =>
    intro vs hno h
    have hrest : NoCatchAll rest := fun x hx => hno x (List.mem_cons_of_mem _ hx)
    have hsg := hno sg (List.mem_cons_self _ _)
    cases vs with
    | nil =>
      exfalso
      apply h
      simp only [matchValues]
      split_ifs <;> simp
    | cons v tl =>
      simp only [List.length_cons, add_left_inj]
      apply ih tl hrest
      intro h3
      apply h
      simp only [matchValues, h3, List.map_nil]
      split_ifs <;> simp [hsg] at *

theorem fill_ok (segs : List PatSeg) (kvs : List (Value × Value))
    (hlit : ∀ s, PatSeg.lit s ∈ segs → Literal s ∧ ':' ∉ s)
    (hpar : ∀ n ∈ parNames segs, '/' ∉ n ∧ ':' ∉ n)
    (hall : ∀ n ∈ parNames segs, ∃ p ∈ kvs, Sprint p.1 = n)
    (hvals : ∀ p ∈ kvs, Sprint p.2 ≠ []) :
    ∀ s ∈ segs.map (PatSeg.fill kvs), s ≠ [] ∧ '/' ∉ s := by
  intro s hs
  obtain ⟨sg, hsg, rfl⟩ := List.mem_map.1 hs
  refine ⟨?_, fill_noSlash kvs sg (fun s hs => by rw [hs] at hsg; exact (hlit s hsg).1.2.1)
    (fun n hn => by rw [hn] at hsg; exact (hpar n ((mem_parNames segs n).2 hsg)).1)⟩
  cases sg with
  | lit s => exact (hlit s hsg).1.1
  | par n =>
    obtain ⟨p, hp, hpn⟩ := hall n ((mem_parNames segs n).2 hsg)
    simp only [PatSeg.fill]
    cases hf : kvs.find? (fun p => decide (Sprint p.1 = n)) with
    | none =>
      rw [List.find?_eq_none] at hf
      have := hf p hp
      simp [hpn] at this
    | some q =>
      rw [valueFor_found kvs n q hf]
      exact queryEscape_ne_nil _ (hvals q (List.mem_of_find?_eq_some hf))

/-- The path that fills a pattern of literals and parameters resolves to the
route of the pattern, which binds the filled values in order. -/
theorem filled_path_resolves {H : Type} (re : Regexp) (segs : List PatSeg)
    (kvs : List (Value × Value)) (r : Route H) (root : node H) (pv : List Str)
    (hsegs : segs ≠ [])
    (hlit : ∀ s, PatSeg.lit s ∈ segs → Literal s ∧ ':' ∉ s)
    (hpar : ∀ n ∈ parNames segs, '/' ∉ n ∧ ':' ∉ n)
    (hall : ∀ n ∈ parNames segs, ∃ p ∈ kvs, Sprint p.1 = n)
    (hvals : ∀ p ∈ kvs, Sprint p.2 ≠ [])
    (hcount : (parNames segs).length ≤ 256) (hbuf : (parNames segs).length ≤ pv.length)
    (hroot : node.addRoute re node.empty (patternOf segs) r = some root) :
    root.getRoute re (joinPath (segs.map (PatSeg.fill kvs))) pv
      = some (⟨r.handlers, parNames segs⟩,
          (parNames segs).map (valueFor kvs) ++ pv.drop (parNames segs).length) := by
  have hS := segsOf_patternOf segs hsegs hlit hpar
  have hfill := fill_ok segs kvs hlit hpar hall hvals
  obtain ⟨sg0, rest0, hs0⟩ := List.exists_cons_of_ne_nil hsegs
  have hvne : segs.map (PatSeg.fill kvs) ≠ [] := by simpa using hsegs
  have hps : pathSegs (joinPath (segs.map (PatSeg.fill kvs))) = segs.map (PatSeg.fill kvs) := by
    have h1 := hfill
    rw [hs0, List.map_cons] at h1 ⊢
    exact pathSegs_joinPath _ _ (h1 _ (List.mem_cons_self _ _)).2
      (fun s hs => (h1 s (List.mem_cons_of_mem _ hs)).2)
  have hpath : PathOK (joinPath (segs.map (PatSeg.fill kvs))) := by
    refine ⟨?_, ?_⟩
    · rw [Ne, joinPath_eq_nil]
      exact hvne
    · have := getLast?_joinPath _ hvne hfill []
      rwa [List.nil_append] at this
  have hbuild : addRoutes re node.empty [(patternOf segs, r)] = some root := by
    simp only [addRoutes, hroot]
  have hall1 : allSegs [(patternOf segs, r)] = segs.map PatSeg.info := by
    simp [allSegs, hS]
  have hinfo : ∀ sg ∈ segs.map PatSeg.info,
      (sg.nType = staticNode → sg.key.head? ≠ some ':' ∧ sg.key.head? ≠ some '*') ∧
      sg.pattern = [] ∧ sg.nType ≠ catchAllNode := by
    intro sg hsg
    obtain ⟨ps, hps, rfl⟩ := List.mem_map.1 hsg
    cases ps with
    | lit s =>
      exact ⟨fun _ => ⟨(hlit s hps).1.2.2.2.1, (hlit s hps).1.2.2.2.2⟩, rfl,
        (show staticNode ≠ catchAllNode by decide)⟩
    | par n =>
      exact ⟨fun h => absurd h (show paramNode ≠ staticNode by decide), rfl,
        (show paramNode ≠ catchAllNode by decide)⟩
  have hmv : matchValues re (segsOf (patternOf segs))
      (pathSegs (joinPath (segs.map (PatSeg.fill kvs))))
      = [(parNames segs).map (valueFor kvs)] := by
    rw [hS, hps]
    exact matchValues_fill re kvs segs
  obtain ⟨pr, hpr, vals, hv, -, hres⟩ := match_resolves re [(patternOf segs, r)] root
    (joinPath (segs.map (PatSeg.fill kvs))) pv hbuild
    (by
      rw [hall1]
      intro sg hsg h0
      exact (hinfo sg hsg).1 h0)
    (by
      rw [hall1]
      intro a ha b hb _ _ _
      rw [(hinfo a ha).2.1, (hinfo b hb).2.1])
    hpath
    ⟨(patternOf segs, r), List.mem_singleton_self _, by
      unfold matchesPath
      simp only
      rw [hmv]
      rfl⟩
    (by
      intro pre hpre
      unfold matchingPrefixes at hpre
      rw [List.mem_flatMap] at hpre
      obtain ⟨pr, hpr, hin⟩ := hpre
      rw [List.mem_singleton] at hpr
      subst hpr
      rw [List.mem_filter, List.mem_inits] at hin
      obtain ⟨hprefix1, hdec⟩ := hin
      simp only [decide_eq_true_eq] at hdec
      simp only at hprefix1
      rw [hS] at hprefix1
      have hno : NoCatchAll pre := fun sg hsg => (hinfo sg (hprefix1.subset hsg)).2.2
      have hlen := matchValues_same_length re pre _ hno hdec.2
      rw [hps, List.length_map] at hlen
      have heq : pre = segs.map PatSeg.info :=
        hprefix1.eq_of_length (by rw [hlen, List.length_map])
      refine ⟨(patternOf segs, r), List.mem_singleton_self _, ?_⟩
      simp only
      rw [hS, heq])
    (by
      intro pr hpr
      rw [List.mem_singleton] at hpr
      subst hpr
      simp only
      rw [hS, paramCount_info]
      exact hcount)
    (by
      intro pr hpr
      rw [List.mem_singleton] at hpr
      subst hpr
      simp only
      rw [hS, paramCount_info]
      exact hbuf)
  rw [List.mem_singleton] at hpr
  subst hpr
  simp only at hv hres
  rw [hmv, List.mem_singleton] at hv
  rw [hres, hv, hS, namesOf_info, paramCount_info]
/-- The result of `URL` for a route registered with a pattern of literals
and parameters: the pattern with every parameter replaced by the value of its
name. -/
theorem url_of_pattern (re : Regexp) (method name : Str) (handlers : Option (List Handler))
    (segs : List PatSeg) (kvs : List (Value × Value)) (app : Application)
    (hsegs : segs ≠ [])
    (hlit : ∀ s, PatSeg.lit s ∈ segs → Literal s ∧ ':' ∉ s)
    (hpar : ∀ n ∈ parNames segs, '/' ∉ n ∧ ':' ∉ n)
    (hfree : ∀ a ∈ parNames segs, ∀ b ∈ parNames segs, a <+: b → a = b)
    (hkeys : ∀ p ∈ kvs, Sprint p.1 ∈ parNames segs)
    (hadd : Application.New.addRoute re method (patternOf segs) handlers = some app) :
    (app.nameRoute 0 name).URL name (pairArgs kvs) = joinPath (segs.map (PatSeg.fill kvs)) := by
  obtain ⟨root, -, hroutes, -⟩ := new_addRoute re method _ handlers app hadd
  have hvne : segs.map (PatSeg.fill kvs) ≠ [] := by simpa using hsegs
  unfold Application.URL Application.nameRoute pairArgs
  simp only [hroutes, List.modify, List.modifyTailIdx, List.modifyHead, urlScan, Route.Name,
    if_true]
  rw [urlPairs_pairs, newRoute_path method handlers segs hsegs hlit hpar,
    url_fill segs (fun s hs => ⟨(hlit s hs).1.2.1, (hlit s hs).2⟩) hpar hfree kvs hkeys [],
    List.nil_append, joinPath_eq_joinSlash _ hvne]

theorem parNames_wide : parNames wideSegs = wideNames := by
  unfold wideSegs
  induction wideNames with
  | nil => rfl
  | cons n rest ih => rw [List.map_cons, parNames, ih]

set_option maxRecDepth 100000 in
theorem wideNames_length : wideNames.length = 257 := by
  decide

theorem wideSegs_ne_nil : wideSegs ≠ [] := by
  intro h
  have h1 := congrArg List.length h
  unfold wideSegs at h1
  rw [List.length_map, wideNames_length] at h1
  cases h1

theorem mem_litTexts (segs : List PatSeg) (s : Str) : s ∈ litTexts segs ↔ PatSeg.lit s ∈ segs := by
  induction segs with
  | nil => simp [litTexts]
  | cons sg rest ih =>
    cases sg with
    | lit t => simp [litTexts, ih]
    | par m => simp [litTexts, ih]

set_option maxRecDepth 100000 in
theorem wideNames_ok : ∀ n ∈ wideNames, n.length = 2 ∧ '/' ∉ n ∧ ':' ∉ n := by
  decide

theorem valueFor_wide (n : Str) (hn : n ∈ wideNames) : valueFor widePairs n = "x".toList := by
  unfold valueFor
  cases hf : widePairs.find? (fun p => decide (Sprint p.1 = n)) with
  | none =>
    rw [List.find?_eq_none] at hf
    have := hf (.str n, .str "x".toList) (List.mem_map.2 ⟨n, hn, rfl⟩)
    simp [Sprint] at this
  | some p =>
    have hp := List.mem_of_find?_eq_some hf
    unfold widePairs at hp
    obtain ⟨m, -, rfl⟩ := List.mem_map.1 hp
    rfl

theorem fill_wide : wideSegs.map (PatSeg.fill widePairs) = List.replicate 257 "x".toList := by
  apply List.eq_replicate_iff.2
  refine ⟨by rw [List.length_map, wideSegs, List.length_map, wideNames_length], ?_⟩
  intro s hs
  obtain ⟨sg, hsg, rfl⟩ := List.mem_map.1 hs
  unfold wideSegs at hsg
  obtain ⟨n, hn, rfl⟩ := List.mem_map.1 hsg
  exact valueFor_wide n hn

set_option maxRecDepth 1000000 in
set_option maxHeartbeats 4000000 in
theorem wide_resolve :
    ((wideApp.bind (fun a => a.trees.lookup "GET".toList)).bind (fun t =>
      t.getRoute goRegexp (joinPath (List.replicate 257 "x".toList)) (List.replicate 300 []))).map
        (fun res => (res.1.handlers.isSome, res.1.pKeys.length, res.2.get? 0, res.2.get? 256))
      = some (true, 257, some "x".toList, some []) := by
  decide

/-- C40, counterexample: a route named `w` whose pattern has the 257
parameters `{aa}`, `{ab}`, ..., all given the value `x`. `URL` returns the
path of 257 segments `x`, and `getRoute` resolves it to the route with its 257
names, but entry 256 of the buffer (of 300 entries) is still empty: the index
of the buffer is a `uint8`, and the last parameter is not bound to `x`. -/
theorem C40_counterexample_257_parameters :
    wideNames.length = 257 ∧
    (∀ a ∈ wideNames, ∀ b ∈ wideNames, a <+: b → a = b) ∧
    wideApp.map (fun a => a.URL "w".toList (pairArgs widePairs))
      = some (joinPath (List.replicate 257 "x".toList)) ∧
    ((wideApp.bind (fun a => a.trees.lookup "GET".toList)).bind (fun t =>
      t.getRoute goRegexp (joinPath (List.replicate 257 "x".toList)) (List.replicate 300 []))).map
        (fun res => (res.1.handlers.isSome, res.1.pKeys.length, res.2.get? 0, res.2.get? 256))
      = some (true, 257, some "x".toList, some []) := by
  have hfree : ∀ a ∈ wideNames, ∀ b ∈ wideNames, a <+: b → a = b := by
    intro a ha b hb hab
    exact hab.eq_of_length (by rw [(wideNames_ok a ha).1, (wideNames_ok b hb).1])
  refine ⟨wideNames_length, hfree, ?_, wide_resolve⟩
  have hres := wide_resolve
  cases happ : Application.New.addRoute goRegexp "GET".toList (patternOf wideSegs)
      (some [printHandler "w".toList]) with
  | none =>
    unfold wideApp at hres
    rw [happ] at hres
    cases hres
  | some app =>
    unfold wideApp
    rw [happ]
    simp only [Option.map_some', Option.some.injEq]
    rw [url_of_pattern goRegexp "GET".toList "w".toList _ wideSegs widePairs app
      wideSegs_ne_nil
      (by
        intro s hs
        unfold wideSegs at hs
        obtain ⟨n, -, hn⟩ := List.mem_map.1 hs
        cases hn)
      (by
        rw [parNames_wide]
        exact fun n hn => (wideNames_ok n hn).2)
      (by
        rw [parNames_wide]
        exact hfree)
      (by
        rw [parNames_wide]
        intro p hp
        unfold widePairs at hp
        obtain ⟨n, hn, rfl⟩ := List.mem_map.1 hp
        exact hn)
      happ, fill_wide]

/-- C40, amended: a route is registered in a new application with a pattern
`/s1/.../sn` (`n ≥ 1`) of literal segments (not empty, without '/' and ':',
not wrapped in braces, not beginning with '*') and parameters `{name}` whose
names contain no '/' and no ':' and of which none is a beginning of another,
and is given the name `name`. If the pattern has at most 256 parameters, the
buffer has room for them, every key of the pairs prints as a parameter name,
every parameter name is the key of a pair and every value prints as a
non-empty text, then `URL(name, pairs)` is the pattern with every parameter
replaced by `QueryEscape(Sprint(v))`, `v` being the value of the first pair
with its name, and `getRoute` on the tree of the method resolves that path to
the handlers of the route and the names of the pattern, and leaves these
values in the buffer in the order of the names. -/
theorem C40_url_round_trip (re : Regexp) (method name : Str) (handlers : Option (List Handler))
    (segs : List PatSeg) (kvs : List (Value × Value)) (app : Application) (pv : List Str)
    (hsegs : segs ≠ [])
    (hlits : ∀ s ∈ litTexts segs, Literal s ∧ ':' ∉ s)
    (hpar : ∀ n ∈ parNames segs, '/' ∉ n ∧ ':' ∉ n)
    (hfree : ∀ a ∈ parNames segs, ∀ b ∈ parNames segs, a <+: b → a = b)
    (hkeys : ∀ p ∈ kvs, Sprint p.1 ∈ parNames segs)
    (hall : ∀ n ∈ parNames segs, ∃ p ∈ kvs, Sprint p.1 = n)
    (hvals : ∀ p ∈ kvs, Sprint p.2 ≠ [])
    (hcount : (parNames segs).length ≤ 256) (hbuf : (parNames segs).length ≤ pv.length)
    (hadd : Application.New.addRoute re method (patternOf segs) handlers = some app) :
    (app.nameRoute 0 name).URL name (pairArgs kvs) = joinPath (segs.map (PatSeg.fill kvs)) ∧
    (∀ n ∈ parNames segs, ∃ p ∈ kvs, Sprint p.1 = n ∧
      valueFor kvs n = QueryEscape (Sprint p.2)) ∧
    ∃ root, (app.nameRoute 0 name).trees.lookup method = some root ∧
      root.getRoute re ((app.nameRoute 0 name).URL name (pairArgs kvs)) pv
        = some (⟨handlers, parNames segs⟩,
            (parNames segs).map (valueFor kvs) ++ pv.drop (parNames segs).length) := by
  have hlit : ∀ s, PatSeg.lit s ∈ segs → Literal s ∧ ':' ∉ s :=
    fun s hs => hlits s ((mem_litTexts segs s).2 hs)
  have hurl := url_of_pattern re method name handlers segs kvs app hsegs hlit hpar hfree hkeys
    hadd
  obtain ⟨root, hroot, -, hlook⟩ := new_addRoute re method _ handlers app hadd
  refine ⟨hurl, ?_, root, hlook, ?_⟩
  · intro n hn
    obtain ⟨p, hp, hpn⟩ := hall n hn
    cases hf : kvs.find? (fun p => decide (Sprint p.1 = n)) with
    | none =>
      rw [List.find?_eq_none] at hf
      have := hf p hp
      simp [hpn] at this
    | some q =>
      refine ⟨q, List.mem_of_find?_eq_some hf, ?_, valueFor_found kvs n q hf⟩
      have := List.find?_some hf
      simpa using this
  · rw [hurl]
    exact filled_path_resolves re segs kvs _ root pv hsegs hlit hpar hall hvals hcount hbuf hroot

/-- C40, amended, witness: the route `/user/{id}/posts/{pid}` named `post`
and the pairs `("pid", 1)`, `("id", "a b")`. -/
theorem C40_url_round_trip_witness :
    ∃ app root, Application.New.addRoute goRegexp "GET".toList
        "/user/{id}/posts/{pid}".toList (some [printHandler "ok".toList]) = some app ∧
      (app.nameRoute 0 "post".toList).URL "post".toList
        [.str "pid".toList, .int 1, .str "id".toList, .str "a b".toList]
        = "/user/a+b/posts/1".toList ∧
      (app.nameRoute 0 "post".toList).trees.lookup "GET".toList = some root ∧
      root.getRoute goRegexp "/user/a+b/posts/1".toList [[], [], []]
        = some (⟨some [printHandler "ok".toList], ["id".toList, "pid".toList]⟩,
            ["a+b".toList, "1".toList, []]) := by
  have hsome : (Application.New.addRoute goRegexp "GET".toList
      "/user/{id}/posts/{pid}".toList (some [printHandler "ok".toList])).isSome = true := by
    decide
  obtain ⟨app, happ⟩ := Option.isSome_iff_exists.1 hsome
  obtain ⟨h1, -, root, h2, h3⟩ := C40_url_round_trip goRegexp "GET".toList "post".toList
    (some [printHandler "ok".toList])
    [.lit "user".toList, .par "id".toList, .lit "posts".toList, .par "pid".toList]
    [(.str "pid".toList, .int 1), (.str "id".toList, .str "a b".toList)] app [[], [], []]
    (by decide) (by decide) (by decide) (by decide) (by decide) (by decide) (by decide)
    (by decide) (by decide) happ
  have hpath : joinPath (List.map
      (PatSeg.fill [(.str "pid".toList, .int 1), (.str "id".toList, .str "a b".toList)])
      [.lit "user".toList, .par "id".toList, .lit "posts".toList, .par "pid".toList])
      = "/user/a+b/posts/1".toList := by decide
  rw [h1] at h3
  rw [hpath] at h1 h3
  exact ⟨app, root, happ, h1, h2, h3⟩

end Potgo
